import Mathlib

/-!
# Subroutine-aware CFF charstring subsetting

A shallow embedding of `hb-subset-cff-common.hh` (HarfBuzz, namespace `CFF`):
the temporary charstring encoder `str_encoder_t`, the parsed-operation model
(`parsed_cs_op_t`, `parsed_cs_str_t`), the subroutine remapper `subr_remap_t`, and the
hint-dropping / closure / re-encoding passes of `subr_subsetter_t`.

Conventions of the embedding.

* Bytes are natural numbers below 256, byte strings are lists of them.
* `int` values are integers; `v >> 8` on an `int` is the arithmetic shift `v >>> (8 : Nat)`
  and `v & 0xFF` is `v % 256` (the remainder is never negative).
* `unsigned int` values are natural numbers; wrap-around is written `% 4294967296`
  where the source can wrap.
* A C++ reference to a parsed charstring (`parsed_cs_str_t &`) is a `call_context_t`
  naming the charstring inside the `subr_subset_param_t`, so that writes made through
  one reference are seen through every other one.
* Recursion through subroutine calls takes a fuel argument (the call depth still
  allowed); running out of fuel is `none`.
-/

namespace CFF

/-! ## Operator codes and constants -/

/-- Modelled from the spec: the operator codes are declared in hb-cff-interp-common.hh,
which is not among the sources; the values are the Type 2 charstring operator numbers. -/
def OpCode_hstem : Nat := 1
/-- Modelled from the spec: operator code of hb-cff-interp-common.hh (Type 2 number). -/
def OpCode_vstem : Nat := 3
/-- Modelled from the spec: operator code of hb-cff-interp-common.hh (Type 2 number). -/
def OpCode_vmoveto : Nat := 4
/-- Modelled from the spec: operator code of hb-cff-interp-common.hh (Type 2 number). -/
def OpCode_rlineto : Nat := 5
/-- Modelled from the spec: operator code of hb-cff-interp-common.hh (Type 2 number). -/
def OpCode_callsubr : Nat := 10
/-- Modelled from the spec: operator code of hb-cff-interp-common.hh (Type 2 number). -/
def OpCode_return : Nat := 11
/-- Modelled from the spec: operator code of hb-cff-interp-common.hh (Type 2 number). -/
def OpCode_escape : Nat := 12
/-- Modelled from the spec: operator code of hb-cff-interp-common.hh (Type 2 number). -/
def OpCode_endchar : Nat := 14
/-- Modelled from the spec: operator code of hb-cff-interp-common.hh (Type 2 number). -/
def OpCode_vsindexcs : Nat := 15
/-- Modelled from the spec: operator code of hb-cff-interp-common.hh (Type 2 number). -/
def OpCode_hstemhm : Nat := 18
/-- Modelled from the spec: operator code of hb-cff-interp-common.hh (Type 2 number). -/
def OpCode_hintmask : Nat := 19
/-- Modelled from the spec: operator code of hb-cff-interp-common.hh (Type 2 number). -/
def OpCode_cntrmask : Nat := 20
/-- Modelled from the spec: operator code of hb-cff-interp-common.hh (Type 2 number). -/
def OpCode_rmoveto : Nat := 21
/-- Modelled from the spec: operator code of hb-cff-interp-common.hh (Type 2 number). -/
def OpCode_hmoveto : Nat := 22
/-- Modelled from the spec: operator code of hb-cff-interp-common.hh (Type 2 number). -/
def OpCode_vstemhm : Nat := 23
/-- Modelled from the spec: operator code of hb-cff-interp-common.hh (Type 2 number). -/
def OpCode_shortint : Nat := 28
/-- Modelled from the spec: operator code of hb-cff-interp-common.hh (Type 2 number). -/
def OpCode_callgsubr : Nat := 29
/-- Modelled from the spec: first opcode of the two-byte positive integer form. -/
def OpCode_TwoBytePosInt0 : Nat := 247
/-- Modelled from the spec: first opcode of the two-byte negative integer form. -/
def OpCode_TwoByteNegInt0 : Nat := 251
/-- Modelled from the spec: opcode of the 5-byte fixed-point number form. -/
def OpCode_fixedcs : Nat := 255
/-- Modelled from the spec: escaped (two-byte) operators are numbered from this base. -/
def OpCode_ESC_Base : Nat := 256
/-- Modelled from the spec: `dotsection` is the escaped operator 12 0. -/
def OpCode_dotsection : Nat := 256
/-- Modelled from the spec: the "no operator" code of hb-cff-interp-common.hh. -/
def OpCode_Invalid : Nat := 65535

/-- Modelled from the spec: `Is_OpCode_ESC` of hb-cff-interp-common.hh, true for the
operators that need the escape marker. -/
def Is_OpCode_ESC (op : Nat) : Bool := decide (OpCode_ESC_Base ≤ op)

/-- Modelled from the spec: `Unmake_OpCode_ESC` of hb-cff-interp-common.hh, the
sub-opcode that follows the escape marker. -/
def Unmake_OpCode_ESC (op : Nat) : Nat := op - OpCode_ESC_Base

/-- Modelled from the spec: the "no code" value of hb-ot-cff-common.hh, all ones in
32 bits. -/
def CFF_UNDEF_CODE : Nat := 4294967295

/-- Modelled from the spec: the value `hb_set_t::get_max` returns for an empty set
(`(hb_codepoint_t) -1`). -/
def HB_SET_VALUE_INVALID : Nat := 4294967295

/-- Conversion `(int) u` of an `unsigned int`. -/
def to_int (u : Nat) : Int :=
  if u % 4294967296 < 2147483648 then ((u % 4294967296 : Nat) : Int)
  else ((u % 4294967296 : Nat) : Int) - 4294967296

/-! ## The byte buffer and the encoder -/

/-- Modelled from the spec: `str_buff_t`, an `hb_vector_t<unsigned char>` (hb-vector.hh is
not among the sources). `cap` is the number of bytes the allocator is able to grant this
buffer; a request beyond it is an allocation failure, after which the vector stays in
its failed state (`ok = false`) and keeps its contents. -/
structure str_buff_t where
  bytes : List Nat
  cap : Nat
  ok : Bool
deriving DecidableEq, Repr

/-- Modelled from the spec: `hb_vector_t::init`, an empty vector that has not failed. -/
def str_buff_t.init (b : str_buff_t) : str_buff_t :=
  { bytes := [], cap := b.cap, ok := true }

/-- Modelled from the spec: `hb_vector_t::resize`; new bytes are zero. -/
def str_buff_t.resize (b : str_buff_t) (size : Nat) : Bool × str_buff_t :=
  if b.ok && decide (size ≤ b.cap) then
    (true, { b with bytes := (b.bytes ++ List.replicate (size - b.bytes.length) 0).take size })
  else
    (false, { b with ok := false })

/-- Modelled from the spec: `hb_vector_t::push (v)`; the flag tells whether the byte was
stored (a failed push returns the scratch object instead). -/
def str_buff_t.push (b : str_buff_t) (v : Nat) : Bool × str_buff_t :=
  let r := b.resize (b.bytes.length + 1)
  if r.1 then (true, { r.2 with bytes := r.2.bytes.set (r.2.bytes.length - 1) v })
  else (false, r.2)

/-- The temporary charstring writer: `str_encoder_t`. -/
structure str_encoder_t where
  buff : str_buff_t
  error : Bool
deriving DecidableEq, Repr

namespace str_encoder_t

def set_error (e : str_encoder_t) : str_encoder_t := { e with error := true }

def is_error (e : str_encoder_t) : Bool := e.error

def reset (e : str_encoder_t) : str_encoder_t := { e with buff := (e.buff.resize 0).2 }

/-- The argument is converted to `unsigned char`, i.e. reduced modulo 256. -/
def encode_byte (e : str_encoder_t) (b : Int) : str_encoder_t :=
  let r := e.buff.push (b % 256).toNat
  if r.1 then { e with buff := r.2 } else set_error { e with buff := r.2 }

def encode_int (e : str_encoder_t) (v : Int) : str_encoder_t :=
  if -1131 ≤ v ∧ v ≤ 1131 then
    if -107 ≤ v ∧ v ≤ 107 then
      e.encode_byte (v + 139)
    else if v > 0 then
      let v := v - 108
      (e.encode_byte ((v >>> (8 : Nat)) + OpCode_TwoBytePosInt0)).encode_byte (v % 256)
    else
      let v := -v - 108
      (e.encode_byte ((v >>> (8 : Nat)) + OpCode_TwoByteNegInt0)).encode_byte (v % 256)
  else
    let v := if v < -32768 then -32768 else if v > 32767 then 32767 else v
    ((e.encode_byte OpCode_shortint).encode_byte ((v >>> (8 : Nat)) % 256)).encode_byte (v % 256)

end str_encoder_t

/-- Modelled from the spec: `number_t` (hb-cff-interp-common.hh) holds a double; the
encoder only observes it through `in_int_range`, `to_int` and `to_fixed`, which are
the three fields kept here. -/
structure number_t where
  in_int_range : Bool
  to_int : Int
  to_fixed : Int
deriving DecidableEq, Repr, Inhabited

namespace str_encoder_t

def encode_num (e : str_encoder_t) (n : number_t) : str_encoder_t :=
  if n.in_int_range then
    e.encode_int n.to_int
  else
    let v := n.to_fixed
    ((((e.encode_byte OpCode_fixedcs).encode_byte ((v >>> (24 : Nat)) % 256)).encode_byte
      ((v >>> (16 : Nat)) % 256)).encode_byte ((v >>> (8 : Nat)) % 256)).encode_byte (v % 256)

def encode_op (e : str_encoder_t) (op : Nat) : str_encoder_t :=
  if Is_OpCode_ESC op then
    (e.encode_byte OpCode_escape).encode_byte (Unmake_OpCode_ESC op)
  else
    e.encode_byte op

def copy_str (e : str_encoder_t) (str : List Nat) : str_encoder_t :=
  let offset := e.buff.bytes.length
  let r := e.buff.resize (offset + str.length)
  if r.2.bytes.length < offset + str.length then
    set_error { e with buff := r.2 }
  else
    { e with buff := { r.2 with bytes := r.2.bytes.take offset ++ str } }

end str_encoder_t

/-! ## Parsed operations and parsed charstrings -/

/-- One decoded unit: `parsed_cs_op_t` with the `op` and `str` of its base `op_str_t`. -/
structure parsed_cs_op_t where
  op : Nat
  str : List Nat
  subr_num : Nat
  drop_flag : Bool
  keep_flag : Bool
  skip_flag : Bool
deriving DecidableEq, Repr

/-- The zero-initialised object `hb_vector_t::operator[]` yields out of range. -/
instance : Inhabited parsed_cs_op_t := ⟨⟨0, [], 0, false, false, false⟩⟩

namespace parsed_cs_op_t

def for_drop (o : parsed_cs_op_t) : Bool := o.drop_flag
def for_keep (o : parsed_cs_op_t) : Bool := o.keep_flag
def for_skip (o : parsed_cs_op_t) : Bool := o.skip_flag
def set_drop (o : parsed_cs_op_t) : parsed_cs_op_t :=
  if !o.for_keep then { o with drop_flag := true } else o
def set_keep (o : parsed_cs_op_t) : parsed_cs_op_t := { o with keep_flag := true }
def set_skip (o : parsed_cs_op_t) : parsed_cs_op_t := { o with skip_flag := true }

end parsed_cs_op_t

/-- One parsed charstring: `parsed_cs_str_t` with the `values` of its base
`parsed_values_t`. -/
structure parsed_cs_str_t where
  values : List parsed_cs_op_t
  parsed : Bool
  hint_dropped : Bool
  vsindex_dropped : Bool
  has_prefix_ : Bool
  prefix_op_ : Nat
  prefix_num_ : number_t
deriving DecidableEq, Repr

/-- The zero-initialised object `hb_vector_t::operator[]` yields out of range. -/
instance : Inhabited parsed_cs_str_t := ⟨⟨[], false, false, false, false, 0, default⟩⟩

namespace parsed_cs_str_t

def get_count (s : parsed_cs_str_t) : Nat := s.values.length

def at_end (s : parsed_cs_str_t) (pos : Nat) : Bool :=
  decide (pos + 1 ≥ s.values.length) || decide ((s.values.getD (pos + 1) default).op = OpCode_return)

def is_parsed (s : parsed_cs_str_t) : Bool := s.parsed
def set_parsed (s : parsed_cs_str_t) : parsed_cs_str_t := { s with parsed := true }
def is_hint_dropped (s : parsed_cs_str_t) : Bool := s.hint_dropped
def set_hint_dropped (s : parsed_cs_str_t) : parsed_cs_str_t := { s with hint_dropped := true }
def is_vsindex_dropped (s : parsed_cs_str_t) : Bool := s.vsindex_dropped
def set_vsindex_dropped (s : parsed_cs_str_t) : parsed_cs_str_t :=
  { s with vsindex_dropped := true }
def has_prefix_get (s : parsed_cs_str_t) : Bool := s.has_prefix_
def prefix_op_get (s : parsed_cs_str_t) : Nat := s.prefix_op_
def prefix_num_get (s : parsed_cs_str_t) : number_t := s.prefix_num_

end parsed_cs_str_t

/-! ## Closure sets and subroutine remaps -/

/-- Modelled from the spec: `hb_set_t` (hb-set.hh is not among the sources), a finite set
of subroutine indices with `hb_set_has`, `hb_set_add`, `hb_set_clear` and `get_max`. -/
abbrev hb_set_t := Finset Nat

/-- Modelled from the spec: `hb_set_t::get_max`, the largest member, or
`HB_SET_VALUE_INVALID` for the empty set. -/
def hb_set_get_max (s : hb_set_t) : Nat :=
  if s = ∅ then HB_SET_VALUE_INVALID else s.sup id

/-- Modelled from the spec: `hb_set_has`. -/
def hb_set_has (s : hb_set_t) (i : Nat) : Bool := decide (i ∈ s)

/-- Modelled from the spec: `hb_set_add`. -/
def hb_set_add (s : hb_set_t) (i : Nat) : hb_set_t := insert i s

structure subr_closures_t where
  valid : Bool
  global_closure : hb_set_t
  local_closures : List hb_set_t

def subr_closures_t.reset (c : subr_closures_t) : subr_closures_t :=
  { c with global_closure := ∅, local_closures := c.local_closures.map (fun _ => ∅) }

/-- Modelled from the spec: `remap_t` (hb-ot-cff-common.hh is not among the sources), a
vector of new numbers indexed by old number together with the count of numbers handed
out so far. -/
structure remap_t where
  map : List Nat
  count : Nat
deriving DecidableEq, Repr

/-- Modelled from the spec: `remap_t::reset`, every entry undefined and nothing handed
out. -/
def remap_t.reset (_r : remap_t) (size : Nat) : remap_t :=
  { map := List.replicate size CFF_UNDEF_CODE, count := 0 }

/-- Modelled from the spec: `remap_t::add`, an entry that is still undefined gets the next
new number. -/
def remap_t.add (r : remap_t) (i : Nat) : remap_t :=
  if r.map[i]? = some CFF_UNDEF_CODE then
    { map := r.map.set i r.count, count := (r.count + 1) % 4294967296 }
  else r

/-- Modelled from the spec: `remap_t::get_count`. -/
def remap_t.get_count (r : remap_t) : Nat := r.count

structure subr_remap_t extends remap_t where
  bias : Int
deriving DecidableEq, Repr

/-- The zero-initialised object `hb_vector_t::operator[]` yields out of range. -/
instance : Inhabited subr_remap_t := ⟨⟨⟨[], 0⟩, 0⟩⟩

namespace subr_remap_t

def create (r : subr_remap_t) (closure : hb_set_t) : subr_remap_t :=
  let r0 := r.toremap_t.reset ((hb_set_get_max closure + 1) % 4294967296)
  let r1 := (List.range r0.map.length).foldl
    (fun acc old_num => if hb_set_has closure old_num then acc.add old_num else acc) r0
  let bias : Int :=
    if r1.get_count < 1240 then 107
    else if r1.get_count < 33900 then 1131
    else 32768
  { toremap_t := r1, bias := bias }

/-- The indexing operator of `subr_remap_t`. -/
def get (r : subr_remap_t) (old_num : Nat) : Nat :=
  if old_num ≥ r.map.length then CFF_UNDEF_CODE
  else r.map.getD old_num CFF_UNDEF_CODE

def biased_num (r : subr_remap_t) (old_num : Nat) : Int :=
  let new_num := r.get old_num
  to_int new_num - r.bias

end subr_remap_t

structure subr_remap_ts where
  global_remap : subr_remap_t
  local_remaps : List subr_remap_t
deriving DecidableEq, Repr

def subr_remap_ts.create (r : subr_remap_ts) (closures : subr_closures_t) : subr_remap_ts :=
  { global_remap := r.global_remap.create closures.global_closure,
    local_remaps := (List.range r.local_remaps.length).map
      (fun i => (r.local_remaps.getD i default).create (closures.local_closures.getD i ∅)) }

/-! ## The parameter block and references to parsed charstrings -/

inductive cs_type_t where
  | CSType_CharString
  | CSType_GlobalSubr
  | CSType_LocalSubr
deriving DecidableEq, Repr

/-- Names one parsed charstring of a parameter block: the glyph's own, or a subroutine
of the global table or of the local table of the glyph's FD. -/
structure call_context_t where
  type : cs_type_t
  subr_num : Nat
deriving DecidableEq, Repr

/-- The parameter block `subr_subset_param_t`; the objects its pointers refer to are held
by value and stored back by the caller (`subr_subsetter_t.param_store`). -/
structure subr_subset_param_t where
  parsed_charstring : parsed_cs_str_t
  parsed_global_subrs : List parsed_cs_str_t
  parsed_local_subrs : List parsed_cs_str_t
  global_closure : hb_set_t
  local_closure : hb_set_t
  drop_hints : Bool

namespace subr_subset_param_t

/-- The parsed charstring a reference denotes; indexing a subroutine table out of range
yields the empty scratch object. -/
def str_at (p : subr_subset_param_t) (c : call_context_t) : parsed_cs_str_t :=
  match c.type with
  | .CSType_CharString => p.parsed_charstring
  | .CSType_GlobalSubr => p.parsed_global_subrs.getD c.subr_num default
  | .CSType_LocalSubr => p.parsed_local_subrs.getD c.subr_num default

/-- Replaces the operation list of the parsed charstring a reference denotes. -/
def set_values_at (p : subr_subset_param_t) (c : call_context_t)
    (vals : List parsed_cs_op_t) : subr_subset_param_t :=
  match c.type with
  | .CSType_CharString => { p with parsed_charstring := { p.parsed_charstring with values := vals } }
  | .CSType_GlobalSubr =>
      let s := p.parsed_global_subrs.getD c.subr_num default
      { p with parsed_global_subrs := p.parsed_global_subrs.set c.subr_num { s with values := vals } }
  | .CSType_LocalSubr =>
      let s := p.parsed_local_subrs.getD c.subr_num default
      { p with parsed_local_subrs := p.parsed_local_subrs.set c.subr_num { s with values := vals } }

/-- The statement `str.values[pos].set_drop ()` through the reference `c`. -/
def set_drop_at (p : subr_subset_param_t) (c : call_context_t) (pos : Nat) :
    subr_subset_param_t :=
  let vals := (p.str_at c).values
  p.set_values_at c (vals.set pos (vals.getD pos default).set_drop)

/-- The function `get_parsed_str_for_context`; `none` is the null pointer. -/
def get_parsed_str_for_context (p : subr_subset_param_t) (context : call_context_t) :
    Option parsed_cs_str_t :=
  match context.type with
  | .CSType_CharString => some p.parsed_charstring
  | .CSType_LocalSubr =>
      if context.subr_num < p.parsed_local_subrs.length then
        some (p.parsed_local_subrs.getD context.subr_num default)
      else none
  | .CSType_GlobalSubr =>
      if context.subr_num < p.parsed_global_subrs.length then
        some (p.parsed_global_subrs.getD context.subr_num default)
      else none

end subr_subset_param_t

/-! ## The subsetter -/

/-- Modelled from the spec: the font accessor `ACC` as far as the passes below use it,
the number of FDs and the glyph to FD function `fdSelect->get_fd`. -/
structure acc_t where
  fdCount : Nat
  get_fd : Nat → Nat

structure subr_subsetter_t where
  closures : subr_closures_t
  parsed_charstrings : List parsed_cs_str_t
  parsed_global_subrs : List parsed_cs_str_t
  parsed_local_subrs : List (List parsed_cs_str_t)
  remaps : subr_remap_ts

structure drop_hints_param_t where
  seen_moveto : Bool
  ends_in_hint : Bool
  vsindex_dropped : Bool
deriving DecidableEq, Repr

/-- The constructor of `drop_hints_param_t`. -/
def drop_hints_param_t.new : drop_hints_param_t := ⟨false, false, false⟩

/-- The two objects `drop_hints_in_str` updates through its reference parameters. -/
structure drop_env_t where
  param : subr_subset_param_t
  drop : drop_hints_param_t

namespace subr_subsetter_t

/-- The call `param.init (&parsed_charstrings[i], &parsed_global_subrs,
&parsed_local_subrs[fd], closures.global_closure, closures.local_closures[fd],
drop_hints)`. -/
def param_init (st : subr_subsetter_t) (i fd : Nat) (drop_hints : Bool) :
    subr_subset_param_t :=
  { parsed_charstring := st.parsed_charstrings.getD i default
    parsed_global_subrs := st.parsed_global_subrs
    parsed_local_subrs := st.parsed_local_subrs.getD fd []
    global_closure := st.closures.global_closure
    local_closure := st.closures.local_closures.getD fd ∅
    drop_hints := drop_hints }

/-- Stores back what was updated through the pointers of a parameter block made by
`param_init st i fd`. -/
def param_store (st : subr_subsetter_t) (i fd : Nat) (p : subr_subset_param_t) :
    subr_subsetter_t :=
  { st with
    parsed_charstrings := st.parsed_charstrings.set i p.parsed_charstring
    parsed_global_subrs := p.parsed_global_subrs
    parsed_local_subrs := st.parsed_local_subrs.set fd p.parsed_local_subrs
    closures := { st.closures with
      global_closure := p.global_closure
      local_closures := st.closures.local_closures.set fd p.local_closure } }

/-! ### Hint dropping -/

/-- The backward loop of `drop_hints_in_str`: `drop_hints_back vals vs n` runs it from
`i = n - 1` down to `0` on the operation list, `vs` being `drop.vsindex_dropped`. -/
def drop_hints_back (vals : List parsed_cs_op_t) (vs : Bool) :
    Nat → List parsed_cs_op_t × Bool
  | 0 => (vals, vs)
  | i + 1 =>
    let csop := vals.getD i default
    if csop.for_drop then (vals, vs)
    else
      drop_hints_back (vals.set i csop.set_drop)
        (if csop.op = OpCode_vsindexcs then true else vs) i

/-- The function `drop_hints_in_subr`; `subrs` tells which table `subrs[subr_num]` is in
and `call` is `drop_hints_in_str` for the callee. -/
def drop_hints_in_subr (call : call_context_t → drop_env_t → Option (Bool × drop_env_t))
    (str : call_context_t) (pos : Nat) (subrs : cs_type_t) (subr_num : Nat)
    (e : drop_env_t) : Option (Bool × drop_env_t) :=
  let e := { e with drop := { e.drop with ends_in_hint := false } }
  match call ⟨subrs, subr_num⟩ e with
  | none => none
  | some (has_hint, e) =>
    if e.drop.ends_in_hint then
      let e := { e with param := e.param.set_drop_at str pos }
      if !(e.param.str_at str).at_end pos then
        some (has_hint, { e with drop := { e.drop with ends_in_hint := false } })
      else some (has_hint, e)
    else some (has_hint, e)

/-- The `switch` of one iteration of `drop_hints_in_str`; the flag is `has_hint`. -/
def drop_hints_switch (call : call_context_t → drop_env_t → Option (Bool × drop_env_t))
    (str : call_context_t) (pos : Nat) (e : drop_env_t) : Option (Bool × drop_env_t) :=
  let v := (e.param.str_at str).values.getD pos default
  if v.op = OpCode_callsubr then
    drop_hints_in_subr call str pos .CSType_LocalSubr v.subr_num e
  else if v.op = OpCode_callgsubr then
    drop_hints_in_subr call str pos .CSType_GlobalSubr v.subr_num e
  else if v.op = OpCode_rmoveto ∨ v.op = OpCode_hmoveto ∨ v.op = OpCode_vmoveto then
    some (false, { e with drop := { e.drop with seen_moveto := true } })
  else if (v.op = OpCode_hintmask ∨ v.op = OpCode_cntrmask) ∧ e.drop.seen_moveto = true then
    some (false, { e with param := e.param.set_drop_at str pos })
  else if v.op = OpCode_hintmask ∨ v.op = OpCode_cntrmask ∨ v.op = OpCode_hstemhm
      ∨ v.op = OpCode_vstemhm ∨ v.op = OpCode_hstem ∨ v.op = OpCode_vstem then
    let e := { e with param := e.param.set_drop_at str pos }
    if (e.param.str_at str).at_end pos then
      some (true, { e with drop := { e.drop with ends_in_hint := true } })
    else some (true, e)
  else if v.op = OpCode_dotsection then
    some (false, { e with param := e.param.set_drop_at str pos })
  else some (false, e)

/-- One iteration of the `for` loop of `drop_hints_in_str`; the flag is `seen_hint`. -/
def drop_hints_iter (call : call_context_t → drop_env_t → Option (Bool × drop_env_t))
    (str : call_context_t) (pos : Nat) (seen_hint : Bool) (e : drop_env_t) :
    Option (Bool × drop_env_t) :=
  match drop_hints_switch call str pos e with
  | none => none
  | some (has_hint, e) =>
    if has_hint then
      let r := drop_hints_back (e.param.str_at str).values e.drop.vsindex_dropped pos
      some (seen_hint || has_hint,
        { param := e.param.set_values_at str r.1
          drop := { e.drop with vsindex_dropped := r.2 } })
    else some (seen_hint, e)

/-- The `for` loop of `drop_hints_in_str` from position `pos` on, `n` iterations. -/
def drop_hints_loop (call : call_context_t → drop_env_t → Option (Bool × drop_env_t))
    (str : call_context_t) : Nat → Nat → Bool → drop_env_t → Option (Bool × drop_env_t)
  | 0, _, seen_hint, e => some (seen_hint, e)
  | n + 1, pos, seen_hint, e =>
    match drop_hints_iter call str pos seen_hint e with
    | none => none
    | some (seen_hint, e) => drop_hints_loop call str n (pos + 1) seen_hint e

/-- The function `drop_hints_in_str`, with the call depth still allowed as first
argument. The loop bound `str.values.length` is read once: no statement of the loop
changes the length of an operation list. -/
def drop_hints_in_str : Nat → call_context_t → drop_env_t → Option (Bool × drop_env_t)
  | 0, _, _ => none
  | fuel + 1, str, e =>
    drop_hints_loop (drop_hints_in_str fuel) str (e.param.str_at str).values.length 0 false e

/-! ### Closure recomputation -/

/-- The function `collect_subr_refs_in_subr`; `subrs` tells which table and which closure
set are meant and `call` is `collect_subr_refs_in_str` for the callee. -/
def collect_subr_refs_in_subr (call : call_context_t → subr_subset_param_t → Option subr_subset_param_t)
    (subr_num : Nat) (subrs : cs_type_t) (p : subr_subset_param_t) :
    Option subr_subset_param_t :=
  let p :=
    match subrs with
    | .CSType_GlobalSubr => { p with global_closure := hb_set_add p.global_closure subr_num }
    | _ => { p with local_closure := hb_set_add p.local_closure subr_num }
  call ⟨subrs, subr_num⟩ p

/-- One iteration of the loop of `collect_subr_refs_in_str`. -/
def collect_subr_refs_iter (call : call_context_t → subr_subset_param_t → Option subr_subset_param_t)
    (p : subr_subset_param_t) (v : parsed_cs_op_t) : Option subr_subset_param_t :=
  if !v.for_drop then
    if v.op = OpCode_callsubr then
      collect_subr_refs_in_subr call v.subr_num .CSType_LocalSubr p
    else if v.op = OpCode_callgsubr then
      collect_subr_refs_in_subr call v.subr_num .CSType_GlobalSubr p
    else some p
  else some p

/-- The loop of `collect_subr_refs_in_str` over the operations still to visit. -/
def collect_subr_refs_loop (call : call_context_t → subr_subset_param_t → Option subr_subset_param_t) :
    List parsed_cs_op_t → subr_subset_param_t → Option subr_subset_param_t
  | [], p => some p
  | v :: vs, p =>
    match collect_subr_refs_iter call p v with
    | none => none
    | some p => collect_subr_refs_loop call vs p

/-- The function `collect_subr_refs_in_str`, with the call depth still allowed as first
argument; it only writes the closure sets, so the operations are read once. -/
def collect_subr_refs_in_str : Nat → call_context_t → subr_subset_param_t →
    Option subr_subset_param_t
  | 0, _, _ => none
  | fuel + 1, str, p =>
    collect_subr_refs_loop (collect_subr_refs_in_str fuel) (p.str_at str).values p

/-! ### The passes of `subset` that follow parsing -/

/-- What `subset` does to `parsed_charstrings[i]` once `drop_hints_in_str` has returned
`seen` for it: `set_hint_dropped`, and `set_vsindex_dropped` if `drop.vsindex_dropped`. -/
def subset_mark_hint_dropped (seen : Bool) (drop : drop_hints_param_t)
    (cs : parsed_cs_str_t) : parsed_cs_str_t :=
  if seen then
    let cs := cs.set_hint_dropped
    if drop.vsindex_dropped then cs.set_vsindex_dropped else cs
  else cs

/-- The loop "mark hint ops and arguments for drop" of `subset`, from glyph number `i`
on; the flag is `false` where `subset` returns false. -/
def subset_drop_hints (acc : acc_t) (fuel : Nat) :
    List Nat → Nat → subr_subsetter_t → Option (Bool × subr_subsetter_t)
  | [], _, st => some (true, st)
  | glyph :: glyphs, i, st =>
    let fd := acc.get_fd glyph
    if fd ≥ acc.fdCount then some (false, st)
    else
      let param := st.param_init i fd true
      match drop_hints_in_str fuel ⟨.CSType_CharString, 0⟩ ⟨param, drop_hints_param_t.new⟩ with
      | none => none
      | some (seen, e) =>
        let st := st.param_store i fd e.param
        let cs := subset_mark_hint_dropped seen e.drop (st.parsed_charstrings.getD i default)
        subset_drop_hints acc fuel glyphs (i + 1)
          { st with parsed_charstrings := st.parsed_charstrings.set i cs }

/-- The loop of `subset` that recreates the closures after `closures.reset ()`, from
glyph number `i` on. -/
def subset_collect_refs (acc : acc_t) (fuel : Nat) :
    List Nat → Nat → subr_subsetter_t → Option (Bool × subr_subsetter_t)
  | [], _, st => some (true, st)
  | glyph :: glyphs, i, st =>
    let fd := acc.get_fd glyph
    if fd ≥ acc.fdCount then some (false, st)
    else
      let param := st.param_init i fd true
      match collect_subr_refs_in_str fuel ⟨.CSType_CharString, 0⟩ param with
      | none => none
      | some param => subset_collect_refs acc fuel glyphs (i + 1) (st.param_store i fd param)

/-- The statements "after dropping hints recreate closures of actually used subrs" of
`subset`. -/
def subset_recreate_closures (acc : acc_t) (fuel : Nat) (glyphs : List Nat)
    (st : subr_subsetter_t) : Option (Bool × subr_subsetter_t) :=
  subset_collect_refs acc fuel glyphs 0 { st with closures := st.closures.reset }

/-- The function `subset` from `if (drop_hints)` to its end, that is, once phases 1 and 2
have filled the parsed charstrings and the closures. -/
def subset_after_parse (acc : acc_t) (fuel : Nat) (glyphs : List Nat) (drop_hints : Bool)
    (st : subr_subsetter_t) : Option (Bool × subr_subsetter_t) :=
  if drop_hints then
    match subset_drop_hints acc fuel glyphs 0 st with
    | none => none
    | some (false, st) => some (false, st)
    | some (true, st) =>
      match subset_recreate_closures acc fuel glyphs st with
      | none => none
      | some (false, st) => some (false, st)
      | some (true, st) => some (true, { st with remaps := st.remaps.create st.closures })
  else some (true, { st with remaps := st.remaps.create st.closures })

/-! ### Re-encoding -/

/-- The body of the `for` loop of `encode_str`. -/
def encode_str_op (st : subr_subsetter_t) (fd : Nat) (encoder : str_encoder_t)
    (opstr : parsed_cs_op_t) : str_encoder_t :=
  if !opstr.for_drop && !opstr.for_skip then
    if opstr.op = OpCode_callsubr then
      (encoder.encode_int ((st.remaps.local_remaps.getD fd default).biased_num opstr.subr_num)).encode_op
        OpCode_callsubr
    else if opstr.op = OpCode_callgsubr then
      (encoder.encode_int (st.remaps.global_remap.biased_num opstr.subr_num)).encode_op
        OpCode_callgsubr
    else encoder.copy_str opstr.str
  else encoder

/-- The prefix re-insertion at the start of `encode_str`. -/
def encode_str_prefix (str : parsed_cs_str_t) (encoder : str_encoder_t) : str_encoder_t :=
  if str.has_prefix_get && str.is_hint_dropped then
    let encoder := encoder.encode_num str.prefix_num_get
    if str.prefix_op_get ≠ OpCode_Invalid then encoder.encode_op str.prefix_op_get
    else encoder
  else encoder

/-- The function `encode_str`: the returned flag and the buffer it has written. -/
def encode_str (st : subr_subsetter_t) (str : parsed_cs_str_t) (fd : Nat) (buff : str_buff_t) :
    Bool × str_buff_t :=
  let buff := buff.init
  let encoder : str_encoder_t := ⟨buff, false⟩
  let encoder := encoder.reset
  let encoder := encode_str_prefix str encoder
  let encoder := str.values.foldl (encode_str_op st fd) encoder
  (!encoder.is_error, encoder.buff)

end subr_subsetter_t

/-- The zero-initialised object `hb_vector_t::operator[]` yields out of range. -/
instance : Inhabited str_buff_t := ⟨⟨[], 0, true⟩⟩

/-- Modelled from the spec: `str_buff_vec_t`, an `hb_vector_t<str_buff_t>` (hb-vector.hh is
not among the sources). `cap` is the number of buffers the allocator is able to grant the
vector and `grant j` the number of bytes it is able to grant the buffer at position `j`. -/
structure str_buff_vec_t where
  bufs : List str_buff_t
  cap : Nat
  ok : Bool
  grant : Nat → Nat

/-- Modelled from the spec: `hb_vector_t::resize`; new buffers are zero-initialised. -/
def str_buff_vec_t.resize (b : str_buff_vec_t) (size : Nat) : Bool × str_buff_vec_t :=
  if b.ok && decide (size ≤ b.cap) then
    (true, { b with bufs := (b.bufs ++ (List.range (size - b.bufs.length)).map
      (fun j => (⟨[], b.grant (b.bufs.length + j), true⟩ : str_buff_t))).take size })
  else
    (false, { b with ok := false })

namespace subr_subsetter_t

/-- The loop of `encode_charstrings`, from glyph number `i` on. -/
def encode_charstrings_loop (st : subr_subsetter_t) (acc : acc_t) :
    List Nat → Nat → str_buff_vec_t → Bool × str_buff_vec_t
  | [], _, buffArray => (true, buffArray)
  | glyph :: glyphs, i, buffArray =>
    let fd := acc.get_fd glyph
    if fd ≥ acc.fdCount then (false, buffArray)
    else
      let r := st.encode_str (st.parsed_charstrings.getD i default) fd (buffArray.bufs.getD i default)
      let buffArray := { buffArray with bufs := buffArray.bufs.set i r.2 }
      if !r.1 then (false, buffArray)
      else encode_charstrings_loop st acc glyphs (i + 1) buffArray

def encode_charstrings (st : subr_subsetter_t) (acc : acc_t) (glyphs : List Nat)
    (buffArray : str_buff_vec_t) : Bool × str_buff_vec_t :=
  let r := buffArray.resize glyphs.length
  if !r.1 then (false, r.2)
  else encode_charstrings_loop st acc glyphs 0 r.2

/-- One iteration of the loop of `encode_subrs`; the flag is `false` where `encode_subrs`
returns false. -/
def encode_subrs_iter (st : subr_subsetter_t) (subrs : List parsed_cs_str_t)
    (remap : subr_remap_t) (fd : Nat) (old_num : Nat) (buffArray : str_buff_vec_t) :
    Bool × str_buff_vec_t :=
  let new_num := remap.get old_num
  if new_num ≠ CFF_UNDEF_CODE then
    let r := st.encode_str (subrs.getD old_num default) fd (buffArray.bufs.getD new_num default)
    (r.1, { buffArray with bufs := buffArray.bufs.set new_num r.2 })
  else (true, buffArray)

/-- The loop of `encode_subrs` over the old numbers still to visit. -/
def encode_subrs_loop (st : subr_subsetter_t) (subrs : List parsed_cs_str_t)
    (remap : subr_remap_t) (fd : Nat) : List Nat → str_buff_vec_t → Bool × str_buff_vec_t
  | [], buffArray => (true, buffArray)
  | old_num :: rest, buffArray =>
    let r := encode_subrs_iter st subrs remap fd old_num buffArray
    if !r.1 then (false, r.2)
    else encode_subrs_loop st subrs remap fd rest r.2

def encode_subrs (st : subr_subsetter_t) (subrs : List parsed_cs_str_t) (remap : subr_remap_t)
    (fd : Nat) (buffArray : str_buff_vec_t) : Bool × str_buff_vec_t :=
  let count := remap.get_count
  let r := buffArray.resize count
  if !r.1 then (false, r.2)
  else encode_subrs_loop st subrs remap fd (List.range subrs.length) r.2

def encode_globalsubrs (st : subr_subsetter_t) (buffArray : str_buff_vec_t) :
    Bool × str_buff_vec_t :=
  encode_subrs st st.parsed_global_subrs st.remaps.global_remap 0 buffArray

def encode_localsubrs (st : subr_subsetter_t) (fd : Nat) (buffArray : str_buff_vec_t) :
    Bool × str_buff_vec_t :=
  encode_subrs st (st.parsed_local_subrs.getD fd []) (st.remaps.local_remaps.getD fd default) fd
    buffArray

end subr_subsetter_t

/-- Appending bytes to the buffer of an encoder, as a successful emission does. -/
def str_encoder_t.emit (e : str_encoder_t) (l : List Nat) : str_encoder_t :=
  { e with buff := { e.buff with bytes := e.buff.bytes ++ l } }

/-- The encoder has not failed and its buffer may grow by `n` more bytes. -/
def str_encoder_t.Room (e : str_encoder_t) (n : Nat) : Prop :=
  e.error = false ∧ e.buff.ok = true ∧ e.buff.bytes.length + n ≤ e.buff.cap

/-- The bytes `encode_int v` writes into an empty buffer that may grow to three bytes. -/
def encode_int_bytes (v : Int) : List Nat :=
  ((⟨⟨[], 3, true⟩, false⟩ : str_encoder_t).encode_int v).buff.bytes

namespace subr_subsetter_t

/-- Specification side of the re-encoder: the bytes one operation is to contribute. -/
def reencoded_op (st : subr_subsetter_t) (fd : Nat) (o : parsed_cs_op_t) : List Nat :=
  if o.drop_flag = true ∨ o.skip_flag = true then []
  else if o.op = OpCode_callsubr then
    encode_int_bytes ((st.remaps.local_remaps.getD fd default).biased_num o.subr_num)
      ++ [OpCode_callsubr]
  else if o.op = OpCode_callgsubr then
    encode_int_bytes (st.remaps.global_remap.biased_num o.subr_num) ++ [OpCode_callgsubr]
  else o.str

end subr_subsetter_t

/-- Specification side: the standard Type 2 charstring number decoding of the integer
forms, returning the value and the bytes left over. -/
def decode_int : List Nat → Option (Int × List Nat)
  | [] => none
  | b0 :: rest =>
    if 32 ≤ b0 ∧ b0 ≤ 246 then some ((b0 : Int) - 139, rest)
    else if 247 ≤ b0 ∧ b0 ≤ 250 then
      match rest with
      | b1 :: rest => some (((b0 : Int) - 247) * 256 + b1 + 108, rest)
      | [] => none
    else if 251 ≤ b0 ∧ b0 ≤ 254 then
      match rest with
      | b1 :: rest => some (-((b0 : Int) - 251) * 256 - b1 - 108, rest)
      | [] => none
    else if b0 = 28 then
      match rest with
      | b1 :: b2 :: rest =>
        let u : Int := (b1 : Int) * 256 + b2
        some (if u ≥ 32768 then u - 65536 else u, rest)
      | _ => none
    else none

/-- The subroutine a call operation names: the local table for callsubr, the global
table for callgsubr; `none` for every other operation. -/
def parsed_cs_op_t.callee (o : parsed_cs_op_t) : Option call_context_t :=
  if o.op = OpCode_callsubr then some ⟨.CSType_LocalSubr, o.subr_num⟩
  else if o.op = OpCode_callgsubr then some ⟨.CSType_GlobalSubr, o.subr_num⟩
  else none

/-- Specification side: `Reaches p src site tgt` says that the subroutine `tgt` is reached
from the parsed charstring `src` through a chain of call operations none of which is
flagged drop, the last of them standing at position `site.2` of the charstring
`site.1`. -/
inductive Reaches (p : subr_subset_param_t) :
    call_context_t → call_context_t × Nat → call_context_t → Prop
  | call {src : call_context_t} {pos : Nat} {o : parsed_cs_op_t} {tgt : call_context_t} :
      (p.str_at src).values[pos]? = some o → o.drop_flag = false → o.callee = some tgt →
      Reaches p src (src, pos) tgt
  | step {src : call_context_t} {pos : Nat} {o : parsed_cs_op_t} {mid : call_context_t}
      {site : call_context_t × Nat} {tgt : call_context_t} :
      (p.str_at src).values[pos]? = some o → o.drop_flag = false → o.callee = some mid →
      Reaches p mid site tgt → Reaches p src site tgt

/-- The rank decreases along every call that is not flagged drop. -/
def RankOk (p : subr_subset_param_t) (rank : call_context_t → Nat) : Prop :=
  ∀ (src : call_context_t) (pos : Nat) (o : parsed_cs_op_t) (tgt : call_context_t),
    (p.str_at src).values[pos]? = some o → o.drop_flag = false →
    o.callee = some tgt → rank tgt < rank src

/-- Specification side: the call graph over the operations not flagged drop is acyclic,
stated by a rank that every such call decreases. -/
def CallsAcyclic (p : subr_subset_param_t) : Prop :=
  ∃ rank : call_context_t → Nat, RankOk p rank

/-- The charstring of the glyph itself. -/
def root : call_context_t := ⟨.CSType_CharString, 0⟩

/-- Two parameter blocks hold the same parsed charstrings. -/
def SameStrs (p q : subr_subset_param_t) : Prop :=
  q.parsed_charstring = p.parsed_charstring ∧ q.parsed_global_subrs = p.parsed_global_subrs ∧
  q.parsed_local_subrs = p.parsed_local_subrs ∧ q.drop_hints = p.drop_hints

/-- What one call operation adds to a closure set. -/
def AddsTo (p : subr_subset_param_t) (o : parsed_cs_op_t) (tgt : call_context_t) : Prop :=
  o.drop_flag = false ∧ ∃ mid, o.callee = some mid ∧ (mid = tgt ∨ ∃ site, Reaches p mid site tgt)

/-- Result of one closure-collecting run from `p` to `q`: the charstrings are the same and
the closures have grown by exactly the targets in `T`. -/
def Collected (p q : subr_subset_param_t) (T : call_context_t → Prop) : Prop :=
  SameStrs p q ∧
  (∀ n, n ∈ q.global_closure ↔ n ∈ p.global_closure ∨ T ⟨.CSType_GlobalSubr, n⟩) ∧
  (∀ n, n ∈ q.local_closure ↔ n ∈ p.local_closure ∨ T ⟨.CSType_LocalSubr, n⟩)

namespace subr_subsetter_t

/-- Two subsetter states hold the same parsed charstrings and subroutines. -/
def SameParsed (st st2 : subr_subsetter_t) : Prop :=
  st2.parsed_charstrings = st.parsed_charstrings ∧
  st2.parsed_global_subrs = st.parsed_global_subrs ∧
  st2.parsed_local_subrs = st.parsed_local_subrs

end subr_subsetter_t

/-- Hint dropping may only set the drop flag of an operation. -/
def OpLe (o o2 : parsed_cs_op_t) : Prop :=
  o2 = o ∨ o2 = { o with drop_flag := true }

/-- Position by position, the second operation list is the first with some more drop
flags set. -/
def ValsLe (vs vs2 : List parsed_cs_op_t) : Prop :=
  vs2.length = vs.length ∧ ∀ i, OpLe (vs.getD i default) (vs2.getD i default)

/-- The second parsed charstring is the first with some more drop flags set; the two
markers `subset` sets afterwards are left out of the comparison. -/
def StrLe (s s2 : parsed_cs_str_t) : Prop :=
  ValsLe s.values s2.values ∧ s2.parsed = s.parsed ∧ s2.has_prefix_ = s.has_prefix_ ∧
  s2.prefix_op_ = s.prefix_op_ ∧ s2.prefix_num_ = s.prefix_num_

/-- The second parameter block is the first with some more drop flags set. -/
def ParamLe (p p2 : subr_subset_param_t) : Prop :=
  (∀ c, StrLe (p.str_at c) (p2.str_at c)) ∧
  p2.parsed_charstring.hint_dropped = p.parsed_charstring.hint_dropped ∧
  p2.parsed_charstring.vsindex_dropped = p.parsed_charstring.vsindex_dropped ∧
  p2.parsed_global_subrs.length = p.parsed_global_subrs.length ∧
  p2.parsed_local_subrs.length = p.parsed_local_subrs.length ∧
  p2.global_closure = p.global_closure ∧ p2.local_closure = p.local_closure ∧
  p2.drop_hints = p.drop_hints

/-- The rank decreases along every call operation, flagged drop or not. -/
def RankAll (p : subr_subset_param_t) (rank : call_context_t → Nat) : Prop :=
  ∀ (src : call_context_t) (pos : Nat) (o : parsed_cs_op_t) (tgt : call_context_t),
    (p.str_at src).values[pos]? = some o → o.callee = some tgt → rank tgt < rank src

/-- The second subsetter state is the first with some more drop flags (and hint-dropped
markers) set; closures and remaps are the same. -/
structure SubLe (st st2 : subr_subsetter_t) : Prop where
  cs_len : st2.parsed_charstrings.length = st.parsed_charstrings.length
  cs_le : ∀ i, StrLe (st.parsed_charstrings.getD i default) (st2.parsed_charstrings.getD i default)
  g_len : st2.parsed_global_subrs.length = st.parsed_global_subrs.length
  g_le : ∀ n, StrLe (st.parsed_global_subrs.getD n default) (st2.parsed_global_subrs.getD n default)
  l_len : st2.parsed_local_subrs.length = st.parsed_local_subrs.length
  l_len2 : ∀ f, (st2.parsed_local_subrs.getD f []).length = (st.parsed_local_subrs.getD f []).length
  l_le : ∀ f n, StrLe ((st.parsed_local_subrs.getD f []).getD n default)
    ((st2.parsed_local_subrs.getD f []).getD n default)
  closures_eq : st2.closures = st.closures
  remaps_eq : st2.remaps = st.remaps

/-- Specification side: `ReachesAny p src site tgt` says that the subroutine `tgt` is the
target recorded on a call operation reached from the parsed charstring `src` through a
chain of call operations, flagged drop or not, the last of them standing at position
`site.2` of the charstring `site.1`. -/
inductive ReachesAny (p : subr_subset_param_t) :
    call_context_t → call_context_t × Nat → call_context_t → Prop
  | call {src : call_context_t} {pos : Nat} {o : parsed_cs_op_t} {tgt : call_context_t} :
      (p.str_at src).values[pos]? = some o → o.callee = some tgt →
      ReachesAny p src (src, pos) tgt
  | step {src : call_context_t} {pos : Nat} {o : parsed_cs_op_t} {mid : call_context_t}
      {site : call_context_t × Nat} {tgt : call_context_t} :
      (p.str_at src).values[pos]? = some o → o.callee = some mid →
      ReachesAny p mid site tgt → ReachesAny p src site tgt

/-- The call-elision scenario of the specification: one retained glyph of FD 0 whose
charstring `-107 callsubr return` calls local subroutine 0, which is the pure hint
subroutine `1 2 hstem return`; the closures are as parsing leaves them. -/
def elision_scenario : subr_subsetter_t :=
  { closures := ⟨true, ∅, [{0}]⟩
    parsed_charstrings :=
      [⟨[⟨32, [32], 0, false, false, true⟩, ⟨10, [10], 0, false, false, false⟩,
        ⟨11, [11], 0, false, false, false⟩], true, false, false, false, 0, default⟩]
    parsed_global_subrs := []
    parsed_local_subrs :=
      [[⟨[⟨140, [140], 0, false, false, false⟩, ⟨141, [141], 0, false, false, false⟩,
        ⟨1, [1], 0, false, false, false⟩, ⟨11, [11], 0, false, false, false⟩],
        true, false, false, false, 0, default⟩]]
    remaps := ⟨default, [default]⟩ }

/-- The font accessor of the call-elision scenario: a single FD. -/
def elision_acc : acc_t := ⟨1, fun _ => 0⟩

/-- The bytes `encode_num n` writes into an empty buffer that may grow to five bytes. -/
def encode_num_bytes (n : number_t) : List Nat :=
  ((⟨⟨[], 5, true⟩, false⟩ : str_encoder_t).encode_num n).buff.bytes

/-- The bytes `encode_op op` writes into an empty buffer that may grow to two bytes. -/
def encode_op_bytes (op : Nat) : List Nat :=
  ((⟨⟨[], 2, true⟩, false⟩ : str_encoder_t).encode_op op).buff.bytes

namespace subr_subsetter_t

/-- The bytes the prefix re-insertion of `encode_str` writes: nothing unless the
charstring has a prefix and is hint-dropped. -/
def prefix_bytes (str : parsed_cs_str_t) : List Nat :=
  if str.has_prefix_ && str.hint_dropped then
    encode_num_bytes str.prefix_num_ ++
      (if str.prefix_op_ ≠ OpCode_Invalid then encode_op_bytes str.prefix_op_ else [])
  else []

end subr_subsetter_t

/-- The stem hint operators hstem, vstem, hstemhm and vstemhm. -/
def IsStem (op : Nat) : Prop :=
  op = OpCode_hstem ∨ op = OpCode_vstem ∨ op = OpCode_hstemhm ∨ op = OpCode_vstemhm

instance (op : Nat) : Decidable (IsStem op) :=
  inferInstanceAs (Decidable (op = OpCode_hstem ∨ op = OpCode_vstem ∨ op = OpCode_hstemhm ∨
    op = OpCode_vstemhm))

/-- The mask hint operators hintmask and cntrmask. -/
def IsMask (op : Nat) : Prop := op = OpCode_hintmask ∨ op = OpCode_cntrmask

instance (op : Nat) : Decidable (IsMask op) :=
  inferInstanceAs (Decidable (op = OpCode_hintmask ∨ op = OpCode_cntrmask))

/-- An operator that is neither a subroutine call nor a moveto: the `switch` of
`drop_hints_in_str` leaves `seen_moveto` as it is on such an operator. -/
def NoMoveNoCall (op : Nat) : Prop :=
  op ≠ OpCode_callsubr ∧ op ≠ OpCode_callgsubr ∧ op ≠ OpCode_rmoveto ∧ op ≠ OpCode_hmoveto ∧
  op ≠ OpCode_vmoveto

instance (op : Nat) : Decidable (NoMoveNoCall op) :=
  inferInstanceAs (Decidable (op ≠ OpCode_callsubr ∧ op ≠ OpCode_callgsubr ∧
    op ≠ OpCode_rmoveto ∧ op ≠ OpCode_hmoveto ∧ op ≠ OpCode_vmoveto))

/-- The operation at index `m` of `vals` is a hint that makes the string end in a hint
when `return` follows it: a stem hint, or a hintmask or cntrmask met while `seen_moveto`
is still false, the operations before it being neither calls nor movetos. -/
def EndsInHintAt (vals : List parsed_cs_op_t) (m : Nat) (seen_moveto : Bool) : Prop :=
  IsStem (vals.getD m default).op ∨
  (IsMask (vals.getD m default).op ∧ seen_moveto = false ∧
    ∀ i, i < m → NoMoveNoCall (vals.getD i default).op)

/-- An operation with its drop flag set. -/
def parsed_cs_op_t.dropped (o : parsed_cs_op_t) : parsed_cs_op_t := { o with drop_flag := true }

/-- An operation that `drop_hints_in_str` handles by itself and that can be flagged: no
call, no hintmask, cntrmask or dotsection, and neither the drop nor the keep flag set. -/
def PlainOp (o : parsed_cs_op_t) : Prop :=
  o.op ≠ OpCode_callsubr ∧ o.op ≠ OpCode_callgsubr ∧ o.op ≠ OpCode_hintmask ∧
  o.op ≠ OpCode_cntrmask ∧ o.op ≠ OpCode_dotsection ∧ o.drop_flag = false ∧ o.keep_flag = false

/-- Specification side: `mark_stems B todo` is what hint dropping makes of the operations
`B ++ todo` when the stem-free operations `B` have been visited: everything up to the
last stem hint of `todo` is flagged drop. -/
def mark_stems : List parsed_cs_op_t → List parsed_cs_op_t → List parsed_cs_op_t
  | B, [] => B
  | B, o :: rest =>
    if IsStem o.op then (B ++ [o]).map parsed_cs_op_t.dropped ++ mark_stems [] rest
    else mark_stems (B ++ [o]) rest

/-- The hint-drop scenario of the specification: the charstring
`1 11 hstemhm 2 3 rmoveto 4 5 rlineto endchar`, one parsed operation per operand and
operator, with no subroutines. -/
def hint_drop_scenario : subr_subset_param_t :=
  { parsed_charstring :=
      ⟨[⟨140, [140], 0, false, false, false⟩, ⟨150, [150], 0, false, false, false⟩,
        ⟨18, [18], 0, false, false, false⟩, ⟨141, [141], 0, false, false, false⟩,
        ⟨142, [142], 0, false, false, false⟩, ⟨21, [21], 0, false, false, false⟩,
        ⟨143, [143], 0, false, false, false⟩, ⟨144, [144], 0, false, false, false⟩,
        ⟨5, [5], 0, false, false, false⟩, ⟨14, [14], 0, false, false, false⟩],
        true, false, false, false, 0, default⟩
    parsed_global_subrs := []
    parsed_local_subrs := []
    global_closure := ∅
    local_closure := ∅
    drop_hints := true }

/-- Glyph number `k` (of FD `f`) has at position `pos` a callsubr of local subroutine `n`
without the keep flag, and that subroutine has `m + 2` operations, the last two being a
hint operator and `return`; the hint operator is a stem hint, or it is a hintmask or
cntrmask and neither a moveto nor a call comes before it, in the subroutine or before the
call in the glyph. -/
def HintSubrCall (st : subr_subsetter_t) (k f pos n m : Nat) : Prop :=
  pos < (st.parsed_charstrings.getD k default).values.length ∧
  ((st.parsed_charstrings.getD k default).values.getD pos default).op = OpCode_callsubr ∧
  ((st.parsed_charstrings.getD k default).values.getD pos default).subr_num = n ∧
  ((st.parsed_charstrings.getD k default).values.getD pos default).keep_flag = false ∧
  ((st.parsed_local_subrs.getD f []).getD n default).values.length = m + 2 ∧
  (IsStem ((((st.parsed_local_subrs.getD f []).getD n default).values.getD m default).op) ∨
    (IsMask ((((st.parsed_local_subrs.getD f []).getD n default).values.getD m default).op) ∧
      (∀ i, i < pos →
        NoMoveNoCall ((st.parsed_charstrings.getD k default).values.getD i default).op) ∧
      ∀ i, i < m → NoMoveNoCall
        ((((st.parsed_local_subrs.getD f []).getD n default).values.getD i default).op))) ∧
  (((st.parsed_local_subrs.getD f []).getD n default).values.getD (m + 1) default).op
    = OpCode_return

/-- A glyph of FD 0 that, after `1 2 rmoveto`, calls local subroutine 0 as its final
operation before return, the subroutine being `hintmask return`: a subroutine made only
of a hint operator followed by return, called once a moveto has been seen. -/
def hintmask_scenario : subr_subsetter_t :=
  { closures := ⟨true, ∅, [{0}]⟩
    parsed_charstrings :=
      [⟨[⟨140, [140], 0, false, false, false⟩, ⟨141, [141], 0, false, false, false⟩,
        ⟨21, [21], 0, false, false, false⟩, ⟨32, [32], 0, false, false, true⟩,
        ⟨10, [10], 0, false, false, false⟩, ⟨11, [11], 0, false, false, false⟩],
        true, false, false, false, 0, default⟩]
    parsed_global_subrs := []
    parsed_local_subrs :=
      [[⟨[⟨19, [19, 128], 0, false, false, false⟩, ⟨11, [11], 0, false, false, false⟩],
        true, false, false, false, 0, default⟩]]
    remaps := ⟨default, [default]⟩ }

/-- A glyph of FD 0 whose charstring `-107 callsubr return` calls local subroutine 0,
which is `dotsection return`: a subroutine made only of a hint operator followed by
return. -/
def dotsection_scenario : subr_subsetter_t :=
  { closures := ⟨true, ∅, [{0}]⟩
    parsed_charstrings :=
      [⟨[⟨32, [32], 0, false, false, true⟩, ⟨10, [10], 0, false, false, false⟩,
        ⟨11, [11], 0, false, false, false⟩], true, false, false, false, 0, default⟩]
    parsed_global_subrs := []
    parsed_local_subrs :=
      [[⟨[⟨256, [12, 0], 0, false, false, false⟩, ⟨11, [11], 0, false, false, false⟩],
        true, false, false, false, 0, default⟩]]
    remaps := ⟨default, [default]⟩ }

/-- Specification side: the bias the Type 2 charstring format prescribes for a subroutine
table of `count` entries, which a reader of the font adds to a call operand. -/
def bias_rule (count : Nat) : Int :=
  if count < 1240 then 107 else if count < 33900 then 1131 else 32768

/-- A CFF1 glyph `100 1 2 hstem 3 4 rmoveto endchar` (100 being the width) after hint
dropping: the width, the stem operands and hstem are flagged drop, the width is kept as
prefix without operator, `hint_dropped` is set and `vsindex_dropped` is not. -/
def width_scenario : parsed_cs_str_t :=
  { values :=
      [⟨239, [239], 0, true, false, false⟩, ⟨140, [140], 0, true, false, false⟩,
        ⟨141, [141], 0, true, false, false⟩, ⟨1, [1], 0, true, false, false⟩,
        ⟨142, [142], 0, false, false, false⟩, ⟨143, [143], 0, false, false, false⟩,
        ⟨21, [21], 0, false, false, false⟩, ⟨14, [14], 0, false, false, false⟩]
    parsed := true
    hint_dropped := true
    vsindex_dropped := false
    has_prefix_ := true
    prefix_op_ := OpCode_Invalid
    prefix_num_ := ⟨true, 100, 6553600⟩ }

/-- A subsetter whose local remap of FD 0 was created from the closure {1, 3}. -/
def absent_call_scenario : subr_subsetter_t :=
  { closures := ⟨true, ∅, [{1, 3}]⟩
    parsed_charstrings := []
    parsed_global_subrs := []
    parsed_local_subrs := []
    remaps := ⟨default, [(default : subr_remap_t).create {1, 3}]⟩ }

/-- One call of a member function of `str_encoder_t` that writes to the buffer, with its
argument. -/
inductive encoder_call_t where
  | encode_byte (b : Int)
  | encode_int (v : Int)
  | encode_num (n : number_t)
  | encode_op (op : Nat)
  | copy_str (str : List Nat)
  | reset

/-- Carries out one call on an encoder. -/
def encoder_call_t.run : encoder_call_t → str_encoder_t → str_encoder_t
  | .encode_byte b, e => e.encode_byte b
  | .encode_int v, e => e.encode_int v
  | .encode_num n, e => e.encode_num n
  | .encode_op op, e => e.encode_op op
  | .copy_str str, e => e.copy_str str
  | .reset, e => e.reset

/-- The error flag of an encoder is only set together with the failed state of its
buffer. -/
def str_encoder_t.ErrorFromBuffer (e : str_encoder_t) : Prop :=
  e.error = true → e.buff.ok = false

/-- Modelled from the spec: the interpreter environment `ENV` (hb-cff-interp-cs-common.hh
is not among the sources) as far as `set_current_str` uses it: the call context
`env.context` and the error flag that `env.set_error ()` sets. -/
structure cs_interp_env_t where
  context : call_context_t
  error : Bool
deriving DecidableEq, Repr

/-- Modelled from the spec: `env.set_error ()`. -/
def cs_interp_env_t.set_error (env : cs_interp_env_t) : cs_interp_env_t :=
  { env with error := true }

/-- The parameter block `subr_subset_param_t` with its member `current_parsed_str`, which
only the parsing phase reads and writes: a reference to the parsed charstring that
receives the operations being parsed. -/
structure subr_subset_param_cur_t extends subr_subset_param_t where
  current_parsed_str : call_context_t

namespace subr_subset_param_cur_t

/-- The function `set_current_str`: the environment and the parameter block after the
call. The pointer `get_parsed_str_for_context` returns is, when not null, the reference
`env.context` itself. -/
def set_current_str (p : subr_subset_param_cur_t) (env : cs_interp_env_t) (calling : Bool) :
    cs_interp_env_t × subr_subset_param_cur_t :=
  match p.tosubr_subset_param_t.get_parsed_str_for_context env.context with
  | some parsed_str =>
    if calling && !parsed_str.is_parsed && decide (parsed_str.values.length > 0) then
      (env.set_error, p)
    else (env, { p with current_parsed_str := env.context })
  | none => (env.set_error, p)

end subr_subset_param_cur_t

/-- The context names a local or global subroutine whose index is not below the length of
its parsed table. -/
def SubrOutOfRange (p : subr_subset_param_t) (c : call_context_t) : Prop :=
  (c.type = .CSType_LocalSubr ∧ p.parsed_local_subrs.length ≤ c.subr_num) ∨
  (c.type = .CSType_GlobalSubr ∧ p.parsed_global_subrs.length ≤ c.subr_num)

/-- The parsed charstring of the context is not yet marked parsed but already has recorded
operations. -/
def PartlyParsed (p : subr_subset_param_t) (c : call_context_t) : Prop :=
  (p.str_at c).parsed = false ∧ 0 < (p.str_at c).values.length

/-- Modelled from the spec: the charstring interpreter
`cs_interpreter_t<ENV, OPSET, subr_subset_param_t>` (hb-cff-interp-cs-common.hh is not
among the sources) and `SUBSETTER::finalize_parsed_str`, taken as parameters.
`interpret glyph fd param` is the result of `interp.interpret (param)` once the
environment was initialised for the charstring of `glyph` and its FD, together with the
parameter block as the interpreter leaves the objects behind its pointers;
`finalize_parsed_str glyph fd param cs` is the parsed charstring of the glyph after
`finalize_parsed_str`. -/
structure interp_t where
  interpret : Nat → Nat → subr_subset_param_t → Bool × subr_subset_param_t
  finalize_parsed_str : Nat → Nat → subr_subset_param_t → parsed_cs_str_t → parsed_cs_str_t

/-- Modelled from the spec: what `subset` reads of the font accessor besides `fdCount` and
`get_fd`, namely `globalSubrs->count` and `privateDicts[i].localSubrs->count`, and whether
the closure sets could be allocated (`hb_set_create` and `resize` in
`subr_closures_t::init`). -/
structure subr_counts_t where
  globalSubrs_count : Nat
  localSubrs_count : Nat → Nat
  sets_allocated : Bool

/-- The function `subr_closures_t::init`. -/
def subr_closures_t.init (fd_count : Nat) (sets_allocated : Bool) : subr_closures_t :=
  { valid := sets_allocated
    global_closure := ∅
    local_closures := List.replicate fd_count ∅ }

/-- The function `subr_remap_ts::init`. -/
def subr_remap_ts.init (r : subr_remap_ts) (fdCount : Nat) : subr_remap_ts :=
  { r with local_remaps := List.replicate fdCount default }

/-- The function `parsed_cs_str_vec_t::init`: `len_` parsed charstrings, each one
initialised. -/
def parsed_cs_str_vec_t_init (len_ : Nat) : List parsed_cs_str_t :=
  List.replicate len_ default

namespace subr_subsetter_t

/-- The loop "phase 1 & 2" of `subset`, from glyph number `i` on; the flag is `false`
where `subset` returns false. -/
def subset_parse (acc : acc_t) (interp : interp_t) (drop_hints : Bool) :
    List Nat → Nat → subr_subsetter_t → Bool × subr_subsetter_t
  | [], _, st => (true, st)
  | glyph :: glyphs, i, st =>
    let fd := acc.get_fd glyph
    if fd ≥ acc.fdCount then (false, st)
    else
      let param := st.param_init i fd drop_hints
      let r := interp.interpret glyph fd param
      let st := st.param_store i fd r.2
      if !r.1 then (false, st)
      else
        let cs := interp.finalize_parsed_str glyph fd r.2 (st.parsed_charstrings.getD i default)
        subset_parse acc interp drop_hints glyphs (i + 1)
          { st with parsed_charstrings := st.parsed_charstrings.set i cs }

/-- The function `subset`; the result is `none` when the call depth `fuel` does not
suffice for the hint-dropping and closure passes. -/
def subset (st : subr_subsetter_t) (acc : acc_t) (counts : subr_counts_t) (interp : interp_t)
    (fuel : Nat) (glyphs : List Nat) (drop_hints : Bool) : Option (Bool × subr_subsetter_t) :=
  let st : subr_subsetter_t :=
    { closures := subr_closures_t.init acc.fdCount counts.sets_allocated
      remaps := st.remaps.init acc.fdCount
      parsed_charstrings := parsed_cs_str_vec_t_init glyphs.length
      parsed_global_subrs := parsed_cs_str_vec_t_init counts.globalSubrs_count
      parsed_local_subrs := (List.range acc.fdCount).map
        (fun i => parsed_cs_str_vec_t_init (counts.localSubrs_count i)) }
  if !st.closures.valid then some (false, st)
  else
    match subset_parse acc interp drop_hints glyphs 0 st with
    | (false, st) => some (false, st)
    | (true, st) => subset_after_parse acc fuel glyphs drop_hints st

end subr_subsetter_t

/-- The parameter block of the flattening interpreter. -/
structure flatten_param_t where
  flatStr : str_buff_t
  drop_hints : Bool

/-- The member variables of `subr_flattener_t`. -/
structure subr_flattener_t where
  acc : acc_t
  glyphs : List Nat
  drop_hints : Bool

namespace subr_flattener_t

/-- The second loop of `flatten`, from glyph number `i` on. `interpret glyph fd param` is
modelled from the spec: the interpreter `cs_interpreter_t<ENV, OPSET, flatten_param_t>`
is not among the sources and is taken as a parameter, its result being the flag of
`interp.interpret (param)` and the parameter block with the buffer as written. -/
def flatten_loop (f : subr_flattener_t)
    (interpret : Nat → Nat → flatten_param_t → Bool × flatten_param_t) :
    List Nat → Nat → str_buff_vec_t → Bool × str_buff_vec_t
  | [], _, flat_charstrings => (true, flat_charstrings)
  | glyph :: glyphs, i, flat_charstrings =>
    let fd := f.acc.get_fd glyph
    if fd ≥ f.acc.fdCount then (false, flat_charstrings)
    else
      let param : flatten_param_t := ⟨flat_charstrings.bufs.getD i default, f.drop_hints⟩
      let r := interpret glyph fd param
      let flat_charstrings :=
        { flat_charstrings with bufs := flat_charstrings.bufs.set i r.2.flatStr }
      if !r.1 then (false, flat_charstrings)
      else flatten_loop f interpret glyphs (i + 1) flat_charstrings

/-- The function `flatten`. -/
def flatten (f : subr_flattener_t)
    (interpret : Nat → Nat → flatten_param_t → Bool × flatten_param_t)
    (flat_charstrings : str_buff_vec_t) : Bool × str_buff_vec_t :=
  let r := flat_charstrings.resize f.glyphs.length
  if !r.1 then (false, r.2)
  else
    let flat_charstrings := { r.2 with bufs := r.2.bufs.map str_buff_t.init }
    flatten_loop f interpret f.glyphs 0 flat_charstrings

end subr_flattener_t

/-- A font with two FDs and one retained glyph, of FD 1, whose charstring
`-107 callgsubr endchar` calls global subroutine 0, which is `-107 callsubr return` and so
calls local subroutine 0 of the FD of the glyph, `1 2 rlineto return`; FD 0 has no local
subroutine. The closures are as parsing leaves them. -/
def two_fd_scenario : subr_subsetter_t :=
  { closures := ⟨true, {0}, [∅, {0}]⟩
    parsed_charstrings :=
      [⟨[⟨32, [32], 0, false, false, true⟩, ⟨29, [29], 0, false, false, false⟩,
        ⟨14, [14], 0, false, false, false⟩], true, false, false, false, 0, default⟩]
    parsed_global_subrs :=
      [⟨[⟨32, [32], 0, false, false, true⟩, ⟨10, [10], 0, false, false, false⟩,
        ⟨11, [11], 0, false, false, false⟩], true, false, false, false, 0, default⟩]
    parsed_local_subrs :=
      [[], [⟨[⟨140, [140], 0, false, false, false⟩, ⟨141, [141], 0, false, false, false⟩,
        ⟨5, [5], 0, false, false, false⟩, ⟨11, [11], 0, false, false, false⟩],
        true, false, false, false, 0, default⟩]]
    remaps := ⟨default, [default, default]⟩ }

/-- The font accessor of the two-FD scenario: every glyph has FD 1. -/
def two_fd_acc : acc_t := ⟨2, fun _ => 1⟩

/-- The operator `return` occurs at most as the last operation of an operation list, as in
every parsed charstring: parsing a charstring stops at its `return`. -/
def ReturnOnlyLast (vals : List parsed_cs_op_t) : Prop :=
  ∀ i, i + 1 < vals.length → (vals.getD i default).op ≠ OpCode_return

/-- The index of the last operation of a non-empty operation list, a final `return` that
follows another operation not counted. -/
def last_scan_index (vals : List parsed_cs_op_t) : Nat :=
  if (vals.getD (vals.length - 1) default).op = OpCode_return ∧ 2 ≤ vals.length then
    vals.length - 2
  else vals.length - 1

namespace subr_subsetter_t

/-- Specification side: "the stream of `c` ends in a hint" when `drop_hints_in_str` scans
it from the state `e` with call depth `fuel`. Some operation of `c` that is at the end of
the stream or immediately followed by `return` is an operator counted as a hint (a stem
hint, or a hintmask or cntrmask met while no moveto has been seen, `em` being the state in
which the scan reaches the operation), or is a call of a subroutine whose stream ends in a
hint in the same sense. -/
def EndsInHint : Nat → call_context_t → drop_env_t → Prop
  | 0, _, _ => False
  | fuel + 1, c, e =>
    ∃ m, m < (e.param.str_at c).values.length ∧ (e.param.str_at c).at_end m = true ∧
      ∃ s em, drop_hints_loop (drop_hints_in_str fuel) c m 0 false e = some (s, em) ∧
        (IsStem ((e.param.str_at c).values.getD m default).op ∨
          (IsMask ((e.param.str_at c).values.getD m default).op ∧
            em.drop.seen_moveto = false) ∨
          ∃ t, ((e.param.str_at c).values.getD m default).callee = some t ∧
            EndsInHint fuel t { em with drop := { em.drop with ends_in_hint := false } })

end subr_subsetter_t

/-- The hint-class operators: the stem hints, hintmask, cntrmask and dotsection. -/
def IsHintOp (op : Nat) : Prop := IsStem op ∨ IsMask op ∨ op = OpCode_dotsection

instance (op : Nat) : Decidable (IsHintOp op) :=
  inferInstanceAs (Decidable (IsStem op ∨ IsMask op ∨ op = OpCode_dotsection))

/-- A charstring that selects a variation store region list before its first hint:
`0 vsindex 1 11 hstem 2 3 rmoveto`, one parsed operation per operand and operator, with
no subroutines. -/
def vsindex_walk_scenario : subr_subset_param_t :=
  { parsed_charstring :=
      ⟨[⟨139, [139], 0, false, false, false⟩, ⟨15, [15], 0, false, false, false⟩,
        ⟨140, [140], 0, false, false, false⟩, ⟨150, [150], 0, false, false, false⟩,
        ⟨1, [1], 0, false, false, false⟩, ⟨141, [141], 0, false, false, false⟩,
        ⟨142, [142], 0, false, false, false⟩, ⟨21, [21], 0, false, false, false⟩],
        true, false, false, false, 0, default⟩
    parsed_global_subrs := []
    parsed_local_subrs := []
    global_closure := ∅
    local_closure := ∅
    drop_hints := true }

/-- The moveto operators. -/
def IsMoveto (op : Nat) : Prop :=
  op = OpCode_rmoveto ∨ op = OpCode_hmoveto ∨ op = OpCode_vmoveto

instance (op : Nat) : Decidable (IsMoveto op) :=
  inferInstanceAs (Decidable (op = OpCode_rmoveto ∨ op = OpCode_hmoveto ∨ op = OpCode_vmoveto))

/-- Specification side: running the stream of `c`, calls followed to depth `fuel`, meets a
moveto operator, in the stream itself or in a subroutine it calls. -/
def MeetsMoveto : Nat → subr_subset_param_t → call_context_t → Prop
  | 0, _, _ => False
  | fuel + 1, p, c =>
    ∃ i, i < (p.str_at c).values.length ∧
      (IsMoveto ((p.str_at c).values.getD i default).op ∨
        ∃ t, ((p.str_at c).values.getD i default).callee = some t ∧ MeetsMoveto fuel p t)

/-- Specification side: a moveto operator is met before position `m` of the stream of `c`
is reached, at an earlier position of the stream or in a subroutine called from one. -/
def MovetoBefore (fuel : Nat) (p : subr_subset_param_t) (c : call_context_t) (m : Nat) :
    Prop :=
  ∃ i, i < m ∧
    (IsMoveto ((p.str_at c).values.getD i default).op ∨
      ∃ t, ((p.str_at c).values.getD i default).callee = some t ∧ MeetsMoveto fuel p t)

/-- Specification side: running the stream of `c`, calls followed to depth `fuel`, meets
what `drop_hints_in_str` counts as a hint, `seen` telling whether a moveto was met before
the stream is entered: a stem hint operator, or a hintmask or cntrmask operator with no
moveto met before it, in the stream itself or in a subroutine it calls. -/
def SeesHint : Nat → subr_subset_param_t → call_context_t → Prop → Prop
  | 0, _, _, _ => False
  | fuel + 1, p, c, seen =>
    ∃ m, m < (p.str_at c).values.length ∧
      (IsStem ((p.str_at c).values.getD m default).op ∨
        (IsMask ((p.str_at c).values.getD m default).op ∧ ¬ seen ∧
          ¬ MovetoBefore fuel p c m) ∨
        ∃ t, ((p.str_at c).values.getD m default).callee = some t ∧
          SeesHint fuel p t (seen ∨ MovetoBefore fuel p c m))

/-- A charstring whose only hint operator is a stem hint after a moveto:
`1 2 rmoveto 3 4 hstem endchar`, one parsed operation per operand and operator, with no
subroutines. -/
def stem_after_moveto_scenario : subr_subset_param_t :=
  { parsed_charstring :=
      ⟨[⟨140, [140], 0, false, false, false⟩, ⟨141, [141], 0, false, false, false⟩,
        ⟨21, [21], 0, false, false, false⟩, ⟨142, [142], 0, false, false, false⟩,
        ⟨143, [143], 0, false, false, false⟩, ⟨1, [1], 0, false, false, false⟩,
        ⟨14, [14], 0, false, false, false⟩],
        true, false, false, false, 0, default⟩
    parsed_global_subrs := []
    parsed_local_subrs := []
    global_closure := ∅
    local_closure := ∅
    drop_hints := true }

/-- A charstring whose only hint operator is a hintmask after a moveto:
`1 2 rmoveto hintmask 3 4 rlineto endchar`, one parsed operation per operand and
operator, with no subroutines. -/
def mask_after_moveto_scenario : subr_subset_param_t :=
  { parsed_charstring :=
      ⟨[⟨140, [140], 0, false, false, false⟩, ⟨141, [141], 0, false, false, false⟩,
        ⟨21, [21], 0, false, false, false⟩, ⟨19, [19, 128], 0, false, false, false⟩,
        ⟨142, [142], 0, false, false, false⟩, ⟨143, [143], 0, false, false, false⟩,
        ⟨5, [5], 0, false, false, false⟩, ⟨14, [14], 0, false, false, false⟩],
        true, false, false, false, 0, default⟩
    parsed_global_subrs := []
    parsed_local_subrs := []
    global_closure := ∅
    local_closure := ∅
    drop_hints := true }

/-- The function `parsed_cs_op_t::init`; `op_str_t::init` leaves `op` and `str` as they
are. -/
def parsed_cs_op_t.init (o : parsed_cs_op_t) (subr_num_ : Nat) : parsed_cs_op_t :=
  { o with subr_num := subr_num_, drop_flag := false, keep_flag := false, skip_flag := false }

/-- Modelled from the spec: `parsed_values_t::add_op (op, str_ref, v)` of
hb-cff-interp-common.hh, which is not among the sources: pushes a copy of `v` on `values`
and sets its `op` and its `str`, the bytes read since the previous operation. `ok` tells
whether the vector could grow; a failed push leaves the vector as it is. The variant
without `v` pushes a zero-initialised element. -/
def parsed_values_t_add_op (values : List parsed_cs_op_t) (op : Nat) (str : List Nat)
    (v : parsed_cs_op_t) (ok : Bool) : List parsed_cs_op_t :=
  if ok then values ++ [{ v with op := op, str := str }] else values

namespace parsed_cs_str_t

/-- The function `parsed_cs_str_t::init`; `vsindex_dropped` and the prefix fields are not
assigned. -/
def init (s : parsed_cs_str_t) : parsed_cs_str_t :=
  { s with values := [], parsed := false, hint_dropped := false, has_prefix_ := false }

/-- The function `parsed_cs_str_t::add_op`; `str` is the byte span `str_ref` delimits. -/
def add_op (s : parsed_cs_str_t) (op : Nat) (str : List Nat) (ok : Bool) : parsed_cs_str_t :=
  if !s.is_parsed then
    { s with values := parsed_values_t_add_op s.values op str default ok }
  else s

/-- The function `parsed_cs_str_t::add_call_op`. -/
def add_call_op (s : parsed_cs_str_t) (op : Nat) (str : List Nat) (subr_num : Nat)
    (ok : Bool) : parsed_cs_str_t :=
  if !s.is_parsed then
    let parsed_len := s.get_count
    let values :=
      if parsed_len > 0 then
        s.values.set (parsed_len - 1) (s.values.getD (parsed_len - 1) default).set_skip
      else s.values
    let val := (default : parsed_cs_op_t).init subr_num
    { s with values := parsed_values_t_add_op values op str val ok }
  else s

/-- The function `parsed_cs_str_t::set_prefix`. -/
def set_prefix (s : parsed_cs_str_t) (num : number_t) (op : Nat) : parsed_cs_str_t :=
  { s with has_prefix_ := true, prefix_op_ := op, prefix_num_ := num }

end parsed_cs_str_t

/-- Specification side: a parsed charstring "built with add_op/add_call_op": made from
`init` by the member functions that the parse calls. -/
inductive Built : parsed_cs_str_t → Prop
  | of_init (s : parsed_cs_str_t) : Built s.init
  | of_add_op (s : parsed_cs_str_t) (op : Nat) (str : List Nat) (ok : Bool) :
      Built s → Built (s.add_op op str ok)
  | of_add_call_op (s : parsed_cs_str_t) (op : Nat) (str : List Nat) (subr_num : Nat)
      (ok : Bool) : Built s → Built (s.add_call_op op str subr_num ok)
  | of_set_parsed (s : parsed_cs_str_t) : Built s → Built s.set_parsed
  | of_set_prefix (s : parsed_cs_str_t) (num : number_t) (op : Nat) :
      Built s → Built (s.set_prefix num op)

/-- A glyph `-107 callsubr` and its local subroutine 0, `1 2 hstem return`, each built by
`init`, `add_op`, `add_call_op` and `set_parsed` as the parse does. -/
def skip_drop_scenario : subr_subset_param_t :=
  { parsed_charstring :=
      ((((default : parsed_cs_str_t).init.add_op 32 [32] true).add_call_op
        OpCode_callsubr [10] 0 true).set_parsed)
    parsed_global_subrs := []
    parsed_local_subrs :=
      [((((((default : parsed_cs_str_t).init.add_op 140 [140] true).add_op 141 [141]
        true).add_op OpCode_hstem [1] true).add_op OpCode_return [11] true).set_parsed)]
    global_closure := ∅
    local_closure := {0}
    drop_hints := true }

/-- Whether the access `subrs[subr_num]` that a call context stands for is within the
table: the global table for a global subroutine, the local table of the FD for a local
one. The charstring of the glyph is reached without such an access. -/
def subr_subset_param_t.subr_in_range (p : subr_subset_param_t) (c : call_context_t) : Bool :=
  match c.type with
  | .CSType_CharString => true
  | .CSType_GlobalSubr => decide (c.subr_num < p.parsed_global_subrs.length)
  | .CSType_LocalSubr => decide (c.subr_num < p.parsed_local_subrs.length)

/-- Specification side: every `subr_num` recorded on a call operation is below the length
of the table the call resolves it in. -/
def SubrNumsInRange (p : subr_subset_param_t) : Prop :=
  ∀ (src : call_context_t) (pos : Nat) (o : parsed_cs_op_t) (tgt : call_context_t),
    (p.str_at src).values[pos]? = some o → o.callee = some tgt → p.subr_in_range tgt = true

namespace subr_subsetter_t

/-- The function `drop_hints_in_str` with every access `subrs[subr_num]` checked against
the length of the table first: an access out of range ends the run with `none`, as
running out of call depth does. -/
def drop_hints_in_str_checked : Nat → call_context_t → drop_env_t → Option (Bool × drop_env_t)
  | 0, _, _ => none
  | fuel + 1, str, e =>
    drop_hints_loop
      (fun c e1 => if e1.param.subr_in_range c then drop_hints_in_str_checked fuel c e1 else none)
      str (e.param.str_at str).values.length 0 false e

/-- The function `collect_subr_refs_in_str` with every access `subrs[subr_num]` checked
against the length of the table first: an access out of range ends the run with `none`,
as running out of call depth does. -/
def collect_subr_refs_in_str_checked : Nat → call_context_t → subr_subset_param_t →
    Option subr_subset_param_t
  | 0, _, _ => none
  | fuel + 1, str, p =>
    collect_subr_refs_loop
      (fun c q => if q.subr_in_range c then collect_subr_refs_in_str_checked fuel c q else none)
      (p.str_at str).values p

end subr_subsetter_t

/-! ## Theorems -/

theorem str_buff_t.push_ok (b : str_buff_t) (v : Nat) (hok : b.ok = true)
    (h : b.bytes.length + 1 ≤ b.cap) :
    b.push v = (true, { b with bytes := b.bytes ++ [v] }) := by
  have h1 : (b.bytes ++ [0]).take (b.bytes.length + 1) = b.bytes ++ [0] := by
    apply List.take_of_length_le; simp
  simp [str_buff_t.push, str_buff_t.resize, hok, h, h1]

theorem str_encoder_t.emit_nil (e : str_encoder_t) : e.emit [] = e := by
  simp [str_encoder_t.emit]

theorem str_encoder_t.emit_emit (e : str_encoder_t) (l m : List Nat) :
    (e.emit l).emit m = e.emit (l ++ m) := by
  simp [str_encoder_t.emit]

theorem str_encoder_t.Room_emit {e : str_encoder_t} {l : List Nat} {n : Nat}
    (h : e.Room (l.length + n)) : (e.emit l).Room n := by
  obtain ⟨h1, h2, h3⟩ := h
  refine ⟨h1, h2, ?_⟩
  simp [str_encoder_t.emit]; omega

theorem str_encoder_t.Room_mono {e : str_encoder_t} {m n : Nat} (h : e.Room n) (hmn : m ≤ n) :
    e.Room m := ⟨h.1, h.2.1, by have := h.2.2; omega⟩

theorem str_encoder_t.encode_byte_ok (e : str_encoder_t) (b : Int) (h : e.Room 1) :
    e.encode_byte b = e.emit [(b % 256).toNat] := by
  obtain ⟨_, h2, h3⟩ := h
  simp [str_encoder_t.encode_byte, str_buff_t.push_ok _ _ h2 h3, str_encoder_t.emit]

theorem str_encoder_t.copy_str_ok (e : str_encoder_t) (str : List Nat) (h : e.Room str.length) :
    e.copy_str str = e.emit str := by
  obtain ⟨_, h2, h3⟩ := h
  simp [str_encoder_t.copy_str, str_buff_t.resize, h2, h3, str_encoder_t.emit]
  rw [List.take_take, List.take_append_of_le_length (by omega)]
  simp

theorem int_shr8 (v : Int) : v >>> (8 : Nat) = v / 256 := by
  rw [Int.shiftRight_eq_div_pow]; rfl

theorem encode_int_bytes_eq (v : Int) :
    encode_int_bytes v =
      if -1131 ≤ v ∧ v ≤ 1131 then
        if -107 ≤ v ∧ v ≤ 107 then [((v + 139) % 256).toNat]
        else if v > 0 then [((((v - 108) / 256) + 247) % 256).toNat, ((v - 108) % 256).toNat]
        else [((((-v - 108) / 256) + 251) % 256).toNat, ((-v - 108) % 256).toNat]
      else
        [28, ((((if v < -32768 then -32768 else if v > 32767 then 32767 else v) / 256) % 256) % 256).toNat,
          ((if v < -32768 then -32768 else if v > 32767 then 32767 else v) % 256 % 256).toNat] := by
  have hr1 : (⟨⟨[], 3, true⟩, false⟩ : str_encoder_t).Room 3 := ⟨rfl, rfl, by simp⟩
  unfold encode_int_bytes str_encoder_t.encode_int
  split_ifs <;>
    simp [int_shr8, str_encoder_t.encode_byte_ok, str_encoder_t.Room, str_encoder_t.emit,
      OpCode_TwoBytePosInt0, OpCode_TwoByteNegInt0, OpCode_shortint]

theorem str_encoder_t.encode_byte_ok2 (e : str_encoder_t) (a b : Int) (h : e.Room 2) :
    (e.encode_byte a).encode_byte b = e.emit [(a % 256).toNat, (b % 256).toNat] := by
  rw [str_encoder_t.encode_byte_ok e a (str_encoder_t.Room_mono h (by omega)),
    str_encoder_t.encode_byte_ok _ b (str_encoder_t.Room_emit (by simpa using h)),
    str_encoder_t.emit_emit]
  rfl

theorem str_encoder_t.encode_byte_ok3 (e : str_encoder_t) (a b c : Int) (h : e.Room 3) :
    ((e.encode_byte a).encode_byte b).encode_byte c =
      e.emit [(a % 256).toNat, (b % 256).toNat, (c % 256).toNat] := by
  rw [str_encoder_t.encode_byte_ok2 e a b (str_encoder_t.Room_mono h (by omega)),
    str_encoder_t.encode_byte_ok _ c (str_encoder_t.Room_emit (by simpa using h)),
    str_encoder_t.emit_emit]
  rfl

theorem str_encoder_t.encode_int_ok (e : str_encoder_t) (v : Int)
    (h : e.Room (encode_int_bytes v).length) :
    e.encode_int v = e.emit (encode_int_bytes v) := by
  rw [encode_int_bytes_eq] at h ⊢
  unfold str_encoder_t.encode_int
  split_ifs at h ⊢
  · rw [str_encoder_t.encode_byte_ok e _ (by simpa using h)]
  · rw [str_encoder_t.encode_byte_ok2 e _ _ (by simpa using h)]
    simp [int_shr8, OpCode_TwoBytePosInt0]
  · rw [str_encoder_t.encode_byte_ok2 e _ _ (by simpa using h)]
    simp [int_shr8, OpCode_TwoByteNegInt0]
  · rw [str_encoder_t.encode_byte_ok3 e _ _ _ (by simpa using h)]
    simp [int_shr8, OpCode_shortint]
  · rw [str_encoder_t.encode_byte_ok3 e _ _ _ (by simpa using h)]
    simp [int_shr8, OpCode_shortint]
  · rw [str_encoder_t.encode_byte_ok3 e _ _ _ (by simpa using h)]
    simp [int_shr8, OpCode_shortint]

theorem str_encoder_t.encode_op_ok (e : str_encoder_t) (op : Nat) (hop : op < 256)
    (h : e.Room 1) : e.encode_op op = e.emit [op] := by
  have h1 : Is_OpCode_ESC op = false := by simp [Is_OpCode_ESC, OpCode_ESC_Base]; omega
  have h2 : ((op : Int) % 256).toNat = op := by omega
  simp [str_encoder_t.encode_op, h1, str_encoder_t.encode_byte_ok e _ h, h2]

namespace subr_subsetter_t

theorem encode_str_op_ok (st : subr_subsetter_t) (fd : Nat) (e : str_encoder_t)
    (o : parsed_cs_op_t) (h : e.Room (reencoded_op st fd o).length) :
    encode_str_op st fd e o = e.emit (reencoded_op st fd o) := by
  unfold reencoded_op at h ⊢
  unfold encode_str_op
  by_cases hd : o.drop_flag = true ∨ o.skip_flag = true
  · rcases hd with hd | hd <;>
      simp [hd, parsed_cs_op_t.for_drop, parsed_cs_op_t.for_skip, str_encoder_t.emit_nil]
  · rw [if_neg hd] at h ⊢
    have hd1 : o.drop_flag = false := by cases hx : o.drop_flag <;> simp_all
    have hd2 : o.skip_flag = false := by cases hx : o.skip_flag <;> simp_all
    simp only [parsed_cs_op_t.for_drop, parsed_cs_op_t.for_skip, hd1, hd2, Bool.not_false,
      Bool.and_self, if_true]
    split_ifs at h ⊢ with h1 h2
    · rw [List.length_append] at h
      rw [str_encoder_t.encode_int_ok e _ (str_encoder_t.Room_mono h (by omega)),
        str_encoder_t.encode_op_ok _ _ (by decide) (str_encoder_t.Room_emit (by simpa using h)),
        str_encoder_t.emit_emit]
    · rw [List.length_append] at h
      rw [str_encoder_t.encode_int_ok e _ (str_encoder_t.Room_mono h (by omega)),
        str_encoder_t.encode_op_ok _ _ (by decide) (str_encoder_t.Room_emit (by simpa using h)),
        str_encoder_t.emit_emit]
    · exact str_encoder_t.copy_str_ok e _ h

theorem encode_str_fold_ok (st : subr_subsetter_t) (fd : Nat) (vals : List parsed_cs_op_t) :
    ∀ e : str_encoder_t, e.Room (vals.flatMap (reencoded_op st fd)).length →
      vals.foldl (encode_str_op st fd) e = e.emit (vals.flatMap (reencoded_op st fd)) := by
  induction vals with
  | nil => intro e _; simp [str_encoder_t.emit_nil]
  | cons o vs ih =>
    intro e h
    rw [List.flatMap_cons, List.length_append] at h
    rw [List.foldl_cons, encode_str_op_ok st fd e o (str_encoder_t.Room_mono h (by omega)),
      ih _ (str_encoder_t.Room_emit h), str_encoder_t.emit_emit, List.flatMap_cons]

theorem encode_str_plain (st : subr_subsetter_t) (str : parsed_cs_str_t) (fd : Nat)
    (buff : str_buff_t) (hp : (str.has_prefix_ && str.hint_dropped) = false)
    (hroom : (str.values.flatMap (reencoded_op st fd)).length ≤ buff.cap) :
    st.encode_str str fd buff = (true, ⟨str.values.flatMap (reencoded_op st fd), buff.cap, true⟩) := by
  have h0 : (str_encoder_t.reset ⟨buff.init, false⟩) = ⟨⟨[], buff.cap, true⟩, false⟩ := by
    simp [str_encoder_t.reset, str_buff_t.init, str_buff_t.resize]
  have hr : (⟨⟨[], buff.cap, true⟩, false⟩ : str_encoder_t).Room
      (str.values.flatMap (reencoded_op st fd)).length := ⟨rfl, rfl, by simpa using hroom⟩
  simp only [encode_str, h0, encode_str_prefix, parsed_cs_str_t.has_prefix_get,
    parsed_cs_str_t.is_hint_dropped, hp, Bool.false_eq_true, if_false]
  rw [encode_str_fold_ok st fd _ _ hr]
  simp [str_encoder_t.emit, str_encoder_t.is_error]

end subr_subsetter_t

theorem toNat_emod_cast (x : Int) : (((x % 256).toNat : Nat) : Int) = x % 256 :=
  Int.toNat_of_nonneg (Int.emod_nonneg _ (by decide))

theorem decode_encode_int_bytes (v : Int) (rest : List Nat) :
    decode_int (encode_int_bytes v ++ rest) =
      some (if v < -32768 then -32768 else if v > 32767 then 32767 else v, rest) := by
  rw [encode_int_bytes_eq]
  by_cases h1 : -1131 ≤ v ∧ v ≤ 1131
  · have hrhs : (if v < -32768 then (-32768 : Int) else if v > 32767 then 32767 else v) = v := by
      rw [if_neg (by omega), if_neg (by omega)]
    rw [hrhs, if_pos h1]
    by_cases h2 : -107 ≤ v ∧ v ≤ 107
    · rw [if_pos h2]
      have e0 := toNat_emod_cast (v + 139)
      generalize ((v + 139) % 256).toNat = b0 at e0 ⊢
      simp only [List.singleton_append, decode_int]
      rw [if_pos (by omega)]
      simp only [Option.some.injEq, Prod.mk.injEq, and_true]
      omega
    · rw [if_neg h2]
      by_cases h3 : v > 0
      · rw [if_pos h3]
        have e0 := toNat_emod_cast ((v - 108) / 256 + 247)
        have e1 := toNat_emod_cast (v - 108)
        generalize (((v - 108) / 256 + 247) % 256).toNat = b0 at e0 ⊢
        generalize ((v - 108) % 256).toNat = b1 at e1 ⊢
        simp only [List.cons_append, List.nil_append, decode_int]
        rw [if_neg (by omega), if_pos (by omega)]
        simp only [Option.some.injEq, Prod.mk.injEq, and_true]
        omega
      · rw [if_neg h3]
        have e0 := toNat_emod_cast ((-v - 108) / 256 + 251)
        have e1 := toNat_emod_cast (-v - 108)
        generalize (((-v - 108) / 256 + 251) % 256).toNat = b0 at e0 ⊢
        generalize ((-v - 108) % 256).toNat = b1 at e1 ⊢
        simp only [List.cons_append, List.nil_append, decode_int]
        rw [if_neg (by omega), if_neg (by omega), if_pos (by omega)]
        simp only [Option.some.injEq, Prod.mk.injEq, and_true]
        omega
  · rw [if_neg h1]
    generalize hc : (if v < -32768 then (-32768 : Int) else if v > 32767 then 32767 else v) = c
    have hc1 : -32768 ≤ c ∧ c ≤ 32767 := by
      subst hc; split_ifs <;> omega
    have e0 := toNat_emod_cast (c / 256 % 256)
    have e1 := toNat_emod_cast (c % 256)
    generalize (c / 256 % 256 % 256).toNat = b1 at e0 ⊢
    generalize (c % 256 % 256).toNat = b2 at e1 ⊢
    simp only [List.cons_append, List.nil_append, decode_int]
    rw [if_neg (by omega), if_neg (by omega), if_neg (by omega), if_pos trivial]
    simp only [Option.some.injEq, Prod.mk.injEq, and_true]
    split_ifs <;> omega

theorem encode_int_bytes_length_le (v : Int) : (encode_int_bytes v).length ≤ 3 := by
  rw [encode_int_bytes_eq]; split_ifs <;> simp

theorem str_encoder_t.encode_int_ok3 (e : str_encoder_t) (v : Int) (herr : e.error = false)
    (hok : e.buff.ok = true) (hroom : e.buff.bytes.length + 3 ≤ e.buff.cap) :
    e.encode_int v = ⟨{ e.buff with bytes := e.buff.bytes ++ encode_int_bytes v }, false⟩ := by
  have h := str_encoder_t.encode_int_ok e v
    ⟨herr, hok, by have := encode_int_bytes_length_le v; omega⟩
  rw [h, str_encoder_t.emit, herr]

/-- C5: with room for three more bytes in a buffer that has not failed, `encode_int v`
appends exactly one byte when `-107 ≤ v ≤ 107`, exactly two bytes when `108 ≤ v ≤ 1131`
(first byte in 247..250) or `-1131 ≤ v ≤ -108` (first byte in 251..254), and exactly three
bytes starting with the short-integer opcode 28 for every other `v`; the boundary values
107, 108, -107, -108, 1131, 1132 and 32767 take 1, 2, 1, 2, 2, 3 and 3 bytes. -/
theorem encode_int_byte_count (e : str_encoder_t) (herr : e.error = false)
    (hok : e.buff.ok = true) (hroom : e.buff.bytes.length + 3 ≤ e.buff.cap) :
    (∀ v : Int, ∃ out : List Nat,
      e.encode_int v = ⟨{ e.buff with bytes := e.buff.bytes ++ out }, false⟩ ∧
      (-107 ≤ v ∧ v ≤ 107 → out.length = 1) ∧
      (108 ≤ v ∧ v ≤ 1131 → ∃ b0 b1, out = [b0, b1] ∧ 247 ≤ b0 ∧ b0 ≤ 250) ∧
      (-1131 ≤ v ∧ v ≤ -108 → ∃ b0 b1, out = [b0, b1] ∧ 251 ≤ b0 ∧ b0 ≤ 254) ∧
      (v < -1131 ∨ 1131 < v → ∃ b1 b2, out = [OpCode_shortint, b1, b2])) ∧
    (e.encode_int 107).buff.bytes.length = e.buff.bytes.length + 1 ∧
    (e.encode_int 108).buff.bytes.length = e.buff.bytes.length + 2 ∧
    (e.encode_int (-107)).buff.bytes.length = e.buff.bytes.length + 1 ∧
    (e.encode_int (-108)).buff.bytes.length = e.buff.bytes.length + 2 ∧
    (e.encode_int 1131).buff.bytes.length = e.buff.bytes.length + 2 ∧
    (e.encode_int 1132).buff.bytes.length = e.buff.bytes.length + 3 ∧
    (e.encode_int 32767).buff.bytes.length = e.buff.bytes.length + 3 := by
  refine ⟨fun v => ⟨encode_int_bytes v, e.encode_int_ok3 v herr hok hroom, ?_, ?_, ?_, ?_⟩,
    ?_, ?_, ?_, ?_, ?_, ?_, ?_⟩
  · intro h
    rw [encode_int_bytes_eq, if_pos (by omega), if_pos h]; rfl
  · intro h
    rw [encode_int_bytes_eq, if_pos (by omega), if_neg (by omega), if_pos (by omega)]
    have e0 := toNat_emod_cast ((v - 108) / 256 + 247)
    generalize (((v - 108) / 256 + 247) % 256).toNat = b0 at e0 ⊢
    exact ⟨b0, _, rfl, by omega, by omega⟩
  · intro h
    rw [encode_int_bytes_eq, if_pos (by omega), if_neg (by omega), if_neg (by omega)]
    have e0 := toNat_emod_cast ((-v - 108) / 256 + 251)
    generalize (((-v - 108) / 256 + 251) % 256).toNat = b0 at e0 ⊢
    exact ⟨b0, _, rfl, by omega, by omega⟩
  · intro h
    rw [encode_int_bytes_eq, if_neg (by omega)]
    exact ⟨_, _, rfl⟩
  all_goals
    rw [e.encode_int_ok3 _ herr hok hroom, encode_int_bytes_eq]
    simp

/-- Witness of C5 on an empty buffer that may grow to three bytes. -/
theorem encode_int_byte_count_witness :
    ((⟨⟨[], 3, true⟩, false⟩ : str_encoder_t).encode_int 1131).buff.bytes.length = 0 + 2 ∧
    ((⟨⟨[], 3, true⟩, false⟩ : str_encoder_t).encode_int 1132).buff.bytes.length = 0 + 3 ∧
    ((⟨⟨[], 3, true⟩, false⟩ : str_encoder_t).encode_int 32767).buff.bytes.length = 0 + 3 :=
  (encode_int_byte_count ⟨⟨[], 3, true⟩, false⟩ rfl rfl (by decide)).2.2.2.2.2

/-- C6: decoding what `encode_int v` has appended (with room for three more bytes) by the
standard Type 2 number decoding consumes exactly those bytes, whatever follows them, and
yields `v` when `-32768 ≤ v ≤ 32767`, 32767 when `v > 32767` and -32768 when
`v < -32768`. -/
theorem encode_int_decodes_clamped (e : str_encoder_t) (herr : e.error = false)
    (hok : e.buff.ok = true) (hroom : e.buff.bytes.length + 3 ≤ e.buff.cap) (v : Int)
    (rest : List Nat) :
    ∃ out : List Nat,
      e.encode_int v = ⟨{ e.buff with bytes := e.buff.bytes ++ out }, false⟩ ∧
      (-32768 ≤ v ∧ v ≤ 32767 → decode_int (out ++ rest) = some (v, rest)) ∧
      (v > 32767 → decode_int (out ++ rest) = some (32767, rest)) ∧
      (v < -32768 → decode_int (out ++ rest) = some (-32768, rest)) := by
  refine ⟨encode_int_bytes v, e.encode_int_ok3 v herr hok hroom, ?_, ?_, ?_⟩
  · intro h
    rw [decode_encode_int_bytes, if_neg (by omega), if_neg (by omega)]
  · intro h
    rw [decode_encode_int_bytes, if_neg (by omega), if_pos h]
  · intro h
    rw [decode_encode_int_bytes, if_pos h]

/-- Witness of C6: 32768 is written as 32767 and -32769 as -32768. -/
theorem encode_int_decodes_clamped_witness :
    (∃ out : List Nat,
      (⟨⟨[], 3, true⟩, false⟩ : str_encoder_t).encode_int 32768 = ⟨⟨[] ++ out, 3, true⟩, false⟩ ∧
      decode_int (out ++ [14]) = some (32767, [14])) ∧
    (∃ out : List Nat,
      (⟨⟨[], 3, true⟩, false⟩ : str_encoder_t).encode_int (-32769) = ⟨⟨[] ++ out, 3, true⟩, false⟩ ∧
      decode_int (out ++ [14]) = some (-32768, [14])) := by
  constructor
  · obtain ⟨out, h1, _, h3, _⟩ :=
      encode_int_decodes_clamped ⟨⟨[], 3, true⟩, false⟩ rfl rfl (by decide) 32768 [14]
    exact ⟨out, h1, h3 (by decide)⟩
  · obtain ⟨out, h1, _, _, h4⟩ :=
      encode_int_decodes_clamped ⟨⟨[], 3, true⟩, false⟩ rfl rfl (by decide) (-32769) [14]
    exact ⟨out, h1, h4 (by decide)⟩

namespace subr_subsetter_t

/-- C1: when no prefix is re-inserted and the buffer may grow to the size of the output,
`encode_str` succeeds and its buffer holds, in operation order and nothing else, nothing for
an operation flagged drop or skip, the `encode_int` bytes of
`local_remaps[fd].biased_num (subr_num)` and the callsubr byte for a callsubr, the
`encode_int` bytes of `global_remap.biased_num (subr_num)` and the callgsubr byte for a
callgsubr, and the raw bytes of every other operation. -/
theorem encode_str_replays_operations (st : subr_subsetter_t) (str : parsed_cs_str_t)
    (fd : Nat) (buff : str_buff_t)
    (hp : (str.has_prefix_ && str.hint_dropped) = false)
    (hroom : (str.values.flatMap (reencoded_op st fd)).length ≤ buff.cap) :
    st.encode_str str fd buff =
        (true, ⟨str.values.flatMap (reencoded_op st fd), buff.cap, true⟩) ∧
    (∀ o : parsed_cs_op_t, o.drop_flag = true ∨ o.skip_flag = true →
      reencoded_op st fd o = []) ∧
    (∀ o : parsed_cs_op_t, o.drop_flag = false → o.skip_flag = false → o.op = OpCode_callsubr →
      reencoded_op st fd o =
        ((⟨⟨[], 3, true⟩, false⟩ : str_encoder_t).encode_int
          ((st.remaps.local_remaps.getD fd default).biased_num o.subr_num)).buff.bytes
        ++ [OpCode_callsubr]) ∧
    (∀ o : parsed_cs_op_t, o.drop_flag = false → o.skip_flag = false → o.op = OpCode_callgsubr →
      reencoded_op st fd o =
        ((⟨⟨[], 3, true⟩, false⟩ : str_encoder_t).encode_int
          (st.remaps.global_remap.biased_num o.subr_num)).buff.bytes
        ++ [OpCode_callgsubr]) ∧
    (∀ o : parsed_cs_op_t, o.drop_flag = false → o.skip_flag = false →
      o.op ≠ OpCode_callsubr → o.op ≠ OpCode_callgsubr → reencoded_op st fd o = o.str) := by
  refine ⟨encode_str_plain st str fd buff hp hroom, ?_, ?_, ?_, ?_⟩
  · intro o h; simp [reencoded_op, h]
  · intro o h1 h2 h3; simp [reencoded_op, h1, h2, h3, encode_int_bytes]
  · intro o h1 h2 h3
    have h4 : o.op ≠ OpCode_callsubr := by rw [h3]; decide
    simp [reencoded_op, h1, h2, h3, encode_int_bytes]
    intro h; exact absurd h (by decide)
  · intro o h1 h2 h3 h4; simp [reencoded_op, h1, h2, h3, h4]

/-- Witness of C1: a skipped operand, a callsubr of subroutine 2 (new number 1, bias 107),
a dropped operation and an `rlineto`. -/
theorem encode_str_replays_operations_witness :
    (⟨⟨true, ∅, []⟩, [], [], [], ⟨default, [⟨⟨[0, CFF_UNDEF_CODE, 1], 2⟩, 107⟩]⟩⟩ :
        subr_subsetter_t).encode_str
      ⟨[⟨141, [141], 0, false, false, true⟩, ⟨10, [10], 2, false, false, false⟩,
        ⟨18, [18], 0, true, false, false⟩, ⟨5, [5], 0, false, false, false⟩],
        true, false, false, false, 0, default⟩ 0 ⟨[], 4, true⟩
      = (true, ⟨[33, 10, 5], 4, true⟩) :=
  (encode_str_replays_operations _ _ 0 ⟨[], 4, true⟩ (by rfl) (by decide)).1

/-- C9: a parsed charstring without callsubr/callgsubr operations, with no operation
flagged drop or skip and not hint-dropped, is re-encoded (the buffer being allowed to grow
to that size) as the concatenation, in order, of the raw byte spans of its operations; so
the output is identical to any input those spans partition. -/
theorem encode_str_round_trip (st : subr_subsetter_t) (str : parsed_cs_str_t) (fd : Nat)
    (buff : str_buff_t)
    (hcalls : ∀ o ∈ str.values, o.op ≠ OpCode_callsubr ∧ o.op ≠ OpCode_callgsubr)
    (hflags : ∀ o ∈ str.values, o.drop_flag = false ∧ o.skip_flag = false)
    (hhint : str.hint_dropped = false)
    (hroom : (str.values.flatMap (fun o => o.str)).length ≤ buff.cap) :
    st.encode_str str fd buff = (true, ⟨str.values.flatMap (fun o => o.str), buff.cap, true⟩) ∧
    (∀ input : List Nat, input = str.values.flatMap (fun o => o.str) →
      (st.encode_str str fd buff).2.bytes = input) := by
  have hfm : str.values.flatMap (reencoded_op st fd) = str.values.flatMap (fun o => o.str) := by
    have : ∀ vals : List parsed_cs_op_t,
        (∀ o ∈ vals, o.op ≠ OpCode_callsubr ∧ o.op ≠ OpCode_callgsubr) →
        (∀ o ∈ vals, o.drop_flag = false ∧ o.skip_flag = false) →
        vals.flatMap (reencoded_op st fd) = vals.flatMap (fun o => o.str) := by
      intro vals
      induction vals with
      | nil => intros; rfl
      | cons o vs ih =>
        intro h1 h2
        have ho1 := h1 o (List.mem_cons_self _ _)
        have ho2 := h2 o (List.mem_cons_self _ _)
        rw [List.flatMap_cons, List.flatMap_cons,
          ih (fun x hx => h1 x (List.mem_cons_of_mem _ hx))
            (fun x hx => h2 x (List.mem_cons_of_mem _ hx))]
        simp [reencoded_op, ho1.1, ho1.2, ho2.1, ho2.2]
    exact this _ hcalls hflags
  have h := encode_str_plain st str fd buff (by simp [hhint]) (by rw [hfm]; exact hroom)
  rw [hfm] at h
  exact ⟨h, fun input hi => by rw [h, hi]⟩

/-- Witness of C9: `100 rmoveto 5 rlineto endchar`-like input of five operations. -/
theorem encode_str_round_trip_witness :
    (⟨⟨true, ∅, []⟩, [], [], [], ⟨default, []⟩⟩ : subr_subsetter_t).encode_str
      ⟨[⟨239, [239], 0, false, false, false⟩, ⟨21, [21], 0, false, false, false⟩,
        ⟨144, [144], 0, false, false, false⟩, ⟨5, [5], 0, false, false, false⟩,
        ⟨14, [14], 0, false, false, false⟩],
        true, false, false, false, 0, default⟩ 0 ⟨[], 5, true⟩
      = (true, ⟨[239, 21, 144, 5, 14], 5, true⟩) :=
  (encode_str_round_trip _ _ 0 ⟨[], 5, true⟩ (by decide) (by decide) (by rfl) (by decide)).1

end subr_subsetter_t

/-- The loop of `subr_remap_t.create` over the first `k` old numbers. -/
theorem remap_loop_inv (S : hb_set_t) (r : remap_t) (len : Nat) (hlen : len < 4294967296) :
    ∀ k, k ≤ len →
      let r1 := (List.range k).foldl
        (fun acc old_num => if hb_set_has S old_num then acc.add old_num else acc)
        (r.reset len)
      r1.map.length = len ∧ r1.count = (S.filter (· < k)).card ∧
      ∀ i, i < len → r1.map[i]? =
        some (if i < k ∧ i ∈ S then (S.filter (· < i)).card else CFF_UNDEF_CODE) := by
  intro k
  induction k with
  | zero =>
    intro _
    refine ⟨by simp [remap_t.reset], by simp [remap_t.reset], ?_⟩
    intro i hi
    simp [remap_t.reset, List.getElem?_replicate, hi]
  | succ k ih =>
    intro hk
    obtain ⟨h1, h2, h3⟩ := ih (by omega)
    simp only [List.range_succ, List.foldl_append, List.foldl_cons, List.foldl_nil]
    generalize (List.range k).foldl
        (fun acc old_num => if hb_set_has S old_num then acc.add old_num else acc)
        (r.reset len) = r1 at h1 h2 h3
    have hcard : (S.filter (· < k)).card ≤ k := by
      calc (S.filter (· < k)).card ≤ (Finset.range k).card :=
            Finset.card_le_card (fun x hx => by
              simp only [Finset.mem_filter] at hx; simpa using hx.2)
        _ = k := Finset.card_range k
    by_cases hkS : k ∈ S
    · have hf : S.filter (· < k + 1) = insert k (S.filter (· < k)) := by
        ext x; simp only [Finset.mem_filter, Finset.mem_insert]
        constructor
        · rintro ⟨hx, hlt⟩
          by_cases hxk : x = k
          · exact Or.inl hxk
          · exact Or.inr ⟨hx, by omega⟩
        · rintro (rfl | ⟨hx, hlt⟩)
          · exact ⟨hkS, by omega⟩
          · exact ⟨hx, by omega⟩
      have hk3 := h3 k (by omega)
      simp only [lt_self_iff_false, false_and, if_false] at hk3
      simp only [hb_set_has, hkS, decide_True, if_true, remap_t.add, hk3]
      refine ⟨by simp [h1], ?_, ?_⟩
      · rw [hf, Finset.card_insert_of_not_mem (by simp), h2]
        omega
      · intro i hi
        simp only [List.getElem?_set]
        by_cases hik : k = i
        · subst hik
          simp [h1, hi, hkS, h2]
        · rw [if_neg hik, h3 i hi]
          congr 1
          by_cases hiS : i ∈ S
          · by_cases hlt : i < k
            · rw [if_pos ⟨hlt, hiS⟩, if_pos ⟨by omega, hiS⟩]
            · rw [if_neg (by tauto), if_neg (by intro h; omega)]
          · rw [if_neg (by tauto), if_neg (by tauto)]
    · have hf : S.filter (· < k + 1) = S.filter (· < k) := by
        ext x; simp only [Finset.mem_filter]
        constructor
        · rintro ⟨hx, hlt⟩
          have : x ≠ k := fun h => hkS (h ▸ hx)
          exact ⟨hx, by omega⟩
        · rintro ⟨hx, hlt⟩; exact ⟨hx, by omega⟩
      simp only [hb_set_has, hkS, decide_False, Bool.false_eq_true, if_false]
      refine ⟨h1, by rw [hf, h2], ?_⟩
      intro i hi
      rw [h3 i hi]
      congr 1
      by_cases hik : i = k
      · subst hik; rw [if_neg (by tauto), if_neg (by tauto)]
      · by_cases hlt : i < k
        · by_cases hiS : i ∈ S
          · rw [if_pos ⟨hlt, hiS⟩, if_pos ⟨by omega, hiS⟩]
          · rw [if_neg (by tauto), if_neg (by tauto)]
        · rw [if_neg (by tauto), if_neg (by intro h; omega)]

theorem remap_length_bound (S : hb_set_t) (hS : ∀ x ∈ S, x < 4294967295) :
    (hb_set_get_max S + 1) % 4294967296 < 4294967296 ∧
    (∀ x ∈ S, x < (hb_set_get_max S + 1) % 4294967296) ∧
    (S = ∅ → (hb_set_get_max S + 1) % 4294967296 = 0) := by
  refine ⟨Nat.mod_lt _ (by decide), ?_, ?_⟩
  · intro x hx
    have hne : S ≠ ∅ := fun h => by simp [h] at hx
    have hle : x ≤ S.sup id := Finset.le_sup (f := id) hx
    have hsup : S.sup id < 4294967295 := by
      obtain ⟨y, hy, hy2⟩ := Finset.exists_mem_eq_sup S (Finset.nonempty_iff_ne_empty.mpr hne) id
      rw [hy2]; exact hS y hy
    simp only [hb_set_get_max, hne, if_false]
    rw [Nat.mod_eq_of_lt (by omega)]
    omega
  · intro h
    simp [hb_set_get_max, h, HB_SET_VALUE_INVALID]

theorem subr_remap_t.create_get (r : subr_remap_t) (S : hb_set_t)
    (hS : ∀ x ∈ S, x < 4294967295) (i : Nat) :
    (r.create S).get i = if i ∈ S then (S.filter (· < i)).card else CFF_UNDEF_CODE := by
  obtain ⟨hb1, hb2, _⟩ := remap_length_bound S hS
  obtain ⟨h1, _, h3⟩ := remap_loop_inv S r.toremap_t _ hb1 _ (le_refl _)
  have hlen : (r.toremap_t.reset ((hb_set_get_max S + 1) % 4294967296)).map.length
      = (hb_set_get_max S + 1) % 4294967296 := by simp [remap_t.reset]
  simp only [subr_remap_t.get, subr_remap_t.create, hlen, h1]
  by_cases hi : i < (hb_set_get_max S + 1) % 4294967296
  · rw [if_neg (by omega), List.getD_eq_getElem?_getD, h3 i hi]
    by_cases hiS : i ∈ S
    · simp [hiS, hi]
    · simp [hiS]
  · rw [if_pos (by omega)]
    have : i ∉ S := fun h => hi (hb2 i h)
    simp [this]

theorem subr_remap_t.create_count (r : subr_remap_t) (S : hb_set_t)
    (hS : ∀ x ∈ S, x < 4294967295) : (r.create S).get_count = S.card := by
  obtain ⟨hb1, hb2, _⟩ := remap_length_bound S hS
  obtain ⟨_, h2, _⟩ := remap_loop_inv S r.toremap_t _ hb1 _ (le_refl _)
  have hlen : (r.toremap_t.reset ((hb_set_get_max S + 1) % 4294967296)).map.length
      = (hb_set_get_max S + 1) % 4294967296 := by simp [remap_t.reset]
  simp only [subr_remap_t.create, remap_t.get_count, hlen, h2]
  congr 1
  ext x
  simp only [Finset.mem_filter, and_iff_left_iff_imp]
  exact hb2 x

theorem subr_remap_t.create_bias (r : subr_remap_t) (S : hb_set_t)
    (hS : ∀ x ∈ S, x < 4294967295) :
    (r.create S).bias =
      if S.card < 1240 then 107 else if S.card < 33900 then 1131 else 32768 := by
  have h := subr_remap_t.create_count r S hS
  simp only [subr_remap_t.create, remap_t.get_count] at h ⊢
  simp only [h]

theorem rank_lt_of_lt (S : hb_set_t) {a b : Nat} (ha : a ∈ S) (hab : a < b) :
    (S.filter (· < a)).card < (S.filter (· < b)).card := by
  apply Finset.card_lt_card
  rw [Finset.ssubset_iff_of_subset]
  · exact ⟨a, by simp [ha, hab], by simp⟩
  · intro x hx
    simp only [Finset.mem_filter] at hx ⊢
    exact ⟨hx.1, by omega⟩

theorem rank_lt_card (S : hb_set_t) {a : Nat} (ha : a ∈ S) :
    (S.filter (· < a)).card < S.card := by
  apply Finset.card_lt_card
  rw [Finset.ssubset_iff_of_subset (Finset.filter_subset _ _)]
  exact ⟨a, ha, by simp⟩

theorem rank_injOn (S : hb_set_t) {a b : Nat} (ha : a ∈ S) (hb : b ∈ S)
    (h : (S.filter (· < a)).card = (S.filter (· < b)).card) : a = b := by
  rcases Nat.lt_trichotomy a b with hlt | heq | hgt
  · have := rank_lt_of_lt S ha hlt; omega
  · exact heq
  · have := rank_lt_of_lt S hb hgt; omega

theorem rank_image (S : hb_set_t) :
    S.image (fun a => (S.filter (· < a)).card) = Finset.range S.card := by
  apply Finset.eq_of_subset_of_card_le
  · intro n hn
    simp only [Finset.mem_image] at hn
    obtain ⟨a, ha, rfl⟩ := hn
    simpa using rank_lt_card S ha
  · rw [Finset.card_image_of_injOn, Finset.card_range]
    intro a ha b hb h
    exact rank_injOn S ha hb h

/-- C2: for a closure set `S` (indices below `HB_SET_VALUE_INVALID`), the remap made by
`create` sends each member to the number of smaller members and every other index to
`CFF_UNDEF_CODE` (every index when `S` is empty); so it is injective on `S`, preserves the
ascending order, `get_count` is the size of `S` and the new numbers of the members are
exactly `0, ..., |S| - 1`. -/
theorem subr_remap_create_renumbers (r : subr_remap_t) (S : hb_set_t)
    (hS : ∀ x ∈ S, x < HB_SET_VALUE_INVALID) :
    (∀ old ∈ S, (r.create S).get old = (S.filter (· < old)).card) ∧
    (∀ i, i ∉ S → (r.create S).get i = CFF_UNDEF_CODE) ∧
    (S = ∅ → ∀ i, (r.create S).get i = CFF_UNDEF_CODE) ∧
    (∀ a ∈ S, ∀ b ∈ S, (r.create S).get a = (r.create S).get b → a = b) ∧
    (∀ a ∈ S, ∀ b ∈ S, a < b → (r.create S).get a < (r.create S).get b) ∧
    (r.create S).get_count = S.card ∧
    (∀ n, n < S.card ↔ ∃ old ∈ S, (r.create S).get old = n) := by
  have hS2 : ∀ x ∈ S, x < 4294967295 := hS
  have hg := subr_remap_t.create_get r S hS2
  refine ⟨?_, ?_, ?_, ?_, ?_, subr_remap_t.create_count r S hS2, ?_⟩
  · intro old ho; rw [hg, if_pos ho]
  · intro i hi; rw [hg, if_neg hi]
  · intro he i; rw [hg, if_neg (by simp [he])]
  · intro a ha b hb h
    rw [hg, hg, if_pos ha, if_pos hb] at h
    exact rank_injOn S ha hb h
  · intro a ha b hb hab
    rw [hg, hg, if_pos ha, if_pos hb]
    exact rank_lt_of_lt S ha hab
  · intro n
    have h := rank_image S
    have hn : n ∈ Finset.range S.card ↔ n ∈ S.image (fun a => (S.filter (· < a)).card) := by
      rw [h]
    simp only [Finset.mem_range, Finset.mem_image] at hn
    rw [hn]
    constructor
    · rintro ⟨a, ha, rfl⟩; exact ⟨a, ha, by rw [hg, if_pos ha]⟩
    · rintro ⟨a, ha, rfl⟩; exact ⟨a, ha, by rw [hg, if_pos ha]⟩

/-- Witness of C2 on the closure `{1, 3, 4}`. -/
theorem subr_remap_create_renumbers_witness :
    ((default : subr_remap_t).create {1, 3, 4}).get 1 = 0 ∧
    ((default : subr_remap_t).create {1, 3, 4}).get 3 = 1 ∧
    ((default : subr_remap_t).create {1, 3, 4}).get 4 = 2 ∧
    ((default : subr_remap_t).create {1, 3, 4}).get 2 = CFF_UNDEF_CODE ∧
    ((default : subr_remap_t).create {1, 3, 4}).get_count = 3 := by
  have h := subr_remap_create_renumbers default {1, 3, 4} (by decide)
  exact ⟨h.1 1 (by decide), h.1 3 (by decide), h.1 4 (by decide), h.2.1 2 (by decide),
    h.2.2.2.2.2.1⟩

/-- C3: after `create` the bias is 107 when the closure has fewer than 1240 members, 1131
when it has at least 1240 and fewer than 33900, and 32768 otherwise; it is the same for
any two closures of the same size, whatever the remap held before; 1239 members give 107,
1240 give 1131, 33899 give 1131 and 33900 give 32768. -/
theorem subr_remap_create_bias (r : subr_remap_t) (S : hb_set_t)
    (hS : ∀ x ∈ S, x < HB_SET_VALUE_INVALID) :
    (r.create S).bias =
      (if S.card < 1240 then 107 else if S.card < 33900 then 1131 else 32768) ∧
    (∀ (r2 : subr_remap_t) (S2 : hb_set_t), (∀ x ∈ S2, x < HB_SET_VALUE_INVALID) →
      S2.card = S.card → (r2.create S2).bias = (r.create S).bias) ∧
    (S.card = 1239 → (r.create S).bias = 107) ∧
    (S.card = 1240 → (r.create S).bias = 1131) ∧
    (S.card = 33899 → (r.create S).bias = 1131) ∧
    (S.card = 33900 → (r.create S).bias = 32768) := by
  have h := subr_remap_t.create_bias r S hS
  refine ⟨h, ?_, ?_, ?_, ?_, ?_⟩
  · intro r2 S2 hS2 hc
    rw [h, subr_remap_t.create_bias r2 S2 hS2, hc]
  all_goals
    intro hc
    rw [h, hc]
    rfl

/-- Witness of C3: the closures `{0, ..., 1238}` and `{0, ..., 1239}`. -/
theorem subr_remap_create_bias_witness :
    ((default : subr_remap_t).create (Finset.range 1239)).bias = 107 ∧
    ((default : subr_remap_t).create (Finset.range 1240)).bias = 1131 :=
  ⟨(subr_remap_create_bias default (Finset.range 1239)
      (fun x hx => lt_trans (Finset.mem_range.mp hx) (by decide))).2.2.1
      (Finset.card_range 1239),
   (subr_remap_create_bias default (Finset.range 1240)
      (fun x hx => lt_trans (Finset.mem_range.mp hx) (by decide))).2.2.2.1
      (Finset.card_range 1240)⟩

theorem parsed_cs_op_t.callee_callsubr {o : parsed_cs_op_t} (h : o.op = OpCode_callsubr) :
    o.callee = some ⟨.CSType_LocalSubr, o.subr_num⟩ := by
  simp [parsed_cs_op_t.callee, h]

theorem parsed_cs_op_t.callee_callgsubr {o : parsed_cs_op_t} (h : o.op = OpCode_callgsubr) :
    o.callee = some ⟨.CSType_GlobalSubr, o.subr_num⟩ := by
  have : o.op ≠ OpCode_callsubr := by rw [h]; decide
  rw [parsed_cs_op_t.callee, if_neg this, if_pos h]

theorem parsed_cs_op_t.callee_other {o : parsed_cs_op_t} (h1 : o.op ≠ OpCode_callsubr)
    (h2 : o.op ≠ OpCode_callgsubr) : o.callee = none := by
  simp [parsed_cs_op_t.callee, h1, h2]

theorem SameStrs.same_refl (p : subr_subset_param_t) : SameStrs p p := ⟨rfl, rfl, rfl, rfl⟩

theorem SameStrs.same_trans {p q r : subr_subset_param_t} (h1 : SameStrs p q) (h2 : SameStrs q r) :
    SameStrs p r :=
  ⟨h2.1.trans h1.1, h2.2.1.trans h1.2.1, h2.2.2.1.trans h1.2.2.1, h2.2.2.2.trans h1.2.2.2⟩

theorem SameStrs.same_str_at {p q : subr_subset_param_t} (h : SameStrs p q) (c : call_context_t) :
    q.str_at c = p.str_at c := by
  obtain ⟨h1, h2, h3, _⟩ := h
  simp [subr_subset_param_t.str_at, h1, h2, h3]

theorem Reaches.reaches_same {p q : subr_subset_param_t} (h : SameStrs p q)
    {src : call_context_t} {site : call_context_t × Nat} {tgt : call_context_t}
    (hr : Reaches p src site tgt) : Reaches q src site tgt := by
  induction hr with
  | call h1 h2 h3 => exact Reaches.call (by rw [h.same_str_at]; exact h1) h2 h3
  | step h1 h2 h3 _ ih => exact Reaches.step (by rw [h.same_str_at]; exact h1) h2 h3 ih

theorem Collected.collected_trans {p q r : subr_subset_param_t} {T U : call_context_t → Prop}
    (h1 : Collected p q T) (h2 : Collected q r U) :
    Collected p r (fun t => T t ∨ U t) := by
  obtain ⟨a1, a2, a3⟩ := h1
  obtain ⟨b1, b2, b3⟩ := h2
  refine ⟨a1.same_trans b1, fun n => ?_, fun n => ?_⟩
  · rw [b2, a2]; tauto
  · rw [b3, a3]; tauto

theorem Collected.collected_congr {p q : subr_subset_param_t} {T U : call_context_t → Prop}
    (h : Collected p q T) (hTU : ∀ t, T t ↔ U t) : Collected p q U := by
  obtain ⟨a1, a2, a3⟩ := h
  exact ⟨a1, fun n => by rw [a2, hTU], fun n => by rw [a3, hTU]⟩

theorem Collected.collected_none (p : subr_subset_param_t) : Collected p p (fun _ => False) :=
  ⟨SameStrs.same_refl p, fun n => by simp, fun n => by simp⟩

theorem AddsTo.adds_same {p q : subr_subset_param_t} (h : SameStrs p q) {o : parsed_cs_op_t}
    {tgt : call_context_t} (ha : AddsTo p o tgt) : AddsTo q o tgt := by
  obtain ⟨h1, mid, h2, h3⟩ := ha
  refine ⟨h1, mid, h2, ?_⟩
  rcases h3 with h3 | ⟨site, h3⟩
  · exact Or.inl h3
  · exact Or.inr ⟨site, h3.reaches_same h⟩

theorem SameStrs.same_symm {p q : subr_subset_param_t} (h : SameStrs p q) : SameStrs q p :=
  ⟨h.1.symm, h.2.1.symm, h.2.2.1.symm, h.2.2.2.symm⟩

namespace subr_subsetter_t

theorem collect_subr_refs_in_subr_spec
    (call : call_context_t → subr_subset_param_t → Option subr_subset_param_t)
    (hcall : ∀ c p q, call c p = some q → Collected p q (fun t => ∃ site, Reaches p c site t))
    (subr_num : Nat) (subrs : cs_type_t) (hs : subrs ≠ .CSType_CharString)
    (p q : subr_subset_param_t)
    (h : collect_subr_refs_in_subr call subr_num subrs p = some q) :
    Collected p q (fun t => (⟨subrs, subr_num⟩ : call_context_t) = t ∨
      ∃ site, Reaches p ⟨subrs, subr_num⟩ site t) := by
  cases subrs with
  | CSType_CharString => exact absurd rfl hs
  | CSType_GlobalSubr =>
    simp only [collect_subr_refs_in_subr] at h
    obtain ⟨a1, a2, a3⟩ := hcall _ _ _ h
    have hs0 : SameStrs p { p with global_closure := hb_set_add p.global_closure subr_num } :=
      ⟨rfl, rfl, rfl, rfl⟩
    refine ⟨hs0.same_trans a1, fun n => ?_, fun n => ?_⟩
    · rw [a2]
      simp only [hb_set_add, Finset.mem_insert, call_context_t.mk.injEq, true_and]
      constructor
      · rintro ((h1 | h1) | ⟨site, h1⟩)
        · exact Or.inr (Or.inl h1.symm)
        · exact Or.inl h1
        · exact Or.inr (Or.inr ⟨site, h1.reaches_same hs0.same_symm⟩)
      · rintro (h1 | h1 | ⟨site, h1⟩)
        · exact Or.inl (Or.inr h1)
        · exact Or.inl (Or.inl h1.symm)
        · exact Or.inr ⟨site, h1.reaches_same hs0⟩
    · rw [a3]
      simp only [call_context_t.mk.injEq, false_and, false_or, reduceCtorEq]
      constructor
      · rintro (h1 | ⟨site, h1⟩)
        · exact Or.inl h1
        · exact Or.inr ⟨site, h1.reaches_same hs0.same_symm⟩
      · rintro (h1 | ⟨site, h1⟩)
        · exact Or.inl h1
        · exact Or.inr ⟨site, h1.reaches_same hs0⟩
  | CSType_LocalSubr =>
    simp only [collect_subr_refs_in_subr] at h
    obtain ⟨a1, a2, a3⟩ := hcall _ _ _ h
    have hs0 : SameStrs p { p with local_closure := hb_set_add p.local_closure subr_num } :=
      ⟨rfl, rfl, rfl, rfl⟩
    refine ⟨hs0.same_trans a1, fun n => ?_, fun n => ?_⟩
    · rw [a2]
      simp only [call_context_t.mk.injEq, false_and, false_or, reduceCtorEq]
      constructor
      · rintro (h1 | ⟨site, h1⟩)
        · exact Or.inl h1
        · exact Or.inr ⟨site, h1.reaches_same hs0.same_symm⟩
      · rintro (h1 | ⟨site, h1⟩)
        · exact Or.inl h1
        · exact Or.inr ⟨site, h1.reaches_same hs0⟩
    · rw [a3]
      simp only [hb_set_add, Finset.mem_insert, call_context_t.mk.injEq, true_and]
      constructor
      · rintro ((h1 | h1) | ⟨site, h1⟩)
        · exact Or.inr (Or.inl h1.symm)
        · exact Or.inl h1
        · exact Or.inr (Or.inr ⟨site, h1.reaches_same hs0.same_symm⟩)
      · rintro (h1 | h1 | ⟨site, h1⟩)
        · exact Or.inl (Or.inr h1)
        · exact Or.inl (Or.inl h1.symm)
        · exact Or.inr ⟨site, h1.reaches_same hs0⟩

theorem collect_subr_refs_iter_spec
    (call : call_context_t → subr_subset_param_t → Option subr_subset_param_t)
    (hcall : ∀ c p q, call c p = some q → Collected p q (fun t => ∃ site, Reaches p c site t))
    (p q : subr_subset_param_t) (v : parsed_cs_op_t)
    (h : collect_subr_refs_iter call p v = some q) :
    Collected p q (fun t => AddsTo p v t) := by
  unfold collect_subr_refs_iter at h
  by_cases hd : v.drop_flag = true
  · simp only [parsed_cs_op_t.for_drop, hd, Bool.not_true, Bool.false_eq_true, if_false,
      Option.some.injEq] at h
    subst h
    exact (Collected.collected_none p).collected_congr (fun t => by simp [AddsTo, hd])
  · have hd0 : v.drop_flag = false := by simpa using hd
    simp only [parsed_cs_op_t.for_drop, hd0, Bool.not_false, if_true] at h
    by_cases h1 : v.op = OpCode_callsubr
    · rw [if_pos h1] at h
      refine (collect_subr_refs_in_subr_spec call hcall _ _ (by decide) p q h).collected_congr
        (fun t => ?_)
      simp only [AddsTo, hd0, parsed_cs_op_t.callee_callsubr h1, Option.some.injEq, true_and]
      constructor
      · intro hx; exact ⟨_, rfl, hx⟩
      · rintro ⟨mid, rfl, hx⟩; exact hx
    · rw [if_neg h1] at h
      by_cases h2 : v.op = OpCode_callgsubr
      · rw [if_pos h2] at h
        refine (collect_subr_refs_in_subr_spec call hcall _ _ (by decide) p q h).collected_congr
          (fun t => ?_)
        simp only [AddsTo, hd0, parsed_cs_op_t.callee_callgsubr h2, Option.some.injEq, true_and]
        constructor
        · intro hx; exact ⟨_, rfl, hx⟩
        · rintro ⟨mid, rfl, hx⟩; exact hx
      · rw [if_neg h2] at h
        simp only [Option.some.injEq] at h
        subst h
        exact (Collected.collected_none p).collected_congr
          (fun t => by simp [AddsTo, parsed_cs_op_t.callee_other h1 h2])

theorem collect_subr_refs_loop_spec
    (call : call_context_t → subr_subset_param_t → Option subr_subset_param_t)
    (hcall : ∀ c p q, call c p = some q → Collected p q (fun t => ∃ site, Reaches p c site t))
    (vs : List parsed_cs_op_t) :
    ∀ p q : subr_subset_param_t, collect_subr_refs_loop call vs p = some q →
      Collected p q (fun t => ∃ o ∈ vs, AddsTo p o t) := by
  induction vs with
  | nil =>
    intro p q h
    simp only [collect_subr_refs_loop, Option.some.injEq] at h
    subst h
    exact (Collected.collected_none p).collected_congr (fun t => by simp)
  | cons v vs ih =>
    intro p q h
    simp only [collect_subr_refs_loop] at h
    cases h1 : collect_subr_refs_iter call p v with
    | none => rw [h1] at h; exact absurd h (by simp)
    | some p1 =>
      rw [h1] at h
      have c1 := collect_subr_refs_iter_spec call hcall p p1 v h1
      have c2 := ih p1 q h
      refine (c1.collected_trans c2).collected_congr (fun t => ?_)
      simp only [List.mem_cons, exists_eq_or_imp]
      constructor
      · rintro (hx | ⟨o, ho, hx⟩)
        · exact Or.inl hx
        · exact Or.inr ⟨o, ho, hx.adds_same c1.1.same_symm⟩
      · rintro (hx | ⟨o, ho, hx⟩)
        · exact Or.inl hx
        · exact Or.inr ⟨o, ho, hx.adds_same c1.1⟩

theorem reaches_iff_adds (p : subr_subset_param_t) (src t : call_context_t) :
    (∃ o ∈ (p.str_at src).values, AddsTo p o t) ↔ ∃ site, Reaches p src site t := by
  constructor
  · rintro ⟨o, ho, hd, mid, hc, hx⟩
    obtain ⟨pos, hpos⟩ := List.mem_iff_getElem?.mp ho
    rcases hx with rfl | ⟨site, hx⟩
    · exact ⟨_, Reaches.call hpos hd hc⟩
    · exact ⟨site, Reaches.step hpos hd hc hx⟩
  · rintro ⟨site, hr⟩
    cases hr with
    | call h1 h2 h3 =>
      exact ⟨_, List.mem_iff_getElem?.mpr ⟨_, h1⟩, h2, _, h3, Or.inl rfl⟩
    | step h1 h2 h3 h4 =>
      exact ⟨_, List.mem_iff_getElem?.mpr ⟨_, h1⟩, h2, _, h3, Or.inr ⟨_, h4⟩⟩

theorem collect_subr_refs_in_str_spec (fuel : Nat) :
    ∀ (src : call_context_t) (p q : subr_subset_param_t),
      collect_subr_refs_in_str fuel src p = some q →
      Collected p q (fun t => ∃ site, Reaches p src site t) := by
  induction fuel with
  | zero => intro src p q h; simp [collect_subr_refs_in_str] at h
  | succ fuel ih =>
    intro src p q h
    simp only [collect_subr_refs_in_str] at h
    exact (collect_subr_refs_loop_spec _ ih _ p q h).collected_congr (reaches_iff_adds p src)

theorem collect_subr_refs_loop_total (p : subr_subset_param_t)
    (call : call_context_t → subr_subset_param_t → Option subr_subset_param_t)
    (ok : call_context_t → Prop)
    (hcall : ∀ c q, SameStrs p q → ok c → ∃ q2, call c q = some q2 ∧ SameStrs p q2)
    (vs : List parsed_cs_op_t)
    (hvs : ∀ o ∈ vs, o.drop_flag = false → ∀ t, o.callee = some t → ok t) :
    ∀ q, SameStrs p q → ∃ q2, collect_subr_refs_loop call vs q = some q2 ∧ SameStrs p q2 := by
  induction vs with
  | nil => intro q hq; exact ⟨q, rfl, hq⟩
  | cons v vs ih =>
    intro q hq
    have hv := hvs v (List.mem_cons_self _ _)
    have : ∃ q1, collect_subr_refs_iter call q v = some q1 ∧ SameStrs p q1 := by
      unfold collect_subr_refs_iter
      by_cases hd : v.drop_flag = true
      · simp only [parsed_cs_op_t.for_drop, hd, Bool.not_true, Bool.false_eq_true, if_false]
        exact ⟨q, rfl, hq⟩
      · have hd0 : v.drop_flag = false := by simpa using hd
        simp only [parsed_cs_op_t.for_drop, hd0, Bool.not_false, if_true]
        by_cases h1 : v.op = OpCode_callsubr
        · rw [if_pos h1]
          simp only [collect_subr_refs_in_subr]
          exact hcall _ _ (hq.same_trans ⟨rfl, rfl, rfl, rfl⟩)
            (hv hd0 _ (parsed_cs_op_t.callee_callsubr h1))
        · rw [if_neg h1]
          by_cases h2 : v.op = OpCode_callgsubr
          · rw [if_pos h2]
            simp only [collect_subr_refs_in_subr]
            exact hcall _ _ (hq.same_trans ⟨rfl, rfl, rfl, rfl⟩)
              (hv hd0 _ (parsed_cs_op_t.callee_callgsubr h2))
          · rw [if_neg h2]; exact ⟨q, rfl, hq⟩
    obtain ⟨q1, hq1, hs1⟩ := this
    obtain ⟨q2, hq2, hs2⟩ := ih (fun o ho => hvs o (List.mem_cons_of_mem _ ho)) q1 hs1
    exact ⟨q2, by simp only [collect_subr_refs_loop, hq1, hq2], hs2⟩

theorem collect_subr_refs_in_str_total (p : subr_subset_param_t) (rank : call_context_t → Nat)
    (hrank : ∀ (src : call_context_t) (pos : Nat) (o : parsed_cs_op_t) (tgt : call_context_t),
      (p.str_at src).values[pos]? = some o → o.drop_flag = false →
      o.callee = some tgt → rank tgt < rank src) (fuel : Nat) :
    ∀ (src : call_context_t) (q : subr_subset_param_t), SameStrs p q → rank src < fuel →
      ∃ q2, collect_subr_refs_in_str fuel src q = some q2 ∧ SameStrs p q2 := by
  induction fuel with
  | zero => intro src q _ h; exact absurd h (by omega)
  | succ fuel ih =>
    intro src q hq hlt
    simp only [collect_subr_refs_in_str]
    apply collect_subr_refs_loop_total p _ (fun c => rank c < fuel)
      (fun c q hq hc => ih c q hq hc) _ _ q hq
    intro o ho hd t ht
    obtain ⟨pos, hpos⟩ := List.mem_iff_getElem?.mp ho
    rw [hq.same_str_at] at hpos
    have := hrank src pos o t hpos hd ht
    omega

theorem SameParsed.same_param_init {st st2 : subr_subsetter_t} (h : SameParsed st st2)
    (i fd : Nat) (b : Bool) : SameStrs (st.param_init i fd b) (st2.param_init i fd b) := by
  obtain ⟨h1, h2, h3⟩ := h
  exact ⟨by simp [subr_subsetter_t.param_init, h1], by simp [subr_subsetter_t.param_init, h2],
    by simp [subr_subsetter_t.param_init, h3], rfl⟩

theorem list_set_getD_self {α : Type} (l : List α) (i : Nat) (d : α) :
    l.set i (l.getD i d) = l := by
  apply List.ext_getElem?
  intro j
  rw [List.getElem?_set]
  by_cases hij : i = j
  · subst hij
    by_cases hi : i < l.length
    · simp [hi, List.getD_eq_getElem?_getD, List.getElem?_eq_getElem hi]
    · simp [hi, List.getElem?_eq_none (not_lt.mp hi)]
  · simp [hij]

theorem param_store_collected (st : subr_subsetter_t) (i fd : Nat) (b : Bool)
    (q : subr_subset_param_t) (hq : SameStrs (st.param_init i fd b) q) :
    SameParsed st (st.param_store i fd q) := by
  obtain ⟨h1, h2, h3, _⟩ := hq
  refine ⟨?_, ?_, ?_⟩
  · simp only [subr_subsetter_t.param_store, h1, subr_subsetter_t.param_init]
    exact list_set_getD_self _ _ _
  · simp only [subr_subsetter_t.param_store, h2, subr_subsetter_t.param_init]
  · simp only [subr_subsetter_t.param_store, h3, subr_subsetter_t.param_init]
    exact list_set_getD_self _ _ _

theorem RankOk.rank_same {p q : subr_subset_param_t} (h : SameStrs p q)
    {rank : call_context_t → Nat} (hr : RankOk p rank) : RankOk q rank := by
  intro src pos o tgt h1 h2 h3
  rw [h.same_str_at] at h1
  exact hr src pos o tgt h1 h2 h3

theorem list_getD_set {α : Type} (l : List α) (i j : Nat) (a d : α) :
    (l.set i a).getD j d = if i = j ∧ i < l.length then a else l.getD j d := by
  simp only [List.getD_eq_getElem?_getD, List.getElem?_set]
  by_cases h1 : i = j
  · subst h1
    by_cases h2 : i < l.length
    · simp [h2]
    · simp [h2, List.getElem?_eq_none (not_lt.mp h2)]
  · simp [h1]

theorem subset_collect_refs_spec (acc : acc_t) (fuel : Nat) (gs : List Nat) :
    ∀ (i : Nat) (st : subr_subsetter_t),
      (∀ g ∈ gs, acc.get_fd g < acc.fdCount) →
      st.closures.local_closures.length = acc.fdCount →
      (∀ j g, gs[j]? = some g → ∃ rank, RankOk (st.param_init (i + j) (acc.get_fd g) true) rank
        ∧ rank root < fuel) →
      ∃ st2, subset_collect_refs acc fuel gs i st = some (true, st2) ∧ SameParsed st st2 ∧
        st2.remaps = st.remaps ∧
        st2.closures.local_closures.length = acc.fdCount ∧
        (∀ n, n ∈ st2.closures.global_closure ↔ n ∈ st.closures.global_closure ∨
          ∃ j g site, gs[j]? = some g ∧
            Reaches (st.param_init (i + j) (acc.get_fd g) true) root site
              ⟨.CSType_GlobalSubr, n⟩) ∧
        (∀ f n, n ∈ st2.closures.local_closures.getD f ∅ ↔
          n ∈ st.closures.local_closures.getD f ∅ ∨
          ∃ j g site, gs[j]? = some g ∧ acc.get_fd g = f ∧
            Reaches (st.param_init (i + j) (acc.get_fd g) true) root site
              ⟨.CSType_LocalSubr, n⟩) := by
  induction gs with
  | nil =>
    intro i st _ hlc _
    exact ⟨st, rfl, ⟨rfl, rfl, rfl⟩, rfl, hlc, fun n => by simp, fun f n => by simp⟩
  | cons g gs ih =>
    intro i st hfd hlc hrank
    have hg : acc.get_fd g < acc.fdCount := hfd g (List.mem_cons_self _ _)
    obtain ⟨rank, hr1, hr2⟩ := hrank 0 g (List.getElem?_cons_zero)
    rw [Nat.add_zero] at hr1
    obtain ⟨q, hq, hsq⟩ := collect_subr_refs_in_str_total _ rank hr1 fuel root _
      (SameStrs.same_refl _) hr2
    obtain ⟨_, c2, c3⟩ := collect_subr_refs_in_str_spec fuel root _ q hq
    have hsp := param_store_collected st i (acc.get_fd g) true q hsq
    have hlc1 : (st.param_store i (acc.get_fd g) q).closures.local_closures.length =
        acc.fdCount := by
      simp [subr_subsetter_t.param_store, hlc]
    obtain ⟨st2, e1, e2, e3, e4, e5, e6⟩ := ih (i + 1) (st.param_store i (acc.get_fd g) q)
      (fun x hx => hfd x (List.mem_cons_of_mem _ hx)) hlc1
      (fun j x hx => by
        obtain ⟨rk, hk1, hk2⟩ := hrank (j + 1) x (by simpa using hx)
        refine ⟨rk, ?_, hk2⟩
        have : i + 1 + j = i + (j + 1) := by omega
        rw [this]
        exact RankOk.rank_same (hsp.same_param_init _ _ _) hk1)
    refine ⟨st2, ?_, ⟨e2.1.trans hsp.1, e2.2.1.trans hsp.2.1, e2.2.2.trans hsp.2.2⟩,
      e3.trans rfl, e4, ?_, ?_⟩
    · have hq2 : collect_subr_refs_in_str fuel ⟨.CSType_CharString, 0⟩
          (st.param_init i (acc.get_fd g) true) = some q := hq
      simp only [subset_collect_refs, if_neg (not_le.mpr hg), hq2]
      exact e1
    · intro n
      rw [e5]
      have hg0 : (st.param_store i (acc.get_fd g) q).closures.global_closure =
          q.global_closure := rfl
      rw [hg0, c2]
      constructor
      · rintro ((h | ⟨site, h⟩) | ⟨j, x, site, hx, h⟩)
        · exact Or.inl h
        · exact Or.inr ⟨0, g, site, List.getElem?_cons_zero, h⟩
        · refine Or.inr ⟨j + 1, x, site, by simpa using hx, ?_⟩
          have : i + 1 + j = i + (j + 1) := by omega
          rw [this] at h
          exact h.reaches_same (hsp.same_param_init _ _ _).same_symm
      · rintro (h | ⟨j, x, site, hx, h⟩)
        · exact Or.inl (Or.inl h)
        · cases j with
          | zero =>
            simp only [List.getElem?_cons_zero, Option.some.injEq] at hx
            subst hx
            exact Or.inl (Or.inr ⟨site, h⟩)
          | succ j =>
            refine Or.inr ⟨j, x, site, by simpa using hx, ?_⟩
            have : i + 1 + j = i + (j + 1) := by omega
            rw [this]
            exact h.reaches_same (hsp.same_param_init _ _ _)
    · intro f n
      rw [e6]
      have hl0 : (st.param_store i (acc.get_fd g) q).closures.local_closures =
          st.closures.local_closures.set (acc.get_fd g) q.local_closure := rfl
      rw [hl0, list_getD_set]
      by_cases hf : acc.get_fd g = f
      · rw [if_pos ⟨hf, by omega⟩, c3]
        have hl1 : (st.param_init i (acc.get_fd g) true).local_closure =
            st.closures.local_closures.getD f ∅ := by
          simp [subr_subsetter_t.param_init, hf]
        rw [hl1]
        constructor
        · rintro ((h | ⟨site, h⟩) | ⟨j, x, site, hx, hxf, h⟩)
          · exact Or.inl h
          · exact Or.inr ⟨0, g, site, List.getElem?_cons_zero, hf, h⟩
          · refine Or.inr ⟨j + 1, x, site, by simpa using hx, hxf, ?_⟩
            have : i + 1 + j = i + (j + 1) := by omega
            rw [this] at h
            exact h.reaches_same (hsp.same_param_init _ _ _).same_symm
        · rintro (h | ⟨j, x, site, hx, hxf, h⟩)
          · exact Or.inl (Or.inl h)
          · cases j with
            | zero =>
              simp only [List.getElem?_cons_zero, Option.some.injEq] at hx
              subst hx
              exact Or.inl (Or.inr ⟨site, h⟩)
            | succ j =>
              refine Or.inr ⟨j, x, site, by simpa using hx, hxf, ?_⟩
              have : i + 1 + j = i + (j + 1) := by omega
              rw [this]
              exact h.reaches_same (hsp.same_param_init _ _ _)
      · rw [if_neg (by tauto)]
        constructor
        · rintro (h | ⟨j, x, site, hx, hxf, h⟩)
          · exact Or.inl h
          · refine Or.inr ⟨j + 1, x, site, by simpa using hx, hxf, ?_⟩
            have : i + 1 + j = i + (j + 1) := by omega
            rw [this] at h
            exact h.reaches_same (hsp.same_param_init _ _ _).same_symm
        · rintro (h | ⟨j, x, site, hx, hxf, h⟩)
          · exact Or.inl h
          · cases j with
            | zero =>
              simp only [List.getElem?_cons_zero, Option.some.injEq] at hx
              subst hx
              exact absurd hxf hf
            | succ j =>
              refine Or.inr ⟨j, x, site, by simpa using hx, hxf, ?_⟩
              have : i + 1 + j = i + (j + 1) := by omega
              rw [this]
              exact h.reaches_same (hsp.same_param_init _ _ _)

theorem bound_of_forall_exists (n : Nat) (P : Nat → Nat → Prop)
    (h : ∀ j, j < n → ∃ k, P j k) : ∃ N, ∀ j, j < n → ∃ k, P j k ∧ k < N := by
  induction n with
  | zero => exact ⟨0, fun j hj => absurd hj (by omega)⟩
  | succ n ih =>
    obtain ⟨N, hN⟩ := ih (fun j hj => h j (by omega))
    obtain ⟨k, hk⟩ := h n (by omega)
    refine ⟨max N (k + 1), fun j hj => ?_⟩
    by_cases hjn : j < n
    · obtain ⟨k2, h1, h2⟩ := hN j hjn
      exact ⟨k2, h1, lt_of_lt_of_le h2 (le_max_left _ _)⟩
    · have : j = n := by omega
      subst this
      exact ⟨k, hk, lt_of_lt_of_le (Nat.lt_succ_self k) (le_max_right _ _)⟩

theorem closures_reset_getD (c : subr_closures_t) (f : Nat) :
    c.reset.local_closures.getD f ∅ = ∅ := by
  simp only [subr_closures_t.reset, List.getD_eq_getElem?_getD, List.getElem?_map]
  cases c.local_closures[f]? <;> rfl

/-- C4: let every retained glyph have an FD below `fdCount`, let the closures hold one
local set per FD, and let the calls not flagged drop be acyclic. Then with enough call depth
the recomputation of the closures in `subset` (`closures.reset` followed by
`collect_subr_refs_in_str` on every retained glyph) succeeds, leaves the parsed charstrings
as they are, and afterwards an index is in the global closure iff that global subroutine
is reached from some retained glyph through a chain of callsubr/callgsubr operations none
of which is flagged drop, and an index is in the local closure of FD `f` iff that local
subroutine is reached in the same way from some retained glyph whose FD is `f` (local
calls being resolved in the table of the glyph's FD). -/
theorem recreated_closures_are_reachable (acc : acc_t) (glyphs : List Nat)
    (st : subr_subsetter_t)
    (hfd : ∀ g ∈ glyphs, acc.get_fd g < acc.fdCount)
    (hlc : st.closures.local_closures.length = acc.fdCount)
    (hacyc : ∀ i g, glyphs[i]? = some g → CallsAcyclic (st.param_init i (acc.get_fd g) true)) :
    ∃ fuel0, ∀ fuel, fuel0 ≤ fuel →
      ∃ st2, subset_recreate_closures acc fuel glyphs st = some (true, st2) ∧
        st2.parsed_charstrings = st.parsed_charstrings ∧
        st2.parsed_global_subrs = st.parsed_global_subrs ∧
        st2.parsed_local_subrs = st.parsed_local_subrs ∧
        (∀ n, n ∈ st2.closures.global_closure ↔
          ∃ i g site, glyphs[i]? = some g ∧
            Reaches (st.param_init i (acc.get_fd g) true) root site ⟨.CSType_GlobalSubr, n⟩) ∧
        (∀ f n, n ∈ st2.closures.local_closures.getD f ∅ ↔
          ∃ i g site, glyphs[i]? = some g ∧ acc.get_fd g = f ∧
            Reaches (st.param_init i (acc.get_fd g) true) root site ⟨.CSType_LocalSubr, n⟩) := by
  obtain ⟨N, hN⟩ := bound_of_forall_exists glyphs.length
    (fun j k => ∀ g, glyphs[j]? = some g →
      ∃ rank, RankOk (st.param_init j (acc.get_fd g) true) rank ∧ rank root = k)
    (fun j hj => by
      obtain ⟨rank, hr⟩ := hacyc j glyphs[j] (List.getElem?_eq_getElem hj)
      refine ⟨rank root, fun g hg => ?_⟩
      rw [List.getElem?_eq_getElem hj, Option.some.injEq] at hg
      subst hg
      exact ⟨rank, hr, rfl⟩)
  refine ⟨N, fun fuel hfuel => ?_⟩
  have hsame : SameParsed st { st with closures := st.closures.reset } := ⟨rfl, rfl, rfl⟩
  obtain ⟨st2, e1, e2, _, _, e5, e6⟩ := subset_collect_refs_spec acc fuel glyphs 0
    { st with closures := st.closures.reset } hfd
    (by simp [subr_closures_t.reset, hlc])
    (fun j g hg => by
      have hj : j < glyphs.length := by
        by_contra hc
        rw [List.getElem?_eq_none (not_lt.mp hc)] at hg
        exact absurd hg (by simp)
      obtain ⟨k, hk, hkN⟩ := hN j hj
      obtain ⟨rank, hr, hrk⟩ := hk g hg
      refine ⟨rank, ?_, by omega⟩
      rw [Nat.zero_add]
      exact RankOk.rank_same (hsame.same_param_init _ _ _) hr)
  refine ⟨st2, e1, e2.1, e2.2.1, e2.2.2, fun n => ?_, fun f n => ?_⟩
  · rw [e5]
    have : n ∉ ({ st with closures := st.closures.reset } : subr_subsetter_t).closures.global_closure := by
      simp [subr_closures_t.reset]
    constructor
    · rintro (h | ⟨j, g, site, hg, h⟩)
      · exact absurd h this
      · rw [Nat.zero_add] at h
        exact ⟨j, g, site, hg, h.reaches_same (hsame.same_param_init _ _ _).same_symm⟩
    · rintro ⟨j, g, site, hg, h⟩
      refine Or.inr ⟨j, g, site, hg, ?_⟩
      rw [Nat.zero_add]
      exact h.reaches_same (hsame.same_param_init _ _ _)
  · rw [e6]
    have : n ∉ ({ st with closures := st.closures.reset } : subr_subsetter_t).closures.local_closures.getD f ∅ := by
      rw [closures_reset_getD]; simp
    constructor
    · rintro (h | ⟨j, g, site, hg, hf, h⟩)
      · exact absurd h this
      · rw [Nat.zero_add] at h
        exact ⟨j, g, site, hg, hf, h.reaches_same (hsame.same_param_init _ _ _).same_symm⟩
    · rintro ⟨j, g, site, hg, hf, h⟩
      refine Or.inr ⟨j, g, site, hg, hf, ?_⟩
      rw [Nat.zero_add]
      exact h.reaches_same (hsame.same_param_init _ _ _)

theorem parsed_cs_str_t.default_values : (default : parsed_cs_str_t).values = [] := rfl

/-- Witness of C4: one glyph that calls local subroutine 0 of FD 0, starting from stale
closures. -/
theorem recreated_closures_are_reachable_witness :
    ∃ fuel0, ∀ fuel, fuel0 ≤ fuel →
      ∃ st2, subset_recreate_closures ⟨1, fun _ => 0⟩ fuel [7]
          ⟨⟨true, {5}, [{3}]⟩,
            [⟨[⟨139, [139], 0, false, false, true⟩, ⟨10, [10], 0, false, false, false⟩,
              ⟨14, [14], 0, false, false, false⟩], true, false, false, false, 0, default⟩],
            [], [[⟨[⟨11, [11], 0, false, false, false⟩], true, false, false, false, 0, default⟩]],
            ⟨default, [default]⟩⟩ = some (true, st2) ∧
        0 ∈ st2.closures.local_closures.getD 0 ∅ := by
  obtain ⟨fuel0, h⟩ := recreated_closures_are_reachable ⟨1, fun _ => 0⟩ [7]
    ⟨⟨true, {5}, [{3}]⟩,
      [⟨[⟨139, [139], 0, false, false, true⟩, ⟨10, [10], 0, false, false, false⟩,
        ⟨14, [14], 0, false, false, false⟩], true, false, false, false, 0, default⟩],
      [], [[⟨[⟨11, [11], 0, false, false, false⟩], true, false, false, false, 0, default⟩]],
      ⟨default, [default]⟩⟩
    (fun _ _ => Nat.zero_lt_one) rfl
    (by
      intro i g hg
      refine ⟨fun c => if c.type = .CSType_CharString then 1 else 0, ?_⟩
      cases i with
      | succ i => simp at hg
      | zero =>
        simp only [List.getElem?_cons_zero, Option.some.injEq] at hg
        subst hg
        intro src pos o tgt h1 h2 h3
        rcases src with ⟨ty, num⟩
        cases ty with
        | CSType_CharString =>
          simp only [subr_subset_param_t.str_at, subr_subsetter_t.param_init] at h1
          match pos, h1 with
          | 0, h1 => simp at h1; subst h1; simp [parsed_cs_op_t.callee, OpCode_callsubr, OpCode_callgsubr] at h3
          | 1, h1 =>
            simp at h1; subst h1
            simp [parsed_cs_op_t.callee, OpCode_callsubr, OpCode_callgsubr] at h3
            subst h3; simp
          | 2, h1 => simp at h1; subst h1; simp [parsed_cs_op_t.callee, OpCode_callsubr, OpCode_callgsubr] at h3
          | n + 3, h1 => simp at h1
        | CSType_GlobalSubr =>
          simp [subr_subset_param_t.str_at, subr_subsetter_t.param_init,
            parsed_cs_str_t.default_values] at h1
        | CSType_LocalSubr =>
          simp only [subr_subset_param_t.str_at, subr_subsetter_t.param_init] at h1
          cases num with
          | zero =>
            match pos, h1 with
            | 0, h1 => simp at h1; subst h1; simp [parsed_cs_op_t.callee, OpCode_callsubr, OpCode_callgsubr] at h3
            | n + 1, h1 => simp at h1
          | succ num => simp [parsed_cs_str_t.default_values] at h1)
  refine ⟨fuel0, fun fuel hf => ?_⟩
  obtain ⟨st2, e1, _, _, _, e5, e6⟩ := h fuel hf
  exact ⟨st2, e1, (e6 0 0).mpr ⟨0, 7, (root, 1), rfl, rfl, @Reaches.call _ _ 1 _ _ rfl rfl rfl⟩⟩

end subr_subsetter_t

theorem OpLe.op_refl (o : parsed_cs_op_t) : OpLe o o := Or.inl rfl

theorem OpLe.op_trans {a b c : parsed_cs_op_t} (h1 : OpLe a b) (h2 : OpLe b c) : OpLe a c := by
  rcases h1 with rfl | rfl <;> rcases h2 with rfl | rfl
  · exact Or.inl rfl
  · exact Or.inr rfl
  · exact Or.inr rfl
  · exact Or.inr rfl

theorem OpLe.set_drop_le (o : parsed_cs_op_t) : OpLe o o.set_drop := by
  unfold parsed_cs_op_t.set_drop
  split
  · exact Or.inr rfl
  · exact Or.inl rfl

theorem ValsLe.vals_refl (vs : List parsed_cs_op_t) : ValsLe vs vs :=
  ⟨rfl, fun _ => OpLe.op_refl _⟩

theorem ValsLe.vals_trans {a b c : List parsed_cs_op_t} (h1 : ValsLe a b) (h2 : ValsLe b c) :
    ValsLe a c :=
  ⟨h2.1.trans h1.1, fun i => (h1.2 i).op_trans (h2.2 i)⟩

theorem ValsLe.set_le (vs : List parsed_cs_op_t) (pos : Nat) (o2 : parsed_cs_op_t)
    (h : OpLe (vs.getD pos default) o2) : ValsLe vs (vs.set pos o2) := by
  refine ⟨by simp, fun i => ?_⟩
  rw [subr_subsetter_t.list_getD_set]
  by_cases hc : pos = i ∧ pos < vs.length
  · rw [if_pos hc, ← hc.1]; exact h
  · rw [if_neg hc]; exact OpLe.op_refl _

theorem StrLe.str_refl (s : parsed_cs_str_t) : StrLe s s :=
  ⟨ValsLe.vals_refl _, rfl, rfl, rfl, rfl⟩

theorem StrLe.str_trans {a b c : parsed_cs_str_t} (h1 : StrLe a b) (h2 : StrLe b c) :
    StrLe a c :=
  ⟨h1.1.vals_trans h2.1, h2.2.1.trans h1.2.1, h2.2.2.1.trans h1.2.2.1,
    h2.2.2.2.1.trans h1.2.2.2.1, h2.2.2.2.2.trans h1.2.2.2.2⟩

theorem ParamLe.param_refl (p : subr_subset_param_t) : ParamLe p p :=
  ⟨fun _ => StrLe.str_refl _, rfl, rfl, rfl, rfl, rfl, rfl, rfl⟩

theorem ParamLe.param_trans {a b c : subr_subset_param_t} (h1 : ParamLe a b)
    (h2 : ParamLe b c) : ParamLe a c :=
  ⟨fun x => (h1.1 x).str_trans (h2.1 x), h2.2.1.trans h1.2.1, h2.2.2.1.trans h1.2.2.1,
    h2.2.2.2.1.trans h1.2.2.2.1, h2.2.2.2.2.1.trans h1.2.2.2.2.1,
    h2.2.2.2.2.2.1.trans h1.2.2.2.2.2.1, h2.2.2.2.2.2.2.1.trans h1.2.2.2.2.2.2.1,
    h2.2.2.2.2.2.2.2.trans h1.2.2.2.2.2.2.2⟩

theorem ValsLe.nil_le {vs : List parsed_cs_op_t} (h : ValsLe [] vs) : vs = [] :=
  List.length_eq_zero.mp h.1

theorem ParamLe.set_values_le (p : subr_subset_param_t) (c : call_context_t)
    (vals : List parsed_cs_op_t) (h : ValsLe (p.str_at c).values vals) :
    ParamLe p (p.set_values_at c vals) := by
  rcases c with ⟨ty, num⟩
  cases ty with
  | CSType_CharString =>
    refine ⟨fun c2 => ?_, rfl, rfl, rfl, rfl, rfl, rfl, rfl⟩
    rcases c2 with ⟨ty2, num2⟩
    cases ty2 with
    | CSType_CharString => exact ⟨h, rfl, rfl, rfl, rfl⟩
    | CSType_GlobalSubr => exact StrLe.str_refl _
    | CSType_LocalSubr => exact StrLe.str_refl _
  | CSType_GlobalSubr =>
    refine ⟨fun c2 => ?_, rfl, rfl, by simp [subr_subset_param_t.set_values_at], rfl, rfl,
      rfl, rfl⟩
    rcases c2 with ⟨ty2, num2⟩
    cases ty2 with
    | CSType_CharString => exact StrLe.str_refl _
    | CSType_LocalSubr => exact StrLe.str_refl _
    | CSType_GlobalSubr =>
      simp only [subr_subset_param_t.str_at, subr_subset_param_t.set_values_at]
      rw [subr_subsetter_t.list_getD_set]
      by_cases hc : num = num2 ∧ num < p.parsed_global_subrs.length
      · rw [if_pos hc, ← hc.1]; exact ⟨h, rfl, rfl, rfl, rfl⟩
      · rw [if_neg hc]; exact StrLe.str_refl _
  | CSType_LocalSubr =>
    refine ⟨fun c2 => ?_, rfl, rfl, rfl, by simp [subr_subset_param_t.set_values_at], rfl,
      rfl, rfl⟩
    rcases c2 with ⟨ty2, num2⟩
    cases ty2 with
    | CSType_CharString => exact StrLe.str_refl _
    | CSType_GlobalSubr => exact StrLe.str_refl _
    | CSType_LocalSubr =>
      simp only [subr_subset_param_t.str_at, subr_subset_param_t.set_values_at]
      rw [subr_subsetter_t.list_getD_set]
      by_cases hc : num = num2 ∧ num < p.parsed_local_subrs.length
      · rw [if_pos hc, ← hc.1]; exact ⟨h, rfl, rfl, rfl, rfl⟩
      · rw [if_neg hc]; exact StrLe.str_refl _

theorem ParamLe.set_drop_at_le (p : subr_subset_param_t) (c : call_context_t) (pos : Nat) :
    ParamLe p (p.set_drop_at c pos) :=
  ParamLe.set_values_le p c _ (ValsLe.set_le _ _ _ (OpLe.set_drop_le _))

namespace subr_subsetter_t

theorem drop_hints_back_le (n : Nat) :
    ∀ (vals : List parsed_cs_op_t) (vs : Bool), ValsLe vals (drop_hints_back vals vs n).1 := by
  induction n with
  | zero => intro vals vs; exact ValsLe.vals_refl _
  | succ n ih =>
    intro vals vs
    simp only [drop_hints_back]
    split
    · exact ValsLe.vals_refl _
    · exact (ValsLe.set_le _ _ _ (OpLe.set_drop_le _)).vals_trans (ih _ _)

theorem drop_hints_in_subr_le
    (call : call_context_t → drop_env_t → Option (Bool × drop_env_t))
    (hcall : ∀ c e r, call c e = some r → ParamLe e.param r.2.param)
    (str : call_context_t) (pos : Nat) (subrs : cs_type_t) (subr_num : Nat)
    (e : drop_env_t) (r : Bool × drop_env_t)
    (h : drop_hints_in_subr call str pos subrs subr_num e = some r) :
    ParamLe e.param r.2.param := by
  unfold drop_hints_in_subr at h
  simp only at h
  cases hc : call ⟨subrs, subr_num⟩
      { e with drop := { e.drop with ends_in_hint := false } } with
  | none => rw [hc] at h; exact absurd h (by simp)
  | some r1 =>
    obtain ⟨b1, e1⟩ := r1
    rw [hc] at h
    have h1 : ParamLe e.param e1.param := hcall _ _ _ hc
    simp only at h
    split at h
    · split at h
      · simp only [Option.some.injEq] at h
        subst h
        exact h1.param_trans (ParamLe.set_drop_at_le _ _ _)
      · simp only [Option.some.injEq] at h
        subst h
        exact h1.param_trans (ParamLe.set_drop_at_le _ _ _)
    · simp only [Option.some.injEq] at h
      subst h
      exact h1

theorem drop_hints_switch_le
    (call : call_context_t → drop_env_t → Option (Bool × drop_env_t))
    (hcall : ∀ c e r, call c e = some r → ParamLe e.param r.2.param)
    (str : call_context_t) (pos : Nat) (e : drop_env_t) (r : Bool × drop_env_t)
    (h : drop_hints_switch call str pos e = some r) :
    ParamLe e.param r.2.param := by
  unfold drop_hints_switch at h
  simp only at h
  split at h
  · exact drop_hints_in_subr_le call hcall _ _ _ _ _ _ h
  split at h
  · exact drop_hints_in_subr_le call hcall _ _ _ _ _ _ h
  split at h
  · simp only [Option.some.injEq] at h; subst h; exact ParamLe.param_refl _
  split at h
  · simp only [Option.some.injEq] at h; subst h; exact ParamLe.set_drop_at_le _ _ _
  split at h
  · split at h
    · simp only [Option.some.injEq] at h; subst h; exact ParamLe.set_drop_at_le _ _ _
    · simp only [Option.some.injEq] at h; subst h; exact ParamLe.set_drop_at_le _ _ _
  split at h
  · simp only [Option.some.injEq] at h; subst h; exact ParamLe.set_drop_at_le _ _ _
  · simp only [Option.some.injEq] at h; subst h; exact ParamLe.param_refl _

theorem drop_hints_iter_le
    (call : call_context_t → drop_env_t → Option (Bool × drop_env_t))
    (hcall : ∀ c e r, call c e = some r → ParamLe e.param r.2.param)
    (str : call_context_t) (pos : Nat) (seen : Bool) (e : drop_env_t) (r : Bool × drop_env_t)
    (h : drop_hints_iter call str pos seen e = some r) :
    ParamLe e.param r.2.param := by
  unfold drop_hints_iter at h
  cases hs : drop_hints_switch call str pos e with
  | none => rw [hs] at h; exact absurd h (by simp)
  | some r1 =>
    obtain ⟨b1, e1⟩ := r1
    rw [hs] at h
    have h1 : ParamLe e.param e1.param := drop_hints_switch_le call hcall _ _ _ _ hs
    simp only at h
    split at h
    · simp only [Option.some.injEq] at h
      subst h
      exact h1.param_trans (ParamLe.set_values_le _ _ _ (drop_hints_back_le _ _ _))
    · simp only [Option.some.injEq] at h
      subst h
      exact h1

theorem drop_hints_loop_le
    (call : call_context_t → drop_env_t → Option (Bool × drop_env_t))
    (hcall : ∀ c e r, call c e = some r → ParamLe e.param r.2.param)
    (str : call_context_t) (n : Nat) :
    ∀ (pos : Nat) (seen : Bool) (e : drop_env_t) (r : Bool × drop_env_t),
      drop_hints_loop call str n pos seen e = some r → ParamLe e.param r.2.param := by
  induction n with
  | zero =>
    intro pos seen e r h
    simp only [drop_hints_loop, Option.some.injEq] at h
    subst h
    exact ParamLe.param_refl _
  | succ n ih =>
    intro pos seen e r h
    simp only [drop_hints_loop] at h
    cases hs : drop_hints_iter call str pos seen e with
    | none => rw [hs] at h; exact absurd h (by simp)
    | some r1 =>
      obtain ⟨b1, e1⟩ := r1
      rw [hs] at h
      exact (drop_hints_iter_le call hcall _ _ _ _ _ hs).param_trans (ih _ _ _ _ h)

theorem drop_hints_in_str_le (fuel : Nat) :
    ∀ (str : call_context_t) (e : drop_env_t) (r : Bool × drop_env_t),
      drop_hints_in_str fuel str e = some r → ParamLe e.param r.2.param := by
  induction fuel with
  | zero => intro str e r h; simp [drop_hints_in_str] at h
  | succ fuel ih =>
    intro str e r h
    simp only [drop_hints_in_str] at h
    exact drop_hints_loop_le _ ih _ _ _ _ _ _ h

end subr_subsetter_t

theorem list_getD_of_getElem? {α : Type} {l : List α} {i : Nat} {a : α} (d : α)
    (h : l[i]? = some a) : l.getD i d = a := by
  simp [List.getD_eq_getElem?_getD, h]

theorem ValsLe.get_back {vs vs2 : List parsed_cs_op_t} (h : ValsLe vs vs2) {i : Nat}
    {o2 : parsed_cs_op_t} (h2 : vs2[i]? = some o2) :
    ∃ o, vs[i]? = some o ∧ OpLe o o2 := by
  have hi : i < vs2.length := by
    by_contra hc
    rw [List.getElem?_eq_none (not_lt.mp hc)] at h2
    exact absurd h2 (by simp)
  have hi1 : i < vs.length := h.1 ▸ hi
  refine ⟨vs[i], List.getElem?_eq_getElem hi1, ?_⟩
  have := h.2 i
  rw [list_getD_of_getElem? default h2,
    list_getD_of_getElem? default (List.getElem?_eq_getElem hi1)] at this
  exact this

theorem ValsLe.get_fwd {vs vs2 : List parsed_cs_op_t} (h : ValsLe vs vs2) {i : Nat}
    {o : parsed_cs_op_t} (h1 : vs[i]? = some o) :
    ∃ o2, vs2[i]? = some o2 ∧ OpLe o o2 := by
  have hi : i < vs.length := by
    by_contra hc
    rw [List.getElem?_eq_none (not_lt.mp hc)] at h1
    exact absurd h1 (by simp)
  have hi2 : i < vs2.length := h.1.symm ▸ hi
  refine ⟨vs2[i], List.getElem?_eq_getElem hi2, ?_⟩
  have := h.2 i
  rw [list_getD_of_getElem? default h1,
    list_getD_of_getElem? default (List.getElem?_eq_getElem hi2)] at this
  exact this

theorem OpLe.callee_eq {o o2 : parsed_cs_op_t} (h : OpLe o o2) : o2.callee = o.callee := by
  rcases h with rfl | rfl <;> rfl

theorem RankAll.rank_all_le {p p2 : subr_subset_param_t}
    (h : ∀ c, StrLe (p.str_at c) (p2.str_at c))
    {rank : call_context_t → Nat} (hr : RankAll p rank) : RankAll p2 rank := by
  intro src pos o2 tgt h1 h2
  obtain ⟨o, ho1, ho2⟩ := (h src).1.get_back h1
  exact hr src pos o tgt ho1 (ho2.callee_eq ▸ h2)

namespace subr_subsetter_t

theorem drop_hints_in_subr_total
    (call : call_context_t → drop_env_t → Option (Bool × drop_env_t))
    (str : call_context_t) (pos : Nat) (subrs : cs_type_t) (subr_num : Nat)
    (e : drop_env_t)
    (h : ∃ r, call ⟨subrs, subr_num⟩
      { e with drop := { e.drop with ends_in_hint := false } } = some r) :
    ∃ r, drop_hints_in_subr call str pos subrs subr_num e = some r := by
  obtain ⟨⟨b1, e1⟩, hr⟩ := h
  unfold drop_hints_in_subr
  simp only [hr]
  split
  · split
    · exact ⟨_, rfl⟩
    · exact ⟨_, rfl⟩
  · exact ⟨_, rfl⟩

theorem drop_hints_switch_total (rank : call_context_t → Nat) (fuel : Nat)
    (call : call_context_t → drop_env_t → Option (Bool × drop_env_t))
    (hcall : ∀ c e, RankAll e.param rank → rank c < fuel → ∃ r, call c e = some r)
    (str : call_context_t) (pos : Nat) (e : drop_env_t)
    (hr : RankAll e.param rank) (hlt : rank str < fuel + 1) :
    ∃ r, drop_hints_switch call str pos e = some r := by
  have hcallee : ∀ t, ((e.param.str_at str).values.getD pos default).callee = some t →
      rank t < fuel := by
    intro t ht
    cases hv : (e.param.str_at str).values[pos]? with
    | none =>
      rw [List.getD_eq_getElem?_getD, hv] at ht
      exact absurd ht (by simp [parsed_cs_op_t.callee, OpCode_callsubr, OpCode_callgsubr])
    | some v =>
      rw [list_getD_of_getElem? default hv] at ht
      have := hr str pos v t hv ht
      omega
  unfold drop_hints_switch
  simp only
  split
  · rename_i h1
    exact drop_hints_in_subr_total call _ _ _ _ _
      (hcall _ _ hr (hcallee _ (parsed_cs_op_t.callee_callsubr h1)))
  split
  · rename_i h1 h2
    exact drop_hints_in_subr_total call _ _ _ _ _
      (hcall _ _ hr (hcallee _ (parsed_cs_op_t.callee_callgsubr h2)))
  split
  · exact ⟨_, rfl⟩
  split
  · exact ⟨_, rfl⟩
  split
  · split
    · exact ⟨_, rfl⟩
    · exact ⟨_, rfl⟩
  split
  · exact ⟨_, rfl⟩
  · exact ⟨_, rfl⟩

theorem drop_hints_iter_total (rank : call_context_t → Nat) (fuel : Nat)
    (call : call_context_t → drop_env_t → Option (Bool × drop_env_t))
    (hcall : ∀ c e, RankAll e.param rank → rank c < fuel → ∃ r, call c e = some r)
    (str : call_context_t) (pos : Nat) (seen : Bool) (e : drop_env_t)
    (hr : RankAll e.param rank) (hlt : rank str < fuel + 1) :
    ∃ r, drop_hints_iter call str pos seen e = some r := by
  obtain ⟨⟨b1, e1⟩, h1⟩ := drop_hints_switch_total rank fuel call hcall str pos e hr hlt
  unfold drop_hints_iter
  simp only [h1]
  split
  · exact ⟨_, rfl⟩
  · exact ⟨_, rfl⟩

theorem drop_hints_loop_total (rank : call_context_t → Nat) (fuel : Nat)
    (call : call_context_t → drop_env_t → Option (Bool × drop_env_t))
    (hcall : ∀ c e, RankAll e.param rank → rank c < fuel → ∃ r, call c e = some r)
    (hle : ∀ c e r, call c e = some r → ParamLe e.param r.2.param)
    (str : call_context_t) (hlt : rank str < fuel + 1) (n : Nat) :
    ∀ (pos : Nat) (seen : Bool) (e : drop_env_t), RankAll e.param rank →
      ∃ r, drop_hints_loop call str n pos seen e = some r := by
  induction n with
  | zero => intro pos seen e _; exact ⟨_, rfl⟩
  | succ n ih =>
    intro pos seen e hr
    obtain ⟨⟨b1, e1⟩, h1⟩ := drop_hints_iter_total rank fuel call hcall str pos seen e hr hlt
    have hle1 := drop_hints_iter_le call hle _ _ _ _ _ h1
    obtain ⟨r, h2⟩ := ih (pos + 1) b1 e1 (hr.rank_all_le hle1.1)
    exact ⟨r, by simp only [drop_hints_loop, h1, h2]⟩

theorem drop_hints_in_str_total (rank : call_context_t → Nat) (fuel : Nat) :
    ∀ (str : call_context_t) (e : drop_env_t), RankAll e.param rank → rank str < fuel →
      ∃ r, drop_hints_in_str fuel str e = some r := by
  induction fuel with
  | zero => intro str e _ h; exact absurd h (by omega)
  | succ fuel ih =>
    intro str e hr hlt
    simp only [drop_hints_in_str]
    exact drop_hints_loop_total rank fuel _ (fun c e h1 h2 => ih c e h1 h2)
      (drop_hints_in_str_le fuel) str hlt _ _ _ _ hr

end subr_subsetter_t

theorem SubLe.sub_refl (st : subr_subsetter_t) : SubLe st st :=
  ⟨rfl, fun _ => StrLe.str_refl _, rfl, fun _ => StrLe.str_refl _, rfl, fun _ => rfl,
    fun _ _ => StrLe.str_refl _, rfl, rfl⟩

theorem SubLe.sub_trans {a b c : subr_subsetter_t} (h1 : SubLe a b) (h2 : SubLe b c) :
    SubLe a c :=
  ⟨h2.cs_len.trans h1.cs_len, fun i => (h1.cs_le i).str_trans (h2.cs_le i),
    h2.g_len.trans h1.g_len, fun i => (h1.g_le i).str_trans (h2.g_le i),
    h2.l_len.trans h1.l_len, fun f => (h2.l_len2 f).trans (h1.l_len2 f),
    fun f n => (h1.l_le f n).str_trans (h2.l_le f n),
    h2.closures_eq.trans h1.closures_eq, h2.remaps_eq.trans h1.remaps_eq⟩

theorem SubLe.param_le {st st2 : subr_subsetter_t} (h : SubLe st st2) (i fd : Nat) (b : Bool)
    (c : call_context_t) :
    StrLe ((st.param_init i fd b).str_at c) ((st2.param_init i fd b).str_at c) := by
  rcases c with ⟨ty, num⟩
  cases ty with
  | CSType_CharString => exact h.cs_le i
  | CSType_GlobalSubr => exact h.g_le num
  | CSType_LocalSubr => exact h.l_le fd num

theorem StrLe.mark_le {s s2 : parsed_cs_str_t} (h : StrLe s s2) (seen : Bool)
    (d : drop_hints_param_t) : StrLe s (subr_subsetter_t.subset_mark_hint_dropped seen d s2) := by
  unfold subr_subsetter_t.subset_mark_hint_dropped
  split
  · split
    · exact h
    · exact h
  · exact h

namespace subr_subsetter_t

theorem subset_drop_hints_step_le (st : subr_subsetter_t) (i fd : Nat) (seen : Bool)
    (e2 : drop_env_t) (h : ParamLe (st.param_init i fd true) e2.param) :
    SubLe st { (st.param_store i fd e2.param) with
      parsed_charstrings := (st.param_store i fd e2.param).parsed_charstrings.set i
        (subset_mark_hint_dropped seen e2.drop
          ((st.param_store i fd e2.param).parsed_charstrings.getD i default)) } := by
  obtain ⟨h1, _, _, h4, h5, h6, h7, _⟩ := h
  refine ⟨by simp [param_store], fun j => ?_, h4, fun n => h1 ⟨.CSType_GlobalSubr, n⟩,
    by simp [param_store], fun f => ?_, fun f n => ?_, ?_, rfl⟩
  · simp only [param_store]
    rw [list_getD_set]
    by_cases hc : i = j ∧ i < (st.parsed_charstrings.set i e2.param.parsed_charstring).length
    · rw [if_pos hc, list_getD_set, if_pos ⟨rfl, by simpa using hc.2⟩, ← hc.1]
      exact (h1 ⟨.CSType_CharString, 0⟩).mark_le _ _
    · rw [if_neg hc, list_getD_set]
      have hc2 : ¬ (i = j ∧ i < st.parsed_charstrings.length) := by simpa using hc
      rw [if_neg hc2]
      exact StrLe.str_refl _
  · simp only [param_store]
    rw [list_getD_set]
    by_cases hc : fd = f ∧ fd < st.parsed_local_subrs.length
    · rw [if_pos hc, ← hc.1]; exact h5
    · rw [if_neg hc]
  · simp only [param_store]
    rw [list_getD_set]
    by_cases hc : fd = f ∧ fd < st.parsed_local_subrs.length
    · rw [if_pos hc, ← hc.1]; exact h1 ⟨.CSType_LocalSubr, n⟩
    · rw [if_neg hc]; exact StrLe.str_refl _
  · simp only [param_store, h6, h7, param_init]
    rw [list_set_getD_self]

theorem subset_drop_hints_spec (acc : acc_t) (fuel : Nat) (gs : List Nat) :
    ∀ (i : Nat) (st : subr_subsetter_t),
      (∀ g ∈ gs, acc.get_fd g < acc.fdCount) →
      (∀ j g, gs[j]? = some g →
        ∃ rank, RankAll (st.param_init (i + j) (acc.get_fd g) true) rank ∧ rank root < fuel) →
      ∃ st2, subset_drop_hints acc fuel gs i st = some (true, st2) ∧ SubLe st st2 := by
  induction gs with
  | nil => intro i st _ _; exact ⟨st, rfl, SubLe.sub_refl st⟩
  | cons g gs ih =>
    intro i st hfd hrank
    have hg : acc.get_fd g < acc.fdCount := hfd g (List.mem_cons_self _ _)
    obtain ⟨rank, hr1, hr2⟩ := hrank 0 g (List.getElem?_cons_zero)
    rw [Nat.add_zero] at hr1
    obtain ⟨⟨seen, e2⟩, he⟩ := drop_hints_in_str_total rank fuel root
      ⟨st.param_init i (acc.get_fd g) true, drop_hints_param_t.new⟩ hr1 hr2
    have hle := drop_hints_in_str_le fuel _ _ _ he
    have hstep := subset_drop_hints_step_le st i (acc.get_fd g) seen e2 hle
    obtain ⟨st2, e1, e3⟩ := ih (i + 1) _
      (fun x hx => hfd x (List.mem_cons_of_mem _ hx))
      (fun j x hx => by
        obtain ⟨rk, hk1, hk2⟩ := hrank (j + 1) x (by simpa using hx)
        refine ⟨rk, ?_, hk2⟩
        have : i + 1 + j = i + (j + 1) := by omega
        rw [this]
        exact hk1.rank_all_le (hstep.param_le _ _ _))
    refine ⟨st2, ?_, hstep.sub_trans e3⟩
    have he2 : drop_hints_in_str fuel ⟨.CSType_CharString, 0⟩
        ⟨st.param_init i (acc.get_fd g) true, drop_hints_param_t.new⟩ = some (seen, e2) := he
    simp only [subset_drop_hints, if_neg (not_le.mpr hg), he2]
    exact e1

end subr_subsetter_t

theorem Reaches.reaches_any_before {p p2 : subr_subset_param_t}
    (h : ∀ c, StrLe (p.str_at c) (p2.str_at c))
    {src : call_context_t} {site : call_context_t × Nat} {tgt : call_context_t}
    (hr : Reaches p2 src site tgt) : ReachesAny p src site tgt := by
  induction hr with
  | call h1 h2 h3 =>
    obtain ⟨o, ho1, ho2⟩ := (h _).1.get_back h1
    exact ReachesAny.call ho1 (ho2.callee_eq ▸ h3)
  | step h1 h2 h3 _ ih =>
    obtain ⟨o, ho1, ho2⟩ := (h _).1.get_back h1
    exact ReachesAny.step ho1 (ho2.callee_eq ▸ h3) ih

theorem RankAll.rank_ok {p : subr_subset_param_t} {rank : call_context_t → Nat}
    (h : RankAll p rank) : RankOk p rank :=
  fun src pos o tgt h1 _ h3 => h src pos o tgt h1 h3

namespace subr_subsetter_t

theorem subset_recreate_closures_spec (acc : acc_t) (fuel : Nat) (glyphs : List Nat)
    (st : subr_subsetter_t)
    (hfd : ∀ g ∈ glyphs, acc.get_fd g < acc.fdCount)
    (hlc : st.closures.local_closures.length = acc.fdCount)
    (hrank : ∀ j g, glyphs[j]? = some g →
      ∃ rank, RankOk (st.param_init j (acc.get_fd g) true) rank ∧ rank root < fuel) :
    ∃ st2, subset_recreate_closures acc fuel glyphs st = some (true, st2) ∧
      SameParsed st st2 ∧ st2.remaps = st.remaps ∧
      (∀ n, n ∈ st2.closures.global_closure ↔
        ∃ i g site, glyphs[i]? = some g ∧
          Reaches (st.param_init i (acc.get_fd g) true) root site ⟨.CSType_GlobalSubr, n⟩) ∧
      (∀ f n, n ∈ st2.closures.local_closures.getD f ∅ ↔
        ∃ i g site, glyphs[i]? = some g ∧ acc.get_fd g = f ∧
          Reaches (st.param_init i (acc.get_fd g) true) root site ⟨.CSType_LocalSubr, n⟩) := by
  have hsame : SameParsed st { st with closures := st.closures.reset } := ⟨rfl, rfl, rfl⟩
  obtain ⟨st2, e1, e2, e3, _, e5, e6⟩ := subset_collect_refs_spec acc fuel glyphs 0
    { st with closures := st.closures.reset } hfd
    (by simp [subr_closures_t.reset, hlc])
    (fun j g hg => by
      obtain ⟨rank, hr, hrk⟩ := hrank j g hg
      refine ⟨rank, ?_, hrk⟩
      rw [Nat.zero_add]
      exact RankOk.rank_same (hsame.same_param_init _ _ _) hr)
  refine ⟨st2, e1, e2, e3, fun n => ?_, fun f n => ?_⟩
  · rw [e5]
    have : n ∉ ({ st with closures := st.closures.reset } : subr_subsetter_t).closures.global_closure := by
      simp [subr_closures_t.reset]
    constructor
    · rintro (h | ⟨j, g, site, hg, h⟩)
      · exact absurd h this
      · rw [Nat.zero_add] at h
        exact ⟨j, g, site, hg, h.reaches_same (hsame.same_param_init _ _ _).same_symm⟩
    · rintro ⟨j, g, site, hg, h⟩
      refine Or.inr ⟨j, g, site, hg, ?_⟩
      rw [Nat.zero_add]
      exact h.reaches_same (hsame.same_param_init _ _ _)
  · rw [e6]
    have : n ∉ ({ st with closures := st.closures.reset } : subr_subsetter_t).closures.local_closures.getD f ∅ := by
      rw [closures_reset_getD]; simp
    constructor
    · rintro (h | ⟨j, g, site, hg, hf, h⟩)
      · exact absurd h this
      · rw [Nat.zero_add] at h
        exact ⟨j, g, site, hg, hf, h.reaches_same (hsame.same_param_init _ _ _).same_symm⟩
    · rintro ⟨j, g, site, hg, hf, h⟩
      refine Or.inr ⟨j, g, site, hg, hf, ?_⟩
      rw [Nat.zero_add]
      exact h.reaches_same (hsame.same_param_init _ _ _)

theorem rank_bound_all (acc : acc_t) (glyphs : List Nat) (st : subr_subsetter_t)
    (hacyc : ∀ i g, glyphs[i]? = some g →
      ∃ rank, RankAll (st.param_init i (acc.get_fd g) true) rank) :
    ∃ N, ∀ j g, glyphs[j]? = some g →
      ∃ rank, RankAll (st.param_init j (acc.get_fd g) true) rank ∧ rank root < N := by
  obtain ⟨N, hN⟩ := bound_of_forall_exists glyphs.length
    (fun j k => ∀ g, glyphs[j]? = some g →
      ∃ rank, RankAll (st.param_init j (acc.get_fd g) true) rank ∧ rank root = k)
    (fun j hj => by
      obtain ⟨rank, hr⟩ := hacyc j glyphs[j] (List.getElem?_eq_getElem hj)
      refine ⟨rank root, fun g hg => ?_⟩
      rw [List.getElem?_eq_getElem hj, Option.some.injEq] at hg
      subst hg
      exact ⟨rank, hr, rfl⟩)
  refine ⟨N, fun j g hg => ?_⟩
  have hj : j < glyphs.length := by
    by_contra hc
    rw [List.getElem?_eq_none (not_lt.mp hc)] at hg
    exact absurd hg (by simp)
  obtain ⟨k, hk, hkN⟩ := hN j hj
  obtain ⟨rank, hr, hrk⟩ := hk g hg
  exact ⟨rank, hr, by omega⟩

/-- The passes of `subset` after parsing, with hint dropping: with enough call depth
they succeed, only add drop flags and markers, and end in closures that hold exactly what
the calls not flagged drop reach in the state after hint dropping. -/
theorem subset_after_parse_spec (acc : acc_t) (fuel : Nat) (glyphs : List Nat)
    (st : subr_subsetter_t)
    (hfd : ∀ g ∈ glyphs, acc.get_fd g < acc.fdCount)
    (hlc : st.closures.local_closures.length = acc.fdCount)
    (hrank : ∀ j g, glyphs[j]? = some g →
      ∃ rank, RankAll (st.param_init j (acc.get_fd g) true) rank ∧ rank root < fuel) :
    ∃ st1 st2, subset_drop_hints acc fuel glyphs 0 st = some (true, st1) ∧ SubLe st st1 ∧
      subset_recreate_closures acc fuel glyphs st1 = some (true, st2) ∧
      subset_after_parse acc fuel glyphs true st =
        some (true, { st2 with remaps := st2.remaps.create st2.closures }) ∧
      SameParsed st1 st2 ∧
      (∀ n, n ∈ st2.closures.global_closure ↔
        ∃ i g site, glyphs[i]? = some g ∧
          Reaches (st1.param_init i (acc.get_fd g) true) root site ⟨.CSType_GlobalSubr, n⟩) ∧
      (∀ f n, n ∈ st2.closures.local_closures.getD f ∅ ↔
        ∃ i g site, glyphs[i]? = some g ∧ acc.get_fd g = f ∧
          Reaches (st1.param_init i (acc.get_fd g) true) root site ⟨.CSType_LocalSubr, n⟩) := by
  obtain ⟨st1, d1, d2⟩ := subset_drop_hints_spec acc fuel glyphs 0 st hfd
    (fun j g hg => by rw [Nat.zero_add]; exact hrank j g hg)
  obtain ⟨st2, r1, r2, _, r4, r5⟩ := subset_recreate_closures_spec acc fuel glyphs st1 hfd
    (by rw [d2.closures_eq]; exact hlc)
    (fun j g hg => by
      obtain ⟨rank, hr, hrk⟩ := hrank j g hg
      exact ⟨rank, (hr.rank_all_le (d2.param_le _ _ _)).rank_ok, hrk⟩)
  refine ⟨st1, st2, d1, d2, r1, ?_, r2, r4, r5⟩
  simp only [subset_after_parse, if_true, d1, r1]

end subr_subsetter_t

theorem ReachesAny.any_inv {p : subr_subset_param_t} {src : call_context_t}
    {site : call_context_t × Nat} {tgt : call_context_t} (h : ReachesAny p src site tgt) :
    ∃ pos o mid, (p.str_at src).values[pos]? = some o ∧ o.callee = some mid ∧
      ((mid = tgt ∧ site = (src, pos)) ∨ ReachesAny p mid site tgt) := by
  cases h with
  | call h1 h2 => exact ⟨_, _, _, h1, h2, Or.inl ⟨rfl, rfl⟩⟩
  | step h1 h2 h3 => exact ⟨_, _, _, h1, h2, Or.inr h3⟩

theorem elision_scenario_calls (i : Nat) (b : Bool) (src : call_context_t) (pos : Nat)
    (o : parsed_cs_op_t) (tgt : call_context_t)
    (h1 : ((elision_scenario.param_init i 0 b).str_at src).values[pos]? = some o)
    (h3 : o.callee = some tgt) :
    i = 0 ∧ src.type = .CSType_CharString ∧ pos = 1 ∧ tgt = ⟨.CSType_LocalSubr, 0⟩ := by
  rcases src with ⟨ty, num⟩
  cases ty with
  | CSType_CharString =>
    simp only [subr_subset_param_t.str_at, subr_subsetter_t.param_init, elision_scenario] at h1
    cases i with
    | succ i => simp [subr_subsetter_t.parsed_cs_str_t.default_values] at h1
    | zero =>
      match pos, h1 with
      | 0, h1 =>
        simp at h1; subst h1
        simp [parsed_cs_op_t.callee, OpCode_callsubr, OpCode_callgsubr] at h3
      | 1, h1 =>
        simp at h1; subst h1
        simp [parsed_cs_op_t.callee, OpCode_callsubr, OpCode_callgsubr] at h3
        exact ⟨rfl, rfl, rfl, h3.symm⟩
      | 2, h1 =>
        simp at h1; subst h1
        simp [parsed_cs_op_t.callee, OpCode_callsubr, OpCode_callgsubr] at h3
      | n + 3, h1 => simp at h1
  | CSType_GlobalSubr =>
    simp [subr_subset_param_t.str_at, subr_subsetter_t.param_init, elision_scenario,
      subr_subsetter_t.parsed_cs_str_t.default_values] at h1
  | CSType_LocalSubr =>
    simp only [subr_subset_param_t.str_at, subr_subsetter_t.param_init, elision_scenario] at h1
    cases num with
    | zero =>
      match pos, h1 with
      | 0, h1 =>
        simp at h1; subst h1
        simp [parsed_cs_op_t.callee, OpCode_callsubr, OpCode_callgsubr] at h3
      | 1, h1 =>
        simp at h1; subst h1
        simp [parsed_cs_op_t.callee, OpCode_callsubr, OpCode_callgsubr] at h3
      | 2, h1 =>
        simp at h1; subst h1
        simp [parsed_cs_op_t.callee, OpCode_callsubr, OpCode_callgsubr] at h3
      | 3, h1 =>
        simp at h1; subst h1
        simp [parsed_cs_op_t.callee, OpCode_callsubr, OpCode_callgsubr] at h3
      | n + 4, h1 => simp at h1
    | succ num => simp [subr_subsetter_t.parsed_cs_str_t.default_values] at h1

theorem elision_scenario_rank (i : Nat) (b : Bool) :
    RankAll (elision_scenario.param_init i 0 b)
      (fun c => if c.type = .CSType_CharString then 1 else 0) := by
  intro src pos o tgt h1 h3
  obtain ⟨_, h5, _, h7⟩ := elision_scenario_calls i b src pos o tgt h1 h3
  subst h7
  simp [h5]

namespace subr_subsetter_t

/-- C10: let the closures before hint dropping hold every call target recorded on a call
operation reached from a retained glyph, flagged drop or not (the global set for global
targets, the set of the glyph's FD for local ones), let the glyph FDs be below `fdCount`,
the closures hold one local set per FD, and the call graph be acyclic. Then with enough
call depth `subset` with hint dropping succeeds, and the global closure and every
per-FD local closure recomputed by `collect_subr_refs_in_str` after hint dropping are
subsets of the corresponding closures before hint dropping. -/
theorem closures_shrink_under_hint_drop (acc : acc_t) (glyphs : List Nat)
    (st : subr_subsetter_t)
    (hfd : ∀ g ∈ glyphs, acc.get_fd g < acc.fdCount)
    (hlc : st.closures.local_closures.length = acc.fdCount)
    (hacyc : ∀ i g, glyphs[i]? = some g →
      ∃ rank, RankAll (st.param_init i (acc.get_fd g) true) rank)
    (hpre_g : ∀ i g site n, glyphs[i]? = some g →
      ReachesAny (st.param_init i (acc.get_fd g) true) root site ⟨.CSType_GlobalSubr, n⟩ →
      n ∈ st.closures.global_closure)
    (hpre_l : ∀ i g site n, glyphs[i]? = some g →
      ReachesAny (st.param_init i (acc.get_fd g) true) root site ⟨.CSType_LocalSubr, n⟩ →
      n ∈ st.closures.local_closures.getD (acc.get_fd g) ∅) :
    ∃ fuel0, ∀ fuel, fuel0 ≤ fuel →
      ∃ st2, subset_after_parse acc fuel glyphs true st = some (true, st2) ∧
        st2.closures.global_closure ⊆ st.closures.global_closure ∧
        ∀ f, st2.closures.local_closures.getD f ∅ ⊆ st.closures.local_closures.getD f ∅ := by
  obtain ⟨N, hN⟩ := rank_bound_all acc glyphs st hacyc
  refine ⟨N, fun fuel hfuel => ?_⟩
  obtain ⟨st1, st2, _, d2, _, r2, _, r4, r5⟩ := subset_after_parse_spec acc fuel glyphs st hfd hlc
    (fun j g hg => by
      obtain ⟨rank, hr, hrk⟩ := hN j g hg
      exact ⟨rank, hr, by omega⟩)
  refine ⟨_, r2, ?_, ?_⟩
  · intro n hn
    obtain ⟨i, g, site, hg, hreach⟩ := (r4 n).mp hn
    exact hpre_g i g site n hg (hreach.reaches_any_before (d2.param_le _ _ _))
  · intro f n hn
    obtain ⟨i, g, site, hg, hf, hreach⟩ := (r5 f n).mp hn
    rw [← hf]
    exact hpre_l i g site n hg (hreach.reaches_any_before (d2.param_le _ _ _))

/-- Witness of C10: the call-elision scenario, where the closure `{0}` of FD 0 shrinks. -/
theorem closures_shrink_under_hint_drop_witness :
    ∃ fuel0, ∀ fuel, fuel0 ≤ fuel →
      ∃ st2, subset_after_parse elision_acc fuel [0] true elision_scenario = some (true, st2) ∧
        st2.closures.global_closure ⊆ elision_scenario.closures.global_closure ∧
        ∀ f, st2.closures.local_closures.getD f ∅ ⊆
          elision_scenario.closures.local_closures.getD f ∅ :=
  closures_shrink_under_hint_drop elision_acc [0] elision_scenario
    (fun _ _ => Nat.zero_lt_one) rfl
    (fun i _ _ => ⟨_, elision_scenario_rank i true⟩)
    (fun i g site n _ h => by
      obtain ⟨pos, o, mid, h1, h2, h3⟩ := h.any_inv
      obtain ⟨_, _, _, hm⟩ := elision_scenario_calls i true _ pos o mid h1 h2
      subst hm
      rcases h3 with ⟨h3, _⟩ | h3
      · exact absurd h3 (by simp)
      · obtain ⟨pos2, o2, mid2, k1, k2, _⟩ := h3.any_inv
        obtain ⟨_, k4, _, _⟩ := elision_scenario_calls i true _ pos2 o2 mid2 k1 k2
        exact absurd k4 (by simp))
    (fun i g site n _ h => by
      obtain ⟨pos, o, mid, h1, h2, h3⟩ := h.any_inv
      obtain ⟨_, _, _, hm⟩ := elision_scenario_calls i true _ pos o mid h1 h2
      subst hm
      rcases h3 with ⟨h3, _⟩ | h3
      · simp only [call_context_t.mk.injEq, true_and] at h3
        subst h3
        show 0 ∈ ({0} : Finset Nat)
        exact Finset.mem_singleton_self 0
      · obtain ⟨pos2, o2, mid2, k1, k2, _⟩ := h3.any_inv
        obtain ⟨_, k4, _, _⟩ := elision_scenario_calls i true _ pos2 o2 mid2 k1 k2
        exact absurd k4 (by simp))

end subr_subsetter_t

theorem str_encoder_t.encode_byte_ok4 (e : str_encoder_t) (a b c d : Int) (h : e.Room 4) :
    (((e.encode_byte a).encode_byte b).encode_byte c).encode_byte d =
      e.emit [(a % 256).toNat, (b % 256).toNat, (c % 256).toNat, (d % 256).toNat] := by
  rw [str_encoder_t.encode_byte_ok3 e a b c (str_encoder_t.Room_mono h (by omega)),
    str_encoder_t.encode_byte_ok _ d (str_encoder_t.Room_emit (by simpa using h)),
    str_encoder_t.emit_emit]
  rfl

theorem str_encoder_t.encode_byte_ok5 (e : str_encoder_t) (a b c d f : Int) (h : e.Room 5) :
    ((((e.encode_byte a).encode_byte b).encode_byte c).encode_byte d).encode_byte f =
      e.emit [(a % 256).toNat, (b % 256).toNat, (c % 256).toNat, (d % 256).toNat,
        (f % 256).toNat] := by
  rw [str_encoder_t.encode_byte_ok4 e a b c d (str_encoder_t.Room_mono h (by omega)),
    str_encoder_t.encode_byte_ok _ f (str_encoder_t.Room_emit (by simpa using h)),
    str_encoder_t.emit_emit]
  rfl

theorem encode_num_bytes_eq (n : number_t) :
    encode_num_bytes n =
      if n.in_int_range then encode_int_bytes n.to_int
      else [255, ((n.to_fixed >>> (24 : Nat)) % 256 % 256).toNat,
        ((n.to_fixed >>> (16 : Nat)) % 256 % 256).toNat,
        ((n.to_fixed >>> (8 : Nat)) % 256 % 256).toNat, (n.to_fixed % 256 % 256).toNat] := by
  have hr : (⟨⟨[], 5, true⟩, false⟩ : str_encoder_t).Room 5 := ⟨rfl, rfl, by simp⟩
  unfold encode_num_bytes str_encoder_t.encode_num
  split
  · rw [str_encoder_t.encode_int_ok _ _ (str_encoder_t.Room_mono hr
      (by have := encode_int_bytes_length_le n.to_int; omega))]
    simp [str_encoder_t.emit]
  · simp only
    rw [str_encoder_t.encode_byte_ok5 _ _ _ _ _ _ hr]
    simp [str_encoder_t.emit, OpCode_fixedcs]

theorem str_encoder_t.encode_num_ok (e : str_encoder_t) (n : number_t)
    (h : e.Room (encode_num_bytes n).length) : e.encode_num n = e.emit (encode_num_bytes n) := by
  rw [encode_num_bytes_eq] at h ⊢
  unfold str_encoder_t.encode_num
  split
  · rename_i hi
    rw [if_pos hi] at h
    exact str_encoder_t.encode_int_ok e _ h
  · rename_i hi
    rw [if_neg hi] at h
    simp only
    rw [str_encoder_t.encode_byte_ok5 e _ _ _ _ _ (by simpa using h)]
    simp [OpCode_fixedcs]

theorem encode_op_bytes_eq (op : Nat) :
    encode_op_bytes op =
      if Is_OpCode_ESC op then [12, (((Unmake_OpCode_ESC op : Nat) : Int) % 256).toNat]
      else [((op : Int) % 256).toNat] := by
  have hr : (⟨⟨[], 2, true⟩, false⟩ : str_encoder_t).Room 2 := ⟨rfl, rfl, by simp⟩
  unfold encode_op_bytes str_encoder_t.encode_op
  split
  · rw [str_encoder_t.encode_byte_ok2 _ _ _ hr]
    simp [str_encoder_t.emit, OpCode_escape]
  · rw [str_encoder_t.encode_byte_ok _ _ (str_encoder_t.Room_mono hr (by omega))]
    simp [str_encoder_t.emit]

theorem str_encoder_t.encode_op_emits (e : str_encoder_t) (op : Nat)
    (h : e.Room (encode_op_bytes op).length) : e.encode_op op = e.emit (encode_op_bytes op) := by
  rw [encode_op_bytes_eq] at h ⊢
  unfold str_encoder_t.encode_op
  split
  · rename_i hi
    rw [if_pos hi] at h
    rw [str_encoder_t.encode_byte_ok2 e _ _ (by simpa using h)]
    simp [OpCode_escape]
  · rename_i hi
    rw [if_neg hi] at h
    rw [str_encoder_t.encode_byte_ok e _ (by simpa using h)]

namespace subr_subsetter_t

theorem encode_str_prefix_ok (str : parsed_cs_str_t) (e : str_encoder_t)
    (h : e.Room (prefix_bytes str).length) :
    encode_str_prefix str e = e.emit (prefix_bytes str) := by
  unfold prefix_bytes at h ⊢
  unfold encode_str_prefix
  simp only [parsed_cs_str_t.has_prefix_get, parsed_cs_str_t.is_hint_dropped,
    parsed_cs_str_t.prefix_num_get, parsed_cs_str_t.prefix_op_get]
  split
  · rename_i hc
    rw [if_pos hc, List.length_append] at h
    split
    · rename_i ho
      rw [if_pos ho] at h
      rw [str_encoder_t.encode_num_ok e _ (str_encoder_t.Room_mono h (by omega)),
        str_encoder_t.encode_op_emits _ _ (str_encoder_t.Room_emit h),
        str_encoder_t.emit_emit]
    · rename_i ho
      rw [if_neg ho] at h
      rw [str_encoder_t.encode_num_ok e _ (str_encoder_t.Room_mono h (by omega))]
      simp
  · exact (str_encoder_t.emit_nil e).symm

theorem encode_str_ok (st : subr_subsetter_t) (str : parsed_cs_str_t) (fd : Nat)
    (buff : str_buff_t)
    (hroom : (prefix_bytes str ++ str.values.flatMap (reencoded_op st fd)).length ≤ buff.cap) :
    st.encode_str str fd buff =
      (true, ⟨prefix_bytes str ++ str.values.flatMap (reencoded_op st fd), buff.cap, true⟩) := by
  have h0 : (str_encoder_t.reset ⟨buff.init, false⟩) = ⟨⟨[], buff.cap, true⟩, false⟩ := by
    simp [str_encoder_t.reset, str_buff_t.init, str_buff_t.resize]
  have hr : (⟨⟨[], buff.cap, true⟩, false⟩ : str_encoder_t).Room
      ((prefix_bytes str).length + (str.values.flatMap (reencoded_op st fd)).length) :=
    ⟨rfl, rfl, by simpa using hroom⟩
  simp only [encode_str, h0]
  rw [encode_str_prefix_ok str _ (str_encoder_t.Room_mono hr (by omega)),
    encode_str_fold_ok st fd _ _ (str_encoder_t.Room_emit hr), str_encoder_t.emit_emit]
  simp [str_encoder_t.emit, str_encoder_t.is_error]

end subr_subsetter_t

theorem mark_stems_free (post : List parsed_cs_op_t) (h : ∀ o ∈ post, ¬ IsStem o.op) :
    ∀ B, mark_stems B post = B ++ post := by
  induction post with
  | nil => intro B; simp [mark_stems]
  | cons o rest ih =>
    intro B
    rw [mark_stems, if_neg (h o (List.mem_cons_self _ _)),
      ih (fun x hx => h x (List.mem_cons_of_mem _ hx))]
    simp

theorem mark_stems_last (pre : List parsed_cs_op_t) (s : parsed_cs_op_t)
    (post : List parsed_cs_op_t) (hs : IsStem s.op) (h : ∀ o ∈ post, ¬ IsStem o.op) :
    ∀ B, mark_stems B (pre ++ s :: post) =
      (B ++ pre ++ [s]).map parsed_cs_op_t.dropped ++ post := by
  induction pre with
  | nil =>
    intro B
    rw [List.nil_append, mark_stems, if_pos hs, mark_stems_free post h]
    simp
  | cons o rest ih =>
    intro B
    rw [List.cons_append, mark_stems]
    split
    · rw [ih]; simp
    · rw [ih]; simp

theorem any_stem_free (post : List parsed_cs_op_t) (h : ∀ o ∈ post, ¬ IsStem o.op) :
    post.any (fun o => decide (IsStem o.op)) = false := by
  simp only [List.any_eq_false, decide_eq_true_eq]
  exact h

theorem set_values_root_values (p : subr_subset_param_t) (V : List parsed_cs_op_t) :
    ((p.set_values_at root V).str_at root).values = V := rfl

theorem set_values_root_twice (p : subr_subset_param_t) (V W : List parsed_cs_op_t) :
    (p.set_values_at root V).set_values_at root W = p.set_values_at root W := rfl

theorem set_values_root_self (p : subr_subset_param_t) :
    p.set_values_at root p.parsed_charstring.values = p := rfl

theorem set_drop_root (p : subr_subset_param_t) (V : List parsed_cs_op_t) (k : Nat) :
    (p.set_values_at root V).set_drop_at root k =
      p.set_values_at root (V.set k (V.getD k default).set_drop) := rfl

theorem list_getD_mid {α : Type} (X Y : List α) (x d : α) :
    (X ++ x :: Y).getD X.length d = x := by
  rw [List.getD_eq_getElem?_getD, List.getElem?_append_right (le_refl _), Nat.sub_self]
  simp

theorem list_set_mid {α : Type} (X Y : List α) (x y : α) :
    (X ++ x :: Y).set X.length y = X ++ y :: Y := by
  induction X with
  | nil => rfl
  | cons a X ih => simp [List.set, ih]

namespace subr_subsetter_t

theorem drop_hints_back_stop (X Y : List parsed_cs_op_t) (vs : Bool)
    (hX : ∀ x ∈ X, x.drop_flag = true) :
    drop_hints_back (X ++ Y) vs X.length = (X ++ Y, vs) := by
  induction X using List.reverseRecOn with
  | nil => rfl
  | append_singleton X x _ =>
    have hx : x.drop_flag = true := hX x (by simp)
    have hlen : (X ++ [x]).length = X.length + 1 := by simp
    have e1 : X ++ [x] ++ Y = X ++ x :: Y := by simp
    rw [hlen, drop_hints_back, e1, list_getD_mid]
    simp [parsed_cs_op_t.for_drop, hx]

theorem drop_hints_back_run (B : List parsed_cs_op_t) :
    ∀ (X : List parsed_cs_op_t) (Y : List parsed_cs_op_t) (vs : Bool),
      (∀ x ∈ X, x.drop_flag = true) →
      (∀ b ∈ B, b.drop_flag = false ∧ b.keep_flag = false) →
      ∃ vs2, drop_hints_back (X ++ B ++ Y) vs (X.length + B.length) =
        (X ++ B.map parsed_cs_op_t.dropped ++ Y, vs2) := by
  induction B using List.reverseRecOn with
  | nil =>
    intro X Y vs hX _
    exact ⟨vs, by simpa using drop_hints_back_stop X Y vs hX⟩
  | append_singleton B b ih =>
    intro X Y vs hX hB
    have hb := hB b (by simp)
    have hlen : X.length + (B ++ [b]).length = (X ++ B).length + 1 := by simp; omega
    have e1 : X ++ (B ++ [b]) ++ Y = (X ++ B) ++ b :: Y := by simp
    have hsd : b.set_drop = b.dropped := by
      simp [parsed_cs_op_t.set_drop, parsed_cs_op_t.for_keep, hb.2, parsed_cs_op_t.dropped]
    rw [hlen, drop_hints_back, e1, list_getD_mid, list_set_mid]
    simp only [parsed_cs_op_t.for_drop, hb.1, Bool.false_eq_true, if_false, hsd]
    obtain ⟨vs2, h2⟩ := ih X (b.dropped :: Y) (if b.op = OpCode_vsindexcs then true else vs) hX
      (fun x hx => hB x (by simp [hx]))
    rw [List.length_append, h2]
    exact ⟨vs2, by simp⟩

theorem drop_hints_switch_plain
    (call : call_context_t → drop_env_t → Option (Bool × drop_env_t))
    (p : subr_subset_param_t) (W : List parsed_cs_op_t) (o : parsed_cs_op_t)
    (rest : List parsed_cs_op_t) (d : drop_hints_param_t) (ho : PlainOp o) :
    ∃ d2, drop_hints_switch call root W.length ⟨p.set_values_at root (W ++ o :: rest), d⟩ =
      some (decide (IsStem o.op),
        ⟨p.set_values_at root (W ++ (if IsStem o.op then o.dropped else o) :: rest), d2⟩) := by
  obtain ⟨h1, h2, h3, h4, h5, h6, h7⟩ := ho
  have hsd : o.set_drop = o.dropped := by
    simp [parsed_cs_op_t.set_drop, parsed_cs_op_t.for_keep, h7, parsed_cs_op_t.dropped]
  unfold drop_hints_switch
  simp only [set_values_root_values, list_getD_mid, if_neg h1, if_neg h2]
  by_cases hm : o.op = OpCode_rmoveto ∨ o.op = OpCode_hmoveto ∨ o.op = OpCode_vmoveto
  · have hns : ¬ IsStem o.op := by
      unfold IsStem
      rcases hm with hm | hm | hm <;> rw [hm] <;> decide
    rw [if_pos hm]
    simp only [hns, decide_False, if_false]
    exact ⟨_, rfl⟩
  · rw [if_neg hm, if_neg (by tauto)]
    by_cases hs : IsStem o.op
    · have hs2 : o.op = OpCode_hintmask ∨ o.op = OpCode_cntrmask ∨ o.op = OpCode_hstemhm
          ∨ o.op = OpCode_vstemhm ∨ o.op = OpCode_hstem ∨ o.op = OpCode_vstem := by
        unfold IsStem at hs; tauto
      rw [if_pos hs2]
      simp only [hs, decide_True, if_true, set_drop_root, list_getD_mid, list_set_mid, hsd]
      split
      · exact ⟨_, rfl⟩
      · exact ⟨_, rfl⟩
    · have hs2 : ¬ (o.op = OpCode_hintmask ∨ o.op = OpCode_cntrmask ∨ o.op = OpCode_hstemhm
          ∨ o.op = OpCode_vstemhm ∨ o.op = OpCode_hstem ∨ o.op = OpCode_vstem) := by
        unfold IsStem at hs; tauto
      rw [if_neg hs2, if_neg h5]
      simp only [hs, decide_False, if_false]
      exact ⟨_, rfl⟩

theorem drop_hints_iter_plain
    (call : call_context_t → drop_env_t → Option (Bool × drop_env_t))
    (p : subr_subset_param_t) (X B : List parsed_cs_op_t) (o : parsed_cs_op_t)
    (rest : List parsed_cs_op_t) (seen : Bool) (d : drop_hints_param_t)
    (hX : ∀ x ∈ X, x.drop_flag = true)
    (hB : ∀ b ∈ B, b.drop_flag = false ∧ b.keep_flag = false) (ho : PlainOp o) :
    ∃ d2, drop_hints_iter call root (X.length + B.length) seen
        ⟨p.set_values_at root (X ++ B ++ o :: rest), d⟩ =
      some (seen || decide (IsStem o.op),
        ⟨p.set_values_at root
          (if IsStem o.op then X ++ (B ++ [o]).map parsed_cs_op_t.dropped ++ rest
            else X ++ B ++ o :: rest), d2⟩) := by
  obtain ⟨d1, h1⟩ := drop_hints_switch_plain call p (X ++ B) o rest d ho
  rw [List.length_append] at h1
  unfold drop_hints_iter
  rw [h1]
  by_cases hs : IsStem o.op
  · simp only [hs, decide_True, if_true, set_values_root_values, set_values_root_twice,
      Bool.or_true]
    obtain ⟨vs2, h2⟩ := drop_hints_back_run B X (o.dropped :: rest) d1.vsindex_dropped hX hB
    rw [h2]
    refine ⟨{ d1 with vsindex_dropped := vs2 }, ?_⟩
    simp
  · simp only [hs, decide_False, if_false, Bool.or_false, Bool.false_eq_true]
    exact ⟨_, rfl⟩

theorem drop_hints_loop_plain
    (call : call_context_t → drop_env_t → Option (Bool × drop_env_t))
    (p : subr_subset_param_t) (todo : List parsed_cs_op_t) :
    ∀ (X B : List parsed_cs_op_t) (seen : Bool) (d : drop_hints_param_t),
      (∀ x ∈ X, x.drop_flag = true) →
      (∀ b ∈ B, b.drop_flag = false ∧ b.keep_flag = false) →
      (∀ o ∈ todo, PlainOp o) →
      ∃ d2, drop_hints_loop call root todo.length (X.length + B.length) seen
          ⟨p.set_values_at root (X ++ B ++ todo), d⟩ =
        some (seen || todo.any (fun o => decide (IsStem o.op)),
          ⟨p.set_values_at root (X ++ mark_stems B todo), d2⟩) := by
  induction todo with
  | nil =>
    intro X B seen d _ _ _
    exact ⟨d, by simp [drop_hints_loop, mark_stems]⟩
  | cons o rest ih =>
    intro X B seen d hX hB htodo
    have ho := htodo o (List.mem_cons_self _ _)
    obtain ⟨d1, h1⟩ := drop_hints_iter_plain call p X B o rest seen d hX hB ho
    simp only [List.length_cons, drop_hints_loop, h1]
    by_cases hs : IsStem o.op
    · simp only [hs, decide_True, if_true, Bool.or_true]
      obtain ⟨d2, h2⟩ := ih (X ++ (B ++ [o]).map parsed_cs_op_t.dropped) [] true d1
        (fun x hx => by
          rcases List.mem_append.mp hx with hx | hx
          · exact hX x hx
          · obtain ⟨y, _, rfl⟩ := List.mem_map.mp hx
            rfl)
        (fun b hb => by simp at hb)
        (fun x hx => htodo x (List.mem_cons_of_mem _ hx))
      have hl : (X ++ (B ++ [o]).map parsed_cs_op_t.dropped).length + ([] : List parsed_cs_op_t).length
          = X.length + B.length + 1 := by simp; omega
      rw [hl] at h2
      have hv : X ++ (B ++ [o]).map parsed_cs_op_t.dropped ++ [] ++ rest =
          X ++ (B ++ [o]).map parsed_cs_op_t.dropped ++ rest := by simp
      rw [hv] at h2
      rw [h2]
      refine ⟨d2, ?_⟩
      simp [mark_stems, hs]
    · simp only [hs, decide_False, if_false, Bool.or_false]
      obtain ⟨d2, h2⟩ := ih X (B ++ [o]) seen d1 hX
        (fun b hb => by
          rcases List.mem_append.mp hb with hb | hb
          · exact hB b hb
          · simp only [List.mem_singleton] at hb
            subst hb
            exact ⟨ho.2.2.2.2.2.1, ho.2.2.2.2.2.2⟩)
        (fun x hx => htodo x (List.mem_cons_of_mem _ hx))
      have hl : X.length + (B ++ [o]).length = X.length + B.length + 1 := by simp; omega
      rw [hl] at h2
      have hv : X ++ (B ++ [o]) ++ rest = X ++ B ++ o :: rest := by simp
      rw [hv] at h2
      rw [h2]
      refine ⟨d2, ?_⟩
      simp [mark_stems, hs]

theorem reencoded_dropped (st : subr_subsetter_t) (fd : Nat) (l : List parsed_cs_op_t) :
    (l.map parsed_cs_op_t.dropped).flatMap (reencoded_op st fd) = [] := by
  induction l with
  | nil => rfl
  | cons o l ih =>
    rw [List.map_cons, List.flatMap_cons, ih]
    simp [reencoded_op, parsed_cs_op_t.dropped]

theorem reencoded_plain (st : subr_subsetter_t) (fd : Nat) (l : List parsed_cs_op_t)
    (h : ∀ o ∈ l, o.op ≠ OpCode_callsubr ∧ o.op ≠ OpCode_callgsubr ∧ o.drop_flag = false ∧
      o.skip_flag = false) :
    l.flatMap (reencoded_op st fd) = l.flatMap (fun o => o.str) := by
  induction l with
  | nil => rfl
  | cons o l ih =>
    obtain ⟨h1, h2, h3, h4⟩ := h o (List.mem_cons_self _ _)
    rw [List.flatMap_cons, List.flatMap_cons, ih (fun x hx => h x (List.mem_cons_of_mem _ hx))]
    simp [reencoded_op, h1, h2, h3, h4]

theorem prefix_bytes_mark (seen : Bool) (d : drop_hints_param_t) (s : parsed_cs_str_t)
    (V : List parsed_cs_op_t) :
    prefix_bytes (subset_mark_hint_dropped seen d { s with values := V }) =
      prefix_bytes { s with hint_dropped := seen || s.hint_dropped } := by
  unfold subset_mark_hint_dropped prefix_bytes
  cases seen <;> cases hv : d.vsindex_dropped <;>
    simp [parsed_cs_str_t.set_hint_dropped, parsed_cs_str_t.set_vsindex_dropped]

theorem values_mark (seen : Bool) (d : drop_hints_param_t) (s : parsed_cs_str_t) :
    (subset_mark_hint_dropped seen d s).values = s.values := by
  unfold subset_mark_hint_dropped
  cases seen <;> cases hv : d.vsindex_dropped <;>
    simp [parsed_cs_str_t.set_hint_dropped, parsed_cs_str_t.set_vsindex_dropped]

/-- C7: let a parsed charstring have no callsubr/callgsubr, hintmask, cntrmask or
dotsection operation and no drop, keep or skip flag, and let `dropped` be its operations
up to and including the last stem hint (hstem, vstem, hstemhm, vstemhm; empty if there is
none) and `post` the operations after it. Then `drop_hints_in_str` returns, reports a
hint iff there is a stem hint, and flags drop exactly the operations of `dropped`; and
`encode_str` of the charstring as `subset` then marks it emits the prefix bytes (none
when the charstring has no prefix) followed by exactly the raw bytes of `post`. -/
theorem drop_hints_drops_through_last_stem (st : subr_subsetter_t)
    (p : subr_subset_param_t) (fuel : Nat) (d0 : drop_hints_param_t) (fd : Nat)
    (buff : str_buff_t) (dropped post : List parsed_cs_op_t)
    (hvals : p.parsed_charstring.values = dropped ++ post)
    (hlast : dropped = [] ∨ ∃ pre s, dropped = pre ++ [s] ∧ IsStem s.op)
    (hpost : ∀ o ∈ post, ¬ IsStem o.op)
    (hnocall : ∀ o ∈ p.parsed_charstring.values,
      o.op ≠ OpCode_callsubr ∧ o.op ≠ OpCode_callgsubr)
    (hstems : ∀ o ∈ p.parsed_charstring.values,
      o.op ≠ OpCode_hintmask ∧ o.op ≠ OpCode_cntrmask ∧ o.op ≠ OpCode_dotsection)
    (hflags : ∀ o ∈ p.parsed_charstring.values,
      o.drop_flag = false ∧ o.keep_flag = false ∧ o.skip_flag = false)
    (hroom : (prefix_bytes { p.parsed_charstring with
        hint_dropped := decide (dropped ≠ []) || p.parsed_charstring.hint_dropped } ++
      post.flatMap (fun o => o.str)).length ≤ buff.cap) :
    ∃ d2, drop_hints_in_str (fuel + 1) root ⟨p, d0⟩ =
        some (decide (dropped ≠ []),
          ⟨{ p with parsed_charstring := { p.parsed_charstring with
              values := dropped.map parsed_cs_op_t.dropped ++ post } }, d2⟩) ∧
      st.encode_str (subset_mark_hint_dropped (decide (dropped ≠ [])) d2
          { p.parsed_charstring with values := dropped.map parsed_cs_op_t.dropped ++ post })
          fd buff =
        (true, ⟨prefix_bytes { p.parsed_charstring with
            hint_dropped := decide (dropped ≠ []) || p.parsed_charstring.hint_dropped } ++
          post.flatMap (fun o => o.str), buff.cap, true⟩) ∧
      (p.parsed_charstring.has_prefix_ = false →
        st.encode_str (subset_mark_hint_dropped (decide (dropped ≠ [])) d2
          { p.parsed_charstring with values := dropped.map parsed_cs_op_t.dropped ++ post })
          fd buff = (true, ⟨post.flatMap (fun o => o.str), buff.cap, true⟩)) := by
  have hplain : ∀ o ∈ p.parsed_charstring.values, PlainOp o := fun o ho =>
    ⟨(hnocall o ho).1, (hnocall o ho).2, (hstems o ho).1, (hstems o ho).2.1,
      (hstems o ho).2.2, (hflags o ho).1, (hflags o ho).2.1⟩
  obtain ⟨d2, h2⟩ := drop_hints_loop_plain (drop_hints_in_str fuel) p
    p.parsed_charstring.values [] [] false d0 (by simp) (by simp) hplain
  have hany : p.parsed_charstring.values.any (fun o => decide (IsStem o.op)) =
      decide (dropped ≠ []) := by
    rcases hlast with hd | ⟨pre, s, hd, hs⟩
    · subst hd
      rw [hvals, List.nil_append, any_stem_free post hpost]
      simp
    · rw [hvals, hd]
      simp [hs]
  have hmark : mark_stems [] p.parsed_charstring.values =
      dropped.map parsed_cs_op_t.dropped ++ post := by
    rcases hlast with hd | ⟨pre, s, hd, hs⟩
    · subst hd
      rw [hvals, List.nil_append, mark_stems_free post hpost]
      simp
    · rw [hvals, hd]
      have : pre ++ [s] ++ post = pre ++ s :: post := by simp
      rw [this, mark_stems_last pre s post hs hpost]
      simp
  have hrun : drop_hints_in_str (fuel + 1) root ⟨p, d0⟩ =
      some (decide (dropped ≠ []),
        ⟨{ p with parsed_charstring := { p.parsed_charstring with
            values := dropped.map parsed_cs_op_t.dropped ++ post } }, d2⟩) := by
    have h3 : drop_hints_loop (drop_hints_in_str fuel) root p.parsed_charstring.values.length 0
        false ⟨p, d0⟩ = some (false || p.parsed_charstring.values.any (fun o => decide (IsStem o.op)),
          ⟨p.set_values_at root ([] ++ mark_stems [] p.parsed_charstring.values), d2⟩) := h2
    rw [hany, hmark] at h3
    simpa [drop_hints_in_str] using h3
  have hfm : (subset_mark_hint_dropped (decide (dropped ≠ [])) d2
      { p.parsed_charstring with values := dropped.map parsed_cs_op_t.dropped ++ post }).values.flatMap
        (reencoded_op st fd) = post.flatMap (fun o => o.str) := by
    rw [values_mark]
    simp only [List.flatMap_append, reencoded_dropped, List.nil_append]
    apply reencoded_plain
    intro o ho
    have hm : o ∈ p.parsed_charstring.values := by rw [hvals]; exact List.mem_append_right _ ho
    exact ⟨(hnocall o hm).1, (hnocall o hm).2, (hflags o hm).1, (hflags o hm).2.2⟩
  have henc := encode_str_ok st (subset_mark_hint_dropped (decide (dropped ≠ [])) d2
      { p.parsed_charstring with values := dropped.map parsed_cs_op_t.dropped ++ post }) fd buff
      (by rw [hfm, prefix_bytes_mark]; exact hroom)
  rw [hfm, prefix_bytes_mark] at henc
  refine ⟨d2, hrun, henc, fun hnp => ?_⟩
  rw [henc]
  simp [prefix_bytes, hnp]

/-- Witness of C7: `hstemhm; rmoveto; rlineto; endchar` with their operands comes out as
`rmoveto; rlineto; endchar` with their operands. -/
theorem drop_hints_drops_through_last_stem_witness :
    ∃ d2, drop_hints_in_str 1 root ⟨hint_drop_scenario, drop_hints_param_t.new⟩ =
        some (true, ⟨{ hint_drop_scenario with parsed_charstring :=
          ⟨[⟨140, [140], 0, true, false, false⟩, ⟨150, [150], 0, true, false, false⟩,
            ⟨18, [18], 0, true, false, false⟩, ⟨141, [141], 0, false, false, false⟩,
            ⟨142, [142], 0, false, false, false⟩, ⟨21, [21], 0, false, false, false⟩,
            ⟨143, [143], 0, false, false, false⟩, ⟨144, [144], 0, false, false, false⟩,
            ⟨5, [5], 0, false, false, false⟩, ⟨14, [14], 0, false, false, false⟩],
            true, false, false, false, 0, default⟩ }, d2⟩) ∧
      elision_scenario.encode_str (subset_mark_hint_dropped true d2
          ⟨[⟨140, [140], 0, true, false, false⟩, ⟨150, [150], 0, true, false, false⟩,
            ⟨18, [18], 0, true, false, false⟩, ⟨141, [141], 0, false, false, false⟩,
            ⟨142, [142], 0, false, false, false⟩, ⟨21, [21], 0, false, false, false⟩,
            ⟨143, [143], 0, false, false, false⟩, ⟨144, [144], 0, false, false, false⟩,
            ⟨5, [5], 0, false, false, false⟩, ⟨14, [14], 0, false, false, false⟩],
            true, false, false, false, 0, default⟩) 0 ⟨[], 7, true⟩ =
        (true, ⟨[141, 142, 21, 143, 144, 5, 14], 7, true⟩) := by
  obtain ⟨d2, h1, _, h3⟩ := drop_hints_drops_through_last_stem elision_scenario
    hint_drop_scenario 0 drop_hints_param_t.new 0 ⟨[], 7, true⟩
    [⟨140, [140], 0, false, false, false⟩, ⟨150, [150], 0, false, false, false⟩,
      ⟨18, [18], 0, false, false, false⟩]
    [⟨141, [141], 0, false, false, false⟩,
      ⟨142, [142], 0, false, false, false⟩, ⟨21, [21], 0, false, false, false⟩,
      ⟨143, [143], 0, false, false, false⟩, ⟨144, [144], 0, false, false, false⟩,
      ⟨5, [5], 0, false, false, false⟩, ⟨14, [14], 0, false, false, false⟩]
    rfl
    (Or.inr ⟨[⟨140, [140], 0, false, false, false⟩, ⟨150, [150], 0, false, false, false⟩],
      ⟨18, [18], 0, false, false, false⟩, rfl, by decide⟩)
    (by decide) (by decide) (by decide) (by decide) (by decide)
  exact ⟨d2, h1, h3 rfl⟩

end subr_subsetter_t

theorem OpLe.fields {o o2 : parsed_cs_op_t} (h : OpLe o o2) :
    o2.op = o.op ∧ o2.subr_num = o.subr_num ∧ o2.keep_flag = o.keep_flag ∧
    o2.skip_flag = o.skip_flag ∧ o2.str = o.str ∧ (o.drop_flag = true → o2.drop_flag = true) := by
  rcases h with rfl | rfl
  · exact ⟨rfl, rfl, rfl, rfl, rfl, id⟩
  · exact ⟨rfl, rfl, rfl, rfl, rfl, fun _ => rfl⟩

theorem ParamLe.at_fields {p p2 : subr_subset_param_t} (h : ParamLe p p2) (c : call_context_t)
    (i : Nat) :
    ((p2.str_at c).values.getD i default).op = ((p.str_at c).values.getD i default).op ∧
    ((p2.str_at c).values.getD i default).subr_num =
      ((p.str_at c).values.getD i default).subr_num ∧
    ((p2.str_at c).values.getD i default).keep_flag =
      ((p.str_at c).values.getD i default).keep_flag ∧
    (((p.str_at c).values.getD i default).drop_flag = true →
      ((p2.str_at c).values.getD i default).drop_flag = true) := by
  obtain ⟨h1, h2, h3, _, _, h6⟩ := ((h.1 c).1.2 i).fields
  exact ⟨h1, h2, h3, h6⟩

theorem ParamLe.at_length {p p2 : subr_subset_param_t} (h : ParamLe p p2) (c : call_context_t) :
    (p2.str_at c).values.length = (p.str_at c).values.length := (h.1 c).1.1

namespace subr_subsetter_t

theorem drop_hints_loop_split
    (call : call_context_t → drop_env_t → Option (Bool × drop_env_t))
    (str : call_context_t) (a b : Nat) :
    ∀ (pos : Nat) (seen : Bool) (e : drop_env_t),
      drop_hints_loop call str (a + b) pos seen e =
        match drop_hints_loop call str a pos seen e with
        | none => none
        | some (s, e1) => drop_hints_loop call str b (pos + a) s e1 := by
  induction a with
  | zero => intro pos seen e; simp [drop_hints_loop]
  | succ a ih =>
    intro pos seen e
    rw [Nat.succ_add]
    simp only [drop_hints_loop]
    cases h : drop_hints_iter call str pos seen e with
    | none => rfl
    | some r =>
      obtain ⟨s, e1⟩ := r
      simp only
      rw [ih]
      have : pos + 1 + a = pos + (a + 1) := by omega
      rw [this]

theorem EndsInHintAt.ends_le {p p2 : subr_subset_param_t} (h : ParamLe p p2)
    {c : call_context_t} {m : Nat} {b : Bool}
    (he : EndsInHintAt (p.str_at c).values m b) : EndsInHintAt (p2.str_at c).values m b := by
  rcases he with he | ⟨h1, h2, h3⟩
  · exact Or.inl (by rw [(h.at_fields c m).1]; exact he)
  · exact Or.inr ⟨by rw [(h.at_fields c m).1]; exact h1, h2,
      fun i hi => by rw [(h.at_fields c i).1]; exact h3 i hi⟩

theorem drop_hints_switch_hint
    (call : call_context_t → drop_env_t → Option (Bool × drop_env_t))
    (str : call_context_t) (pos : Nat) (e : drop_env_t)
    (hs : IsStem ((e.param.str_at str).values.getD pos default).op ∨
      (IsMask ((e.param.str_at str).values.getD pos default).op ∧ e.drop.seen_moveto = false)) :
    drop_hints_switch call str pos e =
      some (true,
        if ((e.param.set_drop_at str pos).str_at str).at_end pos then
          ⟨e.param.set_drop_at str pos, { e.drop with ends_in_hint := true }⟩
        else ⟨e.param.set_drop_at str pos, e.drop⟩) := by
  unfold drop_hints_switch
  simp only
  generalize (e.param.str_at str).values.getD pos default = v at hs
  have h1 : v.op ≠ OpCode_callsubr := by
    unfold IsStem IsMask at hs
    rcases hs with (h | h | h | h) | ⟨h | h, _⟩ <;> rw [h] <;> decide
  have h2 : v.op ≠ OpCode_callgsubr := by
    unfold IsStem IsMask at hs
    rcases hs with (h | h | h | h) | ⟨h | h, _⟩ <;> rw [h] <;> decide
  have h3 : ¬ (v.op = OpCode_rmoveto ∨ v.op = OpCode_hmoveto ∨ v.op = OpCode_vmoveto) := by
    unfold IsStem IsMask at hs
    rcases hs with (h | h | h | h) | ⟨h | h, _⟩ <;> rw [h] <;> decide
  have h4 : ¬ ((v.op = OpCode_hintmask ∨ v.op = OpCode_cntrmask) ∧ e.drop.seen_moveto = true) := by
    rcases hs with hs | ⟨_, hs⟩
    · have : ¬ (v.op = OpCode_hintmask ∨ v.op = OpCode_cntrmask) := by
        unfold IsStem at hs; rcases hs with h | h | h | h <;> rw [h] <;> decide
      tauto
    · rw [hs]; simp
  have h5 : v.op = OpCode_hintmask ∨ v.op = OpCode_cntrmask ∨ v.op = OpCode_hstemhm
      ∨ v.op = OpCode_vstemhm ∨ v.op = OpCode_hstem ∨ v.op = OpCode_vstem := by
    unfold IsStem IsMask at hs; tauto
  rw [if_neg h1, if_neg h2, if_neg h3, if_neg h4, if_pos h5]
  split <;> rfl

theorem drop_hints_switch_return
    (call : call_context_t → drop_env_t → Option (Bool × drop_env_t))
    (str : call_context_t) (pos : Nat) (e : drop_env_t)
    (hs : ((e.param.str_at str).values.getD pos default).op = OpCode_return) :
    drop_hints_switch call str pos e = some (false, e) := by
  unfold drop_hints_switch
  simp only [hs]
  rfl

theorem drop_hints_iter_hint_end
    (call : call_context_t → drop_env_t → Option (Bool × drop_env_t))
    (str : call_context_t) (pos : Nat) (seen : Bool) (e : drop_env_t)
    (hs : IsStem ((e.param.str_at str).values.getD pos default).op ∨
      (IsMask ((e.param.str_at str).values.getD pos default).op ∧ e.drop.seen_moveto = false))
    (hret : ((e.param.str_at str).values.getD (pos + 1) default).op = OpCode_return) :
    ∃ e2, drop_hints_iter call str pos seen e = some (true, e2) ∧
      e2.drop.ends_in_hint = true ∧ ParamLe e.param e2.param := by
  have hle1 : ParamLe e.param (e.param.set_drop_at str pos) := ParamLe.set_drop_at_le _ _ _
  have hend : ((e.param.set_drop_at str pos).str_at str).at_end pos = true := by
    unfold parsed_cs_str_t.at_end
    rw [(hle1.at_fields str (pos + 1)).1, hret]
    simp
  unfold drop_hints_iter
  rw [drop_hints_switch_hint call str pos e hs, hend]
  simp only [if_true, Bool.or_true]
  exact ⟨_, rfl, rfl,
    hle1.param_trans (ParamLe.set_values_le _ _ _ (drop_hints_back_le _ _ _))⟩

theorem drop_hints_iter_return
    (call : call_context_t → drop_env_t → Option (Bool × drop_env_t))
    (str : call_context_t) (pos : Nat) (seen : Bool) (e : drop_env_t)
    (hret : ((e.param.str_at str).values.getD pos default).op = OpCode_return) :
    drop_hints_iter call str pos seen e = some (seen, e) := by
  unfold drop_hints_iter
  rw [drop_hints_switch_return call str pos e hret]
  rfl

theorem drop_hints_switch_keeps_moveto
    (call : call_context_t → drop_env_t → Option (Bool × drop_env_t))
    (str : call_context_t) (pos : Nat) (e : drop_env_t) (r : Bool × drop_env_t)
    (hop : NoMoveNoCall ((e.param.str_at str).values.getD pos default).op)
    (h : drop_hints_switch call str pos e = some r) :
    r.2.drop.seen_moveto = e.drop.seen_moveto := by
  obtain ⟨h1, h2, h3, h4, h5⟩ := hop
  unfold drop_hints_switch at h
  simp only at h
  rw [if_neg h1, if_neg h2, if_neg (by tauto)] at h
  split at h
  · simp only [Option.some.injEq] at h; subst h; rfl
  split at h
  · split at h <;> (simp only [Option.some.injEq] at h; subst h; rfl)
  split at h <;> (simp only [Option.some.injEq] at h; subst h; rfl)

theorem drop_hints_iter_keeps_moveto
    (call : call_context_t → drop_env_t → Option (Bool × drop_env_t))
    (str : call_context_t) (pos : Nat) (seen : Bool) (e : drop_env_t) (r : Bool × drop_env_t)
    (hop : NoMoveNoCall ((e.param.str_at str).values.getD pos default).op)
    (h : drop_hints_iter call str pos seen e = some r) :
    r.2.drop.seen_moveto = e.drop.seen_moveto := by
  unfold drop_hints_iter at h
  cases hs : drop_hints_switch call str pos e with
  | none => rw [hs] at h; exact absurd h (by simp)
  | some r1 =>
    obtain ⟨b1, e1⟩ := r1
    rw [hs] at h
    have h1 := drop_hints_switch_keeps_moveto call str pos e _ hop hs
    simp only at h
    split at h <;> (simp only [Option.some.injEq] at h; subst h; exact h1)

theorem drop_hints_loop_keeps_moveto
    (call : call_context_t → drop_env_t → Option (Bool × drop_env_t))
    (hcall : ∀ c e r, call c e = some r → ParamLe e.param r.2.param)
    (str : call_context_t) (n : Nat) :
    ∀ (pos : Nat) (seen : Bool) (e : drop_env_t) (r : Bool × drop_env_t),
      (∀ i, pos ≤ i → i < pos + n →
        NoMoveNoCall ((e.param.str_at str).values.getD i default).op) →
      drop_hints_loop call str n pos seen e = some r →
      r.2.drop.seen_moveto = e.drop.seen_moveto := by
  induction n with
  | zero =>
    intro pos seen e r _ h
    simp only [drop_hints_loop, Option.some.injEq] at h
    subst h
    rfl
  | succ n ih =>
    intro pos seen e r hops h
    simp only [drop_hints_loop] at h
    cases hi : drop_hints_iter call str pos seen e with
    | none => rw [hi] at h; exact absurd h (by simp)
    | some r1 =>
      obtain ⟨s1, e1⟩ := r1
      rw [hi] at h
      simp only at h
      have hle : ParamLe e.param e1.param := drop_hints_iter_le call hcall _ _ _ _ _ hi
      have h1 := drop_hints_iter_keeps_moveto call str pos seen e _
        (hops pos (le_refl _) (by omega)) hi
      have h2 := ih (pos + 1) s1 e1 r (fun i hi1 hi2 => by
        rw [(hle.at_fields str i).1]; exact hops i (by omega) (by omega)) h
      rw [h2]; exact h1

theorem drop_hints_in_str_ends_in_hint (rank : call_context_t → Nat) (fuel : Nat)
    (c : call_context_t) (e : drop_env_t) (hrk : RankAll e.param rank) (hlt : rank c < fuel)
    (m : Nat) (hlen : (e.param.str_at c).values.length = m + 2)
    (hlast : EndsInHintAt (e.param.str_at c).values m e.drop.seen_moveto)
    (hret : ((e.param.str_at c).values.getD (m + 1) default).op = OpCode_return) :
    ∃ b e2, drop_hints_in_str fuel c e = some (b, e2) ∧ e2.drop.ends_in_hint = true ∧
      ParamLe e.param e2.param := by
  cases fuel with
  | zero => exact absurd hlt (by omega)
  | succ fuel =>
    have hcall_total : ∀ c2 e2, RankAll e2.param rank → rank c2 < fuel →
        ∃ r, drop_hints_in_str fuel c2 e2 = some r :=
      fun c2 e2 h1 h2 => drop_hints_in_str_total rank fuel c2 e2 h1 h2
    obtain ⟨⟨s1, e1⟩, h1⟩ := drop_hints_loop_total rank fuel (drop_hints_in_str fuel)
      hcall_total (drop_hints_in_str_le fuel) c hlt m 0 false e hrk
    have hle1 : ParamLe e.param e1.param :=
      drop_hints_loop_le _ (drop_hints_in_str_le fuel) c m 0 false e _ h1
    have hs1 : IsStem ((e1.param.str_at c).values.getD m default).op ∨
        (IsMask ((e1.param.str_at c).values.getD m default).op ∧
          e1.drop.seen_moveto = false) := by
      rcases hlast with hl | ⟨hl1, hl2, hl3⟩
      · exact Or.inl (by rw [(hle1.at_fields c m).1]; exact hl)
      · refine Or.inr ⟨by rw [(hle1.at_fields c m).1]; exact hl1, ?_⟩
        have := drop_hints_loop_keeps_moveto (drop_hints_in_str fuel)
          (drop_hints_in_str_le fuel) c m 0 false e _
          (fun i _ hi => hl3 i (by omega)) h1
        rw [← hl2]; exact this
    have hr1 : ((e1.param.str_at c).values.getD (m + 1) default).op = OpCode_return := by
      rw [(hle1.at_fields c (m + 1)).1]; exact hret
    obtain ⟨e2, h2, hend, hle2⟩ :=
      drop_hints_iter_hint_end (drop_hints_in_str fuel) c m s1 e1 hs1 hr1
    have hr2 : ((e2.param.str_at c).values.getD (m + 1) default).op = OpCode_return := by
      rw [(hle2.at_fields c (m + 1)).1]; exact hr1
    have h3 := drop_hints_iter_return (drop_hints_in_str fuel) c (m + 1) true e2 hr2
    refine ⟨true, e2, ?_, hend, hle1.param_trans hle2⟩
    simp only [drop_hints_in_str, hlen]
    rw [drop_hints_loop_split _ c m 2 0 false e, h1]
    simp only [Nat.zero_add, drop_hints_loop, h2, h3]

theorem set_drop_at_root_getD (p : subr_subset_param_t) (pos : Nat)
    (hpos : pos < (p.str_at root).values.length) :
    ((p.set_drop_at root pos).str_at root).values.getD pos default =
      ((p.str_at root).values.getD pos default).set_drop := by
  show (((p.str_at root).values.set pos ((p.str_at root).values.getD pos default).set_drop)).getD
    pos default = _
  rw [list_getD_set, if_pos ⟨rfl, hpos⟩]

theorem drop_hints_in_subr_drops_call (rank : call_context_t → Nat) (fuel : Nat)
    (pos : Nat) (e : drop_env_t) (hrk : RankAll e.param rank)
    (n m : Nat) (hlt : rank ⟨.CSType_LocalSubr, n⟩ < fuel)
    (hpos : pos < (e.param.str_at root).values.length)
    (hkeep : ((e.param.str_at root).values.getD pos default).keep_flag = false)
    (hlen : (e.param.str_at ⟨.CSType_LocalSubr, n⟩).values.length = m + 2)
    (hlast : EndsInHintAt (e.param.str_at ⟨.CSType_LocalSubr, n⟩).values m e.drop.seen_moveto)
    (hret : ((e.param.str_at ⟨.CSType_LocalSubr, n⟩).values.getD (m + 1) default).op
      = OpCode_return) :
    ∃ b e2, drop_hints_in_subr (drop_hints_in_str fuel) root pos .CSType_LocalSubr n e =
        some (b, e2) ∧ ParamLe e.param e2.param ∧
      ((e2.param.str_at root).values.getD pos default).drop_flag = true := by
  obtain ⟨b, e1, h1, hend, hle1⟩ := drop_hints_in_str_ends_in_hint rank fuel
    ⟨.CSType_LocalSubr, n⟩ { e with drop := { e.drop with ends_in_hint := false } }
    hrk hlt m hlen hlast hret
  have hle1b : ParamLe e.param e1.param := hle1
  have hpos1 : pos < (e1.param.str_at root).values.length := by
    rw [hle1b.at_length root]; exact hpos
  have hkeep1 : ((e1.param.str_at root).values.getD pos default).keep_flag = false := by
    rw [(hle1b.at_fields root pos).2.2.1]; exact hkeep
  have hdrop : (((e1.param.set_drop_at root pos).str_at root).values.getD pos default).drop_flag
      = true := by
    rw [set_drop_at_root_getD _ _ hpos1]
    unfold parsed_cs_op_t.set_drop parsed_cs_op_t.for_keep
    rw [hkeep1]
    rfl
  have hle2 : ParamLe e.param (e1.param.set_drop_at root pos) :=
    hle1b.param_trans (ParamLe.set_drop_at_le _ _ _)
  unfold drop_hints_in_subr
  simp only [h1, hend, if_true]
  split
  · exact ⟨_, _, rfl, hle2, hdrop⟩
  · exact ⟨_, _, rfl, hle2, hdrop⟩

theorem drop_hints_iter_drops_call (rank : call_context_t → Nat) (fuel : Nat)
    (pos : Nat) (seen : Bool) (e : drop_env_t) (hrk : RankAll e.param rank)
    (hlt : rank root < fuel + 1) (n m : Nat)
    (hpos : pos < (e.param.str_at root).values.length)
    (hop : ((e.param.str_at root).values.getD pos default).op = OpCode_callsubr)
    (hnum : ((e.param.str_at root).values.getD pos default).subr_num = n)
    (hkeep : ((e.param.str_at root).values.getD pos default).keep_flag = false)
    (hlen : (e.param.str_at ⟨.CSType_LocalSubr, n⟩).values.length = m + 2)
    (hlast : EndsInHintAt (e.param.str_at ⟨.CSType_LocalSubr, n⟩).values m e.drop.seen_moveto)
    (hret : ((e.param.str_at ⟨.CSType_LocalSubr, n⟩).values.getD (m + 1) default).op
      = OpCode_return) :
    ∃ s e2, drop_hints_iter (drop_hints_in_str fuel) root pos seen e = some (s, e2) ∧
      ParamLe e.param e2.param ∧
      ((e2.param.str_at root).values.getD pos default).drop_flag = true := by
  have hv : (e.param.str_at root).values[pos]? =
      some ((e.param.str_at root).values.getD pos default) := by
    rw [List.getD_eq_getElem?_getD, List.getElem?_eq_getElem hpos]; rfl
  have hrank : rank ⟨.CSType_LocalSubr, n⟩ < fuel := by
    have := hrk root pos _ ⟨.CSType_LocalSubr, n⟩ hv
      (by rw [parsed_cs_op_t.callee_callsubr hop, hnum])
    omega
  obtain ⟨b, e1, h1, hle1, hd1⟩ := drop_hints_in_subr_drops_call rank fuel pos e hrk n m hrank
    hpos hkeep hlen hlast hret
  have hsw : drop_hints_switch (drop_hints_in_str fuel) root pos e = some (b, e1) := by
    unfold drop_hints_switch
    simp only [hop, if_true, hnum]
    exact h1
  unfold drop_hints_iter
  rw [hsw]
  simp only
  split
  · have hle2 : ParamLe e1.param (e1.param.set_values_at root
        (drop_hints_back (e1.param.str_at root).values e1.drop.vsindex_dropped pos).1) :=
      ParamLe.set_values_le _ _ _ (drop_hints_back_le _ _ _)
    exact ⟨_, _, rfl, hle1.param_trans hle2, (hle2.at_fields root pos).2.2.2 hd1⟩
  · exact ⟨_, _, rfl, hle1, hd1⟩

theorem drop_hints_in_str_drops_call (rank : call_context_t → Nat) (fuel : Nat)
    (pos : Nat) (e : drop_env_t) (hrk : RankAll e.param rank)
    (hlt : rank root < fuel) (n m : Nat)
    (hpos : pos < (e.param.str_at root).values.length)
    (hop : ((e.param.str_at root).values.getD pos default).op = OpCode_callsubr)
    (hnum : ((e.param.str_at root).values.getD pos default).subr_num = n)
    (hkeep : ((e.param.str_at root).values.getD pos default).keep_flag = false)
    (hlen : (e.param.str_at ⟨.CSType_LocalSubr, n⟩).values.length = m + 2)
    (hlast : EndsInHintAt (e.param.str_at ⟨.CSType_LocalSubr, n⟩).values m e.drop.seen_moveto)
    (hpre : ¬ IsStem ((e.param.str_at ⟨.CSType_LocalSubr, n⟩).values.getD m default).op →
      ∀ i, i < pos → NoMoveNoCall ((e.param.str_at root).values.getD i default).op)
    (hret : ((e.param.str_at ⟨.CSType_LocalSubr, n⟩).values.getD (m + 1) default).op
      = OpCode_return) :
    ∃ b e2, drop_hints_in_str fuel root e = some (b, e2) ∧ ParamLe e.param e2.param ∧
      ((e2.param.str_at root).values.getD pos default).drop_flag = true := by
  cases fuel with
  | zero => exact absurd hlt (by omega)
  | succ fuel =>
    have hcall_total : ∀ c2 e2, RankAll e2.param rank → rank c2 < fuel →
        ∃ r, drop_hints_in_str fuel c2 e2 = some r :=
      fun c2 e2 h1 h2 => drop_hints_in_str_total rank fuel c2 e2 h1 h2
    obtain ⟨⟨s1, e1⟩, h1⟩ := drop_hints_loop_total rank fuel (drop_hints_in_str fuel)
      hcall_total (drop_hints_in_str_le fuel) root hlt pos 0 false e hrk
    have hle1 : ParamLe e.param e1.param :=
      drop_hints_loop_le _ (drop_hints_in_str_le fuel) root pos 0 false e _ h1
    have hrk1 : RankAll e1.param rank := hrk.rank_all_le hle1.1
    have hlast1 : EndsInHintAt (e1.param.str_at ⟨.CSType_LocalSubr, n⟩).values m
        e1.drop.seen_moveto := by
      by_cases hst : IsStem ((e.param.str_at ⟨.CSType_LocalSubr, n⟩).values.getD m default).op
      · exact Or.inl (by rw [(hle1.at_fields _ m).1]; exact hst)
      · have hkeeps := drop_hints_loop_keeps_moveto (drop_hints_in_str fuel)
          (drop_hints_in_str_le fuel) root pos 0 false e _
          (fun i _ hi => hpre hst i (by omega)) h1
        have hkeeps2 : e1.drop.seen_moveto = e.drop.seen_moveto := hkeeps
        rw [hkeeps2]
        exact EndsInHintAt.ends_le hle1 hlast
    obtain ⟨s2, e2, h2, hle2, hd2⟩ := drop_hints_iter_drops_call rank fuel pos s1 e1 hrk1 hlt n m
      (by rw [hle1.at_length root]; exact hpos)
      (by rw [(hle1.at_fields root pos).1]; exact hop)
      (by rw [(hle1.at_fields root pos).2.1]; exact hnum)
      (by rw [(hle1.at_fields root pos).2.2.1]; exact hkeep)
      (by rw [hle1.at_length]; exact hlen)
      hlast1
      (by rw [(hle1.at_fields _ (m + 1)).1]; exact hret)
    have hrk2 : RankAll e2.param rank := hrk1.rank_all_le hle2.1
    obtain ⟨⟨s3, e3⟩, h3⟩ := drop_hints_loop_total rank fuel (drop_hints_in_str fuel)
      hcall_total (drop_hints_in_str_le fuel) root hlt
      ((e.param.str_at root).values.length - pos - 1) (pos + 1) s2 e2 hrk2
    have hle3 : ParamLe e2.param e3.param :=
      drop_hints_loop_le _ (drop_hints_in_str_le fuel) root _ _ _ _ _ h3
    refine ⟨s3, e3, ?_, (hle1.param_trans hle2).param_trans hle3,
      (hle3.at_fields root pos).2.2.2 hd2⟩
    have hsplit : (e.param.str_at root).values.length =
        pos + (1 + ((e.param.str_at root).values.length - pos - 1)) := by omega
    simp only [drop_hints_in_str]
    rw [hsplit, drop_hints_loop_split, h1]
    simp only [Nat.zero_add]
    rw [drop_hints_loop_split _ root 1, drop_hints_loop]
    simp only [h2, drop_hints_loop]
    exact h3

end subr_subsetter_t

theorem HintSubrCall.call_le {st st2 : subr_subsetter_t} (h : SubLe st st2) {k f pos n m : Nat}
    (hc : HintSubrCall st k f pos n m) : HintSubrCall st2 k f pos n m := by
  obtain ⟨h1, h2, h3, h4, h5, h6, h7⟩ := hc
  have a := ((h.cs_le k).1.2 pos).fields
  have b1 := ((h.l_le f n).1.2 m).fields
  have b2 := ((h.l_le f n).1.2 (m + 1)).fields
  refine ⟨?_, ?_, ?_, ?_, ?_, ?_, ?_⟩
  · rw [(h.cs_le k).1.1]; exact h1
  · rw [a.1]; exact h2
  · rw [a.2.1]; exact h3
  · rw [a.2.2.1]; exact h4
  · rw [(h.l_le f n).1.1]; exact h5
  · rcases h6 with h6 | ⟨h6, h8, h9⟩
    · exact Or.inl (by rw [b1.1]; exact h6)
    · exact Or.inr ⟨by rw [b1.1]; exact h6,
        fun i hi => by rw [((h.cs_le k).1.2 i).fields.1]; exact h8 i hi,
        fun i hi => by rw [((h.l_le f n).1.2 i).fields.1]; exact h9 i hi⟩
  · rw [b2.1]; exact h7

theorem SubLe.drop_mono {st st2 : subr_subsetter_t} (h : SubLe st st2) (k pos : Nat)
    (hd : ((st.parsed_charstrings.getD k default).values.getD pos default).drop_flag = true) :
    ((st2.parsed_charstrings.getD k default).values.getD pos default).drop_flag = true :=
  ((h.cs_le k).1.2 pos).fields.2.2.2.2.2 hd

namespace subr_subsetter_t

theorem getD_lt_of_values {l : List parsed_cs_str_t} {k pos : Nat}
    (h : pos < (l.getD k default).values.length) : k < l.length := by
  by_contra hc
  rw [List.getD_eq_getElem?_getD, List.getElem?_eq_none (not_lt.mp hc)] at h
  simp [parsed_cs_str_t.default_values] at h

theorem subset_drop_hints_drops_call (acc : acc_t) (fuel : Nat) (gs : List Nat) :
    ∀ (i : Nat) (st : subr_subsetter_t) (j g pos n m : Nat),
      (∀ x ∈ gs, acc.get_fd x < acc.fdCount) →
      (∀ j2 g2, gs[j2]? = some g2 →
        ∃ rank, RankAll (st.param_init (i + j2) (acc.get_fd g2) true) rank ∧
          rank root < fuel) →
      gs[j]? = some g →
      HintSubrCall st (i + j) (acc.get_fd g) pos n m →
      ∃ st2, subset_drop_hints acc fuel gs i st = some (true, st2) ∧ SubLe st st2 ∧
        ((st2.parsed_charstrings.getD (i + j) default).values.getD pos default).drop_flag
          = true := by
  induction gs with
  | nil => intro i st j g pos n m _ _ hg; simp at hg
  | cons g0 gs ih =>
    intro i st j g pos n m hfd hrank hg hcall
    have hg0 : acc.get_fd g0 < acc.fdCount := hfd g0 (List.mem_cons_self _ _)
    obtain ⟨rank, hr1, hr2⟩ := hrank 0 g0 (List.getElem?_cons_zero)
    rw [Nat.add_zero] at hr1
    have hrank_rest : ∀ (st1 : subr_subsetter_t), SubLe st st1 → ∀ j2 g2, gs[j2]? = some g2 →
        ∃ rank, RankAll (st1.param_init (i + 1 + j2) (acc.get_fd g2) true) rank ∧
          rank root < fuel := by
      intro st1 hle j2 g2 h2
      obtain ⟨rk, hk1, hk2⟩ := hrank (j2 + 1) g2 (by simpa using h2)
      refine ⟨rk, ?_, hk2⟩
      have : i + 1 + j2 = i + (j2 + 1) := by omega
      rw [this]
      exact hk1.rank_all_le (hle.param_le _ _ _)
    cases j with
    | zero =>
      simp only [List.getElem?_cons_zero, Option.some.injEq] at hg
      subst hg
      rw [Nat.add_zero] at hcall ⊢
      obtain ⟨c1, c2, c3, c4, c5, c6, c7⟩ := hcall
      obtain ⟨b, e2, he, hle, hd⟩ := drop_hints_in_str_drops_call rank fuel pos
        ⟨st.param_init i (acc.get_fd g0) true, drop_hints_param_t.new⟩ hr1 hr2 n m
        c1 c2 c3 c4 c5
        (c6.elim Or.inl (fun h => Or.inr ⟨h.1, rfl, h.2.2⟩))
        (fun hst i hi => (c6.resolve_left hst).2.1 i hi) c7
      have hstep := subset_drop_hints_step_le st i (acc.get_fd g0) b e2 hle
      obtain ⟨st2, e1, e3⟩ := subset_drop_hints_spec acc fuel gs (i + 1) _
        (fun x hx => hfd x (List.mem_cons_of_mem _ hx)) (hrank_rest _ hstep)
      have hi : i < st.parsed_charstrings.length := getD_lt_of_values c1
      refine ⟨st2, ?_, hstep.sub_trans e3, e3.drop_mono i pos ?_⟩
      · have he2 : drop_hints_in_str fuel ⟨.CSType_CharString, 0⟩
            ⟨st.param_init i (acc.get_fd g0) true, drop_hints_param_t.new⟩ = some (b, e2) := he
        simp only [subset_drop_hints, if_neg (not_le.mpr hg0), he2]
        exact e1
      · simp only [param_store]
        rw [list_getD_set, if_pos ⟨rfl, by simpa using hi⟩, list_getD_set,
          if_pos ⟨rfl, hi⟩, values_mark]
        exact hd
    | succ j =>
      obtain ⟨⟨seen, e2⟩, he⟩ := drop_hints_in_str_total rank fuel root
        ⟨st.param_init i (acc.get_fd g0) true, drop_hints_param_t.new⟩ hr1 hr2
      have hle := drop_hints_in_str_le fuel _ _ _ he
      have hstep := subset_drop_hints_step_le st i (acc.get_fd g0) seen e2 hle
      have hidx : i + 1 + j = i + (j + 1) := by omega
      obtain ⟨st2, e1, e3, e4⟩ := ih (i + 1) _ j g pos n m
        (fun x hx => hfd x (List.mem_cons_of_mem _ hx)) (hrank_rest _ hstep)
        (by simpa using hg) (by rw [hidx]; exact hcall.call_le hstep)
      refine ⟨st2, ?_, hstep.sub_trans e3, by rw [← hidx]; exact e4⟩
      have he2 : drop_hints_in_str fuel ⟨.CSType_CharString, 0⟩
          ⟨st.param_init i (acc.get_fd g0) true, drop_hints_param_t.new⟩ = some (seen, e2) := he
      simp only [subset_drop_hints, if_neg (not_le.mpr hg0), he2]
      exact e1

end subr_subsetter_t

theorem subr_remap_t.create_get_not_mem (r : subr_remap_t) (S : hb_set_t) (n : Nat)
    (hn : n ∉ S) : (r.create S).get n = CFF_UNDEF_CODE := by
  have hb1 : (hb_set_get_max S + 1) % 4294967296 < 4294967296 := Nat.mod_lt _ (by decide)
  obtain ⟨h1, _, h3⟩ := remap_loop_inv S r.toremap_t _ hb1 _ (le_refl _)
  have hlen : (r.toremap_t.reset ((hb_set_get_max S + 1) % 4294967296)).map.length
      = (hb_set_get_max S + 1) % 4294967296 := by simp [remap_t.reset]
  simp only [subr_remap_t.get, subr_remap_t.create, hlen, h1]
  by_cases hi : n < (hb_set_get_max S + 1) % 4294967296
  · rw [if_neg (by omega), List.getD_eq_getElem?_getD, h3 n hi]
    simp [hn]
  · rw [if_pos (by omega)]

theorem subr_remap_ts.create_local_get (rs : subr_remap_ts) (closures : subr_closures_t)
    (f n : Nat) (hn : n ∉ closures.local_closures.getD f ∅) :
    ((rs.create closures).local_remaps.getD f default).get n = CFF_UNDEF_CODE := by
  simp only [subr_remap_ts.create]
  by_cases hf : f < rs.local_remaps.length
  · rw [List.getD_eq_getElem?_getD, List.getElem?_map, List.getElem?_range hf]
    simp only [Option.map_some', Option.getD_some]
    exact subr_remap_t.create_get_not_mem _ _ _ hn
  · rw [List.getD_eq_getElem?_getD, List.getElem?_eq_none (by simpa using hf)]
    show (default : subr_remap_t).get n = CFF_UNDEF_CODE
    unfold subr_remap_t.get
    exact if_pos (Nat.zero_le n)

theorem parsed_cs_op_t.callee_type {o : parsed_cs_op_t} {t : call_context_t}
    (h : o.callee = some t) : t.type ≠ .CSType_CharString := by
  unfold parsed_cs_op_t.callee at h
  split at h
  · simp only [Option.some.injEq] at h; subst h; simp
  · split at h
    · simp only [Option.some.injEq] at h; subst h; simp
    · exact absurd h (by simp)

theorem Reaches.site_src {p : subr_subset_param_t} {src : call_context_t}
    {site : call_context_t × Nat} {tgt : call_context_t} (h : Reaches p src site tgt) :
    site.1 = src ∨ site.1.type ≠ .CSType_CharString := by
  induction h with
  | call _ _ _ => exact Or.inl rfl
  | step _ _ h3 _ ih =>
    rcases ih with ih | ih
    · exact Or.inr (ih ▸ parsed_cs_op_t.callee_type h3)
    · exact Or.inr ih

theorem Reaches.not_at_dropped {p : subr_subset_param_t} {pos : Nat} {tgt : call_context_t}
    (hd : ((p.str_at root).values.getD pos default).drop_flag = true)
    (h : Reaches p root (root, pos) tgt) : False := by
  generalize hs : (root, pos) = site at h
  generalize hr : root = src at h
  cases h with
  | call h1 h2 h3 =>
    simp only [Prod.mk.injEq] at hs
    obtain ⟨_, hs2⟩ := hs
    subst hs2
    subst hr
    rw [list_getD_of_getElem? default h1, h2] at hd
    exact absurd hd (by simp)
  | step h1 h2 h3 h4 =>
    subst hs
    rcases h4.site_src with h5 | h5
    · have := parsed_cs_op_t.callee_type h3
      rw [← h5] at this
      exact this rfl
    · exact h5 rfl

namespace subr_subsetter_t

/-- C8 (amended): let glyph number `k`, of FD `f`, call at position `pos` (anywhere, so also
as its final operation or its final operation before return) a local subroutine `n` whose
last two operations are a hint operator and `return`, as in a subroutine made only of hint
operators with their operands followed by return, that hint operator being a stem hint
(hstem, vstem, hstemhm, vstemhm), or a hintmask or cntrmask when neither a moveto nor a
subroutine call comes before it in the subroutine or before the call in the glyph; let the
glyph FDs be below `fdCount`, the closures hold one local set per FD and the call graph be
acyclic. Then with enough call depth `subset` with hint dropping succeeds and the call
operation is flagged drop, so that it contributes no byte when re-encoded, the parsed
charstrings being otherwise as before up to drop flags; and when no
other call that is not flagged drop reaches subroutine `n` from a retained glyph of FD
`f`, the recomputed local closure of FD `f` does not contain `n`, the local remap yields
`CFF_UNDEF_CODE` for it, and the loop of `encode_subrs` run by `encode_localsubrs` leaves
the buffers untouched at `n`. -/
theorem hint_subr_call_is_elided (acc : acc_t) (glyphs : List Nat) (st : subr_subsetter_t)
    (k g pos n m : Nat)
    (hfd : ∀ x ∈ glyphs, acc.get_fd x < acc.fdCount)
    (hlc : st.closures.local_closures.length = acc.fdCount)
    (hacyc : ∀ i x, glyphs[i]? = some x →
      ∃ rank, RankAll (st.param_init i (acc.get_fd x) true) rank)
    (hk : glyphs[k]? = some g)
    (hcall : HintSubrCall st k (acc.get_fd g) pos n m) :
    ∃ fuel0, ∀ fuel, fuel0 ≤ fuel →
      ∃ st2, subset_after_parse acc fuel glyphs true st = some (true, st2) ∧
        ((st2.parsed_charstrings.getD k default).values.getD pos default).op
          = OpCode_callsubr ∧
        ((st2.parsed_charstrings.getD k default).values.getD pos default).subr_num = n ∧
        ((st2.parsed_charstrings.getD k default).values.getD pos default).drop_flag = true ∧
        (∀ fd, st2.reencoded_op fd
          ((st2.parsed_charstrings.getD k default).values.getD pos default) = []) ∧
        (∀ i fd c, StrLe ((st.param_init i fd true).str_at c)
          ((st2.param_init i fd true).str_at c)) ∧
        ((∀ i x site, glyphs[i]? = some x → acc.get_fd x = acc.get_fd g →
            Reaches (st2.param_init i (acc.get_fd x) true) root site ⟨.CSType_LocalSubr, n⟩ →
            i = k ∧ site = (root, pos)) →
          n ∉ st2.closures.local_closures.getD (acc.get_fd g) ∅ ∧
          (st2.remaps.local_remaps.getD (acc.get_fd g) default).get n = CFF_UNDEF_CODE ∧
          ∀ buffArray, st2.encode_subrs_iter (st2.parsed_local_subrs.getD (acc.get_fd g) [])
            (st2.remaps.local_remaps.getD (acc.get_fd g) default) (acc.get_fd g) n buffArray
              = (true, buffArray)) := by
  obtain ⟨N, hN⟩ := rank_bound_all acc glyphs st hacyc
  refine ⟨N, fun fuel hfuel => ?_⟩
  have hrank : ∀ j x, glyphs[j]? = some x →
      ∃ rank, RankAll (st.param_init j (acc.get_fd x) true) rank ∧ rank root < fuel := by
    intro j x hx
    obtain ⟨rank, hr, hrk⟩ := hN j x hx
    exact ⟨rank, hr, by omega⟩
  obtain ⟨st1, st2, d1, d2, _, r2, r3, _, r5⟩ :=
    subset_after_parse_spec acc fuel glyphs st hfd hlc hrank
  obtain ⟨st1b, c1, _, c3⟩ := subset_drop_hints_drops_call acc fuel glyphs 0 st k g pos n m hfd
    (fun j x hx => by rw [Nat.zero_add]; exact hrank j x hx) hk
    (by rw [Nat.zero_add]; exact hcall)
  rw [d1, Option.some.injEq, Prod.mk.injEq] at c1
  obtain ⟨_, c1⟩ := c1
  subst c1
  rw [Nat.zero_add] at c3
  have hcall1 := hcall.call_le d2
  have hcs : ({ st2 with remaps := st2.remaps.create st2.closures } :
      subr_subsetter_t).parsed_charstrings = st1.parsed_charstrings := r3.1
  have hdrop : ((({ st2 with remaps := st2.remaps.create st2.closures } :
      subr_subsetter_t).parsed_charstrings.getD k default).values.getD pos default).drop_flag
        = true := by
    rw [hcs]; exact c3
  refine ⟨_, r2, ?_, ?_, hdrop, ?_, ?_, ?_⟩
  · rw [hcs]; exact hcall1.2.1
  · rw [hcs]; exact hcall1.2.2.1
  · intro fd
    unfold reencoded_op
    rw [if_pos (Or.inl hdrop)]
  · intro i fd c
    have hs : SameParsed st1 { st2 with remaps := st2.remaps.create st2.closures } := r3
    rw [(hs.same_param_init i fd true).same_str_at c]
    exact d2.param_le i fd true c
  · intro hother
    have hsame : SameParsed st1 { st2 with remaps := st2.remaps.create st2.closures } := r3
    have hnot : n ∉ st2.closures.local_closures.getD (acc.get_fd g) ∅ := by
      intro hmem
      obtain ⟨i, x, site, hx, hxf, hreach⟩ := (r5 (acc.get_fd g) n).mp hmem
      have hreach2 := hreach.reaches_same (hsame.same_param_init i (acc.get_fd x) true)
      obtain ⟨hi, hsite⟩ := hother i x site hx hxf hreach2
      have hd : (((({ st2 with remaps := st2.remaps.create st2.closures } :
          subr_subsetter_t).param_init i (acc.get_fd x) true).str_at root).values.getD
            pos default).drop_flag = true := by
        rw [hi]; exact hdrop
      rw [hsite] at hreach2
      exact Reaches.not_at_dropped hd hreach2
    have hget := subr_remap_ts.create_local_get st2.remaps st2.closures (acc.get_fd g) n hnot
    refine ⟨hnot, hget, fun buffArray => ?_⟩
    simp only [encode_subrs_iter]
    rw [hget]
    simp

theorem elision_scenario_reaches_any (i : Nat) (site : call_context_t × Nat)
    (tgt : call_context_t)
    (h : ReachesAny (elision_scenario.param_init i 0 true) root site tgt) :
    i = 0 ∧ site = (root, 1) := by
  obtain ⟨pos, o, mid, h1, h2, h3⟩ := h.any_inv
  obtain ⟨hi, _, hp, hm⟩ := elision_scenario_calls i true _ pos o mid h1 h2
  subst hm
  rcases h3 with ⟨_, h3⟩ | h3
  · exact ⟨hi, by rw [h3, hp]⟩
  · obtain ⟨pos2, o2, mid2, k1, k2, _⟩ := h3.any_inv
    obtain ⟨_, k4, _, _⟩ := elision_scenario_calls i true _ pos2 o2 mid2 k1 k2
    exact absurd k4 (by simp)

/-- Witness of C8 (amended): in the call-elision scenario the call is flagged drop, local
subroutine 0 leaves the closure of FD 0 and gets no new number. -/
theorem hint_subr_call_is_elided_witness :
    ∃ fuel0, ∀ fuel, fuel0 ≤ fuel →
      ∃ st2, subset_after_parse elision_acc fuel [0] true elision_scenario = some (true, st2) ∧
        ((st2.parsed_charstrings.getD 0 default).values.getD 1 default).drop_flag = true ∧
        0 ∉ st2.closures.local_closures.getD 0 ∅ ∧
        (st2.remaps.local_remaps.getD 0 default).get 0 = CFF_UNDEF_CODE := by
  obtain ⟨fuel0, h⟩ := hint_subr_call_is_elided elision_acc [0] elision_scenario 0 0 1 0 2
    (fun _ _ => Nat.zero_lt_one) rfl
    (fun i _ _ => ⟨_, elision_scenario_rank i true⟩) rfl
    ⟨by decide, rfl, rfl, rfl, rfl, Or.inl (by decide), rfl⟩
  refine ⟨fuel0, fun fuel hf => ?_⟩
  obtain ⟨st2, h1, _, _, h4, _, h6, h7⟩ := h fuel hf
  obtain ⟨h8, h9, _⟩ := h7 (fun i x site _ _ hr =>
    elision_scenario_reaches_any i site _ (hr.reaches_any_before (h6 i 0)))
  exact ⟨st2, h1, h4, h8, h9⟩

/-- C8 as stated fails: a local subroutine that is only `hintmask return`, called as the
final operation before return once a moveto has been seen, or that is only
`dotsection return`, keeps its call (not flagged drop), stays in the recomputed local
closure, gets new number 0 and a buffer from `encode_localsubrs`. -/
theorem hint_subr_call_not_elided :
    (subset_after_parse elision_acc 2 [0] true hintmask_scenario).map
        (fun r => (r.1, ((r.2.parsed_charstrings.getD 0 default).values.getD 4 default).op,
          ((r.2.parsed_charstrings.getD 0 default).values.getD 4 default).drop_flag,
          decide (0 ∈ r.2.closures.local_closures.getD 0 ∅),
          (r.2.remaps.local_remaps.getD 0 default).get 0,
          (r.2.encode_localsubrs 0 ⟨[], 1, true, fun _ => 1⟩).2.bufs))
      = some (true, OpCode_callsubr, false, true, 0, [⟨[11], 1, true⟩]) ∧
    (subset_after_parse elision_acc 2 [0] true dotsection_scenario).map
        (fun r => (r.1, ((r.2.parsed_charstrings.getD 0 default).values.getD 1 default).op,
          ((r.2.parsed_charstrings.getD 0 default).values.getD 1 default).drop_flag,
          decide (0 ∈ r.2.closures.local_closures.getD 0 ∅),
          (r.2.remaps.local_remaps.getD 0 default).get 0,
          (r.2.encode_localsubrs 0 ⟨[], 1, true, fun _ => 1⟩).2.bufs))
      = some (true, OpCode_callsubr, false, true, 0, [⟨[11], 1, true⟩]) := by
  constructor <;> rfl

theorem encode_subrs_loop_spec (st : subr_subsetter_t) (subrs : List parsed_cs_str_t)
    (remap : subr_remap_t) (fd : Nat) :
    ∀ (olds : List Nat) (B : str_buff_vec_t), olds.Nodup →
      (∀ a ∈ olds, ∀ b ∈ olds, remap.get a = remap.get b → remap.get a ≠ CFF_UNDEF_CODE →
        a = b) →
      (∀ a ∈ olds, remap.get a ≠ CFF_UNDEF_CODE → remap.get a < B.bufs.length) →
      (encode_subrs_loop st subrs remap fd olds B).1 = true →
      (encode_subrs_loop st subrs remap fd olds B).2.bufs.length = B.bufs.length ∧
      (∀ j, (∀ a ∈ olds, remap.get a = CFF_UNDEF_CODE ∨ remap.get a ≠ j) →
        (encode_subrs_loop st subrs remap fd olds B).2.bufs.getD j default
          = B.bufs.getD j default) ∧
      (∀ a ∈ olds, remap.get a ≠ CFF_UNDEF_CODE →
        (st.encode_str (subrs.getD a default) fd (B.bufs.getD (remap.get a) default)).1 = true ∧
        (encode_subrs_loop st subrs remap fd olds B).2.bufs.getD (remap.get a) default =
          (st.encode_str (subrs.getD a default) fd (B.bufs.getD (remap.get a) default)).2) := by
  intro olds
  induction olds with
  | nil =>
    intro B _ _ _ _
    simp [encode_subrs_loop]
  | cons a rest ih =>
    intro B hnd hinj hlt hok
    have hnd2 := (List.nodup_cons.mp hnd)
    simp only [encode_subrs_loop] at hok ⊢
    by_cases hu : remap.get a = CFF_UNDEF_CODE
    · have hiter : encode_subrs_iter st subrs remap fd a B = (true, B) := by
        simp [encode_subrs_iter, hu]
      rw [hiter] at hok ⊢
      simp only [Bool.not_true, Bool.false_eq_true, if_false] at hok ⊢
      obtain ⟨h1, h2, h3⟩ := ih B hnd2.2
        (fun x hx y hy => hinj x (List.mem_cons_of_mem _ hx) y (List.mem_cons_of_mem _ hy))
        (fun x hx => hlt x (List.mem_cons_of_mem _ hx)) hok
      refine ⟨h1, fun j hj => h2 j (fun x hx => hj x (List.mem_cons_of_mem _ hx)), ?_⟩
      intro x hx hxu
      rcases List.mem_cons.mp hx with rfl | hx
      · exact absurd hu hxu
      · exact h3 x hx hxu
    · have hiter : encode_subrs_iter st subrs remap fd a B =
          ((st.encode_str (subrs.getD a default) fd (B.bufs.getD (remap.get a) default)).1,
            { B with bufs := (B.bufs.set (remap.get a)
              (st.encode_str (subrs.getD a default) fd
                (B.bufs.getD (remap.get a) default)).2) }) := by
        simp [encode_subrs_iter, hu]
      rw [hiter] at hok ⊢
      simp only at hok ⊢
      cases henc : (st.encode_str (subrs.getD a default) fd
          (B.bufs.getD (remap.get a) default)).1 with
      | false => rw [henc] at hok; simp at hok
      | true =>
        rw [henc] at hok
        simp only [Bool.not_true, Bool.false_eq_true, if_false] at hok ⊢
        have hla : remap.get a < B.bufs.length := hlt a (List.mem_cons_self _ _) hu
        obtain ⟨h1, h2, h3⟩ := ih _ hnd2.2
          (fun x hx y hy => hinj x (List.mem_cons_of_mem _ hx) y (List.mem_cons_of_mem _ hy))
          (fun x hx hxu => by
            simpa using hlt x (List.mem_cons_of_mem _ hx) hxu) hok
        have hfresh : ∀ x ∈ rest, remap.get x = CFF_UNDEF_CODE ∨ remap.get x ≠ remap.get a := by
          intro x hx
          by_cases hxa : remap.get x = remap.get a
          · have := hinj a (List.mem_cons_self _ _) x (List.mem_cons_of_mem _ hx) hxa.symm hu
            subst this
            exact absurd hx hnd2.1
          · exact Or.inr hxa
        refine ⟨by simpa using h1, ?_, ?_⟩
        · intro j hj
          rw [h2 j (fun x hx => hj x (List.mem_cons_of_mem _ hx))]
          have hja : remap.get a ≠ j := by
            rcases hj a (List.mem_cons_self _ _) with h | h
            · exact absurd h hu
            · exact h
          simp only
          rw [list_getD_set, if_neg (fun h => hja h.1)]
        · intro x hx hxu
          rcases List.mem_cons.mp hx with rfl | hx
          · refine ⟨henc, ?_⟩
            rw [h2 _ hfresh]
            simp only
            rw [list_getD_set, if_pos ⟨rfl, hla⟩]
          · have hxa : remap.get x ≠ remap.get a := (hfresh x hx).resolve_left hxu
            have h4 := h3 x hx hxu
            simp only at h4
            rw [list_getD_set, if_neg (fun h => hxa h.1.symm)] at h4
            exact h4

theorem str_buff_vec_resize_ok (b : str_buff_vec_t) (size : Nat) (h : (b.resize size).1 = true) :
    (b.resize size).2.bufs.length = size := by
  unfold str_buff_vec_t.resize at h ⊢
  split
  · simp only [List.length_take, List.length_append, List.length_map, List.length_range]
    omega
  · rename_i hc; rw [if_neg hc] at h; exact absurd h (by simp)

theorem remap_get_mem_iff (r : subr_remap_t) (S : hb_set_t) (hS : ∀ x ∈ S, x < 4294967295)
    (i : Nat) : (r.create S).get i ≠ CFF_UNDEF_CODE ↔ i ∈ S := by
  rw [subr_remap_t.create_get r S hS]
  constructor
  · intro h
    by_contra hc
    rw [if_neg hc] at h
    exact h rfl
  · intro h
    rw [if_pos h]
    have h1 := rank_lt_card S h
    have h2 : S.card ≤ 4294967295 := by
      have : S ⊆ Finset.range 4294967295 := fun x hx => Finset.mem_range.mpr (hS x hx)
      simpa using Finset.card_le_card this
    unfold CFF_UNDEF_CODE
    omega

/-- C11: let the remap be created from a closure `S` all of whose members are below the
length of the parsed subroutine table (a table length is an `unsigned int`). When
`encode_subrs` returns true, the output list has exactly `remap.get_count ()` buffers; for
every old index in the closure `encode_str` of that subroutine succeeded and the buffer at
position `remap[old]` is the one it wrote (into the buffer `resize` left at that
position); every output position is `remap[old]` for exactly one member `old` of the
closure; and for an old index outside the closure the loop body encodes nothing and leaves
the output list as it is. -/
theorem encode_subrs_fills_remapped_slots (st : subr_subsetter_t)
    (subrs : List parsed_cs_str_t) (r : subr_remap_t) (S : hb_set_t) (fd : Nat)
    (buffArray : str_buff_vec_t)
    (hS : ∀ x ∈ S, x < subrs.length) (hlen : subrs.length ≤ 4294967295)
    (hok : (st.encode_subrs subrs (r.create S) fd buffArray).1 = true) :
    (st.encode_subrs subrs (r.create S) fd buffArray).2.bufs.length = (r.create S).get_count ∧
    (∀ old ∈ S,
      (st.encode_str (subrs.getD old default) fd
        ((buffArray.resize (r.create S).get_count).2.bufs.getD
          ((r.create S).get old) default)).1 = true ∧
      (st.encode_subrs subrs (r.create S) fd buffArray).2.bufs.getD
          ((r.create S).get old) default =
        (st.encode_str (subrs.getD old default) fd
          ((buffArray.resize (r.create S).get_count).2.bufs.getD
            ((r.create S).get old) default)).2) ∧
    (∀ j, j < (r.create S).get_count → ∃! old, old ∈ S ∧ (r.create S).get old = j) ∧
    (∀ old, old ∉ S → ∀ B, st.encode_subrs_iter subrs (r.create S) fd old B = (true, B)) := by
  have hS2 : ∀ x ∈ S, x < 4294967295 := fun x hx => by have := hS x hx; omega
  have hget := subr_remap_t.create_get r S hS2
  have hcount := subr_remap_t.create_count r S hS2
  have hres : (buffArray.resize (r.create S).get_count).1 = true := by
    by_contra hc
    simp only [encode_subrs] at hok
    rw [if_pos (by simpa using hc)] at hok
    exact absurd hok (by simp)
  have hrl := str_buff_vec_resize_ok _ _ hres
  have heq : st.encode_subrs subrs (r.create S) fd buffArray =
      encode_subrs_loop st subrs (r.create S) fd (List.range subrs.length)
        (buffArray.resize (r.create S).get_count).2 := by
    simp only [encode_subrs]
    rw [if_neg (by simp [hres])]
  rw [heq] at hok ⊢
  obtain ⟨h1, _, h3⟩ := encode_subrs_loop_spec st subrs (r.create S) fd (List.range subrs.length)
    (buffArray.resize (r.create S).get_count).2 (List.nodup_range _)
    (fun a _ b _ hab hau => by
      have ha : a ∈ S := (remap_get_mem_iff r S hS2 a).mp hau
      have hb : b ∈ S := (remap_get_mem_iff r S hS2 b).mp (hab ▸ hau)
      rw [hget, hget, if_pos ha, if_pos hb] at hab
      exact rank_injOn S ha hb hab)
    (fun a _ hau => by
      have ha : a ∈ S := (remap_get_mem_iff r S hS2 a).mp hau
      rw [hrl, hcount, hget, if_pos ha]
      exact rank_lt_card S ha) hok
  refine ⟨by rw [h1, hrl], ?_, ?_, ?_⟩
  · intro old hold
    exact h3 old (List.mem_range.mpr (hS old hold)) ((remap_get_mem_iff r S hS2 old).mpr hold)
  · intro j hj
    rw [hcount] at hj
    have : j ∈ S.image (fun a => (S.filter (· < a)).card) := by
      rw [rank_image]; exact Finset.mem_range.mpr hj
    obtain ⟨old, hold, hr⟩ := Finset.mem_image.mp this
    refine ⟨old, ⟨hold, by rw [hget, if_pos hold]; exact hr⟩, ?_⟩
    rintro y ⟨hy, hyj⟩
    rw [hget, if_pos hy] at hyj
    exact rank_injOn S hy hold (hyj.trans hr.symm)
  · intro old hold B
    have : (r.create S).get old = CFF_UNDEF_CODE := by rw [hget, if_neg hold]
    simp [encode_subrs_iter, this]

/-- C11 at a concrete input: two local subroutines survive out of four; their buffers land
at the new positions 0 and 1. -/
theorem encode_subrs_fills_remapped_slots_witness :
    (elision_scenario.encode_subrs
        [⟨[⟨11, [11], 0, false, false, false⟩], true, false, false, false, 0, default⟩,
         ⟨[⟨5, [5], 0, false, false, false⟩, ⟨11, [11], 0, false, false, false⟩],
           true, false, false, false, 0, default⟩,
         ⟨[⟨11, [11], 0, false, false, false⟩], true, false, false, false, 0, default⟩,
         ⟨[⟨6, [6], 0, false, false, false⟩, ⟨11, [11], 0, false, false, false⟩],
           true, false, false, false, 0, default⟩]
        ((default : subr_remap_t).create {1, 3}) 0 ⟨[], 2, true, fun _ => 2⟩).2.bufs.length
      = ((default : subr_remap_t).create {1, 3}).get_count ∧
    (elision_scenario.encode_subrs
        [⟨[⟨11, [11], 0, false, false, false⟩], true, false, false, false, 0, default⟩,
         ⟨[⟨5, [5], 0, false, false, false⟩, ⟨11, [11], 0, false, false, false⟩],
           true, false, false, false, 0, default⟩,
         ⟨[⟨11, [11], 0, false, false, false⟩], true, false, false, false, 0, default⟩,
         ⟨[⟨6, [6], 0, false, false, false⟩, ⟨11, [11], 0, false, false, false⟩],
           true, false, false, false, 0, default⟩]
        ((default : subr_remap_t).create {1, 3}) 0 ⟨[], 2, true, fun _ => 2⟩).2.bufs
      = [⟨[5, 11], 2, true⟩, ⟨[6, 11], 2, true⟩] :=
  ⟨(encode_subrs_fills_remapped_slots elision_scenario _ default {1, 3} 0
      ⟨[], 2, true, fun _ => 2⟩ (by decide) (by decide) (by rfl)).1, by rfl⟩

end subr_subsetter_t

theorem to_int_small (u : Nat) (h : u < 2147483648) : to_int u = (u : Int) := by
  unfold to_int
  have h1 : u % 4294967296 = u := Nat.mod_eq_of_lt (by omega)
  rw [h1, if_pos h]

/-- C12: for a closure `S` with at most 65536 members and a member `old`, the operand
`biased_num (old)` is `remap[old] - bias` and lies in [-32768, 32767]; `encode_int` emits
it, on an encoder with room for three bytes, as bytes that decode to that very value
(no clamping), and adding the bias of the bias rule for `get_count ()` subroutines to the
decoded value gives `remap[old]`, which is below `get_count ()`. -/
theorem biased_num_round_trips (r : subr_remap_t) (S : hb_set_t)
    (hS : ∀ x ∈ S, x < HB_SET_VALUE_INVALID) (hcard : S.card ≤ 65536)
    (old : Nat) (hold : old ∈ S)
    (e : str_encoder_t) (herr : e.error = false) (hok : e.buff.ok = true)
    (hroom : e.buff.bytes.length + 3 ≤ e.buff.cap) (rest : List Nat) :
    (r.create S).biased_num old = (((r.create S).get old : Nat) : Int) - (r.create S).bias ∧
    -32768 ≤ (r.create S).biased_num old ∧ (r.create S).biased_num old ≤ 32767 ∧
    (∃ out : List Nat,
      e.encode_int ((r.create S).biased_num old) =
        ⟨{ e.buff with bytes := e.buff.bytes ++ out }, false⟩ ∧
      ∃ v : Int, decode_int (out ++ rest) = some (v, rest) ∧
        v = (r.create S).biased_num old ∧
        v + bias_rule (r.create S).get_count = (((r.create S).get old : Nat) : Int)) ∧
    (r.create S).get old < (r.create S).get_count := by
  have hS2 : ∀ x ∈ S, x < 4294967295 := hS
  have hget : (r.create S).get old = (S.filter (· < old)).card := by
    rw [subr_remap_t.create_get r S hS2, if_pos hold]
  have hcount := subr_remap_t.create_count r S hS2
  have hbias := subr_remap_t.create_bias r S hS2
  have hlt := rank_lt_card S hold
  have hb : (r.create S).biased_num old =
      (((r.create S).get old : Nat) : Int) - (r.create S).bias := by
    unfold subr_remap_t.biased_num
    simp only
    rw [to_int_small _ (by rw [hget]; omega)]
  have hrange : -32768 ≤ (r.create S).biased_num old ∧ (r.create S).biased_num old ≤ 32767 := by
    rw [hb, hbias, hget]
    split_ifs <;> omega
  refine ⟨hb, hrange.1, hrange.2, ?_, by rw [hget, hcount]; exact hlt⟩
  refine ⟨encode_int_bytes ((r.create S).biased_num old),
    str_encoder_t.encode_int_ok3 e _ herr hok hroom, (r.create S).biased_num old, ?_, rfl, ?_⟩
  · rw [decode_encode_int_bytes, if_neg (by omega), if_neg (by omega)]
  · rw [hb, hcount, hbias]
    unfold bias_rule
    split_ifs <;> omega

/-- C12 at a concrete input: with the closure {1, 3, 4}, old index 4 has new number 2 and
operand -105, emitted as the single byte 34. -/
theorem biased_num_round_trips_witness :
    ((default : subr_remap_t).create {1, 3, 4}).biased_num 4 = -105 ∧
    (⟨⟨[], 3, true⟩, false⟩ : str_encoder_t).encode_int
      (((default : subr_remap_t).create {1, 3, 4}).biased_num 4) = ⟨⟨[34], 3, true⟩, false⟩ ∧
    decode_int ([34] ++ [10]) = some (-105, [10]) ∧
    ((default : subr_remap_t).create {1, 3, 4}).get 4 <
      ((default : subr_remap_t).create {1, 3, 4}).get_count := by
  have h := biased_num_round_trips default {1, 3, 4} (by decide) (by decide) 4 (by decide)
    ⟨⟨[], 3, true⟩, false⟩ rfl rfl (by decide) [10]
  exact ⟨by rfl, by rfl, by rfl, h.2.2.2.2⟩

namespace subr_subsetter_t

/-- C13 as stated fails: a parsed charstring with a prefix whose hints were dropped and
whose `vsindex_dropped` marker is not set still gets its prefix (the width 100, byte 239)
re-inserted in front of the retained operations. -/
theorem prefix_emitted_without_vsindex_dropped :
    width_scenario.has_prefix_ = true ∧ width_scenario.hint_dropped = true ∧
    width_scenario.vsindex_dropped = false ∧
    elision_scenario.encode_str width_scenario 0 ⟨[], 5, true⟩
      = (true, ⟨[239, 142, 143, 21, 14], 5, true⟩) := by
  refine ⟨rfl, rfl, rfl, ?_⟩
  rfl

/-- C13 (amended): on a buffer with room for the output, `encode_str` emits, as the very
first bytes and before the bytes of the operations, the prefix (the bytes of `encode_num`
of the prefix value, followed by the bytes of `encode_op` of the prefix operator unless
that is `OpCode_Invalid`) when the parsed charstring has a prefix and its hints were
dropped, the prefix either not being a vsindex (its operator is not `vsindexcs`, as for a
CFF1 width) or having been vsindex-dropped; and it emits the bytes of the operations only
when the parsed charstring has no prefix or its hints were not dropped. -/
theorem encode_str_prefix_reinserted (st : subr_subsetter_t) (str : parsed_cs_str_t) (fd : Nat)
    (buff : str_buff_t)
    (hroom : (prefix_bytes str ++ str.values.flatMap (reencoded_op st fd)).length ≤ buff.cap) :
    (str.has_prefix_ = true → str.hint_dropped = true →
      str.prefix_op_ ≠ OpCode_vsindexcs ∨ str.vsindex_dropped = true →
      st.encode_str str fd buff =
        (true, ⟨encode_num_bytes str.prefix_num_ ++
          (if str.prefix_op_ ≠ OpCode_Invalid then encode_op_bytes str.prefix_op_ else []) ++
          str.values.flatMap (reencoded_op st fd), buff.cap, true⟩)) ∧
    (str.has_prefix_ = false ∨ str.hint_dropped = false →
      st.encode_str str fd buff =
        (true, ⟨str.values.flatMap (reencoded_op st fd), buff.cap, true⟩)) := by
  have h := encode_str_ok st str fd buff hroom
  refine ⟨fun h1 h2 _ => ?_, fun h1 => ?_⟩
  · rw [h]
    simp [prefix_bytes, h1, h2]
  · rw [h]
    rcases h1 with h1 | h1 <;> simp [prefix_bytes, h1]

/-- C13 (amended) at a concrete input: the width scenario with room for five bytes. -/
theorem encode_str_prefix_reinserted_witness :
    elision_scenario.encode_str width_scenario 0 ⟨[], 5, true⟩ =
      (true, ⟨encode_num_bytes ⟨true, 100, 6553600⟩ ++ [] ++ [142, 143, 21, 14], 5, true⟩) :=
  (encode_str_prefix_reinserted elision_scenario width_scenario 0 ⟨[], 5, true⟩
    (by decide)).1 rfl rfl (Or.inl (by decide))

/-- C14 as stated fails: local subroutine 5 is absent from the closure {1, 3}, the remap
yields `CFF_UNDEF_CODE` for it, and `encode_str` of `-102 callsubr endchar` (a call of
subroutine 5) still returns true, having emitted the operand -108 (bytes 251 0, which a
reader of the font takes for subroutine -1) and the call operator. -/
theorem absent_call_is_encoded :
    (absent_call_scenario.remaps.local_remaps.getD 0 default).get 5 = CFF_UNDEF_CODE ∧
    absent_call_scenario.encode_str
      ⟨[⟨37, [37], 0, false, false, true⟩, ⟨10, [10], 5, false, false, false⟩,
        ⟨14, [14], 0, false, false, false⟩], true, false, false, false, 0, default⟩
      0 ⟨[], 4, true⟩ = (true, ⟨[251, 0, 10, 14], 4, true⟩) ∧
    decode_int [251, 0, 10, 14] = some (-108, [10, 14]) := by
  refine ⟨by rfl, by rfl, by rfl⟩

/-- C14 (amended): `encode_str` has no check for a call whose target the remap does not
know. On a buffer with room for the output it returns true, and a call operation that is
neither dropped nor skipped and whose target has no new number (`CFF_UNDEF_CODE`)
contributes the bytes `encode_int` writes for `-1 - bias`, followed by the call
operator. -/
theorem encode_str_absent_call (st : subr_subsetter_t) (str : parsed_cs_str_t) (fd : Nat)
    (buff : str_buff_t)
    (hroom : (prefix_bytes str ++ str.values.flatMap (reencoded_op st fd)).length ≤ buff.cap) :
    st.encode_str str fd buff =
      (true, ⟨prefix_bytes str ++ str.values.flatMap (reencoded_op st fd), buff.cap, true⟩) ∧
    (∀ o : parsed_cs_op_t, o.drop_flag = false → o.skip_flag = false →
      o.op = OpCode_callsubr →
      (st.remaps.local_remaps.getD fd default).get o.subr_num = CFF_UNDEF_CODE →
      (st.remaps.local_remaps.getD fd default).biased_num o.subr_num =
        -1 - (st.remaps.local_remaps.getD fd default).bias ∧
      reencoded_op st fd o =
        encode_int_bytes (-1 - (st.remaps.local_remaps.getD fd default).bias)
          ++ [OpCode_callsubr]) ∧
    (∀ o : parsed_cs_op_t, o.drop_flag = false → o.skip_flag = false →
      o.op = OpCode_callgsubr →
      st.remaps.global_remap.get o.subr_num = CFF_UNDEF_CODE →
      st.remaps.global_remap.biased_num o.subr_num = -1 - st.remaps.global_remap.bias ∧
      reencoded_op st fd o =
        encode_int_bytes (-1 - st.remaps.global_remap.bias) ++ [OpCode_callgsubr]) := by
  have hu : to_int CFF_UNDEF_CODE = -1 := by decide
  refine ⟨encode_str_ok st str fd buff hroom, ?_, ?_⟩
  · intro o h1 h2 h3 h4
    have hb : (st.remaps.local_remaps.getD fd default).biased_num o.subr_num =
        -1 - (st.remaps.local_remaps.getD fd default).bias := by
      simp only [subr_remap_t.biased_num, h4, hu]
    refine ⟨hb, ?_⟩
    simp only [reencoded_op, h1, h2, h3, hb]
    simp
  · intro o h1 h2 h3 h4
    have hb : st.remaps.global_remap.biased_num o.subr_num =
        -1 - st.remaps.global_remap.bias := by
      simp only [subr_remap_t.biased_num, h4, hu]
    refine ⟨hb, ?_⟩
    have h5 : o.op ≠ OpCode_callsubr := by rw [h3]; decide
    simp only [reencoded_op, h1, h2, h3, hb]
    simp [OpCode_callgsubr, OpCode_callsubr]

/-- C14 (amended) at a concrete input: the call of the absent subroutine 5 is emitted with
operand -108. -/
theorem encode_str_absent_call_witness :
    absent_call_scenario.encode_str
      ⟨[⟨37, [37], 0, false, false, true⟩, ⟨10, [10], 5, false, false, false⟩,
        ⟨14, [14], 0, false, false, false⟩], true, false, false, false, 0, default⟩
      0 ⟨[], 4, true⟩ =
      (true, ⟨prefix_bytes ⟨[⟨37, [37], 0, false, false, true⟩,
        ⟨10, [10], 5, false, false, false⟩,
        ⟨14, [14], 0, false, false, false⟩], true, false, false, false, 0, default⟩ ++
        [⟨37, [37], 0, false, false, true⟩, ⟨10, [10], 5, false, false, false⟩,
        ⟨14, [14], 0, false, false, false⟩].flatMap (reencoded_op absent_call_scenario 0),
        4, true⟩) ∧
    reencoded_op absent_call_scenario 0 ⟨10, [10], 5, false, false, false⟩ =
      encode_int_bytes (-1 - 107) ++ [OpCode_callsubr] :=
  have h := encode_str_absent_call absent_call_scenario
    ⟨[⟨37, [37], 0, false, false, true⟩, ⟨10, [10], 5, false, false, false⟩,
      ⟨14, [14], 0, false, false, false⟩], true, false, false, false, 0, default⟩
    0 ⟨[], 4, true⟩ (by decide)
  ⟨h.1, (h.2.1 ⟨10, [10], 5, false, false, false⟩ rfl rfl rfl (by rfl)).2⟩

end subr_subsetter_t

theorem fixed_bytes_value (v : Int) :
    ((((((v >>> (24 : Nat)) % 256 % 256).toNat * 256 + ((v >>> (16 : Nat)) % 256 % 256).toNat)
      * 256 + ((v >>> (8 : Nat)) % 256 % 256).toNat) * 256 + (v % 256 % 256).toNat : Nat) : Int)
      = v % 4294967296 := by
  have h24 : v >>> (24 : Nat) = v / 16777216 := by
    rw [Int.shiftRight_eq_div_pow]; norm_num
  have h16 : v >>> (16 : Nat) = v / 65536 := by
    rw [Int.shiftRight_eq_div_pow]; norm_num
  rw [h24, h16, int_shr8]
  push_cast
  rw [Int.toNat_of_nonneg (by omega), Int.toNat_of_nonneg (by omega),
    Int.toNat_of_nonneg (by omega), Int.toNat_of_nonneg (by omega)]
  omega

/-- C17: on an encoder with room for five more bytes, `encode_num (n)` does what
`encode_int (n.to_int ())` does, appending its bytes, when `n.in_int_range ()`; otherwise
it appends exactly five bytes, the opcode 255 followed by four bytes that are the 32-bit
pattern of `n.to_fixed ()`, most significant byte first. -/
theorem encode_num_emits (e : str_encoder_t) (n : number_t) (h : e.Room 5) :
    (n.in_int_range = true →
      e.encode_num n = e.encode_int n.to_int ∧
      e.encode_num n = e.emit (encode_int_bytes n.to_int)) ∧
    (n.in_int_range = false →
      ∃ b3 b2 b1 b0 : Nat,
        e.encode_num n = e.emit [OpCode_fixedcs, b3, b2, b1, b0] ∧
        b3 < 256 ∧ b2 < 256 ∧ b1 < 256 ∧ b0 < 256 ∧
        ((((b3 * 256 + b2) * 256 + b1) * 256 + b0 : Nat) : Int) = n.to_fixed % 4294967296) := by
  constructor
  · intro hr
    have h1 : e.encode_num n = e.encode_int n.to_int := by
      simp [str_encoder_t.encode_num, hr]
    refine ⟨h1, ?_⟩
    rw [h1]
    exact str_encoder_t.encode_int_ok e _
      (str_encoder_t.Room_mono h (by have := encode_int_bytes_length_le n.to_int; omega))
  · intro hr
    have hb := encode_num_bytes_eq n
    rw [hr] at hb
    simp only [Bool.false_eq_true, if_false] at hb
    have he := str_encoder_t.encode_num_ok e n (by rw [hb]; exact h)
    rw [hb] at he
    refine ⟨_, _, _, _, he, ?_, ?_, ?_, ?_, fixed_bytes_value n.to_fixed⟩
    all_goals omega

/-- C17 at a concrete input: the integer 300 and the fixed-point number 1.5 (98304). -/
theorem encode_num_emits_witness :
    (⟨⟨[], 5, true⟩, false⟩ : str_encoder_t).encode_num ⟨true, 300, 19660800⟩ =
      (⟨⟨[], 5, true⟩, false⟩ : str_encoder_t).encode_int 300 ∧
    (⟨⟨[], 5, true⟩, false⟩ : str_encoder_t).encode_num ⟨false, 1, 98304⟩ =
      ⟨⟨[255, 0, 1, 128, 0], 5, true⟩, false⟩ :=
  ⟨((encode_num_emits ⟨⟨[], 5, true⟩, false⟩ ⟨true, 300, 19660800⟩
      ⟨rfl, rfl, by decide⟩).1 rfl).1, by rfl⟩

theorem str_buff_t.resize_failed (b : str_buff_t) (size : Nat) (h : b.ok = false) :
    b.resize size = (false, b) := by
  unfold str_buff_t.resize
  rw [h]
  simp only [Bool.false_and, Bool.false_eq_true, if_false]
  cases b
  simp_all

theorem str_buff_t.resize_ok_of_true (b : str_buff_t) (size : Nat)
    (h : (b.resize size).1 = true) :
    b.ok = true ∧ (b.resize size).2.ok = true ∧ (b.resize size).2.bytes.length = size := by
  unfold str_buff_t.resize at h ⊢
  by_cases hc : (b.ok && decide (size ≤ b.cap)) = true
  · rw [if_pos hc]
    simp only [Bool.and_eq_true, decide_eq_true_eq] at hc
    refine ⟨hc.1, hc.1, ?_⟩
    simp only [List.length_take, List.length_append, List.length_replicate]
    omega
  · rw [if_neg hc] at h
    exact absurd h (by simp)

theorem str_buff_t.resize_not_ok_of_false (b : str_buff_t) (size : Nat)
    (h : (b.resize size).1 = false) :
    (b.resize size).2.ok = false ∧ (b.resize size).2.bytes = b.bytes := by
  unfold str_buff_t.resize at h ⊢
  by_cases hc : (b.ok && decide (size ≤ b.cap)) = true
  · rw [if_pos hc] at h
    exact absurd h (by simp)
  · rw [if_neg hc]
    exact ⟨rfl, rfl⟩

theorem str_encoder_t.encode_byte_failed (e : str_encoder_t) (b : Int)
    (herr : e.error = true) (hok : e.buff.ok = false) : e.encode_byte b = e := by
  unfold str_encoder_t.encode_byte str_buff_t.push
  rw [str_buff_t.resize_failed _ _ hok]
  simp only [Bool.false_eq_true, if_false, str_encoder_t.set_error]
  cases e
  simp_all

theorem str_encoder_t.copy_str_failed (e : str_encoder_t) (str : List Nat)
    (herr : e.error = true) (hok : e.buff.ok = false) : e.copy_str str = e := by
  unfold str_encoder_t.copy_str
  simp only
  rw [str_buff_t.resize_failed _ _ hok]
  simp only
  split
  · unfold str_encoder_t.set_error
    cases e
    simp_all
  · rename_i hc
    have hl : str = [] := by
      cases str with
      | nil => rfl
      | cons a t => simp at hc
    subst hl
    obtain ⟨⟨bytes, cap, ok⟩, err⟩ := e
    simp

theorem str_encoder_t.reset_failed (e : str_encoder_t)
    (hok : e.buff.ok = false) : e.reset = e := by
  unfold str_encoder_t.reset
  rw [str_buff_t.resize_failed _ _ hok]

theorem encoder_call_t.run_failed (c : encoder_call_t) (e : str_encoder_t)
    (herr : e.error = true) (hok : e.buff.ok = false) : c.run e = e := by
  have hb := fun b => str_encoder_t.encode_byte_failed e b herr hok
  cases c with
  | encode_byte b => exact hb b
  | encode_int v =>
    simp only [encoder_call_t.run, str_encoder_t.encode_int]
    split_ifs <;> simp only [hb]
  | encode_num n =>
    simp only [encoder_call_t.run, str_encoder_t.encode_num, str_encoder_t.encode_int]
    split_ifs <;> simp only [hb]
  | encode_op op =>
    simp only [encoder_call_t.run, str_encoder_t.encode_op]
    split_ifs <;> simp only [hb]
  | copy_str str => exact str_encoder_t.copy_str_failed e str herr hok
  | reset => exact str_encoder_t.reset_failed e hok

theorem str_encoder_t.encode_byte_inv (e : str_encoder_t) (b : Int)
    (h : e.ErrorFromBuffer) : (e.encode_byte b).ErrorFromBuffer := by
  unfold str_encoder_t.ErrorFromBuffer at h ⊢
  cases hr : (e.buff.resize (e.buff.bytes.length + 1)).1 with
  | true =>
    simp only [str_encoder_t.encode_byte, str_buff_t.push, hr, if_true]
    intro he
    have := (str_buff_t.resize_ok_of_true _ _ hr).1
    rw [h he] at this
    exact absurd this (by simp)
  | false =>
    simp only [str_encoder_t.encode_byte, str_buff_t.push, hr, Bool.false_eq_true, if_false,
      str_encoder_t.set_error]
    intro _
    exact (str_buff_t.resize_not_ok_of_false _ _ hr).1

theorem str_encoder_t.copy_str_inv (e : str_encoder_t) (str : List Nat)
    (h : e.ErrorFromBuffer) : (e.copy_str str).ErrorFromBuffer := by
  unfold str_encoder_t.ErrorFromBuffer at h ⊢
  unfold str_encoder_t.copy_str
  simp only
  cases hr : (e.buff.resize (e.buff.bytes.length + str.length)).1 with
  | true =>
    have h2 := str_buff_t.resize_ok_of_true _ _ hr
    rw [if_neg (by rw [h2.2.2]; omega)]
    intro he
    have := h2.1
    rw [h he] at this
    exact absurd this (by simp)
  | false =>
    have h2 := str_buff_t.resize_not_ok_of_false _ _ hr
    split
    · intro _; exact h2.1
    · intro _; exact h2.1

theorem str_encoder_t.reset_inv (e : str_encoder_t)
    (h : e.ErrorFromBuffer) : e.reset.ErrorFromBuffer := by
  unfold str_encoder_t.ErrorFromBuffer at h ⊢
  unfold str_encoder_t.reset
  intro he
  have hok : e.buff.ok = false := h he
  rw [str_buff_t.resize_failed _ _ hok]
  exact hok

theorem encoder_call_t.run_inv (c : encoder_call_t) (e : str_encoder_t)
    (h : e.ErrorFromBuffer) : (c.run e).ErrorFromBuffer := by
  have hb := fun (e : str_encoder_t) (he : e.ErrorFromBuffer) b =>
    str_encoder_t.encode_byte_inv e b he
  cases c with
  | encode_byte b => exact hb e h b
  | encode_int v =>
    simp only [encoder_call_t.run, str_encoder_t.encode_int]
    split_ifs <;> (repeat (first | exact h | apply hb))
  | encode_num n =>
    simp only [encoder_call_t.run, str_encoder_t.encode_num, str_encoder_t.encode_int]
    split_ifs <;> (repeat (first | exact h | apply hb))
  | encode_op op =>
    simp only [encoder_call_t.run, str_encoder_t.encode_op]
    split_ifs <;> (repeat (first | exact h | apply hb))
  | copy_str str => exact str_encoder_t.copy_str_inv e str h
  | reset => exact str_encoder_t.reset_inv e h

/-- C18: let a call on an encoder whose failure flag was not set fail and set the flag.
Then every sequence of further calls (`encode_byte`, `encode_int`, `encode_num`,
`encode_op`, `copy_str`, `reset`, in any order and with any arguments) leaves the encoder
as it is: the buffer contents are unchanged and `is_error ()` is still true. -/
theorem failed_encoder_is_sticky (e0 : str_encoder_t) (first : encoder_call_t)
    (h0 : e0.error = false) (hfail : (first.run e0).is_error = true)
    (calls : List encoder_call_t) :
    calls.foldl (fun e c => c.run e) (first.run e0) = first.run e0 ∧
    (calls.foldl (fun e c => c.run e) (first.run e0)).buff.bytes = (first.run e0).buff.bytes ∧
    (calls.foldl (fun e c => c.run e) (first.run e0)).is_error = true := by
  have hinv : (first.run e0).ErrorFromBuffer :=
    encoder_call_t.run_inv first e0 (fun h => by rw [h0] at h; exact absurd h (by simp))
  have hok : (first.run e0).buff.ok = false := hinv hfail
  have hall : calls.foldl (fun e c => c.run e) (first.run e0) = first.run e0 := by
    induction calls with
    | nil => rfl
    | cons c cs ih =>
      simp only [List.foldl_cons]
      rw [encoder_call_t.run_failed c _ hfail hok]
      exact ih
  rw [hall]
  exact ⟨rfl, rfl, hfail⟩

/-- C18 at a concrete input: a buffer that can hold two bytes; `encode_int 1000` fits,
`copy_str` of two more bytes fails, and the calls that follow change nothing. -/
theorem failed_encoder_is_sticky_witness :
    [encoder_call_t.encode_byte 7, .encode_int 5, .encode_num ⟨false, 0, 65536⟩,
      .encode_op 14, .copy_str [1], .reset].foldl (fun e c => c.run e)
      ((encoder_call_t.copy_str [21, 14]).run ⟨⟨[250, 124], 2, true⟩, false⟩)
      = ⟨⟨[250, 124], 2, false⟩, true⟩ := by
  have h := failed_encoder_is_sticky ⟨⟨[250, 124], 2, true⟩, false⟩ (.copy_str [21, 14]) rfl
    (by rfl) [encoder_call_t.encode_byte 7, .encode_int 5, .encode_num ⟨false, 0, 65536⟩,
      .encode_op 14, .copy_str [1], .reset]
  rw [h.1]
  rfl

theorem get_parsed_str_none_iff (p : subr_subset_param_t) (c : call_context_t) :
    p.get_parsed_str_for_context c = none ↔ SubrOutOfRange p c := by
  obtain ⟨t, n⟩ := c
  cases t <;>
    simp [subr_subset_param_t.get_parsed_str_for_context, SubrOutOfRange]

theorem get_parsed_str_some (p : subr_subset_param_t) (c : call_context_t)
    (s : parsed_cs_str_t) (h : p.get_parsed_str_for_context c = some s) : s = p.str_at c := by
  obtain ⟨t, n⟩ := c
  cases t
  · simp only [subr_subset_param_t.get_parsed_str_for_context, Option.some.injEq] at h
    exact h.symm
  · simp only [subr_subset_param_t.get_parsed_str_for_context] at h
    split at h
    · simp only [Option.some.injEq] at h; exact h.symm
    · exact absurd h (by simp)
  · simp only [subr_subset_param_t.get_parsed_str_for_context] at h
    split at h
    · simp only [Option.some.injEq] at h; exact h.symm
    · exact absurd h (by simp)

/-- C15: `set_current_str` signals an error exactly when the context names a local or
global subroutine whose index is not below the length of its parsed table, or `calling`
is true and the parsed charstring of the context is not yet marked parsed but already has
recorded operations. In that case the environment is the old one with `set_error ()`
applied and the current parsed charstring stays what it was; in every other case the
environment is untouched, the parameter block changes in `current_parsed_str` only, and
that now refers to the parsed charstring of the context: the glyph's own for a charstring
context, the subroutine `subr_num` of the local or global table otherwise. -/
theorem set_current_str_signals (p : subr_subset_param_cur_t) (env : cs_interp_env_t)
    (calling : Bool) :
    ((SubrOutOfRange p.tosubr_subset_param_t env.context ∨
        (calling = true ∧ PartlyParsed p.tosubr_subset_param_t env.context)) →
      p.set_current_str env calling = (env.set_error, p)) ∧
    (¬ (SubrOutOfRange p.tosubr_subset_param_t env.context ∨
        (calling = true ∧ PartlyParsed p.tosubr_subset_param_t env.context)) →
      p.set_current_str env calling = (env, { p with current_parsed_str := env.context }) ∧
      (env.context.type = .CSType_CharString →
        p.str_at env.context = p.parsed_charstring) ∧
      (env.context.type = .CSType_LocalSubr →
        env.context.subr_num < p.parsed_local_subrs.length ∧
        p.str_at env.context = p.parsed_local_subrs.getD env.context.subr_num default) ∧
      (env.context.type = .CSType_GlobalSubr →
        env.context.subr_num < p.parsed_global_subrs.length ∧
        p.str_at env.context = p.parsed_global_subrs.getD env.context.subr_num default)) ∧
    (env.error = false →
      ((p.set_current_str env calling).1.error = true ↔
        (SubrOutOfRange p.tosubr_subset_param_t env.context ∨
          (calling = true ∧ PartlyParsed p.tosubr_subset_param_t env.context)))) := by
  have hA : (SubrOutOfRange p.tosubr_subset_param_t env.context ∨
        (calling = true ∧ PartlyParsed p.tosubr_subset_param_t env.context)) →
      p.set_current_str env calling = (env.set_error, p) := by
    intro h
    unfold subr_subset_param_cur_t.set_current_str
    cases hg : p.tosubr_subset_param_t.get_parsed_str_for_context env.context with
    | none => rfl
    | some s =>
      have hs := get_parsed_str_some _ _ _ hg
      rcases h with h | ⟨h1, h2, h3⟩
      · rw [(get_parsed_str_none_iff _ _).mpr h] at hg
        exact absurd hg (by simp)
      · simp only
        rw [if_pos]
        simp only [Bool.and_eq_true, Bool.not_eq_true', decide_eq_true_eq,
          parsed_cs_str_t.is_parsed]
        rw [hs]
        exact ⟨⟨h1, h2⟩, h3⟩
  have hB : ¬ (SubrOutOfRange p.tosubr_subset_param_t env.context ∨
        (calling = true ∧ PartlyParsed p.tosubr_subset_param_t env.context)) →
      p.set_current_str env calling = (env, { p with current_parsed_str := env.context }) := by
    intro h
    push_neg at h
    obtain ⟨h1, h2⟩ := h
    unfold subr_subset_param_cur_t.set_current_str
    cases hg : p.tosubr_subset_param_t.get_parsed_str_for_context env.context with
    | none => exact absurd ((get_parsed_str_none_iff _ _).mp hg) h1
    | some s =>
      have hs := get_parsed_str_some _ _ _ hg
      simp only
      rw [if_neg]
      simp only [Bool.and_eq_true, Bool.not_eq_true', decide_eq_true_eq,
        parsed_cs_str_t.is_parsed]
      rw [hs]
      rintro ⟨⟨a, b⟩, c⟩
      exact h2 a ⟨b, c⟩
  refine ⟨hA, fun h => ⟨hB h, ?_, ?_, ?_⟩, fun he => ⟨fun h => ?_, fun h => ?_⟩⟩
  · intro ht
    simp [subr_subset_param_t.str_at, ht]
  · intro ht
    refine ⟨?_, by simp [subr_subset_param_t.str_at, ht]⟩
    by_contra hc
    exact h (Or.inl (Or.inl ⟨ht, not_lt.mp hc⟩))
  · intro ht
    refine ⟨?_, by simp [subr_subset_param_t.str_at, ht]⟩
    by_contra hc
    exact h (Or.inl (Or.inr ⟨ht, not_lt.mp hc⟩))
  · by_contra hc
    rw [hB hc] at h
    rw [he] at h
    exact absurd h (by simp)
  · rw [hA h]
    rfl

/-- C15 at a concrete input: entering the local subroutine 0 of the call-elision scenario
while it is only partly parsed is an error; entering it once parsed makes it current. -/
theorem set_current_str_signals_witness :
    ((⟨⟨⟨[], false, false, false, false, 0, default⟩, [],
        [⟨[⟨140, [140], 0, false, false, false⟩], false, false, false, false, 0, default⟩],
        ∅, ∅, true⟩, root⟩ : subr_subset_param_cur_t).set_current_str
      ⟨⟨.CSType_LocalSubr, 0⟩, false⟩ true).1.error = true ∧
    ((⟨⟨⟨[], false, false, false, false, 0, default⟩, [],
        [⟨[⟨140, [140], 0, false, false, false⟩], true, false, false, false, 0, default⟩],
        ∅, ∅, true⟩, root⟩ : subr_subset_param_cur_t).set_current_str
      ⟨⟨.CSType_LocalSubr, 0⟩, false⟩ true).2.current_parsed_str = ⟨.CSType_LocalSubr, 0⟩ := by
  constructor
  · rw [(set_current_str_signals (⟨⟨⟨[], false, false, false, false, 0, default⟩, [],
      [⟨[⟨140, [140], 0, false, false, false⟩], false, false, false, false, 0, default⟩],
      ∅, ∅, true⟩, root⟩ : subr_subset_param_cur_t) ⟨⟨.CSType_LocalSubr, 0⟩, false⟩ true).1
      (Or.inr ⟨rfl, by rfl, by decide⟩)]
    rfl
  · rfl

namespace subr_subsetter_t

theorem subset_parse_bad_fd (acc : acc_t) (interp : interp_t) (drop_hints : Bool)
    (glyphs : List Nat) (h : ∃ g ∈ glyphs, acc.fdCount ≤ acc.get_fd g) :
    ∀ i st, (subset_parse acc interp drop_hints glyphs i st).1 = false := by
  induction glyphs with
  | nil => obtain ⟨g, hg, _⟩ := h; simp at hg
  | cons g0 gs ih =>
    intro i st
    simp only [subset_parse]
    split
    · rfl
    · rename_i h0
      split
      · rfl
      · apply ih
        obtain ⟨g, hg, hb⟩ := h
        rcases List.mem_cons.mp hg with rfl | hg
        · exact absurd hb h0
        · exact ⟨g, hg, hb⟩

theorem encode_charstrings_loop_bad_fd (st : subr_subsetter_t) (acc : acc_t)
    (glyphs : List Nat) (h : ∃ g ∈ glyphs, acc.fdCount ≤ acc.get_fd g) :
    ∀ i buffArray, (encode_charstrings_loop st acc glyphs i buffArray).1 = false := by
  induction glyphs with
  | nil => obtain ⟨g, hg, _⟩ := h; simp at hg
  | cons g0 gs ih =>
    intro i buffArray
    simp only [encode_charstrings_loop]
    split
    · rfl
    · rename_i h0
      split
      · rfl
      · apply ih
        obtain ⟨g, hg, hb⟩ := h
        rcases List.mem_cons.mp hg with rfl | hg
        · exact absurd hb h0
        · exact ⟨g, hg, hb⟩

end subr_subsetter_t

theorem subr_flattener_t.flatten_loop_bad_fd (f : subr_flattener_t)
    (interpret : Nat → Nat → flatten_param_t → Bool × flatten_param_t)
    (glyphs : List Nat) (h : ∃ g ∈ glyphs, f.acc.fdCount ≤ f.acc.get_fd g) :
    ∀ i fc, (f.flatten_loop interpret glyphs i fc).1 = false := by
  induction glyphs with
  | nil => obtain ⟨g, hg, _⟩ := h; simp at hg
  | cons g0 gs ih =>
    intro i fc
    simp only [subr_flattener_t.flatten_loop]
    split
    · rfl
    · rename_i h0
      split
      · rfl
      · apply ih
        obtain ⟨g, hg, hb⟩ := h
        rcases List.mem_cons.mp hg with rfl | hg
        · exact absurd hb h0
        · exact ⟨g, hg, hb⟩

/-- C16: when the retained-glyph list contains a glyph whose FD (`get_fd`) is not below
`fdCount`, then `subset` returns false (whatever the interpreter does on the glyphs before
it, whether or not hints are dropped, and with any call depth), `encode_charstrings`
returns false, and `flatten` returns false. -/
theorem out_of_range_fd_is_refused (acc : acc_t) (glyphs : List Nat) (g : Nat)
    (hg : g ∈ glyphs) (hfd : acc.fdCount ≤ acc.get_fd g) :
    (∀ (st : subr_subsetter_t) (counts : subr_counts_t) (interp : interp_t) (fuel : Nat)
        (drop_hints : Bool),
      ∃ st2, st.subset acc counts interp fuel glyphs drop_hints = some (false, st2)) ∧
    (∀ (st : subr_subsetter_t) (buffArray : str_buff_vec_t),
      (st.encode_charstrings acc glyphs buffArray).1 = false) ∧
    (∀ (drop_hints : Bool)
        (interpret : Nat → Nat → flatten_param_t → Bool × flatten_param_t)
        (flat_charstrings : str_buff_vec_t),
      ((⟨acc, glyphs, drop_hints⟩ : subr_flattener_t).flatten interpret flat_charstrings).1
        = false) := by
  refine ⟨?_, ?_, ?_⟩
  · intro st counts interp fuel drop_hints
    simp only [subr_subsetter_t.subset]
    split
    · exact ⟨_, rfl⟩
    · have h := subr_subsetter_t.subset_parse_bad_fd acc interp drop_hints glyphs
        ⟨g, hg, hfd⟩ 0
      split
      · exact ⟨_, rfl⟩
      · rename_i st3 heq
        have := congrArg Prod.fst heq
        rw [h _] at this
        exact absurd this (by simp)
  · intro st buffArray
    simp only [subr_subsetter_t.encode_charstrings]
    split
    · rfl
    · exact subr_subsetter_t.encode_charstrings_loop_bad_fd st acc glyphs ⟨g, hg, hfd⟩ _ _
  · intro drop_hints interpret flat_charstrings
    simp only [subr_flattener_t.flatten]
    split
    · rfl
    · exact subr_flattener_t.flatten_loop_bad_fd _ interpret glyphs ⟨g, hg, hfd⟩ _ _

/-- C16 at a concrete input: one FD, and the second of two glyphs has FD 1. -/
theorem out_of_range_fd_is_refused_witness :
    (∃ st2, elision_scenario.subset ⟨1, fun x => x⟩ ⟨0, fun _ => 1, true⟩
      ⟨fun _ _ p => (true, p), fun _ _ _ cs => cs⟩ 3 [0, 1] true = some (false, st2)) ∧
    (elision_scenario.encode_charstrings ⟨1, fun x => x⟩ [0, 1] ⟨[], 2, true, fun _ => 8⟩).1
      = false ∧
    ((⟨⟨1, fun x => x⟩, [0, 1], false⟩ : subr_flattener_t).flatten
      (fun _ _ p => (true, p)) ⟨[], 2, true, fun _ => 8⟩).1 = false :=
  have h := out_of_range_fd_is_refused ⟨1, fun x => x⟩ [0, 1] 1 (by decide) (by decide)
  ⟨h.1 _ _ _ _ _, h.2.1 _ _, h.2.2 _ _ _⟩

theorem Reaches.extend {p : subr_subset_param_t} {src mid tgt : call_context_t}
    {site : call_context_t × Nat} {pos : Nat} {o : parsed_cs_op_t}
    (h : Reaches p src site mid) (h1 : (p.str_at mid).values[pos]? = some o)
    (h2 : o.drop_flag = false) (h3 : o.callee = some tgt) :
    Reaches p src (mid, pos) tgt := by
  induction h with
  | call a b c => exact Reaches.step a b c (Reaches.call h1 h2 h3)
  | step a b c _ ih => exact Reaches.step a b c (ih h1)

theorem Reaches.last_call {p : subr_subset_param_t} {src tgt : call_context_t}
    {site : call_context_t × Nat} (h : Reaches p src site tgt) :
    ∃ o, (p.str_at site.1).values[site.2]? = some o ∧ o.callee = some tgt := by
  induction h with
  | call a _ c => exact ⟨_, a, c⟩
  | step _ _ _ _ ih => exact ih

theorem parsed_cs_op_t.callee_num {o : parsed_cs_op_t} {t : call_context_t}
    (h : o.callee = some t) : t.subr_num = o.subr_num := by
  unfold parsed_cs_op_t.callee at h
  split at h
  · simp only [Option.some.injEq] at h; subst h; rfl
  · split at h
    · simp only [Option.some.injEq] at h; subst h; rfl
    · exact absurd h (by simp)

theorem subr_remap_ts.create_local_getD (rs : subr_remap_ts) (closures : subr_closures_t)
    (f : Nat) (hf : f < rs.local_remaps.length) :
    (rs.create closures).local_remaps.getD f default =
      (rs.local_remaps.getD f default).create (closures.local_closures.getD f ∅) := by
  simp only [subr_remap_ts.create]
  rw [List.getD_eq_getElem?_getD, List.getElem?_map, List.getElem?_range hf]
  rfl

theorem two_fd_scenario_mem (i : Nat) (b : Bool) (src : call_context_t) (o : parsed_cs_op_t)
    (h : o ∈ ((two_fd_scenario.param_init i 1 b).str_at src).values) :
    (src.type = .CSType_CharString ∧
      (o = ⟨32, [32], 0, false, false, true⟩ ∨ o = ⟨29, [29], 0, false, false, false⟩ ∨
        o = ⟨14, [14], 0, false, false, false⟩)) ∨
    (src.type = .CSType_GlobalSubr ∧
      (o = ⟨32, [32], 0, false, false, true⟩ ∨ o = ⟨10, [10], 0, false, false, false⟩ ∨
        o = ⟨11, [11], 0, false, false, false⟩)) ∨
    (src.type = .CSType_LocalSubr ∧
      (o = ⟨140, [140], 0, false, false, false⟩ ∨ o = ⟨141, [141], 0, false, false, false⟩ ∨
        o = ⟨5, [5], 0, false, false, false⟩ ∨ o = ⟨11, [11], 0, false, false, false⟩)) := by
  rcases src with ⟨ty, num⟩
  cases ty with
  | CSType_CharString =>
    simp only [subr_subset_param_t.str_at, subr_subsetter_t.param_init, two_fd_scenario] at h
    cases i with
    | succ i => simp [subr_subsetter_t.parsed_cs_str_t.default_values] at h
    | zero =>
      simp only [List.getD_cons_zero, List.mem_cons, List.mem_singleton] at h
      rcases h with h | h | h | h
      · exact Or.inl ⟨rfl, Or.inl h⟩
      · exact Or.inl ⟨rfl, Or.inr (Or.inl h)⟩
      · exact Or.inl ⟨rfl, Or.inr (Or.inr h)⟩
      · simp at h
  | CSType_GlobalSubr =>
    simp only [subr_subset_param_t.str_at, subr_subsetter_t.param_init, two_fd_scenario] at h
    cases num with
    | succ num => simp [subr_subsetter_t.parsed_cs_str_t.default_values] at h
    | zero =>
      simp only [List.getD_cons_zero, List.mem_cons, List.mem_singleton] at h
      rcases h with h | h | h | h
      · exact Or.inr (Or.inl ⟨rfl, Or.inl h⟩)
      · exact Or.inr (Or.inl ⟨rfl, Or.inr (Or.inl h)⟩)
      · exact Or.inr (Or.inl ⟨rfl, Or.inr (Or.inr h)⟩)
      · simp at h
  | CSType_LocalSubr =>
    simp only [subr_subset_param_t.str_at, subr_subsetter_t.param_init, two_fd_scenario] at h
    cases num with
    | succ num => simp [subr_subsetter_t.parsed_cs_str_t.default_values] at h
    | zero =>
      simp at h
      exact Or.inr (Or.inr ⟨rfl, h⟩)

theorem two_fd_scenario_rank (i : Nat) (b : Bool) :
    RankAll (two_fd_scenario.param_init i 1 b)
      (fun c => match c.type with
        | .CSType_CharString => 2
        | .CSType_GlobalSubr => 1
        | .CSType_LocalSubr => 0) := by
  intro src pos o tgt h1 h3
  rcases two_fd_scenario_mem i b src o (List.getElem?_mem h1) with
    ⟨hs, h | h | h⟩ | ⟨hs, h | h | h⟩ | ⟨hs, h | h | h | h⟩ <;> subst h <;>
    simp [parsed_cs_op_t.callee, OpCode_callsubr, OpCode_callgsubr] at h3 <;>
    subst h3 <;> simp [hs]

theorem two_fd_scenario_nums (i : Nat) (b : Bool) (src : call_context_t) (pos : Nat)
    (o : parsed_cs_op_t)
    (h1 : ((two_fd_scenario.param_init i 1 b).str_at src).values[pos]? = some o) :
    o.subr_num < HB_SET_VALUE_INVALID := by
  rcases two_fd_scenario_mem i b src o (List.getElem?_mem h1) with
    ⟨_, h | h | h⟩ | ⟨_, h | h | h⟩ | ⟨_, h | h | h | h⟩ <;> subst h <;> decide

namespace subr_subsetter_t

/-- C19 as stated fails: in the two-FD scenario `subset` with hint dropping succeeds and
keeps global subroutine 0; its callsubr of local subroutine 0 is neither dropped nor
skipped; `encode_globalsubrs` re-emits it with the remap of FD 0, which has no new number
for index 0 (the closure of FD 0 is empty, the subroutine is in the closure of FD 1), and
the emitted operand is -108. -/
theorem global_subr_call_outside_remap :
    (subset_after_parse two_fd_acc 3 [0] true two_fd_scenario).map
      (fun r => (r.1, (r.2.parsed_global_subrs.getD 0 default).values.getD 1 default,
        r.2.remaps.global_remap.get 0,
        (r.2.remaps.local_remaps.getD 0 default).get 0,
        (r.2.remaps.local_remaps.getD 1 default).get 0,
        (r.2.encode_globalsubrs ⟨[], 1, true, fun _ => 4⟩).1,
        (r.2.encode_globalsubrs ⟨[], 1, true, fun _ => 4⟩).2.bufs))
      = some (true, ⟨10, [10], 0, false, false, false⟩, 0, CFF_UNDEF_CODE, 0, true,
        [⟨[251, 0, 10, 11], 4, true⟩]) := by
  rfl

/-- C19 (amended): let the glyph FDs be below `fdCount`, the closures and the local remaps
hold one entry per FD, the call graph be acyclic and every recorded subroutine number be
below `HB_SET_VALUE_INVALID`. Then with enough call depth `subset` with hint dropping
succeeds, and in the state it leaves: a call operation not flagged drop in the charstring
of a retained glyph of FD `fd`, or in a local subroutine that the local remap of FD `fd`
gives a new number, targets an index with a new number in `local_remaps[fd]` (callsubr) or
in `global_remap` (callgsubr); a callgsubr not flagged drop in a global subroutine that
`global_remap` gives a new number targets an index with a new number in `global_remap`;
a callsubr not flagged drop in such a global subroutine targets an index with a new number
in `local_remaps[f]` for every FD `f` of a retained glyph from which the global subroutine
is reached through calls not flagged drop, so in the remap used to encode it,
`local_remaps[0]`, when such a glyph has FD 0, and always when the font has a single
FD. -/
theorem reemitted_calls_target_remapped (acc : acc_t) (glyphs : List Nat)
    (st : subr_subsetter_t)
    (hfd : ∀ x ∈ glyphs, acc.get_fd x < acc.fdCount)
    (hlc : st.closures.local_closures.length = acc.fdCount)
    (hrl : st.remaps.local_remaps.length = acc.fdCount)
    (hacyc : ∀ i x, glyphs[i]? = some x →
      ∃ rank, RankAll (st.param_init i (acc.get_fd x) true) rank)
    (hnum : ∀ (i x : Nat) (c : call_context_t) (pos : Nat) (o : parsed_cs_op_t), glyphs[i]? = some x →
      ((st.param_init i (acc.get_fd x) true).str_at c).values[pos]? = some o →
      o.subr_num < HB_SET_VALUE_INVALID) :
    ∃ fuel0, ∀ fuel, fuel0 ≤ fuel →
      ∃ st2, subset_after_parse acc fuel glyphs true st = some (true, st2) ∧
        (∀ (i g pos : Nat) (o : parsed_cs_op_t), glyphs[i]? = some g →
          (st2.parsed_charstrings.getD i default).values[pos]? = some o →
          o.drop_flag = false →
          (o.op = OpCode_callsubr →
            (st2.remaps.local_remaps.getD (acc.get_fd g) default).get o.subr_num
              ≠ CFF_UNDEF_CODE) ∧
          (o.op = OpCode_callgsubr →
            st2.remaps.global_remap.get o.subr_num ≠ CFF_UNDEF_CODE)) ∧
        (∀ (fd n pos : Nat) (o : parsed_cs_op_t),
          (st2.remaps.local_remaps.getD fd default).get n ≠ CFF_UNDEF_CODE →
          ((st2.parsed_local_subrs.getD fd []).getD n default).values[pos]? = some o →
          o.drop_flag = false →
          (o.op = OpCode_callsubr →
            (st2.remaps.local_remaps.getD fd default).get o.subr_num ≠ CFF_UNDEF_CODE) ∧
          (o.op = OpCode_callgsubr →
            st2.remaps.global_remap.get o.subr_num ≠ CFF_UNDEF_CODE)) ∧
        (∀ (n pos : Nat) (o : parsed_cs_op_t),
          st2.remaps.global_remap.get n ≠ CFF_UNDEF_CODE →
          (st2.parsed_global_subrs.getD n default).values[pos]? = some o →
          o.drop_flag = false →
          (o.op = OpCode_callgsubr →
            st2.remaps.global_remap.get o.subr_num ≠ CFF_UNDEF_CODE) ∧
          (o.op = OpCode_callsubr →
            (∀ i g site, glyphs[i]? = some g →
              Reaches (st2.param_init i (acc.get_fd g) true) root site
                ⟨.CSType_GlobalSubr, n⟩ →
              (st2.remaps.local_remaps.getD (acc.get_fd g) default).get o.subr_num
                ≠ CFF_UNDEF_CODE) ∧
            (acc.fdCount = 1 →
              (st2.remaps.local_remaps.getD 0 default).get o.subr_num
                ≠ CFF_UNDEF_CODE))) := by
  obtain ⟨N, hN⟩ := rank_bound_all acc glyphs st hacyc
  refine ⟨N, fun fuel hfuel => ?_⟩
  have hrank : ∀ j x, glyphs[j]? = some x →
      ∃ rank, RankAll (st.param_init j (acc.get_fd x) true) rank ∧ rank root < fuel := by
    intro j x hx
    obtain ⟨rank, hr, hrk⟩ := hN j x hx
    exact ⟨rank, hr, by omega⟩
  obtain ⟨st1, st2, _, d2, r1, r2, r3, r4, r5⟩ :=
    subset_after_parse_spec acc fuel glyphs st hfd hlc hrank
  -- the remaps are those of the start
  obtain ⟨st2b, q1, _, q3, _, _⟩ := subset_recreate_closures_spec acc fuel glyphs st1 hfd
    (by rw [d2.closures_eq]; exact hlc)
    (fun j g hg => by
      obtain ⟨rank, hr, hrk⟩ := hrank j g hg
      exact ⟨rank, (hr.rank_all_le (d2.param_le _ _ _)).rank_ok, hrk⟩)
  rw [r1, Option.some.injEq, Prod.mk.injEq] at q1
  obtain ⟨_, q1⟩ := q1
  subst q1
  have hrem : st2.remaps.local_remaps.length = acc.fdCount := by
    rw [q3, d2.remaps_eq]; exact hrl
  -- every recorded number of the final strings is in range
  have hnum1 : ∀ (i x : Nat) (c : call_context_t) (pos : Nat) (o : parsed_cs_op_t), glyphs[i]? = some x →
      ((st1.param_init i (acc.get_fd x) true).str_at c).values[pos]? = some o →
      o.subr_num < 4294967295 := by
    intro i x c pos o hx ho
    obtain ⟨o0, ho0, hle⟩ := ((d2.param_le i (acc.get_fd x) true c).1).get_back ho
    have := hnum i x c pos o0 hx ho0
    rw [hle.fields.2.1]
    exact this
  have hreach_num : ∀ i x site tgt, glyphs[i]? = some x →
      Reaches (st1.param_init i (acc.get_fd x) true) root site tgt →
      tgt.subr_num < 4294967295 := by
    intro i x site tgt hx hr
    obtain ⟨o, ho, hc⟩ := hr.last_call
    rw [parsed_cs_op_t.callee_num hc]
    exact hnum1 i x _ _ o hx ho
  have hG : ∀ n ∈ st2.closures.global_closure, n < 4294967295 := by
    intro n hn
    obtain ⟨i, x, site, hx, hr⟩ := (r4 n).mp hn
    exact hreach_num i x site _ hx hr
  have hL : ∀ f, ∀ n ∈ st2.closures.local_closures.getD f ∅, n < 4294967295 := by
    intro f n hn
    obtain ⟨i, x, site, hx, _, hr⟩ := (r5 f n).mp hn
    exact hreach_num i x site _ hx hr
  -- membership in the created remaps
  have hg_iff : ∀ n, (st2.remaps.create st2.closures).global_remap.get n ≠ CFF_UNDEF_CODE ↔
      n ∈ st2.closures.global_closure :=
    fun n => remap_get_mem_iff _ _ hG n
  have hl_iff : ∀ f, f < acc.fdCount → ∀ n,
      ((st2.remaps.create st2.closures).local_remaps.getD f default).get n ≠ CFF_UNDEF_CODE ↔
        n ∈ st2.closures.local_closures.getD f ∅ := by
    intro f hf n
    rw [subr_remap_ts.create_local_getD _ _ _ (by rw [hrem]; exact hf)]
    exact remap_get_mem_iff _ _ (hL f) n
  have hl_mem : ∀ f n,
      ((st2.remaps.create st2.closures).local_remaps.getD f default).get n ≠ CFF_UNDEF_CODE →
        n ∈ st2.closures.local_closures.getD f ∅ := by
    intro f n h
    by_contra hc
    exact h (subr_remap_ts.create_local_get _ _ f n hc)
  have hsame : SameParsed st1 { st2 with remaps := st2.remaps.create st2.closures } := r3
  -- one more call from a reached charstring
  have hstep : ∀ (i g : Nat) (c : call_context_t) (pos : Nat) (o : parsed_cs_op_t), glyphs[i]? = some g →
      (c = root ∨ ∃ site, Reaches (st1.param_init i (acc.get_fd g) true) root site c) →
      ((st1.param_init i (acc.get_fd g) true).str_at c).values[pos]? = some o →
      o.drop_flag = false →
      (o.op = OpCode_callsubr →
        o.subr_num ∈ st2.closures.local_closures.getD (acc.get_fd g) ∅) ∧
      (o.op = OpCode_callgsubr → o.subr_num ∈ st2.closures.global_closure) := by
    intro i g c pos o hg hc ho hd
    have hr : ∀ tgt, o.callee = some tgt →
        ∃ site, Reaches (st1.param_init i (acc.get_fd g) true) root site tgt := by
      intro tgt ht
      rcases hc with rfl | ⟨site, hs⟩
      · exact ⟨_, Reaches.call ho hd ht⟩
      · exact ⟨_, hs.extend ho hd ht⟩
    constructor
    · intro hop
      obtain ⟨site, hs⟩ := hr _ (parsed_cs_op_t.callee_callsubr hop)
      exact (r5 _ _).mpr ⟨i, g, site, hg, rfl, hs⟩
    · intro hop
      obtain ⟨site, hs⟩ := hr _ (parsed_cs_op_t.callee_callgsubr hop)
      exact (r4 _).mpr ⟨i, g, site, hg, hs⟩
  refine ⟨_, r2, ?_, ?_, ?_⟩
  · intro i g pos o hg ho hd
    have hfg := hfd g (List.getElem?_mem hg)
    have ho1 : ((st1.param_init i (acc.get_fd g) true).str_at root).values[pos]? = some o := by
      have : st2.parsed_charstrings = st1.parsed_charstrings := r3.1
      show (st1.parsed_charstrings.getD i default).values[pos]? = some o
      rw [← this]; exact ho
    obtain ⟨a, b⟩ := hstep i g root pos o hg (Or.inl rfl) ho1 hd
    exact ⟨fun h => (hl_iff _ hfg _).mpr (a h), fun h => (hg_iff _).mpr (b h)⟩
  · intro fd n pos o hn ho hd
    have hmem := hl_mem fd n hn
    obtain ⟨i, g, site, hg, hgf, hr⟩ := (r5 fd n).mp hmem
    have hfg := hfd g (List.getElem?_mem hg)
    have ho1 : ((st1.param_init i (acc.get_fd g) true).str_at ⟨.CSType_LocalSubr, n⟩).values[pos]?
        = some o := by
      have : st2.parsed_local_subrs = st1.parsed_local_subrs := r3.2.2
      show ((st1.parsed_local_subrs.getD (acc.get_fd g) []).getD n default).values[pos]?
        = some o
      rw [hgf, ← this]; exact ho
    obtain ⟨a, b⟩ := hstep i g _ pos o hg (Or.inr ⟨site, hr⟩) ho1 hd
    rw [hgf] at a hfg
    exact ⟨fun h => (hl_iff _ hfg _).mpr (a h), fun h => (hg_iff _).mpr (b h)⟩
  · intro n pos o hn ho hd
    have hmem := (hg_iff n).mp hn
    have ho0 : (st1.parsed_global_subrs.getD n default).values[pos]? = some o := by
      have : st2.parsed_global_subrs = st1.parsed_global_subrs := r3.2.1
      rw [← this]; exact ho
    have hall : ∀ i g site, glyphs[i]? = some g →
        Reaches (st1.param_init i (acc.get_fd g) true) root site ⟨.CSType_GlobalSubr, n⟩ →
        (o.op = OpCode_callsubr →
          o.subr_num ∈ st2.closures.local_closures.getD (acc.get_fd g) ∅) ∧
        (o.op = OpCode_callgsubr → o.subr_num ∈ st2.closures.global_closure) :=
      fun i g site hg hr => hstep i g ⟨.CSType_GlobalSubr, n⟩ pos o hg (Or.inr ⟨site, hr⟩)
        ho0 hd
    obtain ⟨i0, g0, site0, hg0, hr0⟩ := (r4 n).mp hmem
    refine ⟨fun h => (hg_iff _).mpr ((hall i0 g0 site0 hg0 hr0).2 h), fun h => ⟨?_, ?_⟩⟩
    · intro i g site hg hr
      have hfg := hfd g (List.getElem?_mem hg)
      have hr1 : Reaches (st1.param_init i (acc.get_fd g) true) root site
          ⟨.CSType_GlobalSubr, n⟩ :=
        hr.reaches_same (hsame.same_param_init i (acc.get_fd g) true).same_symm
      exact (hl_iff _ hfg _).mpr ((hall i g site hg hr1).1 h)
    · intro h1
      have hfg := hfd g0 (List.getElem?_mem hg0)
      have h0 : acc.get_fd g0 = 0 := by omega
      have := (hl_iff _ hfg _).mpr ((hall i0 g0 site0 hg0 hr0).1 h)
      rw [h0] at this
      exact this

/-- C19 (amended) at a concrete input: in the two-FD scenario the callgsubr of the glyph
targets global subroutine 0, which has a new number in the global remap, and the callsubr
of global subroutine 0 targets local subroutine 0, which has a new number in the local
remap of FD 1, the FD of the glyph. -/
theorem reemitted_calls_target_remapped_witness :
    ∃ fuel0, ∀ fuel, fuel0 ≤ fuel →
      ∃ st2, subset_after_parse two_fd_acc fuel [0] true two_fd_scenario = some (true, st2) ∧
        ((st2.parsed_charstrings.getD 0 default).values[1]? =
            some ⟨29, [29], 0, false, false, false⟩ →
          st2.remaps.global_remap.get 0 ≠ CFF_UNDEF_CODE) := by
  obtain ⟨fuel0, h⟩ := reemitted_calls_target_remapped two_fd_acc [0] two_fd_scenario
    (fun _ _ => Nat.one_lt_two) rfl rfl
    (fun i _ _ => ⟨_, two_fd_scenario_rank i true⟩)
    (fun i _ c pos o _ ho => two_fd_scenario_nums i true c pos o ho)
  refine ⟨fuel0, fun fuel hf => ?_⟩
  obtain ⟨st2, h1, h2, _, _⟩ := h fuel hf
  exact ⟨st2, h1, fun ho => (h2 0 0 1 _ rfl ho rfl).2 rfl⟩

end subr_subsetter_t

theorem at_end_iff (s : parsed_cs_str_t) (pos : Nat) :
    s.at_end pos = true ↔
      s.values.length ≤ pos + 1 ∨ (s.values.getD (pos + 1) default).op = OpCode_return := by
  unfold parsed_cs_str_t.at_end
  simp

theorem getD_return_lt (vals : List parsed_cs_op_t) (i : Nat)
    (h : (vals.getD i default).op = OpCode_return) : i < vals.length := by
  by_contra hc
  rw [List.getD_eq_getElem?_getD, List.getElem?_eq_none (not_lt.mp hc)] at h
  exact absurd h (by decide)

theorem last_scan_index_spec (s : parsed_cs_str_t) (hwf : ReturnOnlyLast s.values)
    (hlen : 0 < s.values.length) :
    last_scan_index s.values < s.values.length ∧
    (∀ i, i < last_scan_index s.values → s.at_end i = false) ∧
    s.at_end (last_scan_index s.values) = true ∧
    (last_scan_index s.values + 1 < s.values.length →
      last_scan_index s.values + 2 = s.values.length ∧
      (s.values.getD (last_scan_index s.values + 1) default).op = OpCode_return) ∧
    (∀ m, m < s.values.length → s.at_end m = true →
      m = last_scan_index s.values ∨ (s.values.getD m default).op = OpCode_return) := by
  have hnot : ∀ i, s.at_end i = false ↔
      ¬ (s.values.length ≤ i + 1 ∨ (s.values.getD (i + 1) default).op = OpCode_return) := by
    intro i
    rw [← at_end_iff]
    cases s.at_end i <;> simp
  unfold last_scan_index
  by_cases hc : (s.values.getD (s.values.length - 1) default).op = OpCode_return ∧
      2 ≤ s.values.length
  · rw [if_pos hc]
    obtain ⟨hr, h2⟩ := hc
    have e1 : s.values.length - 2 + 1 = s.values.length - 1 := by omega
    refine ⟨by omega, ?_, ?_, ?_, ?_⟩
    · intro i hi
      rw [hnot]
      push_neg
      exact ⟨by omega, hwf (i + 1) (by omega)⟩
    · rw [at_end_iff, e1]; exact Or.inr hr
    · intro _
      rw [e1]
      exact ⟨by omega, hr⟩
    · intro m hm hat
      rcases (at_end_iff s m).mp hat with h | h
      · have : m = s.values.length - 1 := by omega
        rw [this]; exact Or.inr hr
      · have h3 := getD_return_lt _ _ h
        have h4 : ¬ (m + 1 + 1 < s.values.length) := fun h5 => hwf (m + 1) h5 h
        left; omega
  · rw [if_neg hc]
    refine ⟨by omega, ?_, ?_, ?_, ?_⟩
    · intro i hi
      rw [hnot]
      push_neg
      refine ⟨by omega, ?_⟩
      by_cases h5 : i + 1 + 1 < s.values.length
      · exact hwf (i + 1) h5
      · have h6 : i + 1 = s.values.length - 1 := by omega
        rw [h6]
        intro h7
        exact hc ⟨h7, by omega⟩
    · rw [at_end_iff]; left; omega
    · intro h; omega
    · intro m hm hat
      rcases (at_end_iff s m).mp hat with h | h
      · left; omega
      · have h3 := getD_return_lt _ _ h
        have h4 : ¬ (m + 1 + 1 < s.values.length) := fun h5 => hwf (m + 1) h5 h
        have h6 : m + 1 = s.values.length - 1 := by omega
        rw [h6] at h
        exact absurd ⟨h, by omega⟩ hc

theorem ReturnOnlyLast.wf_le {p p2 : subr_subset_param_t} (h : ParamLe p p2)
    {c : call_context_t} (hw : ReturnOnlyLast (p.str_at c).values) :
    ReturnOnlyLast (p2.str_at c).values := by
  intro i hi
  rw [(h.at_fields c i).1]
  exact hw i (by rw [← h.at_length c]; exact hi)

namespace subr_subsetter_t

theorem at_end_le {p p2 : subr_subset_param_t} (h : ParamLe p p2) (c : call_context_t)
    (pos : Nat) : (p2.str_at c).at_end pos = (p.str_at c).at_end pos := by
  unfold parsed_cs_str_t.at_end
  rw [h.at_length c, (h.at_fields c (pos + 1)).1]

theorem drop_hints_in_subr_result
    (call : call_context_t → drop_env_t → Option (Bool × drop_env_t))
    (hcall : ∀ c e r, call c e = some r → ParamLe e.param r.2.param)
    (str : call_context_t) (pos : Nat) (subrs : cs_type_t) (subr_num : Nat)
    (e : drop_env_t) (b : Bool) (e1 : drop_env_t)
    (h : call ⟨subrs, subr_num⟩ { e with drop := { e.drop with ends_in_hint := false } }
      = some (b, e1)) :
    drop_hints_in_subr call str pos subrs subr_num e =
      some (b,
        ⟨if e1.drop.ends_in_hint then e1.param.set_drop_at str pos else e1.param,
          { e1.drop with
            ends_in_hint := e1.drop.ends_in_hint && (e.param.str_at str).at_end pos }⟩) := by
  have hle : ParamLe e.param e1.param := hcall _ _ _ h
  have hat : ((e1.param.set_drop_at str pos).str_at str).at_end pos =
      (e.param.str_at str).at_end pos :=
    at_end_le (hle.param_trans (ParamLe.set_drop_at_le _ _ _)) str pos
  unfold drop_hints_in_subr
  simp only [h]
  cases he : e1.drop.ends_in_hint with
  | false =>
    simp only [Bool.false_eq_true, if_false, Bool.false_and]
    rw [← he]
  | true =>
    simp only [if_true, Bool.true_and, hat]
    cases ha : (e.param.str_at str).at_end pos with
    | false => simp
    | true =>
      simp only [Bool.not_true, Bool.false_eq_true, if_false]
      rw [← he]

theorem drop_hints_switch_other
    (call : call_context_t → drop_env_t → Option (Bool × drop_env_t))
    (str : call_context_t) (pos : Nat) (e : drop_env_t) (r : Bool × drop_env_t)
    (h1 : ((e.param.str_at str).values.getD pos default).callee = none)
    (h2 : ¬ IsStem ((e.param.str_at str).values.getD pos default).op)
    (h3 : ¬ (IsMask ((e.param.str_at str).values.getD pos default).op ∧
      e.drop.seen_moveto = false))
    (h : drop_hints_switch call str pos e = some r) :
    r.2.drop.ends_in_hint = e.drop.ends_in_hint := by
  unfold drop_hints_switch at h
  simp only at h
  generalize (e.param.str_at str).values.getD pos default = v at h h1 h2 h3
  have hc1 : v.op ≠ OpCode_callsubr := by
    intro hc; rw [parsed_cs_op_t.callee_callsubr hc] at h1; exact absurd h1 (by simp)
  have hc2 : v.op ≠ OpCode_callgsubr := by
    intro hc; rw [parsed_cs_op_t.callee_callgsubr hc] at h1; exact absurd h1 (by simp)
  rw [if_neg hc1, if_neg hc2] at h
  split at h
  · simp only [Option.some.injEq] at h; subst h; rfl
  split at h
  · simp only [Option.some.injEq] at h; subst h; rfl
  split at h
  · rename_i h4 h5 h6
    exfalso
    unfold IsStem at h2
    unfold IsMask at h3
    have hm : ¬ (v.op = OpCode_hintmask ∨ v.op = OpCode_cntrmask) := by
      intro hm
      have : e.drop.seen_moveto = true := by
        cases hs : e.drop.seen_moveto with
        | true => rfl
        | false => exact absurd ⟨hm, hs⟩ h3
      exact h5 ⟨hm, this⟩
    tauto
  split at h <;> (simp only [Option.some.injEq] at h; subst h; rfl)

theorem drop_hints_iter_ends
    (call : call_context_t → drop_env_t → Option (Bool × drop_env_t))
    (str : call_context_t) (pos : Nat) (seen : Bool) (e : drop_env_t) (r : Bool × drop_env_t)
    (h : drop_hints_iter call str pos seen e = some r) :
    ∃ r1, drop_hints_switch call str pos e = some r1 ∧
      r.2.drop.ends_in_hint = r1.2.drop.ends_in_hint := by
  unfold drop_hints_iter at h
  cases hs : drop_hints_switch call str pos e with
  | none => rw [hs] at h; exact absurd h (by simp)
  | some r1 =>
    obtain ⟨b1, e1⟩ := r1
    rw [hs] at h
    simp only at h
    refine ⟨_, rfl, ?_⟩
    split at h <;> (simp only [Option.some.injEq] at h; subst h; rfl)

theorem drop_hints_switch_call
    (call : call_context_t → drop_env_t → Option (Bool × drop_env_t))
    (str : call_context_t) (pos : Nat) (e : drop_env_t) (t : call_context_t)
    (h : ((e.param.str_at str).values.getD pos default).callee = some t) :
    drop_hints_switch call str pos e = drop_hints_in_subr call str pos t.type t.subr_num e := by
  unfold drop_hints_switch
  simp only
  generalize (e.param.str_at str).values.getD pos default = v at h
  unfold parsed_cs_op_t.callee at h
  split at h
  · rename_i hc
    simp only [Option.some.injEq] at h; subst h
    rw [if_pos hc]
  · rename_i hc
    split at h
    · rename_i hc2
      simp only [Option.some.injEq] at h; subst h
      rw [if_neg hc, if_pos hc2]
    · exact absurd h (by simp)

theorem drop_hints_in_subr_some
    (call : call_context_t → drop_env_t → Option (Bool × drop_env_t))
    (str : call_context_t) (pos : Nat) (subrs : cs_type_t) (subr_num : Nat)
    (e : drop_env_t) (r : Bool × drop_env_t)
    (h : drop_hints_in_subr call str pos subrs subr_num e = some r) :
    ∃ b e1, call ⟨subrs, subr_num⟩ { e with drop := { e.drop with ends_in_hint := false } }
      = some (b, e1) := by
  unfold drop_hints_in_subr at h
  cases hc : call ⟨subrs, subr_num⟩ { e with drop := { e.drop with ends_in_hint := false } } with
  | none => simp only [hc] at h; exact absurd h (by simp)
  | some r1 => exact ⟨r1.1, r1.2, rfl⟩

/-- What one iteration of the loop of `drop_hints_in_str` makes of `ends_in_hint`. -/
theorem drop_hints_iter_ends_cases
    (call : call_context_t → drop_env_t → Option (Bool × drop_env_t))
    (hcall : ∀ c e r, call c e = some r → ParamLe e.param r.2.param)
    (str : call_context_t) (pos : Nat) (seen : Bool) (e : drop_env_t) (r : Bool × drop_env_t)
    (h : drop_hints_iter call str pos seen e = some r) :
    (∀ t, ((e.param.str_at str).values.getD pos default).callee = some t →
      ∃ b e1, call t { e with drop := { e.drop with ends_in_hint := false } } = some (b, e1) ∧
        r.2.drop.ends_in_hint = (e1.drop.ends_in_hint && (e.param.str_at str).at_end pos)) ∧
    (IsStem ((e.param.str_at str).values.getD pos default).op ∨
        (IsMask ((e.param.str_at str).values.getD pos default).op ∧
          e.drop.seen_moveto = false) →
      r.2.drop.ends_in_hint = ((e.param.str_at str).at_end pos || e.drop.ends_in_hint)) ∧
    (((e.param.str_at str).values.getD pos default).callee = none →
      ¬ IsStem ((e.param.str_at str).values.getD pos default).op →
      ¬ (IsMask ((e.param.str_at str).values.getD pos default).op ∧
          e.drop.seen_moveto = false) →
      r.2.drop.ends_in_hint = e.drop.ends_in_hint) := by
  obtain ⟨r1, hs, hr⟩ := drop_hints_iter_ends call str pos seen e r h
  refine ⟨fun t ht => ?_, fun hh => ?_, fun h1 h2 h3 => ?_⟩
  · rw [drop_hints_switch_call call str pos e t ht] at hs
    obtain ⟨b, e1, hc⟩ := drop_hints_in_subr_some call str pos _ _ e r1 hs
    rw [drop_hints_in_subr_result call hcall str pos _ _ e b e1 hc] at hs
    simp only [Option.some.injEq] at hs
    subst hs
    exact ⟨b, e1, hc, hr⟩
  · rw [drop_hints_switch_hint call str pos e hh] at hs
    have hat : ((e.param.set_drop_at str pos).str_at str).at_end pos =
        (e.param.str_at str).at_end pos :=
      at_end_le (ParamLe.set_drop_at_le _ _ _) str pos
    rw [hat] at hs
    simp only [Option.some.injEq] at hs
    subst hs
    rw [hr]
    cases (e.param.str_at str).at_end pos <;> simp
  · rw [hr]
    exact drop_hints_switch_other call str pos e r1 h1 h2 h3 hs

theorem drop_hints_loop_not_end
    (call : call_context_t → drop_env_t → Option (Bool × drop_env_t))
    (hcall : ∀ c e r, call c e = some r → ParamLe e.param r.2.param)
    (str : call_context_t) (n : Nat) :
    ∀ (pos : Nat) (seen : Bool) (e : drop_env_t) (r : Bool × drop_env_t),
      e.drop.ends_in_hint = false →
      (∀ i, pos ≤ i → i < pos + n → (e.param.str_at str).at_end i = false) →
      drop_hints_loop call str n pos seen e = some r →
      r.2.drop.ends_in_hint = false := by
  induction n with
  | zero =>
    intro pos seen e r he _ h
    simp only [drop_hints_loop, Option.some.injEq] at h
    subst h
    exact he
  | succ n ih =>
    intro pos seen e r he hne h
    simp only [drop_hints_loop] at h
    cases hi : drop_hints_iter call str pos seen e with
    | none => rw [hi] at h; exact absurd h (by simp)
    | some r1 =>
      obtain ⟨s1, e1⟩ := r1
      rw [hi] at h
      simp only at h
      have hle : ParamLe e.param e1.param := drop_hints_iter_le call hcall _ _ _ _ _ hi
      have hat := hne pos (le_refl _) (by omega)
      obtain ⟨ca, cb, cc⟩ := drop_hints_iter_ends_cases call hcall str pos seen e _ hi
      have h1 : e1.drop.ends_in_hint = false := by
        cases hcl : ((e.param.str_at str).values.getD pos default).callee with
        | some t =>
          obtain ⟨b, e2, _, hr⟩ := ca t hcl
          have hr2 : e1.drop.ends_in_hint = _ := hr
          rw [hr2, hat, Bool.and_false]
        | none =>
          by_cases hh : IsStem ((e.param.str_at str).values.getD pos default).op ∨
              (IsMask ((e.param.str_at str).values.getD pos default).op ∧
                e.drop.seen_moveto = false)
          · have hr2 : e1.drop.ends_in_hint = _ := cb hh
            rw [hr2, hat, he]; rfl
          · push_neg at hh
            have hr2 : e1.drop.ends_in_hint = _ :=
              cc hcl hh.1 (fun hm => hh.2 hm.1 hm.2)
            rw [hr2, he]
      exact ih (pos + 1) s1 e1 r h1 (fun i hi1 hi2 => by
        rw [at_end_le hle]; exact hne i (by omega) (by omega)) h

theorem drop_hints_loop_tail
    (call : call_context_t → drop_env_t → Option (Bool × drop_env_t))
    (str : call_context_t) (n pos : Nat) (seen : Bool) (e : drop_env_t)
    (hn : n = 0 ∨ (n = 1 ∧ ((e.param.str_at str).values.getD pos default).op = OpCode_return)) :
    drop_hints_loop call str n pos seen e = some (seen, e) := by
  rcases hn with rfl | ⟨rfl, hr⟩
  · rfl
  · simp only [drop_hints_loop, drop_hints_iter_return call str pos seen e hr]

/-- The flag `ends_in_hint` that `drop_hints_in_str` leaves, when started with the flag
false on charstrings that have `return` only as last operation, tells whether the stream
ends in a hint. -/
theorem drop_hints_in_str_ends_iff (fuel : Nat) :
    ∀ (c : call_context_t) (e : drop_env_t) (r : Bool × drop_env_t),
      (∀ c2, ReturnOnlyLast (e.param.str_at c2).values) →
      e.drop.ends_in_hint = false →
      drop_hints_in_str fuel c e = some r →
      (r.2.drop.ends_in_hint = true ↔ EndsInHint fuel c e) := by
  induction fuel with
  | zero => intro c e r _ _ h; simp [drop_hints_in_str] at h
  | succ fuel ih =>
    intro c e r hwf he h
    have hcall := drop_hints_in_str_le fuel
    simp only [drop_hints_in_str] at h
    by_cases hlen : (e.param.str_at c).values.length = 0
    · rw [hlen] at h
      simp only [drop_hints_loop, Option.some.injEq] at h
      subst h
      simp only [he, Bool.false_eq_true, false_iff]
      rintro ⟨m, hm, _⟩
      omega
    · obtain ⟨p1, p2, p3, p4, p5⟩ := last_scan_index_spec (e.param.str_at c) (hwf c)
        (Nat.pos_of_ne_zero hlen)
      generalize hM : last_scan_index (e.param.str_at c).values = M at p1 p2 p3 p4 p5
      have hsplit : (e.param.str_at c).values.length =
          M + (1 + ((e.param.str_at c).values.length - M - 1)) := by omega
      rw [hsplit, drop_hints_loop_split] at h
      cases h1 : drop_hints_loop (drop_hints_in_str fuel) c M 0 false e with
      | none => rw [h1] at h; exact absurd h (by simp)
      | some r1 =>
        obtain ⟨s1, e1⟩ := r1
        rw [h1] at h
        simp only [Nat.zero_add] at h
        rw [drop_hints_loop_split _ c 1] at h
        simp only [drop_hints_loop] at h
        cases h2 : drop_hints_iter (drop_hints_in_str fuel) c M s1 e1 with
        | none => rw [h2] at h; exact absurd h (by simp)
        | some r2 =>
          obtain ⟨s2, e2⟩ := r2
          rw [h2] at h
          simp only at h
          have hle1 : ParamLe e.param e1.param :=
            drop_hints_loop_le _ hcall c M 0 false e _ h1
          have hle2 : ParamLe e1.param e2.param :=
            drop_hints_iter_le _ hcall c M s1 e1 _ h2
          have hle12 := hle1.param_trans hle2
          have he1 : e1.drop.ends_in_hint = false :=
            drop_hints_loop_not_end _ hcall c M 0 false e _ he
              (fun i _ hi => p2 i (by omega)) h1
          have hat1 : (e1.param.str_at c).at_end M = true := by
            rw [at_end_le hle1]; exact p3
          have hop1 : ((e1.param.str_at c).values.getD M default).op =
              ((e.param.str_at c).values.getD M default).op := (hle1.at_fields c M).1
          have hcallee1 : ((e1.param.str_at c).values.getD M default).callee =
              ((e.param.str_at c).values.getD M default).callee :=
            ((hle1.1 c).1.2 M).callee_eq
          have htail : r = (s2, e2) := by
            have := drop_hints_loop_tail (drop_hints_in_str fuel) c
              ((e.param.str_at c).values.length - M - 1) (M + 1) s2 e2 (by
                by_cases h3 : M + 1 < (e.param.str_at c).values.length
                · obtain ⟨q1, q2⟩ := p4 h3
                  right
                  exact ⟨by omega, by rw [(hle12.at_fields c (M + 1)).1]; exact q2⟩
                · left; omega)
            rw [this] at h
            simp only [Option.some.injEq] at h
            exact h.symm
          subst htail
          have hwf1 : ∀ c2, ReturnOnlyLast (e1.param.str_at c2).values :=
            fun c2 => (hwf c2).wf_le hle1
          obtain ⟨ca, cb, cc⟩ :=
            drop_hints_iter_ends_cases _ hcall c M s1 e1 _ h2
          simp only [hat1, Bool.and_true, Bool.true_or, hop1, hcallee1] at ca cb cc
          constructor
          · intro hends
            refine ⟨M, p1, p3, s1, e1, h1, ?_⟩
            cases hcl : ((e.param.str_at c).values.getD M default).callee with
            | some t =>
              right; right
              obtain ⟨b, e3, hc3, hr3⟩ := ca t hcl
              refine ⟨t, rfl, ?_⟩
              have hr4 : e2.drop.ends_in_hint = e3.drop.ends_in_hint := hr3
              have := ih t { e1 with drop := { e1.drop with ends_in_hint := false } } (b, e3) hwf1 rfl hc3
              exact this.mp (by rw [← hr4]; exact hends)
            | none =>
              by_cases hh : IsStem ((e.param.str_at c).values.getD M default).op ∨
                  (IsMask ((e.param.str_at c).values.getD M default).op ∧
                    e1.drop.seen_moveto = false)
              · rcases hh with hh | hh
                · exact Or.inl hh
                · exact Or.inr (Or.inl hh)
              · push_neg at hh
                have hr4 : e2.drop.ends_in_hint = e1.drop.ends_in_hint :=
                  cc hcl hh.1 (fun hm => hh.2 hm.1 hm.2)
                rw [hr4, he1] at hends
                exact absurd hends (by simp)
          · rintro ⟨m, hm, hatm, s, em, hloop, hd⟩
            have hmM : m = M := by
              rcases p5 m hm hatm with h5 | h5
              · exact h5
              · exfalso
                rcases hd with hd | ⟨hd, _⟩ | ⟨t, hd, _⟩
                · unfold IsStem at hd; rw [h5] at hd
                  revert hd; decide
                · unfold IsMask at hd; rw [h5] at hd
                  revert hd; decide
                · rw [parsed_cs_op_t.callee_other (by rw [h5]; decide)
                    (by rw [h5]; decide)] at hd
                  exact absurd hd (by simp)
            subst hmM
            rw [h1, Option.some.injEq, Prod.mk.injEq] at hloop
            obtain ⟨_, hem⟩ := hloop
            subst hem
            rcases hd with hd | hd | ⟨t, hd, hE⟩
            · exact cb (Or.inl hd)
            · exact cb (Or.inr hd)
            · obtain ⟨b, e3, hc3, hr3⟩ := ca t hd
              have hr4 : e2.drop.ends_in_hint = e3.drop.ends_in_hint := hr3
              rw [hr4]
              exact (ih t { e1 with drop := { e1.drop with ends_in_hint := false } } (b, e3) hwf1
                rfl hc3).mpr hE

theorem str_at_set_values_at (p : subr_subset_param_t) (c : call_context_t)
    (vals : List parsed_cs_op_t) (h : 0 < (p.str_at c).values.length) :
    ((p.set_values_at c vals).str_at c).values = vals := by
  obtain ⟨ty, n⟩ := c
  cases ty with
  | CSType_CharString => rfl
  | CSType_GlobalSubr =>
    have hn : n < p.parsed_global_subrs.length := by
      by_contra hc
      simp only [subr_subset_param_t.str_at] at h
      rw [List.getD_eq_getElem?_getD, List.getElem?_eq_none (not_lt.mp hc)] at h
      simp [parsed_cs_str_t.default_values] at h
    simp only [subr_subset_param_t.str_at, subr_subset_param_t.set_values_at]
    rw [list_getD_set, if_pos ⟨rfl, hn⟩]
  | CSType_LocalSubr =>
    have hn : n < p.parsed_local_subrs.length := by
      by_contra hc
      simp only [subr_subset_param_t.str_at] at h
      rw [List.getD_eq_getElem?_getD, List.getElem?_eq_none (not_lt.mp hc)] at h
      simp [parsed_cs_str_t.default_values] at h
    simp only [subr_subset_param_t.str_at, subr_subset_param_t.set_values_at]
    rw [list_getD_set, if_pos ⟨rfl, hn⟩]

theorem set_drop_at_getD (p : subr_subset_param_t) (c : call_context_t) (pos : Nat)
    (hpos : pos < (p.str_at c).values.length) :
    ((p.set_drop_at c pos).str_at c).values.getD pos default =
      ((p.str_at c).values.getD pos default).set_drop := by
  unfold subr_subset_param_t.set_drop_at
  simp only
  rw [str_at_set_values_at p c _ (by omega), list_getD_set, if_pos ⟨rfl, hpos⟩]

/-- C20: let the call graph be acyclic, the call depth suffice for the callee, and every
parsed charstring have `return` at most as its last operation. `drop_hints_in_subr` clears
`ends_in_hint`, scans the callee `subrs[subr_num]` with `drop_hints_in_str` and returns
its flag. It applies `set_drop ()` to the operation at position `pos` of the caller (which
sets its drop flag unless the keep flag is set) exactly when the callee's stream ends in a
hint, that is, an operation of the callee at the end of its stream or immediately followed
by `return` is an operator counted as a hint or a call of a subroutine that ends in a
hint; otherwise it leaves the caller as the scan left it. When it returns, `ends_in_hint`
is true exactly when the callee's stream ends in a hint and the call is at the end of the
caller's stream or immediately followed by `return`; the other fields of the drop state
are as the scan left them. -/
theorem drop_hints_in_subr_propagates (rank : call_context_t → Nat) (fuel : Nat)
    (str : call_context_t) (pos : Nat) (subrs : cs_type_t) (subr_num : Nat) (e : drop_env_t)
    (hrk : RankAll e.param rank) (hlt : rank ⟨subrs, subr_num⟩ < fuel)
    (hwf : ∀ c, ReturnOnlyLast (e.param.str_at c).values) :
    ∃ has_hint e1 r,
      drop_hints_in_str fuel ⟨subrs, subr_num⟩
        { e with drop := { e.drop with ends_in_hint := false } } = some (has_hint, e1) ∧
      drop_hints_in_subr (drop_hints_in_str fuel) str pos subrs subr_num e
        = some (has_hint, r) ∧
      (EndsInHint fuel ⟨subrs, subr_num⟩
          { e with drop := { e.drop with ends_in_hint := false } } →
        r.param = e1.param.set_drop_at str pos ∧
        (pos < (e.param.str_at str).values.length →
          ((e.param.str_at str).values.getD pos default).keep_flag = false →
          ((r.param.str_at str).values.getD pos default).drop_flag = true)) ∧
      (¬ EndsInHint fuel ⟨subrs, subr_num⟩
          { e with drop := { e.drop with ends_in_hint := false } } →
        r.param = e1.param) ∧
      (r.drop.ends_in_hint = true ↔
        EndsInHint fuel ⟨subrs, subr_num⟩
          { e with drop := { e.drop with ends_in_hint := false } } ∧
        (e.param.str_at str).at_end pos = true) ∧
      r.drop.seen_moveto = e1.drop.seen_moveto ∧
      r.drop.vsindex_dropped = e1.drop.vsindex_dropped := by
  obtain ⟨⟨has_hint, e1⟩, h1⟩ := drop_hints_in_str_total rank fuel ⟨subrs, subr_num⟩
    { e with drop := { e.drop with ends_in_hint := false } } hrk hlt
  have hiff := drop_hints_in_str_ends_iff fuel ⟨subrs, subr_num⟩
    { e with drop := { e.drop with ends_in_hint := false } } _ hwf rfl h1
  have hle : ParamLe e.param e1.param := drop_hints_in_str_le fuel _ _ _ h1
  have hres := drop_hints_in_subr_result (drop_hints_in_str fuel) (drop_hints_in_str_le fuel)
    str pos subrs subr_num e has_hint e1 h1
  refine ⟨has_hint, e1, _, h1, hres, ?_, ?_, ?_, rfl, rfl⟩
  · intro hE
    have he : e1.drop.ends_in_hint = true := hiff.mpr hE
    simp only [he, if_true]
    refine ⟨trivial, fun hpos hkeep => ?_⟩
    rw [set_drop_at_getD _ _ _ (by rw [hle.at_length]; exact hpos)]
    unfold parsed_cs_op_t.set_drop parsed_cs_op_t.for_keep
    rw [(hle.at_fields str pos).2.2.1, hkeep]
    rfl
  · intro hE
    have he : e1.drop.ends_in_hint = false := by
      cases h : e1.drop.ends_in_hint with
      | false => rfl
      | true => exact absurd (hiff.mp h) hE
    simp only [he, Bool.false_eq_true, if_false]
  · simp only [Bool.and_eq_true]
    rw [← hiff]

theorem elision_scenario_wf (i : Nat) (b : Bool) (c : call_context_t) :
    ReturnOnlyLast ((elision_scenario.param_init i 0 b).str_at c).values := by
  rcases c with ⟨ty, num⟩
  intro k hk
  cases ty with
  | CSType_CharString =>
    simp only [subr_subset_param_t.str_at, subr_subsetter_t.param_init, elision_scenario]
      at hk ⊢
    cases i with
    | succ i => simp [parsed_cs_str_t.default_values] at hk
    | zero =>
      match k, hk with
      | 0, _ => decide
      | 1, _ => decide
      | n + 2, hk => simp at hk; omega
  | CSType_GlobalSubr =>
    simp [subr_subset_param_t.str_at, subr_subsetter_t.param_init, elision_scenario,
      parsed_cs_str_t.default_values] at hk
  | CSType_LocalSubr =>
    simp only [subr_subset_param_t.str_at, subr_subsetter_t.param_init, elision_scenario]
      at hk ⊢
    cases num with
    | succ num => simp [parsed_cs_str_t.default_values] at hk
    | zero =>
      match k, hk with
      | 0, _ => decide
      | 1, _ => decide
      | 2, _ => decide
      | n + 3, hk => simp at hk; omega

/-- C20 at a concrete input: in the call-elision scenario the callee `1 2 hstem return`
ends in a hint and the call is followed by `return`, so the call is flagged drop and
`ends_in_hint` is true on return. -/
theorem drop_hints_in_subr_propagates_witness :
    (∃ has_hint r,
      drop_hints_in_subr (drop_hints_in_str 1) root 1 .CSType_LocalSubr 0
        ⟨elision_scenario.param_init 0 0 true, drop_hints_param_t.new⟩ = some (has_hint, r) ∧
      (r.drop.ends_in_hint = true ↔
        EndsInHint 1 ⟨.CSType_LocalSubr, 0⟩
          ⟨elision_scenario.param_init 0 0 true, drop_hints_param_t.new⟩ ∧
        ((elision_scenario.param_init 0 0 true).str_at root).at_end 1 = true)) ∧
    (drop_hints_in_subr (drop_hints_in_str 1) root 1 .CSType_LocalSubr 0
        ⟨elision_scenario.param_init 0 0 true, drop_hints_param_t.new⟩).map
      (fun r => (r.1, r.2.drop.ends_in_hint,
        ((r.2.param.str_at root).values.getD 1 default).drop_flag))
      = some (true, true, true) := by
  obtain ⟨has_hint, _, r, _, h2, _, _, h5, _⟩ :=
    drop_hints_in_subr_propagates (fun c => if c.type = .CSType_CharString then 1 else 0) 1
      root 1 .CSType_LocalSubr 0
      ⟨elision_scenario.param_init 0 0 true, drop_hints_param_t.new⟩
      (elision_scenario_rank 0 true) (by decide) (elision_scenario_wf 0 true)
  exact ⟨⟨has_hint, r, h2, h5⟩, by rfl⟩

theorem drop_hints_switch_flags_hint
    (call : call_context_t → drop_env_t → Option (Bool × drop_env_t))
    (str : call_context_t) (pos : Nat) (e : drop_env_t) (r : Bool × drop_env_t)
    (hh : IsHintOp ((e.param.str_at str).values.getD pos default).op)
    (h : drop_hints_switch call str pos e = some r) :
    r.2.param = e.param.set_drop_at str pos := by
  unfold drop_hints_switch at h
  simp only at h
  generalize (e.param.str_at str).values.getD pos default = v at h hh
  have h1 : v.op ≠ OpCode_callsubr := by
    unfold IsHintOp IsStem IsMask at hh
    rcases hh with (h | h | h | h) | (h | h) | h <;> rw [h] <;> decide
  have h2 : v.op ≠ OpCode_callgsubr := by
    unfold IsHintOp IsStem IsMask at hh
    rcases hh with (h | h | h | h) | (h | h) | h <;> rw [h] <;> decide
  have h3 : ¬ (v.op = OpCode_rmoveto ∨ v.op = OpCode_hmoveto ∨ v.op = OpCode_vmoveto) := by
    unfold IsHintOp IsStem IsMask at hh
    rcases hh with (h | h | h | h) | (h | h) | h <;> rw [h] <;> decide
  rw [if_neg h1, if_neg h2, if_neg h3] at h
  split at h
  · simp only [Option.some.injEq] at h; subst h; rfl
  split at h
  · split at h <;> (simp only [Option.some.injEq] at h; subst h; rfl)
  split at h
  · simp only [Option.some.injEq] at h; subst h; rfl
  · rename_i h4 h5 h6
    exfalso
    unfold IsHintOp IsStem IsMask at hh
    tauto

theorem drop_hints_iter_switch
    (call : call_context_t → drop_env_t → Option (Bool × drop_env_t))
    (str : call_context_t) (pos : Nat) (seen : Bool) (e : drop_env_t) (r : Bool × drop_env_t)
    (h : drop_hints_iter call str pos seen e = some r) :
    ∃ r1, drop_hints_switch call str pos e = some r1 ∧ ParamLe r1.2.param r.2.param ∧
      r.1 = (seen || r1.1) := by
  unfold drop_hints_iter at h
  cases hs : drop_hints_switch call str pos e with
  | none => rw [hs] at h; exact absurd h (by simp)
  | some r1 =>
    obtain ⟨b1, e1⟩ := r1
    rw [hs] at h
    simp only at h
    refine ⟨_, rfl, ?_⟩
    split at h
    · rename_i hb
      simp only [Option.some.injEq] at h; subst h
      exact ⟨ParamLe.set_values_le _ _ _ (drop_hints_back_le _ _ _), rfl⟩
    · rename_i hb
      simp only [Option.some.injEq] at h; subst h
      refine ⟨ParamLe.param_refl _, ?_⟩
      simp only [Bool.not_eq_true] at hb
      simp [hb]

theorem drop_hints_loop_flags_hint
    (call : call_context_t → drop_env_t → Option (Bool × drop_env_t))
    (hcall : ∀ c e r, call c e = some r → ParamLe e.param r.2.param)
    (str : call_context_t) (n : Nat) (e : drop_env_t) (r : Bool × drop_env_t)
    (h : drop_hints_loop call str n 0 false e = some r) (i : Nat) (hi : i < n)
    (hlen : i < (e.param.str_at str).values.length)
    (hkeep : ((e.param.str_at str).values.getD i default).keep_flag = false)
    (hh : IsHintOp ((e.param.str_at str).values.getD i default).op) :
    ((r.2.param.str_at str).values.getD i default).drop_flag = true := by
  have hsplit : n = i + (1 + (n - i - 1)) := by omega
  rw [hsplit, drop_hints_loop_split] at h
  cases h1 : drop_hints_loop call str i 0 false e with
  | none => rw [h1] at h; exact absurd h (by simp)
  | some r1 =>
    obtain ⟨s1, e1⟩ := r1
    rw [h1] at h
    simp only [Nat.zero_add] at h
    rw [drop_hints_loop_split _ str 1] at h
    simp only [drop_hints_loop] at h
    cases h2 : drop_hints_iter call str i s1 e1 with
    | none => rw [h2] at h; exact absurd h (by simp)
    | some r2 =>
      obtain ⟨s2, e2⟩ := r2
      rw [h2] at h
      simp only at h
      have hle1 : ParamLe e.param e1.param := drop_hints_loop_le _ hcall str i 0 false e _ h1
      have hle3 : ParamLe e2.param r.2.param := drop_hints_loop_le _ hcall str _ _ _ _ _ h
      obtain ⟨r3, hs, hle2, _⟩ := drop_hints_iter_switch call str i s1 e1 _ h2
      have hh1 : IsHintOp ((e1.param.str_at str).values.getD i default).op := by
        rw [(hle1.at_fields str i).1]; exact hh
      have hp := drop_hints_switch_flags_hint call str i e1 r3 hh1 hs
      have hd : ((r3.2.param.str_at str).values.getD i default).drop_flag = true := by
        rw [hp, set_drop_at_getD _ _ _ (by rw [hle1.at_length]; exact hlen)]
        unfold parsed_cs_op_t.set_drop parsed_cs_op_t.for_keep
        rw [(hle1.at_fields str i).2.2.1, hkeep]
        rfl
      exact (hle3.at_fields str i).2.2.2 ((hle2.at_fields str i).2.2.2 hd)

/-- C22: let the call graph be acyclic and the call depth suffice. `drop_hints_in_str`,
started in any state (so also with a moveto already seen), returns, leaves the operators
of the charstring as they are, and every operation of the charstring without the keep
flag whose operator is hstem, vstem, hstemhm, vstemhm, hintmask, cntrmask or dotsection is
flagged drop afterwards; this holds in particular for every such operation of a charstring
in which no operation carries the keep flag. -/
theorem hint_operators_are_dropped (rank : call_context_t → Nat) (fuel : Nat)
    (c : call_context_t) (e : drop_env_t) (hrk : RankAll e.param rank) (hlt : rank c < fuel) :
    ∃ r, drop_hints_in_str fuel c e = some r ∧
      (r.2.param.str_at c).values.length = (e.param.str_at c).values.length ∧
      (∀ i, ((r.2.param.str_at c).values.getD i default).op =
        ((e.param.str_at c).values.getD i default).op) ∧
      (∀ i, i < (e.param.str_at c).values.length →
        ((e.param.str_at c).values.getD i default).keep_flag = false →
        IsHintOp ((e.param.str_at c).values.getD i default).op →
        ((r.2.param.str_at c).values.getD i default).drop_flag = true) ∧
      ((∀ o ∈ (e.param.str_at c).values, o.keep_flag = false) →
        ∀ o ∈ (r.2.param.str_at c).values, IsHintOp o.op → o.drop_flag = true) := by
  obtain ⟨r, h⟩ := drop_hints_in_str_total rank fuel c e hrk hlt
  have hle : ParamLe e.param r.2.param := drop_hints_in_str_le fuel _ _ _ h
  have hmain : ∀ i, i < (e.param.str_at c).values.length →
      ((e.param.str_at c).values.getD i default).keep_flag = false →
      IsHintOp ((e.param.str_at c).values.getD i default).op →
      ((r.2.param.str_at c).values.getD i default).drop_flag = true := by
    intro i hi hk hh
    cases fuel with
    | zero => simp [drop_hints_in_str] at h
    | succ fuel =>
      simp only [drop_hints_in_str] at h
      exact drop_hints_loop_flags_hint _ (drop_hints_in_str_le fuel) c _ e r h i hi hi hk hh
  refine ⟨r, h, hle.at_length c, fun i => (hle.at_fields c i).1, hmain, ?_⟩
  intro hkeep o ho hh
  obtain ⟨i, hi⟩ := List.mem_iff_getElem?.mp ho
  have hlt2 : i < (r.2.param.str_at c).values.length := by
    by_contra hc
    rw [List.getElem?_eq_none (not_lt.mp hc)] at hi
    exact absurd hi (by simp)
  have ho2 : (r.2.param.str_at c).values.getD i default = o := list_getD_of_getElem? default hi
  have hlt1 : i < (e.param.str_at c).values.length := by rw [← hle.at_length c]; exact hlt2
  have hmem : (e.param.str_at c).values.getD i default ∈ (e.param.str_at c).values := by
    rw [List.getD_eq_getElem?_getD, List.getElem?_eq_getElem hlt1]
    exact List.getElem_mem _
  rw [← ho2]
  exact hmain i hlt1 (hkeep _ hmem) (by rw [← (hle.at_fields c i).1, ho2]; exact hh)

/-- C22 at a concrete input: in `1 2 rmoveto hintmask 3 4 rlineto endchar` the hintmask
comes after a moveto; it is flagged drop and the function returns false. -/
theorem hint_operators_are_dropped_witness :
    ∃ r, drop_hints_in_str 1 root
        ⟨{ hint_drop_scenario with parsed_charstring :=
          ⟨[⟨140, [140], 0, false, false, false⟩, ⟨141, [141], 0, false, false, false⟩,
            ⟨21, [21], 0, false, false, false⟩, ⟨19, [19, 128], 0, false, false, false⟩,
            ⟨142, [142], 0, false, false, false⟩, ⟨143, [143], 0, false, false, false⟩,
            ⟨5, [5], 0, false, false, false⟩, ⟨14, [14], 0, false, false, false⟩],
            true, false, false, false, 0, default⟩ }, drop_hints_param_t.new⟩ = some r ∧
      ((r.2.param.str_at root).values.getD 3 default).drop_flag = true := by
  obtain ⟨r, h1, _, _, h4, _⟩ := hint_operators_are_dropped (fun _ => 0) 1 root
    ⟨{ hint_drop_scenario with parsed_charstring :=
      ⟨[⟨140, [140], 0, false, false, false⟩, ⟨141, [141], 0, false, false, false⟩,
        ⟨21, [21], 0, false, false, false⟩, ⟨19, [19, 128], 0, false, false, false⟩,
        ⟨142, [142], 0, false, false, false⟩, ⟨143, [143], 0, false, false, false⟩,
        ⟨5, [5], 0, false, false, false⟩, ⟨14, [14], 0, false, false, false⟩],
        true, false, false, false, 0, default⟩ }, drop_hints_param_t.new⟩
    (by
      intro src pos o tgt h1 h3
      exfalso
      have hm := List.getElem?_mem h1
      rcases src with ⟨ty, num⟩
      cases ty <;>
        simp [subr_subset_param_t.str_at, hint_drop_scenario,
          parsed_cs_str_t.default_values] at hm
      rcases hm with h | h | h | h | h | h | h | h <;> subst h <;>
        simp [parsed_cs_op_t.callee, OpCode_callsubr, OpCode_callgsubr] at h3)
    (by decide)
  exact ⟨r, h1, h4 3 (by decide) rfl (by decide)⟩

theorem list_getD_set_ne {α : Type} (l : List α) (i j : Nat) (a d : α) (h : i ≠ j) :
    (l.set i a).getD j d = l.getD j d := by
  rw [list_getD_set, if_neg (fun hc => h hc.1)]

/-- The backward loop of `drop_hints_in_str` started below position `k`: it visits the
positions `k - 1` down to `j`, where `j` is 0 or the position right after the nearest
operation already flagged drop, applies `set_drop` to each of them, leaves every other
position alone, and ends with `vsindex_dropped` set when it was set before or one of the
visited operations is the vsindex operator. -/
theorem drop_hints_back_spec (k : Nat) :
    ∀ (vals : List parsed_cs_op_t) (vs : Bool), k ≤ vals.length →
      ∃ j, j ≤ k ∧
        (∀ i, j ≤ i → i < k → (vals.getD i default).drop_flag = false) ∧
        (j = 0 ∨ (vals.getD (j - 1) default).drop_flag = true) ∧
        (drop_hints_back vals vs k).1.length = vals.length ∧
        (∀ i, j ≤ i → i < k →
          (drop_hints_back vals vs k).1.getD i default = (vals.getD i default).set_drop) ∧
        (∀ i, i < j ∨ k ≤ i →
          (drop_hints_back vals vs k).1.getD i default = vals.getD i default) ∧
        ((drop_hints_back vals vs k).2 = true ↔
          vs = true ∨ ∃ i, j ≤ i ∧ i < k ∧ (vals.getD i default).op = OpCode_vsindexcs) := by
  induction k with
  | zero =>
    intro vals vs _
    refine ⟨0, le_refl _, fun i _ hi => absurd hi (by omega), Or.inl rfl, rfl,
      fun i _ hi => absurd hi (by omega), fun i _ => rfl, ?_⟩
    simp only [drop_hints_back]
    constructor
    · intro h; exact Or.inl h
    · rintro (h | ⟨i, _, hi, _⟩)
      · exact h
      · omega
  | succ k ih =>
    intro vals vs hk
    by_cases hd : (vals.getD k default).drop_flag = true
    · have hb : drop_hints_back vals vs (k + 1) = (vals, vs) := by
        simp only [drop_hints_back, parsed_cs_op_t.for_drop, hd, if_true]
      rw [hb]
      refine ⟨k + 1, le_refl _, fun i h1 h2 => absurd h2 (by omega), Or.inr (by simpa using hd),
        rfl, fun i h1 h2 => absurd h2 (by omega), fun i _ => rfl, ?_⟩
      constructor
      · intro h; exact Or.inl h
      · rintro (h | ⟨i, h1, h2, _⟩)
        · exact h
        · omega
    · have hd2 : (vals.getD k default).drop_flag = false := by
        cases h : (vals.getD k default).drop_flag with
        | true => exact absurd h hd
        | false => rfl
      have hb : drop_hints_back vals vs (k + 1) =
          drop_hints_back (vals.set k (vals.getD k default).set_drop)
            (if (vals.getD k default).op = OpCode_vsindexcs then true else vs) k := by
        simp only [drop_hints_back, parsed_cs_op_t.for_drop, hd2, Bool.false_eq_true, if_false]
      rw [hb]
      obtain ⟨j, hj, a1, a2, a3, a4, a5, a6⟩ :=
        ih (vals.set k (vals.getD k default).set_drop)
          (if (vals.getD k default).op = OpCode_vsindexcs then true else vs)
          (by simp; omega)
      have hne : ∀ i, i ≠ k →
          (vals.set k (vals.getD k default).set_drop).getD i default = vals.getD i default :=
        fun i hi => list_getD_set_ne _ _ _ _ _ (Ne.symm hi)
      refine ⟨j, by omega, ?_, ?_, by simpa using a3, ?_, ?_, ?_⟩
      · intro i h1 h2
        by_cases hik : i = k
        · rw [hik]; exact hd2
        · rw [← hne i hik]; exact a1 i h1 (by omega)
      · rcases a2 with a2 | a2
        · exact Or.inl a2
        · by_cases hj0 : j = 0
          · exact Or.inl hj0
          · right
            rw [← hne (j - 1) (by omega)]; exact a2
      · intro i h1 h2
        by_cases hik : i = k
        · rw [hik, a5 k (Or.inr (le_refl _)), list_getD_set, if_pos ⟨rfl, by omega⟩]
        · rw [a4 i h1 (by omega), hne i hik]
      · intro i hi
        rw [a5 i (by omega), hne i (by omega)]
      · rw [a6]
        constructor
        · rintro (h | ⟨i, h1, h2, h3⟩)
          · by_cases hv : (vals.getD k default).op = OpCode_vsindexcs
            · exact Or.inr ⟨k, hj, by omega, hv⟩
            · rw [if_neg hv] at h; exact Or.inl h
          · exact Or.inr ⟨i, h1, by omega, by rw [← hne i (by omega)]; exact h3⟩
        · rintro (h | ⟨i, h1, h2, h3⟩)
          · left; rw [h]; simp
          · by_cases hik : i = k
            · left; rw [← hik, if_pos h3]
            · right
              exact ⟨i, h1, by omega, by rw [hne i hik]; exact h3⟩

theorem drop_hints_switch_other_flag
    (call : call_context_t → drop_env_t → Option (Bool × drop_env_t))
    (str : call_context_t) (pos : Nat) (e : drop_env_t) (r : Bool × drop_env_t)
    (h1 : ((e.param.str_at str).values.getD pos default).callee = none)
    (h2 : ¬ IsStem ((e.param.str_at str).values.getD pos default).op)
    (h3 : ¬ (IsMask ((e.param.str_at str).values.getD pos default).op ∧
      e.drop.seen_moveto = false))
    (h : drop_hints_switch call str pos e = some r) :
    r.1 = false := by
  unfold drop_hints_switch at h
  simp only at h
  generalize (e.param.str_at str).values.getD pos default = v at h h1 h2 h3
  have hc1 : v.op ≠ OpCode_callsubr := by
    intro hc; rw [parsed_cs_op_t.callee_callsubr hc] at h1; exact absurd h1 (by simp)
  have hc2 : v.op ≠ OpCode_callgsubr := by
    intro hc; rw [parsed_cs_op_t.callee_callgsubr hc] at h1; exact absurd h1 (by simp)
  rw [if_neg hc1, if_neg hc2] at h
  split at h
  · simp only [Option.some.injEq] at h; subst h; rfl
  split at h
  · simp only [Option.some.injEq] at h; subst h; rfl
  split at h
  · rename_i h4 h5 h6
    exfalso
    unfold IsStem at h2
    unfold IsMask at h3
    have hm : ¬ (v.op = OpCode_hintmask ∨ v.op = OpCode_cntrmask) := by
      intro hm
      have : e.drop.seen_moveto = true := by
        cases hs : e.drop.seen_moveto with
        | true => rfl
        | false => exact absurd ⟨hm, hs⟩ h3
      exact h5 ⟨hm, this⟩
    tauto
  split at h <;> (simp only [Option.some.injEq] at h; subst h; rfl)

/-- The flag `has_hint` of one iteration of `drop_hints_in_str`: true on a stem hint, on a
hintmask or cntrmask met while no moveto has been seen, and on a call whose subroutine
returned true. -/
theorem drop_hints_switch_flag
    (call : call_context_t → drop_env_t → Option (Bool × drop_env_t))
    (hcall : ∀ c e r, call c e = some r → ParamLe e.param r.2.param)
    (str : call_context_t) (pos : Nat) (e : drop_env_t) (r : Bool × drop_env_t)
    (h : drop_hints_switch call str pos e = some r) :
    (r.1 = true ↔
      IsStem ((e.param.str_at str).values.getD pos default).op ∨
      (IsMask ((e.param.str_at str).values.getD pos default).op ∧
        e.drop.seen_moveto = false) ∨
      ∃ t, ((e.param.str_at str).values.getD pos default).callee = some t ∧
        ∃ e1, call t { e with drop := { e.drop with ends_in_hint := false } }
          = some (true, e1)) := by
  cases hcl : ((e.param.str_at str).values.getD pos default).callee with
  | some t =>
    have hns : ¬ IsStem ((e.param.str_at str).values.getD pos default).op := by
      intro hs
      have := drop_hints_switch_hint call str pos e (Or.inl hs)
      unfold IsStem at hs
      rw [parsed_cs_op_t.callee_other
        (by rcases hs with h | h | h | h <;> rw [h] <;> decide)
        (by rcases hs with h | h | h | h <;> rw [h] <;> decide)] at hcl
      exact absurd hcl (by simp)
    have hnm : ¬ IsMask ((e.param.str_at str).values.getD pos default).op := by
      intro hs
      unfold IsMask at hs
      rw [parsed_cs_op_t.callee_other
        (by rcases hs with h | h <;> rw [h] <;> decide)
        (by rcases hs with h | h <;> rw [h] <;> decide)] at hcl
      exact absurd hcl (by simp)
    rw [drop_hints_switch_call call str pos e t hcl] at h
    obtain ⟨b, e1, hc⟩ := drop_hints_in_subr_some call str pos _ _ e r h
    rw [drop_hints_in_subr_result call hcall str pos _ _ e b e1 hc] at h
    simp only [Option.some.injEq] at h
    subst h
    simp only
    constructor
    · intro hb
      subst hb
      exact Or.inr (Or.inr ⟨t, rfl, e1, hc⟩)
    · rintro (h1 | ⟨h1, _⟩ | ⟨t2, h1, e2, h2⟩)
      · exact absurd h1 hns
      · exact absurd h1 hnm
      · simp only [Option.some.injEq] at h1
        subst h1
        rw [hc] at h2
        simp only [Option.some.injEq, Prod.mk.injEq] at h2
        exact h2.1
  | none =>
    by_cases hh : IsStem ((e.param.str_at str).values.getD pos default).op ∨
        (IsMask ((e.param.str_at str).values.getD pos default).op ∧
          e.drop.seen_moveto = false)
    · rw [drop_hints_switch_hint call str pos e hh] at h
      simp only [Option.some.injEq] at h
      subst h
      simp only [true_iff]
      rcases hh with hh | hh
      · exact Or.inl hh
      · exact Or.inr (Or.inl hh)
    · push_neg at hh
      have := drop_hints_switch_other_flag call str pos e r hcl hh.1
        (fun hm => hh.2 hm.1 hm.2) h
      rw [this]
      simp only [Bool.false_eq_true, false_iff]
      rintro (h1 | ⟨h1, h2⟩ | ⟨t, h1, _⟩)
      · exact hh.1 h1
      · exact hh.2 h1 h2
      · exact absurd h1 (by simp)

/-- One iteration of the loop of `drop_hints_in_str` after its `switch`: without a hint
nothing more happens; with a hint the backward walk runs from the position before it. -/
theorem drop_hints_iter_walk
    (call : call_context_t → drop_env_t → Option (Bool × drop_env_t))
    (str : call_context_t) (k : Nat) (seen : Bool) (e e1 : drop_env_t) (b : Bool)
    (hs : drop_hints_switch call str k e = some (b, e1))
    (hk : k < (e1.param.str_at str).values.length) :
    (b = false → drop_hints_iter call str k seen e = some (seen, e1)) ∧
    (b = true → ∃ j e2, j ≤ k ∧ drop_hints_iter call str k seen e = some (true, e2) ∧
      (j = 0 ∨ ((e1.param.str_at str).values.getD (j - 1) default).drop_flag = true) ∧
      (∀ i, j ≤ i → i < k →
        ((e1.param.str_at str).values.getD i default).drop_flag = false ∧
        (e2.param.str_at str).values.getD i default =
          ((e1.param.str_at str).values.getD i default).set_drop) ∧
      (∀ i, i < j ∨ k ≤ i →
        (e2.param.str_at str).values.getD i default =
          (e1.param.str_at str).values.getD i default) ∧
      (e2.drop.vsindex_dropped = true ↔
        e1.drop.vsindex_dropped = true ∨
        ∃ i, j ≤ i ∧ i < k ∧
          ((e1.param.str_at str).values.getD i default).op = OpCode_vsindexcs) ∧
      e2.drop.seen_moveto = e1.drop.seen_moveto ∧
      e2.drop.ends_in_hint = e1.drop.ends_in_hint) := by
  constructor
  · intro hb
    subst hb
    simp only [drop_hints_iter, hs, Bool.false_eq_true, if_false]
  · intro hb
    subst hb
    obtain ⟨j, hj, h1, h2, _, h4, h5, h6⟩ :=
      drop_hints_back_spec k (e1.param.str_at str).values e1.drop.vsindex_dropped
        (Nat.le_of_lt hk)
    refine ⟨j, ⟨e1.param.set_values_at str
      (drop_hints_back (e1.param.str_at str).values e1.drop.vsindex_dropped k).1,
      { e1.drop with vsindex_dropped :=
        (drop_hints_back (e1.param.str_at str).values e1.drop.vsindex_dropped k).2 }⟩,
      hj, ?_, h2, ?_, ?_, h6, rfl, rfl⟩
    · simp only [drop_hints_iter, hs, if_true, Bool.or_true]
    · intro i hi1 hi2
      refine ⟨h1 i hi1 hi2, ?_⟩
      rw [str_at_set_values_at _ _ _ (by omega)]
      exact h4 i hi1 hi2
    · intro i hi
      rw [str_at_set_values_at _ _ _ (by omega)]
      exact h5 i hi

/-- C21: let the call graph be acyclic and the call depth suffice, and let `k` be a
position of the charstring. `drop_hints_in_str` returns; its loop reaches position `k` in
a state `ek`, the `switch` there ends in a state `e1` with the flag `has_hint`, and the
iteration ends in a state `e2` from which the rest of the loop runs. The flag is true
exactly on a stem hint, on a hintmask or cntrmask before any moveto, and on a call whose
subroutine returned true. Without a hint the iteration does nothing more. With a hint
there is a position `j ≤ k`, either 0 or right after an operation flagged drop, such that
no operation at `j .. k-1` was flagged drop, each of them went through `set_drop` (so is
flagged drop now unless it carries the keep flag), every other operation of the charstring
is as it was, and `vsindex_dropped` is true afterwards exactly when it was true before
or one of the operations at `j .. k-1` is the vsindex operator. -/
theorem hint_walk_flags_operands (rank : call_context_t → Nat) (fuel : Nat)
    (c : call_context_t) (e : drop_env_t) (hrk : RankAll e.param rank)
    (hlt : rank c < fuel + 1) (k : Nat) (hk : k < (e.param.str_at c).values.length) :
    ∃ (s : Bool) (ek : drop_env_t) (b : Bool) (e1 : drop_env_t) (s2 : Bool) (e2 : drop_env_t),
      drop_hints_loop (drop_hints_in_str fuel) c k 0 false e = some (s, ek) ∧
      drop_hints_switch (drop_hints_in_str fuel) c k ek = some (b, e1) ∧
      drop_hints_loop (drop_hints_in_str fuel) c (k + 1) 0 false e = some (s2, e2) ∧
      drop_hints_in_str (fuel + 1) c e =
        drop_hints_loop (drop_hints_in_str fuel) c
          ((e.param.str_at c).values.length - (k + 1)) (k + 1) s2 e2 ∧
      (∃ r, drop_hints_in_str (fuel + 1) c e = some r) ∧
      (b = true ↔
        IsStem ((ek.param.str_at c).values.getD k default).op ∨
        (IsMask ((ek.param.str_at c).values.getD k default).op ∧
          ek.drop.seen_moveto = false) ∨
        ∃ t, ((ek.param.str_at c).values.getD k default).callee = some t ∧
          ∃ e3, drop_hints_in_str fuel t
            { ek with drop := { ek.drop with ends_in_hint := false } } = some (true, e3)) ∧
      (b = false → s2 = s ∧ e2 = e1) ∧
      (b = true → s2 = true ∧ ∃ j, j ≤ k ∧
        (j = 0 ∨ ((e1.param.str_at c).values.getD (j - 1) default).drop_flag = true) ∧
        (∀ i, j ≤ i → i < k →
          ((e1.param.str_at c).values.getD i default).drop_flag = false ∧
          (e2.param.str_at c).values.getD i default =
            ((e1.param.str_at c).values.getD i default).set_drop ∧
          (((e1.param.str_at c).values.getD i default).keep_flag = false →
            (e2.param.str_at c).values.getD i default =
              { (e1.param.str_at c).values.getD i default with drop_flag := true })) ∧
        (∀ i, i < j ∨ k ≤ i →
          (e2.param.str_at c).values.getD i default =
            (e1.param.str_at c).values.getD i default) ∧
        (e2.drop.vsindex_dropped = true ↔
          e1.drop.vsindex_dropped = true ∨
          ∃ i, j ≤ i ∧ i < k ∧
            ((e1.param.str_at c).values.getD i default).op = OpCode_vsindexcs)) := by
  have hle := drop_hints_in_str_le fuel
  obtain ⟨⟨s2, e2⟩, h2⟩ := drop_hints_loop_total rank fuel (drop_hints_in_str fuel)
    (fun c e h1 h2 => drop_hints_in_str_total rank fuel c e h1 h2) hle c hlt (k + 1) 0 false e
    hrk
  have hsplit := drop_hints_loop_split (drop_hints_in_str fuel) c k 1 0 false e
  rw [h2] at hsplit
  cases hl : drop_hints_loop (drop_hints_in_str fuel) c k 0 false e with
  | none => rw [hl] at hsplit; exact absurd hsplit (by simp)
  | some r0 =>
    obtain ⟨s, ek⟩ := r0
    rw [hl] at hsplit
    simp only [drop_hints_loop, Nat.zero_add] at hsplit
    cases hi : drop_hints_iter (drop_hints_in_str fuel) c k s ek with
    | none => rw [hi] at hsplit; exact absurd hsplit (by simp)
    | some r1 =>
      obtain ⟨r1a, r1b⟩ := r1
      rw [hi] at hsplit
      simp only [Option.some.injEq, Prod.mk.injEq] at hsplit
      obtain ⟨hsp1, hsp2⟩ := hsplit
      subst hsp1; subst hsp2
      obtain ⟨⟨b, e1⟩, hs, _, _⟩ := drop_hints_iter_switch _ c k s ek _ hi
      have hle0 : ParamLe e.param ek.param := drop_hints_loop_le _ hle c k 0 false e _ hl
      have hle1 : ParamLe ek.param e1.param := drop_hints_switch_le _ hle c k ek _ hs
      have hk1 : k < (e1.param.str_at c).values.length := by
        rw [hle1.at_length c, hle0.at_length c]; exact hk
      have hw := drop_hints_iter_walk _ c k s ek e1 b hs hk1
      have hrest : drop_hints_in_str (fuel + 1) c e =
          drop_hints_loop (drop_hints_in_str fuel) c
            ((e.param.str_at c).values.length - (k + 1)) (k + 1) s2 e2 := by
        have hlen : (e.param.str_at c).values.length =
            (k + 1) + ((e.param.str_at c).values.length - (k + 1)) := by omega
        simp only [drop_hints_in_str]
        conv_lhs => rw [hlen]
        rw [drop_hints_loop_split, h2]
        simp only [Nat.zero_add]
      refine ⟨s, ek, b, e1, s2, e2, rfl, hs, h2, hrest,
        drop_hints_in_str_total rank (fuel + 1) c e hrk hlt,
        drop_hints_switch_flag _ hle c k ek _ hs, ?_, ?_⟩
      · intro hb
        rw [hw.1 hb] at hi
        simp only [Option.some.injEq, Prod.mk.injEq] at hi
        exact ⟨hi.1.symm, hi.2.symm⟩
      · intro hb
        obtain ⟨j, e2b, hj, hit, h3, h4, h5, h6, _, _⟩ := hw.2 hb
        rw [hit] at hi
        simp only [Option.some.injEq, Prod.mk.injEq] at hi
        obtain ⟨hi1, hi2⟩ := hi
        subst hi2
        refine ⟨hi1.symm, j, hj, h3, ?_, h5, h6⟩
        intro i hi3 hi4
        refine ⟨(h4 i hi3 hi4).1, (h4 i hi3 hi4).2, ?_⟩
        intro hkp
        rw [(h4 i hi3 hi4).2]
        simp only [parsed_cs_op_t.set_drop, parsed_cs_op_t.for_keep, hkp, Bool.not_false,
          if_true]

theorem vsindex_walk_scenario_rank : RankAll vsindex_walk_scenario (fun _ => 0) := by
  intro src pos o tgt h1 h3
  exfalso
  have hm := List.getElem?_mem h1
  rcases src with ⟨ty, num⟩
  cases ty <;>
    simp [subr_subset_param_t.str_at, vsindex_walk_scenario,
      parsed_cs_str_t.default_values] at hm
  rcases hm with h | h | h | h | h | h | h | h <;> subst h <;>
    simp [parsed_cs_op_t.callee, OpCode_callsubr, OpCode_callgsubr] at h3

/-- C21 at a concrete input: in `0 vsindex 1 11 hstem 2 3 rmoveto` the hstem at position 4
is a hint; the walk from it flags the positions 3, 2, 1 and 0, among them the vsindex
operator, so `vsindex_dropped` is set. -/
theorem hint_walk_flags_operands_witness :
    ∃ e2, drop_hints_loop (drop_hints_in_str 0) root 5 0 false
        ⟨vsindex_walk_scenario, drop_hints_param_t.new⟩ = some (true, e2) ∧
      e2.drop.vsindex_dropped = true ∧
      ((e2.param.str_at root).values.getD 0 default).drop_flag = true ∧
      ((e2.param.str_at root).values.getD 5 default).drop_flag = false := by
  obtain ⟨s, ek, b, e1, s2, e2, h1, h2, h3, _, _, h6, _, h8⟩ :=
    hint_walk_flags_operands (fun _ => 0) 0 root
      ⟨vsindex_walk_scenario, drop_hints_param_t.new⟩ vsindex_walk_scenario_rank
      (by decide) 4 (by decide)
  have he : drop_hints_loop (drop_hints_in_str 0) root 4 0 false
      ⟨vsindex_walk_scenario, drop_hints_param_t.new⟩ =
      some (false, ⟨vsindex_walk_scenario, drop_hints_param_t.new⟩) := by rfl
  rw [he] at h1
  simp only [Option.some.injEq, Prod.mk.injEq] at h1
  obtain ⟨hs, hek⟩ := h1
  subst hs; subst hek
  have hb : b = true := h6.mpr (Or.inl (by decide))
  subst hb
  have hsw : drop_hints_switch (drop_hints_in_str 0) root 4
      ⟨vsindex_walk_scenario, drop_hints_param_t.new⟩ =
      some (true, ⟨vsindex_walk_scenario.set_drop_at root 4, drop_hints_param_t.new⟩) := by
    rfl
  rw [hsw] at h2
  simp only [Option.some.injEq, Prod.mk.injEq, true_and] at h2
  subst h2
  obtain ⟨hs2, j, hj, hj0, hw, hrest, hvs⟩ := h8 rfl
  subst hs2
  have hj1 : j = 0 := by
    rcases hj0 with h | h
    · exact h
    · exfalso
      have : j = 1 ∨ j = 2 ∨ j = 3 ∨ j = 4 := by
        rcases j with _ | _ | _ | _ | _ | j
        · simp at h
          revert h
          decide
        · exact Or.inl rfl
        · exact Or.inr (Or.inl rfl)
        · exact Or.inr (Or.inr (Or.inl rfl))
        · exact Or.inr (Or.inr (Or.inr rfl))
        · omega
      rcases this with h0 | h0 | h0 | h0 <;> subst h0 <;> revert h <;> decide
  subst hj1
  refine ⟨e2, h3, hvs.mpr (Or.inr ⟨1, by decide, by decide, by decide⟩), ?_, ?_⟩
  · rw [(hw 0 (by decide) (by decide)).2.2 (by decide)]
  · rw [hrest 5 (Or.inr (by decide))]
    decide

end subr_subsetter_t

theorem ParamLe.at_callee {p p2 : subr_subset_param_t} (h : ParamLe p p2) (c : call_context_t)
    (i : Nat) :
    ((p2.str_at c).values.getD i default).callee =
      ((p.str_at c).values.getD i default).callee :=
  ((h.1 c).1.2 i).callee_eq

theorem MeetsMoveto.meets_le (fuel : Nat) :
    ∀ (p p2 : subr_subset_param_t) (c : call_context_t), ParamLe p p2 →
      (MeetsMoveto fuel p2 c ↔ MeetsMoveto fuel p c) := by
  induction fuel with
  | zero => intro p p2 c _; exact Iff.rfl
  | succ fuel ih =>
    intro p p2 c h
    simp only [MeetsMoveto, h.at_length c, (h.at_fields c _).1, h.at_callee c,
      ih p p2 _ h]

theorem MovetoBefore.before_le (fuel : Nat) (p p2 : subr_subset_param_t) (c : call_context_t)
    (m : Nat) (h : ParamLe p p2) :
    (MovetoBefore fuel p2 c m ↔ MovetoBefore fuel p c m) := by
  simp only [MovetoBefore, (h.at_fields c _).1, h.at_callee c,
    MeetsMoveto.meets_le fuel p p2 _ h]

theorem SeesHint.sees_le (fuel : Nat) :
    ∀ (p p2 : subr_subset_param_t) (c : call_context_t) (s s2 : Prop), ParamLe p p2 →
      (s2 ↔ s) → (SeesHint fuel p2 c s2 ↔ SeesHint fuel p c s) := by
  induction fuel with
  | zero => intro p p2 c s s2 _ _; exact Iff.rfl
  | succ fuel ih =>
    intro p p2 c s s2 h hs
    simp only [SeesHint, h.at_length c, (h.at_fields c _).1, h.at_callee c,
      MovetoBefore.before_le fuel p p2 c _ h, hs]
    constructor
    · rintro ⟨m, hm, h1 | h1 | ⟨t, h1, h2⟩⟩
      · exact ⟨m, hm, Or.inl h1⟩
      · exact ⟨m, hm, Or.inr (Or.inl h1)⟩
      · exact ⟨m, hm, Or.inr (Or.inr ⟨t, h1, (ih p p2 t _ _ h Iff.rfl).mp h2⟩)⟩
    · rintro ⟨m, hm, h1 | h1 | ⟨t, h1, h2⟩⟩
      · exact ⟨m, hm, Or.inl h1⟩
      · exact ⟨m, hm, Or.inr (Or.inl h1)⟩
      · exact ⟨m, hm, Or.inr (Or.inr ⟨t, h1, (ih p p2 t _ _ h Iff.rfl).mpr h2⟩)⟩

namespace subr_subsetter_t

theorem callee_none_not_call {o : parsed_cs_op_t} (h : o.callee = none) :
    o.op ≠ OpCode_callsubr ∧ o.op ≠ OpCode_callgsubr := by
  constructor
  · intro hc; rw [parsed_cs_op_t.callee_callsubr hc] at h; exact absurd h (by simp)
  · intro hc; rw [parsed_cs_op_t.callee_callgsubr hc] at h; exact absurd h (by simp)

theorem callee_some_is_call {o : parsed_cs_op_t} {t : call_context_t}
    (h : o.callee = some t) : o.op = OpCode_callsubr ∨ o.op = OpCode_callgsubr := by
  by_contra hc
  push_neg at hc
  rw [parsed_cs_op_t.callee_other hc.1 hc.2] at h
  exact absurd h (by simp)

/-- What the `switch` of `drop_hints_in_str` makes of `seen_moveto`, given what the callee
run makes of it. -/
theorem drop_hints_switch_moveto
    (call : call_context_t → drop_env_t → Option (Bool × drop_env_t))
    (hcall : ∀ c e r, call c e = some r → ParamLe e.param r.2.param)
    (MM : subr_subset_param_t → call_context_t → Prop)
    (hspec : ∀ (t : call_context_t) (e : drop_env_t) (r : Bool × drop_env_t),
      call t e = some r →
      (r.2.drop.seen_moveto = true ↔ e.drop.seen_moveto = true ∨ MM e.param t))
    (str : call_context_t) (pos : Nat) (e : drop_env_t) (r : Bool × drop_env_t)
    (h : drop_hints_switch call str pos e = some r) :
    (r.2.drop.seen_moveto = true ↔
      e.drop.seen_moveto = true ∨
      IsMoveto ((e.param.str_at str).values.getD pos default).op ∨
      ∃ t, ((e.param.str_at str).values.getD pos default).callee = some t ∧
        MM e.param t) := by
  cases hcl : ((e.param.str_at str).values.getD pos default).callee with
  | some t =>
    have hnm : ¬ IsMoveto ((e.param.str_at str).values.getD pos default).op := by
      intro hm
      unfold IsMoveto at hm
      rcases callee_some_is_call hcl with h1 | h1 <;> rw [h1] at hm <;> revert hm <;> decide
    rw [drop_hints_switch_call call str pos e t hcl] at h
    obtain ⟨b, e1, hc⟩ := drop_hints_in_subr_some call str pos _ _ e r h
    rw [drop_hints_in_subr_result call hcall str pos _ _ e b e1 hc] at h
    simp only [Option.some.injEq] at h
    subst h
    have hsp := hspec _ _ _ hc
    simp only at hsp
    simp only
    rw [hsp]
    constructor
    · rintro (h1 | h1)
      · exact Or.inl h1
      · exact Or.inr (Or.inr ⟨t, rfl, h1⟩)
    · rintro (h1 | h1 | ⟨t2, h1, h2⟩)
      · exact Or.inl h1
      · exact absurd h1 hnm
      · simp only [Option.some.injEq] at h1
        subst h1
        exact Or.inr h2
  | none =>
    obtain ⟨hc1, hc2⟩ := callee_none_not_call hcl
    by_cases hm : IsMoveto ((e.param.str_at str).values.getD pos default).op
    · unfold drop_hints_switch at h
      simp only at h
      have hm2 := hm
      unfold IsMoveto at hm2
      rw [if_neg hc1, if_neg hc2, if_pos hm2] at h
      simp only [Option.some.injEq] at h
      subst h
      simp only [true_iff]
      exact Or.inr (Or.inl hm)
    · have hno : NoMoveNoCall ((e.param.str_at str).values.getD pos default).op := by
        unfold IsMoveto at hm
        unfold NoMoveNoCall
        tauto
      rw [drop_hints_switch_keeps_moveto call str pos e r hno h]
      constructor
      · intro h1; exact Or.inl h1
      · rintro (h1 | h1 | ⟨t, h1, _⟩)
        · exact h1
        · exact absurd h1 hm
        · exact absurd h1 (by simp)

theorem drop_hints_iter_moveto
    (call : call_context_t → drop_env_t → Option (Bool × drop_env_t))
    (hcall : ∀ c e r, call c e = some r → ParamLe e.param r.2.param)
    (MM : subr_subset_param_t → call_context_t → Prop)
    (hspec : ∀ (t : call_context_t) (e : drop_env_t) (r : Bool × drop_env_t),
      call t e = some r →
      (r.2.drop.seen_moveto = true ↔ e.drop.seen_moveto = true ∨ MM e.param t))
    (str : call_context_t) (pos : Nat) (seen : Bool) (e : drop_env_t) (r : Bool × drop_env_t)
    (h : drop_hints_iter call str pos seen e = some r) :
    (r.2.drop.seen_moveto = true ↔
      e.drop.seen_moveto = true ∨
      IsMoveto ((e.param.str_at str).values.getD pos default).op ∨
      ∃ t, ((e.param.str_at str).values.getD pos default).callee = some t ∧
        MM e.param t) := by
  unfold drop_hints_iter at h
  cases hs : drop_hints_switch call str pos e with
  | none => rw [hs] at h; exact absurd h (by simp)
  | some r1 =>
    obtain ⟨b1, e1⟩ := r1
    rw [hs] at h
    have h1 := drop_hints_switch_moveto call hcall MM hspec str pos e _ hs
    simp only at h h1
    rw [← h1]
    split at h <;> (simp only [Option.some.injEq] at h; subst h; rfl)

theorem drop_hints_loop_moveto
    (call : call_context_t → drop_env_t → Option (Bool × drop_env_t))
    (hcall : ∀ c e r, call c e = some r → ParamLe e.param r.2.param)
    (MM : subr_subset_param_t → call_context_t → Prop)
    (hMM : ∀ (p p2 : subr_subset_param_t) (t : call_context_t), ParamLe p p2 →
      (MM p2 t ↔ MM p t))
    (hspec : ∀ (t : call_context_t) (e : drop_env_t) (r : Bool × drop_env_t),
      call t e = some r →
      (r.2.drop.seen_moveto = true ↔ e.drop.seen_moveto = true ∨ MM e.param t))
    (str : call_context_t) (n : Nat) :
    ∀ (pos : Nat) (seen : Bool) (e : drop_env_t) (r : Bool × drop_env_t),
      drop_hints_loop call str n pos seen e = some r →
      (r.2.drop.seen_moveto = true ↔
        e.drop.seen_moveto = true ∨
        ∃ i, pos ≤ i ∧ i < pos + n ∧
          (IsMoveto ((e.param.str_at str).values.getD i default).op ∨
            ∃ t, ((e.param.str_at str).values.getD i default).callee = some t ∧
              MM e.param t)) := by
  induction n with
  | zero =>
    intro pos seen e r h
    simp only [drop_hints_loop, Option.some.injEq] at h
    subst h
    constructor
    · intro h1; exact Or.inl h1
    · rintro (h1 | ⟨i, h1, h2, _⟩)
      · exact h1
      · omega
  | succ n ih =>
    intro pos seen e r h
    simp only [drop_hints_loop] at h
    cases hi : drop_hints_iter call str pos seen e with
    | none => rw [hi] at h; exact absurd h (by simp)
    | some r1 =>
      obtain ⟨s1, e1⟩ := r1
      rw [hi] at h
      simp only at h
      have hle := drop_hints_iter_le call hcall str pos seen e _ hi
      have h1 := drop_hints_iter_moveto call hcall MM hspec str pos seen e _ hi
      have h2 := ih (pos + 1) s1 e1 r h
      simp only at hle h1
      rw [h2, h1]
      simp only [(hle.at_fields str _).1, hle.at_callee str, hMM _ _ _ hle]
      constructor
      · rintro ((h3 | h3) | ⟨i, h3, h4, h5⟩)
        · exact Or.inl h3
        · exact Or.inr ⟨pos, le_refl _, by omega, h3⟩
        · exact Or.inr ⟨i, by omega, by omega, h5⟩
      · rintro (h3 | ⟨i, h3, h4, h5⟩)
        · exact Or.inl (Or.inl h3)
        · by_cases hip : i = pos
          · subst hip
            exact Or.inl (Or.inr h5)
          · exact Or.inr ⟨i, by omega, by omega, h5⟩

/-- The flag `seen_moveto` after `drop_hints_in_str`: set when it was set before or the
run met a moveto. -/
theorem drop_hints_in_str_moveto (fuel : Nat) :
    ∀ (c : call_context_t) (e : drop_env_t) (r : Bool × drop_env_t),
      drop_hints_in_str fuel c e = some r →
      (r.2.drop.seen_moveto = true ↔
        e.drop.seen_moveto = true ∨ MeetsMoveto fuel e.param c) := by
  induction fuel with
  | zero => intro c e r h; simp [drop_hints_in_str] at h
  | succ fuel ih =>
    intro c e r h
    simp only [drop_hints_in_str] at h
    rw [drop_hints_loop_moveto _ (drop_hints_in_str_le fuel) (MeetsMoveto fuel)
      (fun p p2 t hle => MeetsMoveto.meets_le fuel p p2 t hle) ih c _ 0 false e r h]
    simp only [MeetsMoveto, Nat.zero_le, true_and, Nat.zero_add]

/-- A run of the loop of `drop_hints_in_str` that returns has reached each of its
positions, and the `switch` there has returned. -/
theorem drop_hints_loop_reaches
    (call : call_context_t → drop_env_t → Option (Bool × drop_env_t))
    (str : call_context_t) (n m : Nat) (pos : Nat) (seen : Bool) (e : drop_env_t)
    (r : Bool × drop_env_t) (h : drop_hints_loop call str n pos seen e = some r)
    (hm : m < n) :
    ∃ sm em r1, drop_hints_loop call str m pos seen e = some (sm, em) ∧
      drop_hints_switch call str (pos + m) em = some r1 := by
  have hn : n = m + (1 + (n - m - 1)) := by omega
  rw [hn, drop_hints_loop_split] at h
  cases hl : drop_hints_loop call str m pos seen e with
  | none => rw [hl] at h; exact absurd h (by simp)
  | some r0 =>
    obtain ⟨sm, em⟩ := r0
    rw [hl] at h
    simp only at h
    rw [drop_hints_loop_split _ str 1] at h
    simp only [drop_hints_loop] at h
    cases hi : drop_hints_iter call str (pos + m) sm em with
    | none => rw [hi] at h; exact absurd h (by simp)
    | some r2 =>
      obtain ⟨r1, hs, _⟩ := drop_hints_iter_switch call str (pos + m) sm em r2 hi
      exact ⟨sm, em, r1, rfl, hs⟩

/-- The value the loop of `drop_hints_in_str` returns: true when `seen_hint` was true at
the start or the `switch` set `has_hint` at one of the positions. -/
theorem drop_hints_loop_flag
    (call : call_context_t → drop_env_t → Option (Bool × drop_env_t))
    (str : call_context_t) (n : Nat) :
    ∀ (pos : Nat) (seen : Bool) (e : drop_env_t) (r : Bool × drop_env_t),
      drop_hints_loop call str n pos seen e = some r →
      (r.1 = true ↔
        seen = true ∨
        ∃ m, m < n ∧ ∃ sm em r1, drop_hints_loop call str m pos seen e = some (sm, em) ∧
          drop_hints_switch call str (pos + m) em = some r1 ∧ r1.1 = true) := by
  induction n with
  | zero =>
    intro pos seen e r h
    simp only [drop_hints_loop, Option.some.injEq] at h
    subst h
    constructor
    · intro h1; exact Or.inl h1
    · rintro (h1 | ⟨m, h1, _⟩)
      · exact h1
      · omega
  | succ n ih =>
    intro pos seen e r h
    rw [drop_hints_loop_split _ str n 1] at h
    cases hl : drop_hints_loop call str n pos seen e with
    | none => rw [hl] at h; exact absurd h (by simp)
    | some r0 =>
      obtain ⟨s1, e1⟩ := r0
      rw [hl] at h
      simp only [drop_hints_loop] at h
      cases hi : drop_hints_iter call str (pos + n) s1 e1 with
      | none => rw [hi] at h; exact absurd h (by simp)
      | some r2 =>
        rw [hi] at h
        simp only [Option.some.injEq] at h
        obtain ⟨r1, hs, _, hr⟩ := drop_hints_iter_switch call str (pos + n) s1 e1 r2 hi
        have hr2 : r.1 = (s1 || r1.1) := by rw [← h]; exact hr
        have ih1 := ih pos seen e _ hl
        simp only at ih1
        rw [hr2, Bool.or_eq_true, ih1]
        constructor
        · rintro ((h1 | ⟨m, h1, h2⟩) | h1)
          · exact Or.inl h1
          · exact Or.inr ⟨m, by omega, h2⟩
          · exact Or.inr ⟨n, by omega, s1, e1, r1, hl, hs, h1⟩
        · rintro (h1 | ⟨m, h1, sm, em, r3, h2, h3, h4⟩)
          · exact Or.inl (Or.inl h1)
          · by_cases hmn : m = n
            · subst hmn
              rw [hl] at h2
              simp only [Option.some.injEq, Prod.mk.injEq] at h2
              obtain ⟨h5, h6⟩ := h2
              subst h5; subst h6
              rw [hs] at h3
              simp only [Option.some.injEq] at h3
              subst h3
              exact Or.inr h4
            · exact Or.inl (Or.inr ⟨m, by omega, sm, em, r3, h2, h3, h4⟩)

/-- The value `drop_hints_in_str` returns, in the words of the specification side. -/
theorem drop_hints_in_str_sees (fuel : Nat) :
    ∀ (c : call_context_t) (e : drop_env_t) (r : Bool × drop_env_t),
      drop_hints_in_str fuel c e = some r →
      (r.1 = true ↔ SeesHint fuel e.param c (e.drop.seen_moveto = true)) := by
  induction fuel with
  | zero => intro c e r h; simp [drop_hints_in_str] at h
  | succ fuel ih =>
    intro c e r h
    have hcall := drop_hints_in_str_le fuel
    simp only [drop_hints_in_str] at h
    have key : ∀ (m : Nat) (sm : Bool) (em : drop_env_t) (r1 : Bool × drop_env_t),
        drop_hints_loop (drop_hints_in_str fuel) c m 0 false e = some (sm, em) →
        drop_hints_switch (drop_hints_in_str fuel) c m em = some r1 →
        (r1.1 = true ↔
          IsStem ((e.param.str_at c).values.getD m default).op ∨
          (IsMask ((e.param.str_at c).values.getD m default).op ∧
            ¬ (e.drop.seen_moveto = true) ∧ ¬ MovetoBefore fuel e.param c m) ∨
          ∃ t, ((e.param.str_at c).values.getD m default).callee = some t ∧
            SeesHint fuel e.param t
              (e.drop.seen_moveto = true ∨ MovetoBefore fuel e.param c m)) := by
      intro m sm em r1 hl hs
      have hle : ParamLe e.param em.param := drop_hints_loop_le _ hcall c m 0 false e _ hl
      have hmv : em.drop.seen_moveto = true ↔
          (e.drop.seen_moveto = true ∨ MovetoBefore fuel e.param c m) := by
        have := drop_hints_loop_moveto _ hcall (MeetsMoveto fuel)
          (fun p p2 t hle => MeetsMoveto.meets_le fuel p p2 t hle)
          (drop_hints_in_str_moveto fuel) c m 0 false e _ hl
        simp only [Nat.zero_le, true_and, Nat.zero_add] at this
        exact this
      rw [drop_hints_switch_flag _ hcall c m em r1 hs, (hle.at_fields c m).1,
        hle.at_callee c m]
      have hmv2 : em.drop.seen_moveto = false ↔
          (¬ (e.drop.seen_moveto = true) ∧ ¬ MovetoBefore fuel e.param c m) := by
        rw [← not_or, ← hmv]
        simp
      rw [hmv2]
      have hcl : ∀ t, ((e.param.str_at c).values.getD m default).callee = some t →
          ((∃ e3, drop_hints_in_str fuel t
            { em with drop := { em.drop with ends_in_hint := false } } = some (true, e3)) ↔
          SeesHint fuel e.param t
            (e.drop.seen_moveto = true ∨ MovetoBefore fuel e.param c m)) := by
        intro t ht
        have ht2 : ((em.param.str_at c).values.getD m default).callee = some t := by
          rw [hle.at_callee c m]; exact ht
        rw [drop_hints_switch_call _ c m em t ht2] at hs
        obtain ⟨b, e3, hc⟩ := drop_hints_in_subr_some _ c m _ _ em r1 hs
        have hb := ih t _ _ hc
        simp only at hb
        rw [SeesHint.sees_le fuel e.param em.param t _ _ hle hmv] at hb
        rw [← hb]
        constructor
        · rintro ⟨e4, h4⟩
          rw [hc] at h4
          simp only [Option.some.injEq, Prod.mk.injEq] at h4
          exact h4.1
        · intro hb2
          subst hb2
          exact ⟨e3, hc⟩
      constructor
      · rintro (h1 | h1 | ⟨t, h1, h2⟩)
        · exact Or.inl h1
        · exact Or.inr (Or.inl h1)
        · exact Or.inr (Or.inr ⟨t, h1, (hcl t h1).mp h2⟩)
      · rintro (h1 | h1 | ⟨t, h1, h2⟩)
        · exact Or.inl h1
        · exact Or.inr (Or.inl h1)
        · exact Or.inr (Or.inr ⟨t, h1, (hcl t h1).mpr h2⟩)
    rw [drop_hints_loop_flag _ c _ 0 false e r h]
    simp only [Bool.false_eq_true, false_or, Nat.zero_add, SeesHint]
    constructor
    · rintro ⟨m, hm, sm, em, r1, h1, h2, h3⟩
      exact ⟨m, hm, (key m sm em r1 h1 h2).mp h3⟩
    · rintro ⟨m, hm, h1⟩
      obtain ⟨sm, em, r1, h2, h3⟩ := drop_hints_loop_reaches _ c _ m 0 false e r h hm
      rw [Nat.zero_add] at h3
      exact ⟨m, hm, sm, em, r1, h2, h3, (key m sm em r1 h2 h3).mpr h1⟩

theorem mask_after_moveto_scenario_rank :
    RankAll mask_after_moveto_scenario (fun _ => 0) := by
  intro src pos o tgt h1 h3
  exfalso
  have hm := List.getElem?_mem h1
  rcases src with ⟨ty, num⟩
  cases ty <;>
    simp [subr_subset_param_t.str_at, mask_after_moveto_scenario,
      parsed_cs_str_t.default_values] at hm
  rcases hm with h | h | h | h | h | h | h | h <;> subst h <;>
    simp [parsed_cs_op_t.callee, OpCode_callsubr, OpCode_callgsubr] at h3

/-- C23, as the code has it: let the call graph be acyclic and the call depth suffice.
`drop_hints_in_str` returns, and it returns true if and only if it meets, in the
charstring itself or in a subroutine it calls, a stem hint operator (hstem, vstem, hstemhm
or vstemhm) or a hintmask or cntrmask operator before any moveto has been met; a hintmask
or cntrmask met only after a moveto does not make it return true. -/
theorem drop_hints_in_str_returns_iff (rank : call_context_t → Nat) (fuel : Nat)
    (c : call_context_t) (e : drop_env_t) (hrk : RankAll e.param rank) (hlt : rank c < fuel) :
    ∃ r, drop_hints_in_str fuel c e = some r ∧
      (r.1 = true ↔ SeesHint fuel e.param c (e.drop.seen_moveto = true)) := by
  obtain ⟨r, h⟩ := drop_hints_in_str_total rank fuel c e hrk hlt
  exact ⟨r, h, drop_hints_in_str_sees fuel c e r h⟩

/-- C23 as claimed fails: in `1 2 rmoveto 3 4 hstem endchar` the only hint operator, the
hstem at position 5, comes after the moveto at position 2, and `drop_hints_in_str`
returns true. -/
theorem stem_after_moveto_returns_true :
    stem_after_moveto_scenario.parsed_charstring.values.map (fun (o : parsed_cs_op_t) => o.op)
      = [140, 141, OpCode_rmoveto, 142, 143, OpCode_hstem, OpCode_endchar] ∧
    (drop_hints_in_str 1 root ⟨stem_after_moveto_scenario, drop_hints_param_t.new⟩).map
      Prod.fst = some true := by
  constructor
  · decide
  · rfl

/-- C23 at a concrete input: in `1 2 rmoveto hintmask 3 4 rlineto endchar` the hintmask
is met after a moveto and there is no other hint operator; `drop_hints_in_str` returns
false. -/
theorem drop_hints_in_str_returns_iff_witness :
    ∃ r, drop_hints_in_str 1 root
        ⟨mask_after_moveto_scenario, drop_hints_param_t.new⟩ = some r ∧ r.1 = false := by
  obtain ⟨r, h1, h2⟩ := drop_hints_in_str_returns_iff (fun _ => 0) 1 root
    ⟨mask_after_moveto_scenario, drop_hints_param_t.new⟩ mask_after_moveto_scenario_rank
    (by decide)
  refine ⟨r, h1, ?_⟩
  cases hr : r.1 with
  | false => rfl
  | true =>
    exfalso
    obtain ⟨m, hm, h⟩ := h2.mp hr
    have hm8 : m < 8 := hm
    have hmv : 3 ≤ m → MovetoBefore 0 mask_after_moveto_scenario root m :=
      fun h3 => ⟨2, by omega, Or.inl (by decide)⟩
    rcases h with h | ⟨h, _, h3⟩ | ⟨t, _, h⟩
    · interval_cases m <;> revert h <;> decide
    · interval_cases m <;> first | exact h3 (hmv (by decide)) | (revert h; decide)
    · exact h

end subr_subsetter_t

theorem Built.flags_clear {s : parsed_cs_str_t} (h : Built s) :
    ∀ o ∈ s.values, o.keep_flag = false ∧ o.drop_flag = false := by
  induction h with
  | of_init s => intro o ho; simp [parsed_cs_str_t.init] at ho
  | of_add_op s op str ok _ ih =>
    intro o ho
    unfold parsed_cs_str_t.add_op parsed_values_t_add_op at ho
    split at ho
    · split at ho
      · simp only [List.mem_append, List.mem_singleton] at ho
        rcases ho with ho | ho
        · exact ih o ho
        · subst ho; exact ⟨rfl, rfl⟩
      · exact ih o ho
    · exact ih o ho
  | of_add_call_op s op str subr_num ok _ ih =>
    intro o ho
    have hset : ∀ o ∈ (if s.get_count > 0 then
        s.values.set (s.get_count - 1) (s.values.getD (s.get_count - 1) default).set_skip
        else s.values), o.keep_flag = false ∧ o.drop_flag = false := by
      intro o ho
      split at ho
      · rename_i hpos
        rcases List.mem_or_eq_of_mem_set ho with h1 | h1
        · exact ih o h1
        · subst h1
          have hlt : s.get_count - 1 < s.values.length := by
            unfold parsed_cs_str_t.get_count at hpos ⊢
            omega
          have hmem : s.values.getD (s.get_count - 1) default ∈ s.values := by
            rw [List.getD_eq_getElem?_getD, List.getElem?_eq_getElem hlt]
            exact List.getElem_mem _
          exact ih (s.values.getD (s.get_count - 1) default) hmem
      · exact ih o ho
    unfold parsed_cs_str_t.add_call_op parsed_values_t_add_op at ho
    split at ho
    · simp only at ho
      split at ho
      · simp only [List.mem_append, List.mem_singleton] at ho
        rcases ho with ho | ho
        · exact hset o ho
        · subst ho; exact ⟨rfl, rfl⟩
      · exact hset o ho
    · exact ih o ho
  | of_set_parsed s _ ih => exact ih
  | of_set_prefix s num op _ ih => exact ih

theorem Built.built_default : Built (default : parsed_cs_str_t) :=
  Built.of_init default

theorem skip_drop_scenario_built (c : call_context_t) :
    Built (skip_drop_scenario.str_at c) := by
  obtain ⟨ty, num⟩ := c
  cases ty with
  | CSType_CharString =>
    exact Built.of_set_parsed _ (Built.of_add_call_op _ _ _ _ _
      (Built.of_add_op _ _ _ _ (Built.of_init _)))
  | CSType_GlobalSubr => exact Built.built_default
  | CSType_LocalSubr =>
    cases num with
    | zero =>
      exact Built.of_set_parsed _ (Built.of_add_op _ _ _ _ (Built.of_add_op _ _ _ _
        (Built.of_add_op _ _ _ _ (Built.of_add_op _ _ _ _ (Built.of_init _)))))
    | succ n => exact Built.built_default

theorem skip_drop_scenario_rank :
    RankAll skip_drop_scenario (fun c => if c.type = .CSType_CharString then 1 else 0) := by
  intro src pos o tgt h1 h3
  have hm := List.getElem?_mem h1
  rcases src with ⟨ty, num⟩
  cases ty with
  | CSType_CharString =>
    have hv : (skip_drop_scenario.str_at ⟨.CSType_CharString, num⟩).values =
        [⟨32, [32], 0, false, false, true⟩, ⟨10, [10], 0, false, false, false⟩] := rfl
    rw [hv] at hm
    simp only [List.mem_cons, List.mem_singleton, List.not_mem_nil, or_false] at hm
    rcases hm with h | h <;> subst h
    · simp [parsed_cs_op_t.callee, OpCode_callsubr, OpCode_callgsubr] at h3
    · simp [parsed_cs_op_t.callee, OpCode_callsubr, OpCode_callgsubr] at h3
      subst h3
      simp
  | CSType_GlobalSubr =>
    exfalso
    have hv : (skip_drop_scenario.str_at ⟨.CSType_GlobalSubr, num⟩).values = [] := rfl
    rw [hv] at hm
    simp at hm
  | CSType_LocalSubr =>
    exfalso
    cases num with
    | zero =>
      have hv : (skip_drop_scenario.str_at ⟨.CSType_LocalSubr, 0⟩).values =
          [⟨140, [140], 0, false, false, false⟩, ⟨141, [141], 0, false, false, false⟩,
            ⟨1, [1], 0, false, false, false⟩, ⟨11, [11], 0, false, false, false⟩] := rfl
      rw [hv] at hm
      simp only [List.mem_cons, List.mem_singleton, List.not_mem_nil, or_false] at hm
      rcases hm with h | h | h | h <;> subst h <;>
        simp [parsed_cs_op_t.callee, OpCode_callsubr, OpCode_callgsubr] at h3
    | succ n =>
      have hv : (skip_drop_scenario.str_at ⟨.CSType_LocalSubr, n + 1⟩).values = [] := rfl
      rw [hv] at hm
      simp at hm

namespace subr_subsetter_t

/-- C24, as the code has it: let every parsed charstring be built with `init`, `add_op`,
`add_call_op`, `set_parsed` and `set_prefix`, the call graph be acyclic and the call
depth suffice. `drop_hints_in_str` returns, and afterwards no operation of any parsed
charstring has the keep flag set, so none has keep together with drop or with skip, and
every skip flag is as `add_call_op` left it. (Drop and skip are not exclusive.) -/
theorem keep_excludes_drop_and_skip (rank : call_context_t → Nat) (fuel : Nat)
    (c : call_context_t) (e : drop_env_t) (hb : ∀ c2, Built (e.param.str_at c2))
    (hrk : RankAll e.param rank) (hlt : rank c < fuel) :
    ∃ r, drop_hints_in_str fuel c e = some r ∧
      (∀ (c2 : call_context_t) (o : parsed_cs_op_t), o ∈ (r.2.param.str_at c2).values →
        o.keep_flag = false ∧ ¬ (o.keep_flag = true ∧ o.drop_flag = true) ∧
        ¬ (o.keep_flag = true ∧ o.skip_flag = true)) ∧
      (∀ (c2 : call_context_t) (i : Nat),
        ((r.2.param.str_at c2).values.getD i default).skip_flag =
          ((e.param.str_at c2).values.getD i default).skip_flag) := by
  obtain ⟨r, h⟩ := drop_hints_in_str_total rank fuel c e hrk hlt
  have hle : ParamLe e.param r.2.param := drop_hints_in_str_le fuel _ _ _ h
  refine ⟨r, h, ?_, fun c2 i => (((hle.1 c2).1.2 i).fields).2.2.2.1⟩
  intro c2 o ho
  have hk : o.keep_flag = false := by
    obtain ⟨i, hi⟩ := List.mem_iff_getElem?.mp ho
    have hlt2 : i < (r.2.param.str_at c2).values.length := by
      by_contra hc
      rw [List.getElem?_eq_none (not_lt.mp hc)] at hi
      exact absurd hi (by simp)
    have ho2 : (r.2.param.str_at c2).values.getD i default = o :=
      list_getD_of_getElem? default hi
    have hlt1 : i < (e.param.str_at c2).values.length := by
      rw [← hle.at_length c2]; exact hlt2
    have hmem : (e.param.str_at c2).values.getD i default ∈ (e.param.str_at c2).values := by
      rw [List.getD_eq_getElem?_getD, List.getElem?_eq_getElem hlt1]
      exact List.getElem_mem _
    rw [← ho2, (hle.at_fields c2 i).2.2.1]
    exact ((hb c2).flags_clear _ hmem).1
  refine ⟨hk, ?_, ?_⟩ <;> (rintro ⟨h1, _⟩; rw [hk] at h1; exact absurd h1 (by simp))

/-- C24 as claimed fails: the glyph `-107 callsubr` with local subroutine 0
`1 2 hstem return`, each built by `init`, `add_op`, `add_call_op` and `set_parsed`. The
operand of the call is flagged skip by `add_call_op`; the subroutine holds a hint, so the
walk back from the call flags the operand drop as well. -/
theorem drop_and_skip_both_set :
    (∀ c, Built (skip_drop_scenario.str_at c)) ∧
    (drop_hints_in_str 2 root ⟨skip_drop_scenario, drop_hints_param_t.new⟩).map
      (fun r => (((r.2.param.str_at root).values.getD 0 default).drop_flag,
        ((r.2.param.str_at root).values.getD 0 default).skip_flag)) = some (true, true) :=
  ⟨skip_drop_scenario_built, rfl⟩

/-- C24 at a concrete input: after hint dropping in the glyph `-107 callsubr` with local
subroutine 0 `1 2 hstem return`, no operation of the glyph has the keep flag, and the
operand of the call still has the skip flag. -/
theorem keep_excludes_drop_and_skip_witness :
    ∃ r, drop_hints_in_str 2 root ⟨skip_drop_scenario, drop_hints_param_t.new⟩ = some r ∧
      (∀ o ∈ (r.2.param.str_at root).values, o.keep_flag = false) ∧
      ((r.2.param.str_at root).values.getD 0 default).skip_flag = true := by
  obtain ⟨r, h1, h2, h3⟩ := keep_excludes_drop_and_skip
    (fun c => if c.type = .CSType_CharString then 1 else 0) 2 root
    ⟨skip_drop_scenario, drop_hints_param_t.new⟩ skip_drop_scenario_built
    skip_drop_scenario_rank (by decide)
  exact ⟨r, h1, fun o ho => (h2 root o ho).1, by rw [h3 root 0]; rfl⟩

end subr_subsetter_t

theorem ParamLe.in_range_eq {p p2 : subr_subset_param_t} (h : ParamLe p p2)
    (c : call_context_t) : p2.subr_in_range c = p.subr_in_range c := by
  obtain ⟨_, _, _, h4, h5, _⟩ := h
  unfold subr_subset_param_t.subr_in_range
  cases c.type <;> simp only [h4, h5]

theorem SameStrs.in_range_same {p q : subr_subset_param_t} (h : SameStrs p q)
    (c : call_context_t) : q.subr_in_range c = p.subr_in_range c := by
  obtain ⟨_, h2, h3, _⟩ := h
  unfold subr_subset_param_t.subr_in_range
  cases c.type <;> simp only [h2, h3]

theorem SubrNumsInRange.in_range_le {p p2 : subr_subset_param_t} (h : ParamLe p p2)
    (hr : SubrNumsInRange p) : SubrNumsInRange p2 := by
  intro src pos o2 tgt h1 h2
  obtain ⟨o, ho1, ho2⟩ := (h.1 src).1.get_back h1
  rw [h.in_range_eq]
  exact hr src pos o tgt ho1 (ho2.callee_eq ▸ h2)

theorem SubrNumsInRange.at_getD {p : subr_subset_param_t} (hr : SubrNumsInRange p)
    (src : call_context_t) (pos : Nat) (t : call_context_t)
    (h : ((p.str_at src).values.getD pos default).callee = some t) :
    p.subr_in_range t = true := by
  by_cases hlt : pos < (p.str_at src).values.length
  · refine hr src pos _ t (List.getElem?_eq_getElem hlt) ?_
    rw [List.getD_eq_getElem?_getD, List.getElem?_eq_getElem hlt] at h
    exact h
  · rw [List.getD_eq_getElem?_getD, List.getElem?_eq_none (not_lt.mp hlt)] at h
    exact absurd h (by simp [parsed_cs_op_t.callee, OpCode_callsubr, OpCode_callgsubr])

namespace subr_subsetter_t

theorem drop_hints_switch_congr
    (call1 call2 : call_context_t → drop_env_t → Option (Bool × drop_env_t))
    (str : call_context_t) (pos : Nat) (e : drop_env_t)
    (hag : ∀ t, ((e.param.str_at str).values.getD pos default).callee = some t →
      call1 t { e with drop := { e.drop with ends_in_hint := false } } =
        call2 t { e with drop := { e.drop with ends_in_hint := false } }) :
    drop_hints_switch call1 str pos e = drop_hints_switch call2 str pos e := by
  cases hcl : ((e.param.str_at str).values.getD pos default).callee with
  | some t =>
    rw [drop_hints_switch_call call1 str pos e t hcl, drop_hints_switch_call call2 str pos e t hcl]
    unfold drop_hints_in_subr
    simp only
    rw [hag t hcl]
  | none =>
    obtain ⟨hc1, hc2⟩ := callee_none_not_call hcl
    unfold drop_hints_switch
    simp only [if_neg hc1, if_neg hc2]

theorem drop_hints_loop_congr
    (call1 call2 : call_context_t → drop_env_t → Option (Bool × drop_env_t))
    (hle : ∀ c e r, call2 c e = some r → ParamLe e.param r.2.param)
    (hag : ∀ (t : call_context_t) (e : drop_env_t), SubrNumsInRange e.param →
      e.param.subr_in_range t = true → call1 t e = call2 t e)
    (str : call_context_t) (n : Nat) :
    ∀ (pos : Nat) (seen : Bool) (e : drop_env_t), SubrNumsInRange e.param →
      drop_hints_loop call1 str n pos seen e = drop_hints_loop call2 str n pos seen e := by
  induction n with
  | zero => intro pos seen e _; rfl
  | succ n ih =>
    intro pos seen e hr
    have hsw : drop_hints_switch call1 str pos e = drop_hints_switch call2 str pos e :=
      drop_hints_switch_congr call1 call2 str pos e
        (fun t ht => hag t _ hr (hr.at_getD str pos t ht))
    have hit : drop_hints_iter call1 str pos seen e = drop_hints_iter call2 str pos seen e := by
      unfold drop_hints_iter
      rw [hsw]
    simp only [drop_hints_loop, hit]
    cases hi : drop_hints_iter call2 str pos seen e with
    | none => rfl
    | some r1 =>
      obtain ⟨s1, e1⟩ := r1
      simp only
      exact ih (pos + 1) s1 e1
        (SubrNumsInRange.in_range_le (drop_hints_iter_le call2 hle str pos seen e _ hi) hr)

/-- With every recorded `subr_num` in range, the checks never fail: the checked run is
the run of `drop_hints_in_str`. -/
theorem drop_hints_in_str_checked_eq (fuel : Nat) :
    ∀ (c : call_context_t) (e : drop_env_t), SubrNumsInRange e.param →
      drop_hints_in_str_checked fuel c e = drop_hints_in_str fuel c e := by
  induction fuel with
  | zero => intro c e _; rfl
  | succ fuel ih =>
    intro c e hr
    simp only [drop_hints_in_str_checked, drop_hints_in_str]
    apply drop_hints_loop_congr _ _ (drop_hints_in_str_le fuel) _ c _ 0 false e hr
    intro t e1 hr1 hin
    simp only [hin, if_true]
    exact ih t e1 hr1

theorem collect_subr_refs_loop_congr (p : subr_subset_param_t)
    (call1 call2 : call_context_t → subr_subset_param_t → Option subr_subset_param_t)
    (ok : call_context_t → Prop)
    (hsame : ∀ c q q2, SameStrs p q → call2 c q = some q2 → SameStrs p q2)
    (hag : ∀ c q, SameStrs p q → ok c → call1 c q = call2 c q)
    (vs : List parsed_cs_op_t)
    (hvs : ∀ o ∈ vs, ∀ t, o.callee = some t → ok t) :
    ∀ q, SameStrs p q →
      collect_subr_refs_loop call1 vs q = collect_subr_refs_loop call2 vs q := by
  induction vs with
  | nil => intro q _; rfl
  | cons v vs ih =>
    intro q hq
    have hv := hvs v (List.mem_cons_self _ _)
    have hit : collect_subr_refs_iter call1 q v = collect_subr_refs_iter call2 q v ∧
        ∀ q1, collect_subr_refs_iter call2 q v = some q1 → SameStrs p q1 := by
      unfold collect_subr_refs_iter
      by_cases hd : v.drop_flag = true
      · simp only [parsed_cs_op_t.for_drop, hd, Bool.not_true, Bool.false_eq_true, if_false]
        refine ⟨by trivial, fun q1 h1 => ?_⟩
        simp only [Option.some.injEq] at h1
        subst h1; exact hq
      · have hd0 : v.drop_flag = false := by simpa using hd
        simp only [parsed_cs_op_t.for_drop, hd0, Bool.not_false, if_true]
        by_cases h1 : v.op = OpCode_callsubr
        · rw [if_pos h1, if_pos h1]
          simp only [collect_subr_refs_in_subr]
          exact ⟨hag _ _ (hq.same_trans ⟨rfl, rfl, rfl, rfl⟩)
              (hv _ (parsed_cs_op_t.callee_callsubr h1)),
            fun q1 hq1 => by
              refine hsame _ _ _ ?_ hq1
              exact hq.same_trans ⟨rfl, rfl, rfl, rfl⟩⟩
        · rw [if_neg h1, if_neg h1]
          by_cases h2 : v.op = OpCode_callgsubr
          · rw [if_pos h2, if_pos h2]
            simp only [collect_subr_refs_in_subr]
            exact ⟨hag _ _ (hq.same_trans ⟨rfl, rfl, rfl, rfl⟩)
                (hv _ (parsed_cs_op_t.callee_callgsubr h2)),
              fun q1 hq1 => by
              refine hsame _ _ _ ?_ hq1
              exact hq.same_trans ⟨rfl, rfl, rfl, rfl⟩⟩
          · rw [if_neg h2, if_neg h2]
            refine ⟨by trivial, fun q1 h1 => ?_⟩
            simp only [Option.some.injEq] at h1
            subst h1; exact hq
    simp only [collect_subr_refs_loop, hit.1]
    cases hi : collect_subr_refs_iter call2 q v with
    | none => rfl
    | some q1 =>
      simp only
      exact ih (fun o ho => hvs o (List.mem_cons_of_mem _ ho)) q1 (hit.2 q1 hi)

/-- With every recorded `subr_num` in range, the checks never fail: the checked run is
the run of `collect_subr_refs_in_str`. -/
theorem collect_subr_refs_in_str_checked_eq (p : subr_subset_param_t)
    (hr : SubrNumsInRange p) (fuel : Nat) :
    ∀ (c : call_context_t) (q : subr_subset_param_t), SameStrs p q →
      collect_subr_refs_in_str_checked fuel c q = collect_subr_refs_in_str fuel c q := by
  induction fuel with
  | zero => intro c q _; rfl
  | succ fuel ih =>
    intro c q hq
    simp only [collect_subr_refs_in_str_checked, collect_subr_refs_in_str]
    apply collect_subr_refs_loop_congr p _ _ (fun t => p.subr_in_range t = true)
      (fun c q q2 hq h => hq.same_trans (collect_subr_refs_in_str_spec fuel c q q2 h).1)
      _ _ _ q hq
    · intro t q1 hq1 hin
      simp only [hq1.in_range_same, hin, if_true]
      exact ih t q1 hq1
    · intro o ho t ht
      obtain ⟨pos, hpos⟩ := List.mem_iff_getElem?.mp ho
      rw [hq.same_str_at] at hpos
      exact hr c pos o t hpos ht

theorem skip_drop_scenario_in_range : SubrNumsInRange skip_drop_scenario := by
  intro src pos o tgt h1 h3
  have hm := List.getElem?_mem h1
  rcases src with ⟨ty, num⟩
  cases ty with
  | CSType_CharString =>
    have hv : (skip_drop_scenario.str_at ⟨.CSType_CharString, num⟩).values =
        [⟨32, [32], 0, false, false, true⟩, ⟨10, [10], 0, false, false, false⟩] := rfl
    rw [hv] at hm
    simp only [List.mem_cons, List.mem_singleton, List.not_mem_nil, or_false] at hm
    rcases hm with h | h <;> subst h
    · simp [parsed_cs_op_t.callee, OpCode_callsubr, OpCode_callgsubr] at h3
    · simp [parsed_cs_op_t.callee, OpCode_callsubr, OpCode_callgsubr] at h3
      subst h3
      rfl
  | CSType_GlobalSubr =>
    exfalso
    have hv : (skip_drop_scenario.str_at ⟨.CSType_GlobalSubr, num⟩).values = [] := rfl
    rw [hv] at hm
    simp at hm
  | CSType_LocalSubr =>
    exfalso
    cases num with
    | zero =>
      have hv : (skip_drop_scenario.str_at ⟨.CSType_LocalSubr, 0⟩).values =
          [⟨140, [140], 0, false, false, false⟩, ⟨141, [141], 0, false, false, false⟩,
            ⟨1, [1], 0, false, false, false⟩, ⟨11, [11], 0, false, false, false⟩] := rfl
      rw [hv] at hm
      simp only [List.mem_cons, List.mem_singleton, List.not_mem_nil, or_false] at hm
      rcases hm with h | h | h | h <;> subst h <;>
        simp [parsed_cs_op_t.callee, OpCode_callsubr, OpCode_callgsubr] at h3
    | succ n =>
      have hv : (skip_drop_scenario.str_at ⟨.CSType_LocalSubr, n + 1⟩).values = [] := rfl
      rw [hv] at hm
      simp at hm

/-- The checks of the checked runs are real: with the local table emptied, the call of
the glyph `-107 callsubr` is out of range and both checked runs stop, whatever the call
depth allowed, while the unchecked models read the scratch object and return. -/
theorem checked_runs_stop_out_of_range :
    drop_hints_in_str_checked 3 root
      ⟨{ skip_drop_scenario with parsed_local_subrs := [] }, drop_hints_param_t.new⟩ = none ∧
    collect_subr_refs_in_str_checked 3 root
      { skip_drop_scenario with parsed_local_subrs := [] } = none ∧
    (drop_hints_in_str 3 root
      ⟨{ skip_drop_scenario with parsed_local_subrs := [] }, drop_hints_param_t.new⟩).isSome
        = true ∧
    (collect_subr_refs_in_str 3 root
      { skip_drop_scenario with parsed_local_subrs := [] }).isSome = true :=
  ⟨rfl, rfl, rfl, rfl⟩

/-- C25: let the call graph recorded on the call operations of the parsed charstrings be
acyclic and every recorded `subr_num` be below the length of its table. Then on every
parsed charstring `c`, with enough call depth, `drop_hints_in_str` returns and
`collect_subr_refs_in_str` returns, before and after hint dropping, and each of these runs
is also the run with every access `subrs[subr_num]` checked against the table length: no
access is out of range. -/
theorem subr_walks_terminate_in_range (p : subr_subset_param_t)
    (hac : ∃ rank, RankAll p rank) (hin : SubrNumsInRange p) (c : call_context_t)
    (d : drop_hints_param_t) :
    ∃ fuel0, ∀ fuel, fuel0 ≤ fuel →
      (∃ r, drop_hints_in_str fuel c ⟨p, d⟩ = some r ∧
        drop_hints_in_str_checked fuel c ⟨p, d⟩ = some r ∧
        ∃ q, collect_subr_refs_in_str fuel c r.2.param = some q ∧
          collect_subr_refs_in_str_checked fuel c r.2.param = some q) ∧
      (∃ q, collect_subr_refs_in_str fuel c p = some q ∧
        collect_subr_refs_in_str_checked fuel c p = some q) := by
  obtain ⟨rank, hrk⟩ := hac
  refine ⟨rank c + 1, fun fuel hf => ?_⟩
  have hlt : rank c < fuel := by omega
  obtain ⟨r, h1⟩ := drop_hints_in_str_total rank fuel c ⟨p, d⟩ hrk hlt
  have hle : ParamLe p r.2.param := drop_hints_in_str_le fuel _ _ _ h1
  have hrk2 : RankAll r.2.param rank := hrk.rank_all_le hle.1
  have hin2 : SubrNumsInRange r.2.param := SubrNumsInRange.in_range_le hle hin
  obtain ⟨q2, h2, _⟩ := collect_subr_refs_in_str_total r.2.param rank hrk2.rank_ok fuel c
    r.2.param (SameStrs.same_refl _) hlt
  obtain ⟨q, h3, _⟩ := collect_subr_refs_in_str_total p rank hrk.rank_ok fuel c p
    (SameStrs.same_refl _) hlt
  refine ⟨⟨r, h1, ?_, q2, h2, ?_⟩, q, h3, ?_⟩
  · rw [drop_hints_in_str_checked_eq fuel c ⟨p, d⟩ hin]; exact h1
  · rw [collect_subr_refs_in_str_checked_eq r.2.param hin2 fuel c _ (SameStrs.same_refl _)]
    exact h2
  · rw [collect_subr_refs_in_str_checked_eq p hin fuel c _ (SameStrs.same_refl _)]
    exact h3

/-- C25 at a concrete input: the glyph `-107 callsubr` with local subroutine 0
`1 2 hstem return`; the one call is acyclic and its `subr_num` 0 is below the table
length 1. -/
theorem subr_walks_terminate_in_range_witness :
    ∃ fuel0, ∀ fuel, fuel0 ≤ fuel →
      (∃ r, drop_hints_in_str fuel root ⟨skip_drop_scenario, drop_hints_param_t.new⟩ = some r ∧
        drop_hints_in_str_checked fuel root ⟨skip_drop_scenario, drop_hints_param_t.new⟩
          = some r ∧
        ∃ q, collect_subr_refs_in_str fuel root r.2.param = some q ∧
          collect_subr_refs_in_str_checked fuel root r.2.param = some q) ∧
      (∃ q, collect_subr_refs_in_str fuel root skip_drop_scenario = some q ∧
        collect_subr_refs_in_str_checked fuel root skip_drop_scenario = some q) :=
  subr_walks_terminate_in_range skip_drop_scenario ⟨_, skip_drop_scenario_rank⟩
    skip_drop_scenario_in_range root drop_hints_param_t.new

end subr_subsetter_t

end CFF
